import Mathlib

/-! # Scene-graph construction of `Project 2/loaders/ObjectLoader.js`

A shallow embedding of the node parser (`objectLoader.parseNode`), of the
helpers it calls (`createPrimitive`, `getMaterials`, `transform`,
`updateCloneNames`, `lightLoader.load`) and of the few operations of the
rendering library it relies on (`Object3D.add`, `Object3D.clone`,
`Object3D.traverse`, `LOD.addLevel`, `Matrix4.multiply`).

JavaScript objects are mutable and shared by reference: a parent group is
renamed and receives children long after the work items that point to it were
pushed, and the cache `allObjects` hands out references to objects that are
still being completed.  The embedding therefore keeps every created object in
a store (`Heap`), addressed by its allocation index, and passes the store
explicitly.

Geometry, textures and material objects are not modelled: a mesh records the
subtype, the material id and the two shadow flags it was created with.
Numbers of the scene file are taken in a commutative ring `K`, with the two
trigonometric functions supplied as parameters.
-/

namespace ObjectLoader

/-! ## Strings -/

/-- Scanner behind `stripTags`: the first argument counts the characters of a
matched tag that are still to be skipped. -/
def stripTagsGo : Nat → List Char → List Char
  | _, [] => []
  | k + 1, _ :: cs => stripTagsGo k cs
  | 0, c :: cs =>
    if "_obj".toList.isPrefixOf (c :: cs) || "_lod".toList.isPrefixOf (c :: cs) then
      '_' :: stripTagsGo 3 cs
    else
      c :: stripTagsGo 0 cs

/-- The call `name.replace(/_obj|_lod/g, '_')`: every occurrence of `_obj` or `_lod`,
found from left to right without overlap, is replaced by one underscore. -/
def stripTags (name : String) : String :=
  ⟨stripTagsGo 0 name.data⟩

/-- The call `name.replace(/^scene(?=scene)/, '')`: a leading `scene` that is
directly followed by another `scene` is removed. -/
def collapseScene (name : String) : String :=
  if "scenescene".toList.isPrefixOf name.data then ⟨name.data.drop 5⟩ else name

/-- Left-to-right scan behind `lastIndexOf`: `i` is the index of the head of the
list, `p` the last index that may match and `acc` the best match so far. -/
def lastIndexOfAux (c : Char) : List Char → Nat → Nat → Int → Int
  | [], _, _, acc => acc
  | x :: xs, i, p, acc =>
    if p < i then acc else lastIndexOfAux c xs (i + 1) p (if x = c then (i : Int) else acc)

/-- The call `s.lastIndexOf(c, position)`: the greatest index not above `position`
(clamped to `0` from below) that holds `c`, and `-1` when there is none. -/
def lastIndexOf (s : String) (c : Char) (position : Int) : Int :=
  lastIndexOfAux c s.data 0 position.toNat (-1)

/-- The call `s.substring(start)`; a negative `start` counts as `0`. -/
def substring (s : String) (start : Int) : String :=
  ⟨s.data.drop start.toNat⟩

/-- The part of a name kept by `updateCloneNames`:
`name.substring(name.lastIndexOf('_', name.lastIndexOf('_') - 1))`. -/
def relevantName (name : String) : String :=
  substring name (lastIndexOf name '_' (lastIndexOf name '_' name.length - 1))

/-! ## Descriptors (input) -/

/-- One record of a node's `transformations` list; `other` stands for a record
whose `type` is none of `R`, `T`, `S`. -/
inductive Transformation (K : Type) where
  | R (r0 r1 r2 : K)
  | T (t0 t1 t2 : K)
  | S (s0 s1 s2 : K)
  | other

/-- The three light types the scene reader produces. -/
inductive LightType where
  | pointlight
  | spotlight
  | directionallight
  deriving DecidableEq, Repr

/-- A child of a plain node: a primitive (only its `subtype` matters here), a light
with its `id`, or a reference to the node or lod whose id is given. -/
inductive Child where
  | primitive (subtype : String)
  | light (type : LightType) (id : String)
  | noderef (id : String)
  deriving DecidableEq, Repr

/-- A child of a lod: `child.node` (given by its id) and `child.mindist`.  The field
`id` is `child.id`, which the loader reads for its cache lookup and which the
reader may leave undefined. -/
structure LodChild where
  id : Option String
  node : String
  mindist : Int
  deriving DecidableEq, Repr

/-- A descriptor of the scene data: a plain node, or a lod, which has only
distance-annotated children. -/
inductive Descriptor (K : Type) where
  | node (materialIds : Option (List String)) (castShadows receiveShadows : Option Bool)
      (transformations : List (Transformation K)) (children : List Child)
  | lod (children : List LodChild)

namespace Descriptor

variable {K : Type}

/-- Field `materialIds`; undefined (`none`) on a lod. -/
def materialIds : Descriptor K → Option (List String)
  | node m _ _ _ _ => m
  | lod _ => none

/-- Truthiness of the field `castShadows`. -/
def castShadows : Descriptor K → Bool
  | node _ c _ _ _ => c.getD false
  | lod _ => false

/-- Truthiness of the field `receiveShadows`. -/
def receiveShadows : Descriptor K → Bool
  | node _ _ r _ _ => r.getD false
  | lod _ => false

/-- Field `transformations`; undefined on a lod, which iterates like the empty list. -/
def transformations : Descriptor K → List (Transformation K)
  | node _ _ _ t _ => t
  | lod _ => []

/-- The test `type === "lod"`. -/
def isLod : Descriptor K → Bool
  | node _ _ _ _ _ => false
  | lod _ => true

end Descriptor

/-! ## Built objects (output) -/

/-- What a created object is. -/
inductive Kind where
  | group
  | lod
  | mesh (subtype materialId : String) (castShadow receiveShadow : Bool)
  | light (type : LightType)
  | target
  deriving DecidableEq, Repr

/-- One entry of `LOD.levels`. -/
structure Level where
  object : Nat
  distance : Int
  deriving DecidableEq, Repr

/-- A scene object in the store.  `children` and `parent` hold store indices. -/
structure Obj (K : Type) where
  name : String
  kind : Kind
  parent : Option Nat
  children : List Nat
  levels : List Level
  matrix : Matrix (Fin 4) (Fin 4) K

/-- The store of all objects created so far; an object is addressed by its position. -/
abbrev Heap (K : Type) := List (Obj K)

/-- The ways a run of the loader ends without a scene in this model: a JavaScript
`TypeError`; the model running out of its step budget; or the assignment
`allObjects["__proto__"] = finalObj`, which replaces the prototype of the cache by a
three.js object instead of adding an entry, after which the reads of the cache depend
on the properties of that object, which are not described here. -/
inductive LoadError where
  | typeError
  | fuel
  | prototypeReplaced
  deriving DecidableEq, Repr

section Store

variable {K : Type} [CommRing K]

/-- A freshly constructed object: no parent, no children, identity matrix. -/
def newObj (name : String) (kind : Kind) : Obj K :=
  { name := name, kind := kind, parent := none, children := [], levels := [], matrix := 1 }

instance : Inhabited (Obj K) := ⟨newObj "" Kind.target⟩

/-- The object stored at index `i`. -/
def Heap.obj (h : Heap K) (i : Nat) : Obj K :=
  h.getD i default

/-- Mutation of the object stored at index `i`. -/
def Heap.update (h : Heap K) (i : Nat) (f : Obj K → Obj K) : Heap K :=
  match h[i]? with
  | some o => h.set i (f o)
  | none => h

/-- Allocation: the new object is stored at the end; its index is returned. -/
def Heap.alloc (h : Heap K) (o : Obj K) : Heap K × Nat :=
  (h ++ [o], h.length)

/-- The call `parent.add(child)` of `Object3D`: the child leaves its former parent, if
any, and is appended to the children of `parent`. -/
def add (h : Heap K) (parent child : Nat) : Heap K :=
  if parent = child then h else
  let h1 := match (h.obj child).parent with
    | some p => h.update p (fun o => { o with children := o.children.erase child })
    | none => h
  let h2 := h1.update child (fun o => { o with parent := some parent })
  h2.update parent (fun o => { o with children := o.children ++ [child] })

/-- Insertion of a level before the first level with a strictly greater distance. -/
def insertLevel (lv : Level) : List Level → List Level
  | [] => [lv]
  | l :: ls => if lv.distance < l.distance then lv :: l :: ls else l :: insertLevel lv ls

/-- The call `lod.addLevel(object, distance)` of `LOD`. -/
def addLevel (h : Heap K) (lod object : Nat) (distance : Int) : Heap K :=
  let h1 := h.update lod (fun o =>
    { o with levels := insertLevel { object := object, distance := |distance| } o.levels })
  add h1 lod object

/-- The call `source.clone()` of `Object3D`, `Mesh`, `Light` and `LOD`: a new object with
the fields of the source, to which clones of the children are added in order (for a
lod: clones of the level objects, registered with `addLevel`).  The first argument
bounds the depth of the recursion. -/
def clone : Nat → Heap K → Nat → Except LoadError (Heap K × Nat)
  | 0, _, _ => .error .fuel
  | f + 1, h, src =>
    let o := h.obj src
    let (h1, n) := h.alloc { o with parent := none, children := [], levels := [] }
    match o.kind with
    | .lod => do
      let h2 ← o.levels.foldlM (fun acc lv => do
        let (h', c) ← clone f acc lv.object
        pure (addLevel h' n c lv.distance)) h1
      pure (h2, n)
    | _ => do
      let h2 ← o.children.foldlM (fun acc ch => do
        let (h', c) ← clone f acc ch
        pure (add h' n c)) h1
      pure (h2, n)

/-- The function `lightLoader.load`: a wrapper group named `lightwrapper_` holding the
light, named `id + "_light"`; for a spotlight the target object is added to the
wrapper before the light. -/
def lightLoaderLoad (h : Heap K) (type : LightType) (id : String) : Heap K × Nat :=
  let (h1, lightWrapper) := h.alloc (newObj "" .group)
  let (h2, lightObject) := h1.alloc (newObj "" (.light type))
  let h3 := match type with
    | .spotlight =>
      let (h', lightTarget) := h2.alloc (newObj "" .target)
      add h' lightWrapper lightTarget
    | _ => h2
  let h4 := h3.update lightObject (fun o => { o with name := id ++ "_light" })
  let h5 := add h4 lightWrapper lightObject
  (h5.update lightWrapper (fun o => { o with name := "lightwrapper_" }), lightWrapper)

/-- The subtypes `createPrimitive` has a case for. -/
def knownSubtypes : List String :=
  ["rectangle", "triangle", "cylinder", "box", "nurbs", "sphere", "polygon"]

/-- The function `createPrimitive`: no object (`undefined`) for a subtype without a case,
otherwise a mesh carrying the two shadow flags and named `subtype + "_obj"`. -/
def createPrimitive (subtype materialId : String) (castShadow receiveShadow : Bool) :
    Option (Obj K) :=
  if subtype ∈ knownSubtypes then
    some (newObj (subtype ++ "_obj") (.mesh subtype materialId castShadow receiveShadow))
  else
    none

/-- The function `getMaterials`: the material list in force and the id handed to the
primitives.  Reading `materialList.length` of an undefined list is a `TypeError`. -/
def getMaterials (node : Descriptor K) (materialList : Option (List String)) :
    Except LoadError (List String × String) :=
  match node.materialIds with
  | some (m :: ms) => .ok (m :: ms, m)
  | _ =>
    match materialList with
    | none => .error .typeError
    | some [] => .ok ([], "defaultMaterial")
    | some (m :: ms) => .ok (m :: ms, m)

/-! ## Transformations -/

/-- The call `makeRotationFromEuler(new THREE.Euler(x, y, z, 'XYZ'))` of `Matrix4`. -/
def makeRotationFromEuler (cos sin : K → K) (x y z : K) : Matrix (Fin 4) (Fin 4) K :=
  let a := cos x
  let b := sin x
  let c := cos y
  let d := sin y
  let e := cos z
  let f := sin z
  let ae := a * e
  let af := a * f
  let be := b * e
  let bf := b * f
  !![c * e, -c * f, d, 0;
     af + be * d, ae - bf * d, -b * c, 0;
     bf - ae * d, be + af * d, a * c, 0;
     0, 0, 0, 1]

/-- The call `makeTranslation(x, y, z)` of `Matrix4`. -/
def makeTranslation (x y z : K) : Matrix (Fin 4) (Fin 4) K :=
  !![1, 0, 0, x;
     0, 1, 0, y;
     0, 0, 1, z;
     0, 0, 0, 1]

/-- The call `makeScale(x, y, z)` of `Matrix4`. -/
def makeScale (x y z : K) : Matrix (Fin 4) (Fin 4) K :=
  !![x, 0, 0, 0;
     0, y, 0, 0;
     0, 0, z, 0;
     0, 0, 0, 1]

/-- One round of the loop of `transform`: `matrix.multiply(m)` is `matrix * m`. -/
def transformStep (cos sin : K → K) (matrix : Matrix (Fin 4) (Fin 4) K) :
    Transformation K → Matrix (Fin 4) (Fin 4) K
  | .R r0 r1 r2 =>
    matrix * makeRotationFromEuler cos sin r0 0 0 * makeRotationFromEuler cos sin 0 r1 0
      * makeRotationFromEuler cos sin 0 0 r2
  | .T t0 t1 t2 => matrix * makeTranslation t0 t1 t2
  | .S s0 s1 s2 => matrix * makeScale s0 s1 s2
  | .other => matrix

/-- The matrix `transform` has accumulated when its loop ends. -/
def transformMatrix (cos sin : K → K) (transformations : List (Transformation K)) :
    Matrix (Fin 4) (Fin 4) K :=
  transformations.foldl (transformStep cos sin) 1

/-- The call `object.applyMatrix4(m)` of `Object3D`: the local matrix is premultiplied. -/
def applyMatrix4 (o : Obj K) (m : Matrix (Fin 4) (Fin 4) K) : Obj K :=
  { o with matrix := m * o.matrix }

/-- The function `transform`: the accumulated matrix is applied to the object. -/
def transform (cos sin : K → K) (h : Heap K) (object : Nat)
    (transformations : List (Transformation K)) : Heap K :=
  h.update object (fun o => applyMatrix4 o (transformMatrix cos sin transformations))

/-! ## Renaming of clones -/

/-- The traversal of `updateCloneNames` (`Object3D.traverse`, parents before children):
an item whose name equals the name of the clone is left alone, any other item is
renamed after its parent.  The first argument bounds the depth of the recursion. -/
def renameDescendants : Nat → Heap K → String → Nat → Except LoadError (Heap K)
  | 0, _, _, _ => .error .fuel
  | f + 1, h, cloneName, item => do
    let o := h.obj item
    let h1 ← if o.name = cloneName then pure h else
      match o.parent with
      | none => .error .typeError
      | some p =>
        pure (h.update item (fun it =>
          { it with name := stripTags (h.obj p).name ++ relevantName it.name }))
    o.children.foldlM (fun acc c => renameDescendants f acc cloneName c) h1

/-- The function `updateCloneNames`. -/
def updateCloneNames (h : Heap K) (cloneChild : Nat) (newFatherName : String) :
    Except LoadError (Heap K) :=
  let h1 := h.update cloneChild (fun o => { o with name := newFatherName ++ relevantName o.name })
  renameDescendants h1.length h1 (h1.obj cloneChild).name cloneChild

/-! ## The node parser -/

/-- An entry of the work stack of `parseNode`. -/
structure WorkItem where
  node : String
  object : Nat
  currentMaterials : Option (List String)
  castShadow : Bool
  receiveShadow : Bool
  dist : Int
  deriving DecidableEq, Repr

/-- The variables of `parseNode` that change from one round to the next: the work stack
(top first), the store and the cache `allObjects` (latest entry first). -/
structure State (K : Type) where
  stack : List WorkItem
  heap : Heap K
  allObjects : List (String × Nat)

/-- The name prefix `parentName` computed for every child:
`object.name.replace(..) + returnedObject.name.replace(..)`. -/
def childParentName (h : Heap K) (object returnedObject : Nat) : String :=
  stripTags (h.obj object).name ++ stripTags (h.obj returnedObject).name

/-- The property names every plain JavaScript object inherits from `Object.prototype`.
The cache `allObjects` is created as `{}`, so the read `allObjects[id]` of one of these
names yields the inherited member (a function, or the prototype itself for
`__proto__`) as long as no entry has been stored under that name: a truthy value
without a method `clone`. -/
def objectPrototypeMembers : List String :=
  ["constructor", "__defineGetter__", "__defineSetter__", "hasOwnProperty",
   "__lookupGetter__", "__lookupSetter__", "isPrototypeOf", "propertyIsEnumerable",
   "toString", "valueOf", "__proto__", "toLocaleString"]

/-- The branch of the child loop that serves a reference from the cache:
clone, rename, add. -/
def addClone (s : State K) (returnedObject objectChild : Nat) (parentName : String) :
    Except LoadError (State K) := do
  let (h1, clonedChild) ← clone s.heap.length s.heap objectChild
  let h2 ← updateCloneNames h1 clonedChild parentName
  pure { s with heap := add h2 returnedObject clonedChild }

/-- One round of the child loop of a plain node.  For a reference, the read
`allObjects[child.id]` yields the entry stored under the id, which is cloned; or, when
there is none and the id is the name of a member of `Object.prototype`, that member,
on which the call of `clone` is a `TypeError`; or `undefined`, and the reference is
pushed on the work stack. -/
def processChild (object returnedObject : Nat) (newMaterials : List String × String)
    (castShadow receiveShadow : Bool) (s : State K) : Child → Except LoadError (State K)
  | .primitive subtype =>
    let parentName := childParentName s.heap object returnedObject
    match createPrimitive subtype newMaterials.2 castShadow receiveShadow with
    | none => .error .typeError
    | some primitive =>
      let (h1, p) := s.heap.alloc
        { primitive with name := collapseScene (parentName ++ "_" ++ primitive.name) }
      .ok { s with heap := add h1 returnedObject p }
  | .light type id =>
    let parentName := childParentName s.heap object returnedObject
    let (h1, light) := lightLoaderLoad s.heap type id
    let h2 := h1.update light (fun o => { o with name := collapseScene (parentName ++ "_" ++ o.name) })
    let h3 := match (h2.obj light).children.head? with
      | some c => h2.update c (fun o => { o with name := (h2.obj light).name ++ o.name })
      | none => h2
    .ok { s with heap := add h3 returnedObject light }
  | .noderef id =>
    let parentName := childParentName s.heap object returnedObject
    match s.allObjects.lookup id with
    | some objectChild => addClone s returnedObject objectChild parentName
    | none =>
      if id ∈ objectPrototypeMembers then .error .typeError
      else
        .ok { s with stack := { node := id, object := returnedObject,
                                currentMaterials := some newMaterials.1, castShadow := castShadow,
                                receiveShadow := receiveShadow, dist := 0 } :: s.stack }

/-- One round of the child loop of a lod: the cache is looked up under `child.id`
(an undefined id reads the property `"undefined"`); an entry is cloned, an inherited
member of `Object.prototype` makes the call of `clone` a `TypeError`, otherwise
`child.node` is pushed with `child.mindist`. -/
def processLodChild (object returnedObject : Nat) (newMaterials : List String × String)
    (castShadow receiveShadow : Bool) (s : State K) (child : LodChild) :
    Except LoadError (State K) :=
  let parentName := childParentName s.heap object returnedObject
  match s.allObjects.lookup (child.id.getD "undefined") with
  | some objectChild => addClone s returnedObject objectChild parentName
  | none =>
    if child.id.getD "undefined" ∈ objectPrototypeMembers then .error .typeError
    else
      .ok { s with stack := { node := child.node, object := returnedObject,
                              currentMaterials := some newMaterials.1, castShadow := castShadow,
                              receiveShadow := receiveShadow, dist := child.mindist } :: s.stack }

/-- The child loop of one round of `parseNode`. -/
def processChildren (node : Descriptor K) (object returnedObject : Nat)
    (newMaterials : List String × String) (castShadow receiveShadow : Bool) (s : State K) :
    Except LoadError (State K) :=
  match node with
  | .node _ _ _ _ children =>
    children.foldlM (processChild object returnedObject newMaterials castShadow receiveShadow) s
  | .lod children =>
    children.foldlM (processLodChild object returnedObject newMaterials castShadow receiveShadow) s

/-- The end of one round of `parseNode`: the built object is transformed, receives its
final name, is attached to the object of the work item and is entered in the cache. -/
def finishNode (cos sin : K → K) (node : Descriptor K) (item : WorkItem) (returnedObject : Nat)
    (s : State K) : State K :=
  let h1 := transform cos sin s.heap returnedObject node.transformations
  let parentName := stripTags (h1.obj item.object).name
  let finalName := collapseScene
    (parentName ++ (h1.obj returnedObject).name ++ (if node.isLod then "_lod" else "_obj"))
  let h2 := h1.update returnedObject (fun o => { o with name := finalName })
  let h3 := if (h2.obj item.object).kind = .lod then addLevel h2 item.object returnedObject item.dist
    else add h2 item.object returnedObject
  { s with heap := h3, allObjects := (item.node, returnedObject) :: s.allObjects }

/-- One round of the `while` loop of `parseNode`, for the popped work item `item`;
`s` is the state after the pop.  The closing assignment `allObjects[treeNode.id] =
finalObj` adds an entry to the cache, except for the id `__proto__`, where it replaces
the prototype of the cache. -/
def processItem (cos sin : K → K) (nodes : String → Descriptor K) (item : WorkItem)
    (s : State K) : Except LoadError (State K) := do
  let treeNode := nodes item.node
  let (h1, returnedObject) := s.heap.alloc
    (if treeNode.isLod then newObj "" .lod else newObj item.node .group)
  let newMaterials ← getMaterials treeNode item.currentMaterials
  let castShadow := if treeNode.castShadows then true else item.castShadow
  let receiveShadow := if treeNode.receiveShadows then true else item.receiveShadow
  let s1 ← processChildren treeNode item.object returnedObject newMaterials castShadow
    receiveShadow { s with heap := h1 }
  if item.node = "__proto__" then .error .prototypeReplaced
  else pure (finishNode cos sin treeNode item returnedObject s1)

/-- The first `k` rounds of the `while` loop of `parseNode` (fewer when the stack
empties before). -/
def rounds (cos sin : K → K) (nodes : String → Descriptor K) : Nat → State K →
    Except LoadError (State K)
  | 0, s => .ok s
  | k + 1, s =>
    match s.stack with
    | [] => .ok s
    | item :: rest => do
      let s1 ← processItem cos sin nodes item { s with stack := rest }
      rounds cos sin nodes k s1

/-- The `while` loop of `parseNode` with a budget of `fuel` rounds: the budget is
exceeded when the stack is not empty after `fuel` rounds. -/
def loop (cos sin : K → K) (nodes : String → Descriptor K) (fuel : Nat) (s : State K) :
    Except LoadError (State K) := do
  let s1 ← rounds cos sin nodes fuel s
  if s1.stack.isEmpty then pure s1 else .error .fuel

/-- The state of `parseNode` when its loop is entered: the root object is the only
object and the stack holds the work item of the root node. -/
def initialState (nodes : String → Descriptor K) (rootId : String) : State K :=
  { stack := [{ node := rootId, object := 0, currentMaterials := (nodes rootId).materialIds,
                castShadow := (nodes rootId).castShadows,
                receiveShadow := (nodes rootId).receiveShadows, dist := 0 }],
    heap := [newObj rootId .group],
    allObjects := [] }

/-- The function `parseNode` (and `load`, which calls it on `objectData[rootId]`): the store
when the loop has ended; the returned `rootObject` is the object at index `0`. -/
def parseNode (cos sin : K → K) (nodes : String → Descriptor K) (rootId : String) (fuel : Nat) :
    Except LoadError (Heap K) :=
  (loop cos sin nodes fuel (initialState nodes rootId)).map State.heap

/-! ## Observations on a run -/

/-- The names of all objects of a built scene, in the order of their creation. -/
def builtNames (r : Except LoadError (Heap K)) : Option (List String) :=
  match r with
  | .ok h => some (h.map Obj.name)
  | .error _ => none

/-- Name, kind and children of all objects of a built scene, in the order of their
creation. -/
def builtView (r : Except LoadError (Heap K)) : Option (List (String × Kind × List Nat)) :=
  match r with
  | .ok h => some (h.map (fun o => (o.name, o.kind, o.children)))
  | .error _ => none

/-- The error a run ended with, if any. -/
def errorOf {α : Type} (r : Except LoadError α) : Option LoadError :=
  match r with
  | .ok _ => none
  | .error e => some e

/-- The ids of the work items popped during the first `k` rounds, in order: one entry
for every time a descriptor is instantiated. -/
def poppedNodes (cos sin : K → K) (nodes : String → Descriptor K) : Nat → State K → List String
  | 0, _ => []
  | k + 1, s =>
    match s.stack with
    | [] => []
    | item :: rest =>
      match processItem cos sin nodes item { s with stack := rest } with
      | .ok s1 => item.node :: poppedNodes cos sin nodes k s1
      | .error _ => [item.node]

/-- All values of a list of optional values, when none is missing. -/
def allSome {α : Type} : List (Option α) → Option (List α)
  | [] => some []
  | x :: xs => x.bind (fun a => (allSome xs).map (fun as => a :: as))

/-- The structure below object `i`, names left out: kind and number of children of every
object of the subtree, parents before children and children in order.  The result is
`none` when an index is dangling or below `lo`, or when the depth bound is hit. -/
def shapeFrom (lo : Nat) : Nat → Heap K → Nat → Option (List (Kind × Nat))
  | 0, _, _ => none
  | f + 1, h, i =>
    if i < lo then none else
    match h[i]? with
    | none => none
    | some o =>
      (allSome (o.children.map (shapeFrom lo f h))).map
        (fun shapes => (o.kind, o.children.length) :: shapes.flatten)

/-- The structure below object `i`. -/
def shapeOf (f : Nat) (h : Heap K) (i : Nat) : Option (List (Kind × Nat)) :=
  shapeFrom 0 f h i

/-- No object of the structure is a lod. -/
def lodFree (shape : List (Kind × Nat)) : Prop :=
  ∀ x ∈ shape, x.1 ≠ Kind.lod

/-! ## Reference matrices for `transform` -/

/-- Rotation by the angle `a` about the x axis. -/
def rotX (cos sin : K → K) (a : K) : Matrix (Fin 4) (Fin 4) K :=
  !![1, 0, 0, 0;
     0, cos a, -sin a, 0;
     0, sin a, cos a, 0;
     0, 0, 0, 1]

/-- Rotation by the angle `a` about the y axis. -/
def rotY (cos sin : K → K) (a : K) : Matrix (Fin 4) (Fin 4) K :=
  !![cos a, 0, sin a, 0;
     0, 1, 0, 0;
     -sin a, 0, cos a, 0;
     0, 0, 0, 1]

/-- Rotation by the angle `a` about the z axis. -/
def rotZ (cos sin : K → K) (a : K) : Matrix (Fin 4) (Fin 4) K :=
  !![cos a, -sin a, 0, 0;
     sin a, cos a, 0, 0;
     0, 0, 1, 0;
     0, 0, 0, 1]

/-- The matrix one transformation record stands for. -/
def recordMatrix (cos sin : K → K) : Transformation K → Matrix (Fin 4) (Fin 4) K
  | .R r0 r1 r2 => rotX cos sin r0 * rotY cos sin r1 * rotZ cos sin r2
  | .T t0 t1 t2 => makeTranslation t0 t1 t2
  | .S s0 s1 s2 => makeScale s0 s1 s2
  | .other => 1

end Store

/-! ## Sample scenes -/

namespace Examples

/-- A plain node without shadow declarations or transformations. -/
def plain (materialIds : Option (List String)) (children : List Child) : Descriptor ℤ :=
  .node materialIds none none [] children

/-- Stand-ins for the trigonometric functions; the sample scenes have no transformations. -/
def cosZ : ℤ → ℤ := fun _ => 1

/-- See `cosZ`. -/
def sinZ : ℤ → ℤ := fun _ => 0

/-- The number `Math.PI / 2`: the double `0x1.921fb54442d18p+0`, which is also what
`90 * Math.PI / 180` evaluates to. -/
def halfPi : ℚ := 884279719003555 / 562949953421312

/-- The values `Math.cos` returns for the two angles of the rotation example, `0` and
`Math.PI / 2`: `Math.cos(0)` is `1`, and `Math.cos(Math.PI / 2)` is the double
`6.123233995736766e-17` (`0x1.1a62633145c07p-54`), not `0`, because `Math.PI / 2` is
not the real number `π / 2`.  No other argument is used. -/
def cosDouble (x : ℚ) : ℚ :=
  if x = halfPi then 4967757600021511 / 81129638414606681695789005144064 else 1

/-- The values `Math.sin` returns for the two angles of the rotation example:
`Math.sin(0)` is `0` and `Math.sin(Math.PI / 2)` is `1`.  No other argument is used. -/
def sinDouble (x : ℚ) : ℚ :=
  if x = halfPi then 1 else 0

/-- A root whose only child is a reference to a node named `constructor`. -/
def inheritedReference : String → Descriptor ℤ := fun id =>
  if id = "scene" then plain (some []) [.noderef "constructor"]
  else plain none [.primitive "box"]

/-- A root with two rectangles. -/
def twoRectangles : String → Descriptor ℤ := fun _ =>
  plain (some []) [.primitive "rectangle", .primitive "rectangle"]

/-- A root that references the node `B` twice in a row. -/
def twice : String → Descriptor ℤ := fun id =>
  if id = "scene" then plain (some []) [.noderef "B", .noderef "B"]
  else if id = "B" then plain none [.noderef "D", .primitive "box"]
  else plain none [.primitive "sphere"]

/-- The node `B` is a child of the root and of the node `C`, which is processed after
`B` has been built. -/
def shared : String → Descriptor ℤ := fun id =>
  if id = "scene" then plain (some []) [.noderef "C", .noderef "B"]
  else if id = "C" then plain none [.noderef "B"]
  else plain none [.primitive "rectangle"]

/-- The node `B` is a child of the node `C` only. -/
def unshared : String → Descriptor ℤ := fun id =>
  if id = "scene" then plain (some []) [.noderef "C"]
  else if id = "C" then plain none [.noderef "B"]
  else plain none [.primitive "rectangle"]

/-- A chain `scene`, `objA`, `x`. -/
def objChain : String → Descriptor ℤ := fun id =>
  if id = "scene" then plain (some []) [.noderef "objA"]
  else if id = "objA" then plain none [.noderef "x"]
  else plain none [.primitive "box"]

/-- The cyclic reference `A`, `B`, `A`. -/
def cyclic : String → Descriptor ℤ := fun id =>
  if id = "A" then plain (some []) [.noderef "B"]
  else plain none [.noderef "A"]

/-- A root with a primitive of the unknown subtype `cone` between two known ones. -/
def unknownSubtype : String → Descriptor ℤ := fun _ =>
  plain (some []) [.primitive "rectangle", .primitive "cone", .primitive "box"]

/-- A parent with material `M1` that casts shadows, a child `a` without declarations
and a child `b` declaring `M2`. -/
def inheritance : String → Descriptor ℤ := fun id =>
  if id = "scene" then .node (some ["M1"]) (some true) none [] [.noderef "a", .noderef "b"]
  else if id = "a" then .node (some []) none none [] [.primitive "box"]
  else .node (some ["M2"]) (some false) none [] [.primitive "box"]

end Examples

end ObjectLoader

namespace ObjectLoader
section
variable {K : Type} [CommRing K]

/-- The ids a descriptor refers to, in declaration order: the node references of a plain
node, the child nodes of a lod. -/
def Descriptor.refs : Descriptor K → List String
  | .node _ _ _ _ children =>
    children.filterMap (fun c => match c with
      | .noderef id => some id
      | _ => none)
  | .lod children => children.map LodChild.node

/-- A path of the descriptor graph that starts at the root: every id is referred to by
the descriptor of the id before it. -/
def IsPath (nodes : String → Descriptor K) (rootId : String) (path : List String) : Prop :=
  path.head? = some rootId ∧ List.Chain' (fun a b => b ∈ (nodes a).refs) path

/-- The material list a descriptor declares (empty when it declares none). -/
def declaredMaterials (nodes : String → Descriptor K) (id : String) : List String :=
  (nodes id).materialIds.getD []

/-- The nearest non-empty material list on the way up from the last id of the path
(listed from the root downwards), empty when every list on the path is empty. -/
def nearestMaterials (nodes : String → Descriptor K) (path : List String) : List String :=
  ((path.reverse.map (declaredMaterials nodes)).find? (fun l => !l.isEmpty)).getD []

/-- The first id of the nearest non-empty material list, `defaultMaterial` when there
is none. -/
def nearestMaterial (nodes : String → Descriptor K) (path : List String) : String :=
  (nearestMaterials nodes path).headD "defaultMaterial"

/-- The stack of a run, if it did not fail. -/
def stackOf (r : Except LoadError (State K)) : Option (List WorkItem) :=
  match r with
  | .ok s => some s.stack
  | .error _ => none
end
end ObjectLoader

namespace ObjectLoader
section
variable {K : Type} [CommRing K]

/-- The references of a descriptor that the cache cannot serve, in declaration order,
each with the distance it is pushed with: a node reference is looked up under its id,
the child of a lod under `child.id`. -/
def uncachedRefs (allObjects : List (String × Nat)) : Descriptor K → List (String × Int)
  | .node _ _ _ _ children =>
    children.filterMap (fun c => match c with
      | .noderef id => if allObjects.lookup id = none then some (id, 0) else none
      | _ => none)
  | .lod children =>
    children.filterMap (fun c =>
      if allObjects.lookup (c.id.getD "undefined") = none then some (c.node, c.mindist) else none)

/-- The work item pushed for a reference met while `returnedObject` is built. -/
def childItem (returnedObject : Nat) (newMaterials : List String × String)
    (castShadow receiveShadow : Bool) (ref : String × Int) : WorkItem :=
  { node := ref.1, object := returnedObject, currentMaterials := some newMaterials.1,
    castShadow := castShadow, receiveShadow := receiveShadow, dist := ref.2 }
end
end ObjectLoader

namespace ObjectLoader
section
variable {K : Type} [CommRing K]

/-- The cache of a run, if it did not fail. -/
def cacheOf (r : Except LoadError (State K)) : Option (List (String × Nat)) :=
  match r with
  | .ok s => some s.allObjects
  | .error _ => none
end
end ObjectLoader

namespace ObjectLoader
namespace Examples

/-- A state in the middle of a round: the group of `B` (object `1`, with a rectangle) is
cached, and object `3` is the group being built for a node `C` that refers to `B`. -/
def beforeClone : State ℤ :=
  { stack := [],
    heap := [{ (newObj "scene_obj" .group : Obj ℤ) with children := [1] },
             { (newObj "scene_B_obj" .group : Obj ℤ) with parent := some 0, children := [2] },
             { (newObj "scene_B_rectangle_obj" (.mesh "rectangle" "defaultMaterial" false false) :
                 Obj ℤ) with parent := some 1 },
             newObj "C" .group],
    allObjects := [("B", 1)] }

end Examples
end ObjectLoader

namespace ObjectLoader
section Expected
variable {K : Type} [CommRing K]

/-! ## The scene expected for a tree of plain nodes -/

/-- Children are appended to an object. -/
def appendChildren (cs : List Nat) (o : Obj K) : Obj K :=
  { o with children := o.children ++ cs }

/-- The material list and id in force for a work item (`getMaterials`, with a filler
for the failing case). -/
def materialsOf (node : Descriptor K) (currentMaterials : Option (List String)) :
    List String × String :=
  match getMaterials node currentMaterials with
  | .ok nm => nm
  | .error _ => ([], "defaultMaterial")

/-- The objects a light child adds to the store from index `base` on: the wrapper, the
light and, for a spotlight, the target, which is the first child of the wrapper. -/
def lightObjs (wrapperName : String) (ret base : Nat) (type : LightType) (id : String) :
    List (Obj K) :=
  match type with
  | .spotlight =>
    [{ name := wrapperName, kind := .group, parent := some ret, children := [base + 2, base + 1],
       levels := [], matrix := 1 },
     { name := id ++ "_light", kind := .light .spotlight, parent := some base, children := [],
       levels := [], matrix := 1 },
     { name := wrapperName ++ "", kind := .target, parent := some base, children := [],
       levels := [], matrix := 1 }]
  | type =>
    [{ name := wrapperName, kind := .group, parent := some ret, children := [base + 1],
       levels := [], matrix := 1 },
     { name := wrapperName ++ (id ++ "_light"), kind := .light type, parent := some base,
       children := [], levels := [], matrix := 1 }]

/-- The objects one child adds to the store while its node is processed, when the store
has `base` objects: a mesh for a primitive, the objects of a light, nothing for a
reference to a node that is not cached. -/
def childObjs (parentName : String) (ret : Nat) (materialId : String)
    (castShadow receiveShadow : Bool) (base : Nat) : Child → List (Obj K)
  | .primitive subtype =>
    [{ name := collapseScene (parentName ++ "_" ++ (subtype ++ "_obj")),
       kind := .mesh subtype materialId castShadow receiveShadow, parent := some ret,
       children := [], levels := [], matrix := 1 }]
  | .light type id =>
    lightObjs (collapseScene (parentName ++ "_" ++ "lightwrapper_")) ret base type id
  | .noderef _ => []

/-- The number of objects one child adds while its node is processed. -/
def childSize : Child → Nat
  | .primitive _ => 1
  | .light .spotlight _ => 3
  | .light _ _ => 2
  | .noderef _ => 0

/-- The objects the children of a node add while the node is processed. -/
def localObjs (parentName : String) (ret : Nat) (materialId : String)
    (castShadow receiveShadow : Bool) : Nat → List Child → List (Obj K)
  | _, [] => []
  | base, c :: cs =>
    childObjs parentName ret materialId castShadow receiveShadow base c ++
      localObjs parentName ret materialId castShadow receiveShadow (base + childSize c) cs

/-- The indices of the objects that become children of a node while it is processed:
its meshes and light wrappers. -/
def localRoots : Nat → List Child → List Nat
  | _, [] => []
  | base, .noderef _ :: cs => localRoots base cs
  | base, c :: cs => base :: localRoots (base + childSize c) cs

/-- Subtrees laid out one after the other from index `base` on: the objects, and the
index of the first object of every subtree. -/
def layoutSeq (f : String → Nat → List (Obj K)) : Nat → List String → List (Obj K) × List Nat
  | _, [] => ([], [])
  | base, c :: cs =>
    ((f c base) ++ (layoutSeq f (base + (f c base).length) cs).1,
     base :: (layoutSeq f (base + (f c base).length) cs).2)

/-- The objects expected for the work item `item` of a plain node whose subtree is a tree
of plain nodes: the group of the node, stored at index `n`, the objects of its
primitives and lights, then the subtrees of its node references, last reference first.
`parentName` is the name of the object the group is attached to. -/
def built (cos sin : K → K) (nodes : String → Descriptor K) :
    Nat → WorkItem → String → Nat → List (Obj K)
  | 0, _, _, _ => []
  | d + 1, item, parentName, n =>
    match nodes item.node with
    | .lod _ => []
    | .node _ _ _ ts children =>
      let nm := materialsOf (nodes item.node) item.currentMaterials
      let castShadow := if (nodes item.node).castShadows then true else item.castShadow
      let receiveShadow := if (nodes item.node).receiveShadows then true else item.receiveShadow
      let finalName := collapseScene (stripTags parentName ++ item.node ++ "_obj")
      let locals := localObjs (stripTags parentName ++ stripTags item.node) n nm.2 castShadow
        receiveShadow (n + 1) children
      let subs := layoutSeq
        (fun ref base => built cos sin nodes d
          (childItem n nm castShadow receiveShadow (ref, 0)) finalName base)
        (n + 1 + locals.length) (nodes item.node).refs.reverse
      { name := finalName, kind := .group, parent := some item.object,
        children := localRoots (n + 1) children ++ subs.2, levels := [],
        matrix := transformMatrix cos sin ts * 1 } :: (locals ++ subs.1)

/-- The number of plain nodes of the tree below `id`, down to depth `d`. -/
def nodeCount (nodes : String → Descriptor K) : Nat → String → Nat
  | 0, _ => 0
  | d + 1, id => 1 + ((nodes id).refs.map (nodeCount nodes d)).sum

/-- The ids of the tree below `id`, down to depth `d`, with repetitions. -/
def unfoldIds (nodes : String → Descriptor K) : Nat → String → List String
  | 0, _ => []
  | d + 1, id => id :: (nodes id).refs.flatMap (unfoldIds nodes d)

/-- Below `id` the descriptors form a tree of depth at most `d` made of plain nodes
whose primitives have known subtypes. -/
def PlainTree (nodes : String → Descriptor K) : Nat → String → Prop
  | 0, _ => False
  | d + 1, id =>
    (∃ m c r ts children, nodes id = .node m c r ts children ∧
      ∀ st, Child.primitive st ∈ children → st ∈ knownSubtypes) ∧
    ∀ x ∈ (nodes id).refs, PlainTree nodes d x

/-- The whole scene expected for a tree of plain nodes: the root object and the objects
of the root node. -/
def builtScene (cos sin : K → K) (nodes : String → Descriptor K) (rootId : String) (d : Nat) :
    Heap K :=
  { (newObj rootId .group : Obj K) with children := [1] } ::
    built cos sin nodes d
      { node := rootId, object := 0, currentMaterials := (nodes rootId).materialIds,
        castShadow := (nodes rootId).castShadows, receiveShadow := (nodes rootId).receiveShadows,
        dist := 0 } rootId 1

end Expected
end ObjectLoader

namespace ObjectLoader
section SimulationStatement
variable {K : Type} [CommRing K]

/-- The statement of the simulation for one work item at depth `d`. -/
def SimulatesAt (cos sin : K → K) (nodes : String → Descriptor K) (d : Nat) : Prop :=
  ∀ (item : WorkItem) (rest : List WorkItem) (s : State K),
    PlainTree nodes d item.node → (unfoldIds nodes d item.node).Nodup →
    (∀ x ∈ unfoldIds nodes d item.node, s.allObjects.lookup x = none) →
    (∀ x ∈ unfoldIds nodes d item.node, x ∉ objectPrototypeMembers) →
    (∃ nm, getMaterials (nodes item.node) item.currentMaterials = .ok nm) →
    s.stack = item :: rest → item.object < s.heap.length →
    (s.heap.obj item.object).kind ≠ .lod →
    ∃ s', rounds cos sin nodes (nodeCount nodes d item.node) s = .ok s' ∧ s'.stack = rest ∧
      s'.heap = s.heap.update item.object (appendChildren [s.heap.length]) ++
        built cos sin nodes d item (s.heap.obj item.object).name s.heap.length ∧
      ∃ entries, s'.allObjects = entries ++ s.allObjects ∧
        ∀ e ∈ entries, e.1 ∈ unfoldIds nodes d item.node

end SimulationStatement
end ObjectLoader

namespace ObjectLoader

/-! ## Path names -/

/-- The encoded path of the specification: the ids of a path joined by underscores. -/
def pathName : List String → String
  | [] => ""
  | r :: rest => rest.foldl (fun acc c => acc ++ "_" ++ c) r

/-- An id that `stripTags` leaves alone wherever it stands in a name: it contains neither
`_obj` nor `_lod` and does not start with `obj` or `lod`. -/
def CleanId (id : String) : Prop :=
  ¬ "_obj".toList <:+: id.data ∧ ¬ "_lod".toList <:+: id.data ∧
    ¬ "obj".toList <+: id.data ∧ ¬ "lod".toList <+: id.data

instance (id : String) : Decidable (CleanId id) := by
  unfold CleanId; infer_instance

end ObjectLoader
namespace ObjectLoader
section PathObjects
variable {K : Type} [CommRing K]

/-- `NodeAt h p i`: in the scene `h` the object `i` is reached from the root object `0`
along the id path `p`, one child link for each id, through groups that are named after
the successive prefixes of the path. -/
inductive NodeAt (h : Heap K) : List String → Nat → Prop
  | root (r : String) (i : Nat) :
      i ∈ (h.obj 0).children → (h.obj i).kind = .group →
      (h.obj i).name = pathName [r] ++ "_obj" → NodeAt h [r] i
  | child (p : List String) (c : String) (i j : Nat) :
      NodeAt h p i → j ∈ (h.obj i).children → (h.obj j).kind = .group →
      (h.obj j).name = pathName (p ++ [c]) ++ "_obj" → NodeAt h (p ++ [c]) j

end PathObjects
end ObjectLoader

namespace ObjectLoader
section Segments
variable {K : Type} [CommRing K]

/-! ## Name segments -/

/-- The segment a child contributes to the names below its node: the subtype of a
primitive, the id of a light or of a referenced node. -/
def Child.segment : Child → String
  | .primitive subtype => subtype
  | .light _ id => id
  | .noderef id => id

/-- The subtype of a primitive child. -/
def Child.primitiveSubtype : Child → Option String
  | .primitive subtype => some subtype
  | _ => none

/-- A plain descriptor without lights whose children differ pairwise in their segment. -/
def DistinctChildren : Descriptor K → Prop
  | .node _ _ _ _ children =>
    (∀ ty id, Child.light ty id ∉ children) ∧ (children.map Child.segment).Nodup
  | .lod _ => False

/-- The segment lists behind the names of the objects of `built` for a tree without
lights, in the same order: the path of the node, the path followed by the subtype for each
primitive, then the lists of the subtrees, last reference first. -/
def segments (nodes : String → Descriptor K) : Nat → String → List String → List (List String)
  | 0, _, _ => []
  | d + 1, id, q =>
    match nodes id with
    | .lod _ => []
    | .node _ _ _ _ children =>
      (q ++ [id]) :: ((children.filterMap Child.primitiveSubtype).map (fun t => q ++ [id, t]) ++
        (nodes id).refs.reverse.flatMap (fun c => segments nodes d c (q ++ [id])))

end Segments
end ObjectLoader
namespace ObjectLoader

/-- An id without an underscore that does not start with `obj` or `lod`. -/
def SimpleId (id : String) : Prop :=
  '_' ∉ id.data ∧ ¬ "obj".toList <+: id.data ∧ ¬ "lod".toList <+: id.data

instance (id : String) : Decidable (SimpleId id) := by
  unfold SimpleId; infer_instance

end ObjectLoader
namespace ObjectLoader
namespace Examples

/-- A root with a box and the nodes `A` and `B`; `A` holds a rectangle and a sphere, `B` a
rectangle. -/
def family : String → Descriptor ℤ := fun id =>
  if id = "scene" then plain (some []) [.primitive "box", .noderef "A", .noderef "B"]
  else if id = "A" then plain none [.primitive "rectangle", .primitive "sphere"]
  else plain none [.primitive "rectangle"]

end Examples
end ObjectLoader

namespace ObjectLoader

/-! ## Materials of primitives -/

/-- A material object, as far as `createPrimitive` and the `get...` functions decide it:
the white `MeshPhongMaterial` made for the id `defaultMaterial`, the result of the call
`materialLoader.create(materialData, sizeX, sizeY)`, the `MeshBasicMaterial` of
`getPolygon`, or the white `MeshBasicMaterial` that the constructor of `THREE.Mesh`
creates when it is given no material. -/
inductive Material (M S : Type) where
  | whitePhong
  | created (materialData : M) (sizeX sizeY : S)
  | polygonBasic
  | meshDefault
  deriving DecidableEq, Repr

/-- The material argument of `new THREE.Mesh(geometry, material)` and the property
`material` of a mesh: one material, which may be `undefined` (`none`) as an argument,
or an array of materials. -/
inductive MeshMaterial (M S : Type) where
  | one (material : Option (Material M S))
  | many (materials : List (Material M S))
  deriving DecidableEq, Repr

/-- A primitive child as `createPrimitive` reads it: its subtype and the dimensions the
`get...` functions compute from `primitive.representations[0]`: the width and height of
the surface (rectangle, triangle, nurbs, sphere) and the list of face dimensions
(cylinder, box). -/
structure Primitive (S : Type) where
  subtype : String
  width : S
  height : S
  faceDimensions : List (S × S)
  deriving DecidableEq, Repr

/-- The mesh returned by `createPrimitive`. -/
structure PrimitiveMesh (M S : Type) where
  material : MeshMaterial M S
  castShadow : Bool
  receiveShadow : Bool
  name : String
  deriving DecidableEq, Repr

section PrimitiveMaterials
variable {M S : Type}

/-- The constructor `new THREE.Mesh(geometry, material)`, as far as the property
`material` of the new mesh goes: the parameter `material` has the default value
`new MeshBasicMaterial()`, which stands in for an argument that is `undefined`; any
other argument, an empty array included, is stored as it is. -/
def newMesh : MeshMaterial M S → MeshMaterial M S
  | .one none => .one (some .meshDefault)
  | material => material

/-- The material of the mesh of `getRectangle`: created from `materialData` when there
is one, otherwise the argument `material`. -/
def getRectangle (parameters : Primitive S) (materialData : Option M)
    (material : Option (Material M S)) : MeshMaterial M S :=
  match materialData with
  | some d => newMesh (.one (some (.created d parameters.width parameters.height)))
  | none => newMesh (.one material)

/-- The material of the mesh of `getTriangle`. -/
def getTriangle (parameters : Primitive S) (materialData : Option M)
    (material : Option (Material M S)) : MeshMaterial M S :=
  match materialData with
  | some d => newMesh (.one (some (.created d parameters.width parameters.height)))
  | none => newMesh (.one material)

/-- The materials of the mesh of `getCylinder`: one for each entry of `dimensions` when
there is `materialData`, otherwise the empty array; the function has no parameter
`material`. -/
def getCylinder (parameters : Primitive S) (materialData : Option M) : MeshMaterial M S :=
  match materialData with
  | some d => newMesh (.many (parameters.faceDimensions.map (fun dim => .created d dim.1 dim.2)))
  | none => newMesh (.many [])

/-- The materials of the mesh of `getBox`: one for each entry of `faceDimensions` when
there is `materialData`, otherwise the empty array; the function has no parameter
`material`. -/
def getBox (parameters : Primitive S) (materialData : Option M) : MeshMaterial M S :=
  match materialData with
  | some d => newMesh (.many (parameters.faceDimensions.map (fun dim => .created d dim.1 dim.2)))
  | none => newMesh (.many [])

/-- The material of the mesh of `getNurbs`: the material is handed on to
`nurbsGenerator.parseNurbs`, which hands it on to `createNurbsSurfaces`, where the mesh
is constructed. -/
def getNurbs (parameters : Primitive S) (materialData : Option M)
    (material : Option (Material M S)) : MeshMaterial M S :=
  match materialData with
  | some d => newMesh (.one (some (.created d parameters.width parameters.height)))
  | none => newMesh (.one material)

/-- The material of the mesh of `getSphere`. -/
def getSphere (parameters : Primitive S) (materialData : Option M)
    (material : Option (Material M S)) : MeshMaterial M S :=
  match materialData with
  | some d => newMesh (.one (some (.created d parameters.width parameters.height)))
  | none => newMesh (.one material)

/-- The material of the mesh of `getPolygon`, which ignores its second argument. -/
def getPolygon (_parameters : Primitive S) : MeshMaterial M S :=
  newMesh (.one (some .polygonBasic))

/-- The function `createPrimitive` with the material it gives the mesh.  The two flags
default to `false` when they are left out (`none`); `materialMap` is `this.materialMap`.
No mesh (`undefined`) is returned for a subtype without a case. -/
def createPrimitiveMesh (materialMap : String → Option M) (primitive : Primitive S)
    (materialId : String) (castShadow receiveShadow : Option Bool) :
    Option (PrimitiveMesh M S) :=
  let castShadow := castShadow.getD false
  let receiveShadow := receiveShadow.getD false
  let material : Option (Material M S) :=
    if materialId = "defaultMaterial" then some .whitePhong else none
  let materialData : Option M :=
    if materialId = "defaultMaterial" then none else materialMap materialId
  let objPrimitive : Option (MeshMaterial M S) :=
    if primitive.subtype = "rectangle" then some (getRectangle primitive materialData material)
    else if primitive.subtype = "triangle" then some (getTriangle primitive materialData material)
    else if primitive.subtype = "cylinder" then some (getCylinder primitive materialData)
    else if primitive.subtype = "box" then some (getBox primitive materialData)
    else if primitive.subtype = "nurbs" then some (getNurbs primitive materialData material)
    else if primitive.subtype = "sphere" then some (getSphere primitive materialData material)
    else if primitive.subtype = "polygon" then some (getPolygon primitive)
    else none
  objPrimitive.map (fun m =>
    { material := m, castShadow := castShadow, receiveShadow := receiveShadow,
      name := primitive.subtype ++ "_obj" })

end PrimitiveMaterials

namespace Examples

/-- A material table with the single entry `wood`. -/
def woodOnly : String → Option String := fun id =>
  if id = "wood" then some "woodData" else none

/-- A primitive of the given subtype with a surface of 2 by 3 and six faces. -/
def sample (subtype : String) : Primitive ℤ :=
  { subtype := subtype, width := 2, height := 3,
    faceDimensions := [(1, 3), (1, 3), (2, 1), (2, 1), (2, 3), (2, 3)] }

end Examples

end ObjectLoader

/-! ## The polygon geometry of `Project 2/objects/Polygon.js` -/

namespace Polygon

/-- The buffers `initBuffers` fills.  A vertex is recorded by the slice and the stack its
coordinates are computed from (the zero-angle line counts as slice `0`); it stands for
three numbers of `this.vertices`.  `indices` is `this.indices`. -/
structure Buffers where
  vertices : List (Nat × Nat)
  indices : List Int
  deriving DecidableEq, Repr

/-- The method `currentVertices`: the number of vertices pushed so far. -/
def currentVertices (b : Buffers) : Int :=
  b.vertices.length

/-- The body of the inner loop of `initBuffers`, for the given slice and stack. -/
def stackStep (nstacks nslices slice : Nat) (b : Buffers) (stack : Nat) : Buffers :=
  let lastSlice : Bool := slice = nslices
  let b1 := if lastSlice then b else { b with vertices := b.vertices ++ [(slice, stack)] }
  let a : Int := if lastSlice then stack else currentVertices b1 - 1
  if stack = 1 then
    let c : Int := if lastSlice then currentVertices b1 - 1 else a - nstacks
    { b1 with indices := b1.indices ++ [a, 0, c] }
  else
    let c : Int := if lastSlice then currentVertices b1 - nstacks + a - 2 else a - nstacks - 1
    { b1 with indices := b1.indices ++ [a, a - 1, c, a, c, c + 1] }

/-- The body of the outer loop of `initBuffers`: the stacks `1` to `nstacks` of a slice
(`nstacks` is `this.stacks`, `nslices` is `this.slices`). -/
def sliceStep (nstacks nslices : Nat) (b : Buffers) (slice : Nat) : Buffers :=
  (List.range' 1 nstacks).foldl (stackStep nstacks nslices slice) b

/-- The vertices of the first loop of `initBuffers`: the stacks `0` to `nstacks` of the
zero-angle line. -/
def firstLine (nstacks : Nat) : Buffers :=
  { vertices := (List.range (nstacks + 1)).map (fun stack => (0, stack)), indices := [] }

/-- The method `initBuffers`: the first line, then the slices `1` to `nslices`. -/
def initBuffers (nstacks nslices : Nat) : Buffers :=
  (List.range' 1 nslices).foldl (sliceStep nstacks nslices) (firstLine nstacks)

/-- The index of the vertex of slice `s` on ring `k` in the vertex buffer, with the
conventions of the specification: ring `0` is the centre and slice `nslices` is slice `0`. -/
def vertexIndex (nstacks nslices s k : Nat) : Int :=
  if k = 0 then 0 else if s = nslices then k else s * nstacks + k

/-- The triangles the specification lists for slice `s` and ring `k`. -/
def specTriangles (nstacks nslices s k : Nat) : List Int :=
  if k = 1 then
    [vertexIndex nstacks nslices s 1, 0, vertexIndex nstacks nslices (s - 1) 1]
  else
    [vertexIndex nstacks nslices s k, vertexIndex nstacks nslices s (k - 1),
     vertexIndex nstacks nslices (s - 1) (k - 1),
     vertexIndex nstacks nslices s k, vertexIndex nstacks nslices (s - 1) (k - 1),
     vertexIndex nstacks nslices (s - 1) k]

/-- The index buffer the specification describes. -/
def specIndices (nstacks nslices : Nat) : List Int :=
  (List.range' 1 nslices).flatMap (fun s =>
    (List.range' 1 nstacks).flatMap (fun k => specTriangles nstacks nslices s k))

/-- The triangles `initBuffers` pushes for slice `s` and ring `k`: those of the
specification, except that the single triangle of the closing slice ends at the last vertex
of the buffer. -/
def codeTriangles (nstacks nslices s k : Nat) : List Int :=
  if k = 1 ∧ s = nslices then [1, 0, (nstacks * nslices : Nat)]
  else specTriangles nstacks nslices s k

end Polygon

/-! ## The triangle geometry of `Project 3/objects/Triangle.js` -/

namespace Triangle
section
variable {K : Type} [Field K]

/-- The call `p.distanceTo(q)` of `Vector3`; `sqrt` is `Math.sqrt`. -/
def distanceTo (sqrt : K → K) (p q : K × K × K) : K :=
  let dx := p.1 - q.1
  let dy := p.2.1 - q.2.1
  let dz := p.2.2 - q.2.2
  sqrt (dx * dx + dy * dy + dz * dz)

/-- The array `uvs` of `initBuffers`: the texture coordinates of the three vertices.
Numbers are taken in a field, whose division agrees with the one of JavaScript for a
divisor that is not zero. -/
def uvs (sqrt : K → K) (p1 p2 p3 : K × K × K) : List K :=
  let a := distanceTo sqrt p1 p2
  let b := distanceTo sqrt p2 p3
  let c := distanceTo sqrt p1 p3
  let cos_ac := (a * a - b * b + c * c) / (2 * a * c)
  let sin_ac := sqrt (1 - cos_ac * cos_ac)
  [0, 0, 1, 0, 1 * cos_ac, 1 * sin_ac]

end
end Triangle
/-! ## Texture tiling of `Project 3/loaders/MaterialLoader.js` -/

namespace MaterialLoader

/-- A JavaScript number as far as the tiling needs it: a finite value, an infinity with
its sign, or `NaN`. -/
inductive JsNumber (K : Type) where
  | finite (x : K)
  | infinity (negative : Bool)
  | nan
  deriving DecidableEq, Repr

/-- The fields of a material of the scene file that `getMatDetails` reads for the
textures; a field that is left out is `none`. -/
structure MaterialData (K : Type) where
  textureref : Option String
  bumpref : Option String
  specularref : Option String
  texlength_s : Option K
  texlength_t : Option K
  deriving DecidableEq, Repr

/-- The texture entries of the map `getMatDetails` builds for one material; a key that is
not set is `none`. -/
structure MaterialInfo (T K : Type) where
  textureInfo : Option T
  snum : Option K
  tnum : Option K
  bumpInfo : Option T
  specularInfo : Option T
  deriving DecidableEq, Repr

/-- A texture of the created material with the two components of its `repeat`. -/
structure TextureMap (T K : Type) where
  texture : T
  repeatX : JsNumber K
  repeatY : JsNumber K
  deriving DecidableEq, Repr

/-- The three texture slots of the material `create` returns. -/
structure CreatedMaterial (T K : Type) where
  map : Option (TextureMap T K)
  bumpMap : Option (TextureMap T K)
  specularMap : Option (TextureMap T K)
  deriving DecidableEq, Repr

section
variable {T K : Type} [LinearOrderedField K]

/-- The quotient `x / y` of a finite number by a map entry: `NaN` for an entry that is not
set (`undefined`) and for `0 / 0`, an infinity with the sign of `x` for another division
by zero (the zero is taken as `+0`), the quotient of the field otherwise. -/
def divide (x : K) (y : Option K) : JsNumber K :=
  match y with
  | none => .nan
  | some y => if y = 0 then (if x = 0 then .nan else .infinity (x < 0)) else .finite (x / y)

/-- The expression `v || 1`: `1` when `v` is zero or `NaN`, otherwise `v`. -/
def orOne : JsNumber K → JsNumber K
  | .finite x => if x = 0 then .finite 1 else .finite x
  | .nan => .finite 1
  | .infinity negative => .infinity negative

/-- The method `getMatDetails` for one material, as far as textures are concerned:
`textureMap.has(ref)` holds when the reference is set and names a texture. -/
def getMatDetails (textureMap : String → Option T) (data : MaterialData K) :
    MaterialInfo T K :=
  { textureInfo := data.textureref.bind textureMap,
    snum := if (data.textureref.bind textureMap).isSome then some (data.texlength_s.getD 1)
            else none,
    tnum := if (data.textureref.bind textureMap).isSome then some (data.texlength_t.getD 1)
            else none,
    bumpInfo := data.bumpref.bind textureMap,
    specularInfo := data.specularref.bind textureMap }

/-- The method `create`, as far as textures are concerned; the two sizes default to `1`
when they are left out. -/
def create (materialInfo : MaterialInfo T K) (sizeX sizeY : Option K) : CreatedMaterial T K :=
  let sizeX := sizeX.getD 1
  let sizeY := sizeY.getD 1
  { map := materialInfo.textureInfo.map (fun textureInfo =>
      { texture := textureInfo,
        repeatX := orOne (divide sizeX materialInfo.snum),
        repeatY := orOne (divide sizeY materialInfo.tnum) }),
    bumpMap := materialInfo.bumpInfo.map (fun bumpInfo =>
      { texture := bumpInfo,
        repeatX := orOne (divide sizeX materialInfo.snum),
        repeatY := orOne (divide sizeY materialInfo.tnum) }),
    specularMap := materialInfo.specularInfo.map (fun specularInfo =>
      { texture := specularInfo,
        repeatX := orOne (divide sizeX materialInfo.snum),
        repeatY := orOne (divide sizeY materialInfo.tnum) }) }

/-- One component of the `repeat` of a textured material for the surface size `size` and
the declared length `length`: the quotient, or `1` when the size is zero. -/
def tiling (size : K) (length : Option K) : JsNumber K :=
  if size = 0 then .finite 1
  else if length.getD 1 = 0 then .infinity (size < 0)
  else .finite (size / length.getD 1)

end

namespace Examples

/-- A texture table with the single texture `bricks`. -/
def textures : String → Option String := fun ref =>
  if ref = "bricks" then some "bricks.jpg" else none

/-- A material with the texture `bricks` that declares no lengths. -/
def brickWall : MaterialData ℚ :=
  { textureref := some "bricks", bumpref := some "bricks", specularref := none,
    texlength_s := none, texlength_t := some 2 }

end Examples

end MaterialLoader

namespace ObjectLoader
section
variable {K : Type} [CommRing K]

/-- Name, kind, children and levels of all objects of a built scene, in the order of their
creation. -/
def levelView (r : Except LoadError (Heap K)) :
    Option (List (String × Kind × List Nat × List Level)) :=
  match r with
  | .ok h => some (h.map (fun o => (o.name, o.kind, o.children, o.levels)))
  | .error _ => none

end

namespace Examples

/-- A lod `L` whose only child, at distance 5, is a node that the root also references
after the lod, so that it is built and cached before the lod is processed.  The child of
the lod carries no `id` and the node is called `undefined`. -/
def lodCached : String → Descriptor ℤ := fun id =>
  if id = "scene" then plain (some []) [.noderef "L", .noderef "undefined"]
  else if id = "L" then .lod [{ id := none, node := "undefined", mindist := 5 }]
  else plain none [.primitive "box"]

/-- The scene `lodCached` with a lod child that carries the id of its node. -/
def lodCachedId : String → Descriptor ℤ := fun id =>
  if id = "scene" then plain (some []) [.noderef "L", .noderef "B"]
  else if id = "L" then .lod [{ id := some "B", node := "B", mindist := 5 }]
  else plain none [.primitive "box"]

/-- A lod `L` under the root whose only child, at distance 5, is the node `B`. -/
def lodFresh : String → Descriptor ℤ := fun id =>
  if id = "scene" then plain (some []) [.noderef "L"]
  else if id = "L" then .lod [{ id := none, node := "B", mindist := 5 }]
  else plain none [.primitive "box"]

/-- A root with a spotlight `S` and a point light `P`. -/
def lights : String → Descriptor ℤ := fun _ =>
  plain (some []) [.light .spotlight "S", .light .pointlight "P"]

end Examples
end ObjectLoader

namespace Polygon
section Colors

/-- Rounding of a rational number to the nearest integer, a tie going to the even
integer. -/
def roundHalfEven (q : ℚ) : ℤ :=
  if q - ⌊q⌋ < 1 / 2 then ⌊q⌋
  else if 1 / 2 < q - ⌊q⌋ then ⌊q⌋ + 1
  else if ⌊q⌋ % 2 = 0 then ⌊q⌋ else ⌊q⌋ + 1

/-- The exponent of the spacing of the doubles around `x`: 52 binary places below the
leading bit of `x`, and `-1074` for the subnormal numbers. -/
def ulpExponent (x : ℚ) : ℤ :=
  max (Int.log 2 |x|) (-1022) - 52

/-- The rounding of the arithmetic of JavaScript numbers (IEEE 754 binary64, round to
nearest, ties to even): the double that stands for the exact result `x` of an
operation.  The doubles are the rationals that the rounding leaves alone; zero has no
sign here, and a result that is rounded to the magnitude `2 ^ 1024`, in whose place
IEEE 754 has an infinity, is not covered. -/
def roundDouble (x : ℚ) : ℚ :=
  roundHalfEven (x / 2 ^ ulpExponent x) * 2 ^ ulpExponent x

/-- A `THREE.Color`: its three channels. -/
structure Color (K : Type) where
  r : K
  g : K
  b : K
  deriving DecidableEq, Repr

/-- The channels of the colour are doubles between `0` and `1`. -/
def Color.IsUnit (c : Color ℚ) : Prop :=
  (roundDouble c.r = c.r ∧ 0 ≤ c.r ∧ c.r ≤ 1) ∧ (roundDouble c.g = c.g ∧ 0 ≤ c.g ∧ c.g ≤ 1) ∧
    (roundDouble c.b = c.b ∧ 0 ≤ c.b ∧ c.b ≤ 1)

/-- The call `new THREE.Color().lerpColors(color1, color2, alpha)`: every channel is
`color1.r + (color2.r - color1.r) * alpha`, where the subtraction, the multiplication
and the addition each round their result. -/
def lerpColors (color1 color2 : Color ℚ) (alpha : ℚ) : Color ℚ :=
  { r := roundDouble (color1.r + roundDouble (roundDouble (color2.r - color1.r) * alpha)),
    g := roundDouble (color1.g + roundDouble (roundDouble (color2.g - color1.g) * alpha)),
    b := roundDouble (color1.b + roundDouble (roundDouble (color2.b - color1.b) * alpha)) }

/-- The method `getColor`: the entries `[result.r, result.g, result.b, result.a]` for
the weight `stack / this.stacks`, a rounded quotient; a `THREE.Color` has no property
`a`, so the fourth entry is `undefined` (`none`). -/
def getColor (color_c color_p : Color ℚ) (nstacks stack : Nat) : List (Option ℚ) :=
  let result := lerpColors color_c color_p (roundDouble ((stack : ℚ) / (nstacks : ℚ)))
  [some result.r, some result.g, some result.b, none]

/-- What the body of the inner loop of `initBuffers` does to `this.colors`. -/
def colorStackStep (color_c color_p : Color ℚ) (nstacks nslices slice : Nat)
    (colors : List (Option ℚ)) (stack : Nat) : List (Option ℚ) :=
  if slice = nslices then colors else colors ++ getColor color_c color_p nstacks stack

/-- What the body of the outer loop of `initBuffers` does to `this.colors`. -/
def colorSliceStep (color_c color_p : Color ℚ) (nstacks nslices : Nat)
    (colors : List (Option ℚ)) (slice : Nat) : List (Option ℚ) :=
  (List.range' 1 nstacks).foldl (colorStackStep color_c color_p nstacks nslices slice) colors

/-- The array `this.colors` that `initBuffers` fills: four entries for every vertex. -/
def initColors (color_c color_p : Color ℚ) (nstacks nslices : Nat) : List (Option ℚ) :=
  (List.range' 1 nslices).foldl (colorSliceStep color_c color_p nstacks nslices)
    ((List.range (nstacks + 1)).flatMap (getColor color_c color_p nstacks))

namespace Examples

/-- The double `0.1`. -/
def tenth : ℚ := 3602879701896397 / 36028797018963968

end Examples

end Colors
end Polygon

namespace ObjectLoader
section Cylinder
variable {K : Type} [Field K]

/-- The parameters of a cylinder primitive that `getCylinder` reads for its materials.  The
scene reader provides `top`, `base` and `height` (the radii and the height handed to the
geometry); the code also reads the property `bottom`, which is `none` when the parameters
have no such property. -/
structure CylinderParameters (K : Type) where
  top : K
  base : K
  height : K
  bottom : Option K
  deriving DecidableEq, Repr

/-- The array `dimensions` of `getCylinder`; `pi` is `Math.PI`.  A number is an `Option`:
`none` is `NaN`, the value of `2 * parameters.bottom` for an undefined `bottom`. -/
def cylinderDimensions (pi : K) (parameters : CylinderParameters K) :
    List (Option K × Option K) :=
  [(some (2 * pi * ((parameters.top + parameters.base) / 2)), some parameters.height),
   (some (2 * parameters.top), some (2 * parameters.top)),
   (parameters.bottom.map (fun bottom => 2 * bottom),
    parameters.bottom.map (fun bottom => 2 * bottom))]

/-- A cylinder primitive as `createPrimitive` reads it, with the face dimensions that
`getCylinder` computes. -/
def cylinderPrimitive (pi : K) (parameters : CylinderParameters K) : Primitive (Option K) :=
  { subtype := "cylinder", width := none, height := none,
    faceDimensions := cylinderDimensions pi parameters }

end Cylinder
end ObjectLoader
namespace ObjectLoader
namespace Examples

/-- A state in the middle of a round: the group of the node `x_y` (object `1`, with a
box) is cached, and object `3` is the group being built for a node `C` that refers to
`x_y`. -/
def underscoreCached : State ℤ :=
  { stack := [],
    heap := [{ (newObj "scene_obj" .group : Obj ℤ) with children := [1] },
             { (newObj "scene_x_y_obj" .group : Obj ℤ) with parent := some 0, children := [2] },
             { (newObj "scene_x_y_box_obj" (.mesh "box" "defaultMaterial" false false) :
                 Obj ℤ) with parent := some 1 },
             newObj "C" .group],
    allObjects := [("x_y", 1)] }

/-- The node `x_y` is a child of the root and of the node `C`; it is built under the
root before `C` is processed. -/
def sharedUnderscore : String → Descriptor ℤ := fun id =>
  if id = "scene" then plain (some []) [.noderef "C", .noderef "x_y"]
  else if id = "C" then plain none [.noderef "x_y"]
  else plain none [.primitive "box"]

end Examples
end ObjectLoader

/-! ## Race position (`Cart.js`, `MyContents.js` of Project 3) -/

/-- The fields of a `Cart` that the checkpoint logic reads and writes: the position of
the kart on the ground plane (`obj.position.x`, `obj.position.z`), the index `nextPoint` of
the checkpoint it is heading for and the number `lapCount` of laps it has completed. -/
structure Cart where
  x : Int
  z : Int
  nextPoint : Nat
  lapCount : Nat
  deriving DecidableEq, Repr

namespace Cart

/-- The constructor: `lapCount = 0` and `nextPoint = 1`. -/
def new (x z : Int) : Cart := { x := x, z := z, nextPoint := 1, lapCount := 0 }

/-- `nextControlPoint()`: when the kart is inside the box of half side 10 around the
checkpoint it is heading for, `nextPoint` advances modulo the number of checkpoints, and a
lap is counted when it becomes 1. The result is the kart and the returned boolean; it is
`none` when `checkPoints[nextPoint]` is undefined (a `TypeError` in the source). -/
def nextControlPoint (checkPoints : List (Int × Int)) (c : Cart) : Option (Cart × Bool) :=
  let halfVoxelSize : Int := 20 / 2
  match checkPoints.get? c.nextPoint with
  | none => none
  | some checkpoint =>
    let isWithinVoxelGrid : Bool :=
      |c.x - checkpoint.1| < halfVoxelSize ∧ |c.z - checkpoint.2| < halfVoxelSize
    if isWithinVoxelGrid then
      let nextPoint := (c.nextPoint + 1) % checkPoints.length
      if nextPoint = 1 then
        some ({ c with nextPoint := nextPoint, lapCount := c.lapCount + 1 }, true)
      else some ({ c with nextPoint := nextPoint }, false)
    else some (c, false)

/-- One frame of `update`: the kart is moved to the next position and
`nextControlPoint()` is called. The second component counts the frames in which a
checkpoint was passed. -/
def frame (checkPoints : List (Int × Int)) (s : Option (Cart × Nat)) (p : Int × Int) :
    Option (Cart × Nat) :=
  match s with
  | none => none
  | some (c, passed) =>
    let moved : Cart := { c with x := p.1, z := p.2 }
    match nextControlPoint checkPoints moved with
    | none => none
    | some (c', _) => some (c', if c'.nextPoint = moved.nextPoint then passed else passed + 1)

/-- A kart driven from its start through the given positions, one per frame: the kart at
the end and the number of checkpoints it has passed. -/
def drive (checkPoints : List (Int × Int)) (start : Int × Int) (route : List (Int × Int)) :
    Option (Cart × Nat) :=
  route.foldl (frame checkPoints) (some (new start.1 start.2, 0))

end Cart

namespace MyContents

/-- `calculatePosition()`: 0 for the same lap and checkpoint, 1 when the user is ahead,
2 when the bot is ahead, read off `getLapCount()` and `getNextCheckPoint()` of the karts. -/
def calculatePosition (userCar botCar : Cart) : Nat :=
  let userLap := userCar.lapCount
  let botLap := botCar.lapCount
  let userCheckPoint := userCar.nextPoint
  let bothCheckPoint := botCar.nextPoint
  if userLap = botLap ∧ userCheckPoint = bothCheckPoint then 0
  else if userLap > botLap then 1
  else if botLap > userLap then 2
  else if userCheckPoint > bothCheckPoint then 1
  else 2

namespace Examples

/-- A square track with four checkpoints; the start line is checkpoint 0. -/
def square : List (Int × Int) := [(0, 0), (100, 0), (100, 100), (0, 100)]

end Examples

end MyContents

/-! ## Road bounds (`Road.js` of Project 3) -/

namespace Road
section
variable {K : Type} [LinearOrderedField K]

/-- `THREE.Vector3.subVectors(a, b)`. -/
def subVectors (a b : K × K × K) : K × K × K := (a.1 - b.1, a.2.1 - b.2.1, a.2.2 - b.2.2)

/-- `THREE.Vector3.dot`. -/
def dot (a b : K × K × K) : K := a.1 * b.1 + a.2.1 * b.2.1 + a.2.2 * b.2.2

/-- `THREE.Vector3.lengthSq`. -/
def lengthSq (a : K × K × K) : K := a.1 * a.1 + a.2.1 * a.2.1 + a.2.2 * a.2.2

/-- `THREE.Vector3.multiplyScalar`. -/
def multiplyScalar (a : K × K × K) (s : K) : K × K × K := (a.1 * s, a.2.1 * s, a.2.2 * s)

/-- `THREE.Vector3.distanceTo`, with `Math.sqrt` as a parameter. -/
def distanceTo (sqrt : K → K) (p q : K × K × K) : K :=
  let dx := p.1 - q.1
  let dy := p.2.1 - q.2.1
  let dz := p.2.2 - q.2.2
  sqrt (dx * dx + dy * dy + dz * dz)

/-- `has(object)` for a road with control points `points` and width `width`, and an object
at `position`. The control points are sorted by their distance to the object (the sort of
JavaScript is stable, as is the insertion sort); `v1` and `v2` are the first two, `v2`
being replaced by the third when it equals `v1`. The result is `none` where the source
throws a `TypeError` (a control point that is read is undefined). When `dir` is the zero
vector the quotient is `0 / 0`, every further number is `NaN` and the comparison at the
end is false. -/
def has (sqrt : K → K) (points : List (K × K × K)) (width : K) (position : K × K × K) :
    Option Bool :=
  let sorted :=
    points.insertionSort (fun a b => distanceTo sqrt position a ≤ distanceTo sqrt position b)
  match sorted.get? 0, sorted.get? 1 with
  | some v1, some second =>
    match (if v1 = second then sorted.get? 2 else some second) with
    | none => none
    | some v2 =>
      let dir := subVectors v2 v1
      let vecV3V1 := subVectors v1 position
      let proj := dot vecV3V1 dir
      if lengthSq dir = 0 then some false
      else
        let projVector := multiplyScalar dir (proj / lengthSq dir)
        let v4 := subVectors v1 projVector
        let dist := distanceTo sqrt v4 position
        some (decide (dist - width ≥ 0))
  | _, _ => none

end
end Road

namespace ObjectLoader
section
variable {K : Type} [CommRing K]

/-- The store `h'` extends the store `h` without touching a kind: the objects of `h` keep
their kind (for a mesh: subtype, material id and the two shadow flags), and every object
of `h'` has the kind of an object of `h`. -/
def KindsKept (h h' : Heap K) : Prop :=
  h.length ≤ h'.length ∧ (∀ j, j < h.length → (h'.obj j).kind = (h.obj j).kind) ∧
    ∀ j, ∃ i, (h'.obj j).kind = (h.obj i).kind

end

namespace Examples

/-- The node `B` is built under the root, with the material `M1` and without shadows,
before the node `C` is processed; `C` declares the material `M2` and both shadow flags,
has a box of its own and refers to `B`. -/
def repainted : String → Descriptor ℤ := fun id =>
  if id = "scene" then .node (some ["M1"]) none none [] [.noderef "C", .noderef "B"]
  else if id = "C" then
    .node (some ["M2"]) (some true) (some true) [] [.primitive "box", .noderef "B"]
  else plain none [.primitive "box"]

/-- The state of `parseNode` on `repainted` when the child loop of `C` reaches the
reference to `B`: the group of `B` is object `2`, the group being built for `C` is
object `4` and holds the box of `C`. -/
def repaintedCached : State ℤ :=
  { stack := [],
    heap := [{ (newObj "scene" .group : Obj ℤ) with children := [1] },
             { (newObj "scene_obj" .group : Obj ℤ) with parent := some 0, children := [2] },
             { (newObj "scene_B_obj" .group : Obj ℤ) with parent := some 1, children := [3] },
             { (newObj "scene_B_box_obj" (.mesh "box" "M1" false false) : Obj ℤ) with
                 parent := some 2 },
             { (newObj "C" .group : Obj ℤ) with children := [5] },
             { (newObj "scene_C_box_obj" (.mesh "box" "M2" true true) : Obj ℤ) with
                 parent := some 4 }],
    allObjects := [("B", 2), ("scene", 1)] }

end Examples
end ObjectLoader

namespace ObjectLoader
section
variable {K : Type} [CommRing K]

/-- A store is well formed when every child and every level object of an object was
created after it, exists, and (for a child) points back to it as its parent. -/
def WellFormed (h : Heap K) : Prop :=
  (∀ j c, c ∈ (h.obj j).children → j < c ∧ c < h.length ∧ (h.obj c).parent = some j) ∧
    ∀ j lv, lv ∈ (h.obj j).levels → j < lv.object ∧ lv.object < h.length

/-- The store `h'` is the store `h` up to the names of the objects from index `lo` on. -/
def Renamed (lo : Nat) (h h' : Heap K) : Prop :=
  h'.length = h.length ∧ ∀ j, (j < lo → h'.obj j = h.obj j) ∧
    h'.obj j = { h.obj j with name := (h'.obj j).name }

end
end ObjectLoader
namespace ObjectLoader
section
variable {K : Type} [CommRing K]

/-- The store `h'` extends the store `h`: of the objects of `h` only the object `n` has
changed, which has the objects `added` as further children (and possibly further
levels). -/
def Extends (n : Nat) (h h' : Heap K) (added : List Nat) : Prop :=
  h.length ≤ h'.length ∧ (∀ j, j < h.length → j ≠ n → h'.obj j = h.obj j) ∧
    h'.obj n = { h.obj n with children := (h.obj n).children ++ added,
                              levels := (h'.obj n).levels }

/-- The invariant of the child loop while the object `n` is built: the store is well
formed, `n` has no parent yet and the cached objects were created before `n`. -/
def Building (n : Nat) (s : State K) : Prop :=
  WellFormed s.heap ∧ n < s.heap.length ∧ (s.heap.obj n).parent = none ∧
    ∀ p ∈ s.allObjects, p.2 < n

/-- The invariant of the `while` loop: the store is well formed and the cache and the
work items refer to objects of the store. -/
def Sound (s : State K) : Prop :=
  WellFormed s.heap ∧ (∀ p ∈ s.allObjects, p.2 < s.heap.length) ∧
    ∀ it ∈ s.stack, it.object < s.heap.length

/-- A child is served while its node is processed, and not pushed on the stack, unless
it is a reference that the cache cannot serve. -/
def Child.isLocal (allObjects : List (String × Nat)) : Child → Bool
  | .noderef id => (allObjects.lookup id).isSome
  | _ => true

/-- The object `i` is what the child loop creates for the child, `parentName` being the
name prefix of the loop: a mesh of the subtype of a primitive, the wrapper group of a
light, a copy of the cached object of a reference. -/
def LocalFor (h : Heap K) (allObjects : List (String × Nat)) (parentName : String) :
    Child → Nat → Prop
  | .primitive t, i =>
    (∃ m c r, (h.obj i).kind = .mesh t m c r) ∧
      (h.obj i).name = collapseScene (parentName ++ "_" ++ (t ++ "_obj"))
  | .light ty _, i =>
    (h.obj i).kind = .group ∧ (∃ l ∈ (h.obj i).children, (h.obj l).kind = .light ty) ∧
      (h.obj i).name = collapseScene (parentName ++ "_" ++ "lightwrapper_")
  | .noderef id, i =>
    ∃ oc, allObjects.lookup id = some oc ∧ (h.obj i).kind = (h.obj oc).kind ∧
      (h.obj i).name = parentName ++ relevantName (h.obj oc).name

end
end ObjectLoader

namespace ObjectLoader
section
variable {K : Type} [CommRing K]

/-- The store `h'` has grown out of the store `h`: the objects of `h` are still there and
have at most gained children and levels. -/
def Grown (h h' : Heap K) : Prop :=
  h.length ≤ h'.length ∧ ∀ j, j < h.length → ∃ extra,
    h'.obj j = { h.obj j with children := (h.obj j).children ++ extra,
                              levels := (h'.obj j).levels }

end
end ObjectLoader

namespace ObjectLoader
section
variable {K : Type} [CommRing K]

/-- The subtypes of the primitive children of a descriptor, in declaration order. -/
def Descriptor.primitives : Descriptor K → List String
  | .node _ _ _ _ children =>
    children.filterMap (fun c => match c with
      | .primitive t => some t
      | _ => none)
  | .lod _ => []

/-- The weights of the termination argument: `weight c (k + 1)` exceeds `c` times
`weight c k`. -/
def weight (c : Nat) : Nat → Nat
  | 0 => 1
  | k + 1 => 1 + c * weight c k

/-- The number of ids of the list for which the cache has no entry. -/
def uncachedCount (ids : List String) (allObjects : List (String × Nat)) : Nat :=
  (ids.filter (fun id => (allObjects.lookup id).isNone)).length

/-- The weight of a work item: with `u` ids not yet cached, an item whose node is not
cached weighs `weight c (2 * u - 1)` and an item whose node is cached `weight c (2 * u)`. -/
def itemWeight (c : Nat) (ids : List String) (allObjects : List (String × Nat))
    (item : WorkItem) : Nat :=
  weight c (2 * uncachedCount ids allObjects
    - (if (allObjects.lookup item.node).isNone then 1 else 0))

/-- The potential of a state: the sum of the weights of its work items. -/
def potential (c : Nat) (ids : List String) (s : State K) : Nat :=
  (s.stack.map (itemWeight c ids s.allObjects)).sum

/-- The greatest number of references of a descriptor of the list. -/
def fanout (nodes : String → Descriptor K) (ids : List String) : Nat :=
  (ids.map (fun id => (nodes id).refs.length)).foldr max 0

end
end ObjectLoader
namespace ObjectLoader
namespace Examples

/-- A node that refers to itself. -/
def selfReference : String → Descriptor ℤ := fun _ =>
  plain (some []) [.primitive "box", .noderef "A"]

end Examples
end ObjectLoader

namespace ObjectLoader
section
variable {K : Type} [CommRing K]

/-- The object `r` is what a round builds for a work item with the object `object` and the
node `node`: a group or a lod named after that object and the node, and attached to
that object. -/
def NodeFor (nodes : String → Descriptor K) (h : Heap K) (object : Nat) (node : String)
    (r : Nat) : Prop :=
  (h.obj r).kind = (if (nodes node).isLod then Kind.lod else Kind.group) ∧
    (h.obj r).name = collapseScene (stripTags (h.obj object).name
      ++ (if (nodes node).isLod then "" else node)
      ++ (if (nodes node).isLod then "_lod" else "_obj")) ∧
    (h.obj r).parent = some object

/-- Of the objects `roots` built for the work items `seg`, in order, those whose work item
names the object `j`. -/
def attached (j : Nat) : List WorkItem → List Nat → List Nat
  | it :: seg, r :: roots =>
    if it.object = j then r :: attached j seg roots else attached j seg roots
  | _, _ => []

end
end ObjectLoader
namespace ObjectLoader
namespace Examples

/-- A root with the id `root` and one box. -/
def rootNamed : String → Descriptor ℤ := fun _ =>
  plain (some []) [.primitive "box"]

/-- The node `C` has, in this order, a box, a reference to `D`, a point light, a reference
to `B`, a reference to `E` and a sphere; `B` is built before `C` is processed. -/
def ordered : String → Descriptor ℤ := fun id =>
  if id = "scene" then plain (some []) [.noderef "C", .noderef "B"]
  else if id = "C" then
    plain none [.primitive "box", .noderef "D", .light .pointlight "L", .noderef "B",
      .noderef "E", .primitive "sphere"]
  else plain none [.primitive "box"]

end Examples
end ObjectLoader

/-! # Theorems -/

set_option linter.unusedSectionVars false

namespace ObjectLoader

/-! ## Transformations -/

section Transform

variable {K : Type} [CommRing K]

/-- With `cos 0 = 1` and `sin 0 = 0` an Euler rotation about x alone is `rotX`. -/
theorem euler_x (cos sin : K → K) (hc : cos 0 = 1) (hs : sin 0 = 0) (a : K) :
    makeRotationFromEuler cos sin a 0 0 = rotX cos sin a := by
  simp [makeRotationFromEuler, rotX, hc, hs]

/-- With `cos 0 = 1` and `sin 0 = 0` an Euler rotation about y alone is `rotY`. -/
theorem euler_y (cos sin : K → K) (hc : cos 0 = 1) (hs : sin 0 = 0) (a : K) :
    makeRotationFromEuler cos sin 0 a 0 = rotY cos sin a := by
  simp [makeRotationFromEuler, rotY, hc, hs]

/-- With `cos 0 = 1` and `sin 0 = 0` an Euler rotation about z alone is `rotZ`. -/
theorem euler_z (cos sin : K → K) (hc : cos 0 = 1) (hs : sin 0 = 0) (a : K) :
    makeRotationFromEuler cos sin 0 0 a = rotZ cos sin a := by
  simp [makeRotationFromEuler, rotZ, hc, hs]

/-- One round of the loop of `transform` multiplies by the matrix of the record. -/
theorem transformStep_eq (cos sin : K → K) (hc : cos 0 = 1) (hs : sin 0 = 0)
    (m : Matrix (Fin 4) (Fin 4) K) (t : Transformation K) :
    transformStep cos sin m t = m * recordMatrix cos sin t := by
  cases t <;> simp [transformStep, recordMatrix, euler_x, euler_y, euler_z, hc, hs, mul_assoc]

/-- The loop of `transform` multiplies by the product of the record matrices. -/
theorem foldl_transformStep (cos sin : K → K) (hc : cos 0 = 1) (hs : sin 0 = 0)
    (ts : List (Transformation K)) (m : Matrix (Fin 4) (Fin 4) K) :
    ts.foldl (transformStep cos sin) m = m * (ts.map (recordMatrix cos sin)).prod := by
  induction ts generalizing m with
  | nil => simp
  | cons t ts ih => simp [ih, transformStep_eq cos sin hc hs, mul_assoc]

/-- The matrix of the rotation example maps the origin to the point whose first two
coordinates are the cosine and the sine of the angle. -/
theorem rotation_example (cos sin : K → K) (hc : cos 0 = 1) (hs : sin 0 = 0) (θ : K) :
    (transformMatrix cos sin [.R 0 0 θ, .T 1 0 0, .S 2 2 2]).mulVec ![0, 0, 0, 1]
      = ![cos θ, sin θ, 0, 1] := by
  have hM : transformMatrix cos sin [.R 0 0 θ, .T 1 0 0, .S 2 2 2]
      = ([Transformation.R 0 0 θ, .T 1 0 0, .S 2 2 2].map (recordMatrix cos sin)).prod := by
    simp [transformMatrix, foldl_transformStep cos sin hc hs]
  rw [hM]
  funext i
  fin_cases i <;>
    simp [recordMatrix, rotX, rotY, rotZ, makeTranslation, makeScale, hc, hs,
      Matrix.mul_apply, Matrix.mulVec, Matrix.dotProduct, Fin.sum_univ_four]

/-- C8 (amended): `transform` accumulates the product of the record matrices in
declaration order, starting from the identity (a record `R` contributes
`rotX * rotY * rotZ`, the empty list gives the identity), and applies it to the object;
for a rotation by the angle `θ` about z, then a translation by `(1, 0, 0)`, then a
scale by `2`, the origin is mapped to `(cos θ, sin θ, 0)`, where `cos θ` and `sin θ`
are the values `Math.cos` and `Math.sin` return for `θ`. -/
theorem transform_composition (cos sin : K → K) (hc : cos 0 = 1) (hs : sin 0 = 0)
    (ts : List (Transformation K)) (h : Heap K) (object : Nat) (o : Obj K)
    (ho : h[object]? = some o) (θ : K) :
    transformMatrix cos sin ts = (ts.map (recordMatrix cos sin)).prod
    ∧ transformMatrix cos sin ([] : List (Transformation K)) = 1
    ∧ (transform cos sin h object ts)[object]?
        = some { o with matrix := (ts.map (recordMatrix cos sin)).prod * o.matrix }
    ∧ (transformMatrix cos sin [.R 0 0 θ, .T 1 0 0, .S 2 2 2]).mulVec ![0, 0, 0, 1]
        = ![cos θ, sin θ, 0, 1] := by
  have hM : ∀ l : List (Transformation K),
      transformMatrix cos sin l = (l.map (recordMatrix cos sin)).prod := by
    intro l
    simp [transformMatrix, foldl_transformStep cos sin hc hs]
  refine ⟨hM ts, rfl, ?_, rotation_example cos sin hc hs θ⟩
  have hlt : object < h.length := by
    rcases List.getElem?_eq_some.1 ho with ⟨hl, _⟩
    exact hl
  simp [transform, Heap.update, ho, applyMatrix4, hM, List.getElem?_set, hlt]

theorem cosDouble_zero : Examples.cosDouble 0 = 1 := by
  norm_num [Examples.cosDouble, Examples.halfPi]

theorem sinDouble_zero : Examples.sinDouble 0 = 0 := by
  norm_num [Examples.sinDouble, Examples.halfPi]

/-- Witness of `transform_composition`: rational numbers, the values of `Math.cos` and
`Math.sin`, and the angle `Math.PI / 2`. -/
theorem transform_composition_witness :
    transformMatrix Examples.cosDouble Examples.sinDouble
        [Transformation.R 0 0 Examples.halfPi, .T 1 0 0, .S 2 2 2]
      = ([Transformation.R 0 0 Examples.halfPi, .T 1 0 0, .S 2 2 2].map
          (recordMatrix Examples.cosDouble Examples.sinDouble)).prod
    ∧ transformMatrix Examples.cosDouble Examples.sinDouble ([] : List (Transformation ℚ)) = 1
    ∧ (transform Examples.cosDouble Examples.sinDouble [newObj "n" .group] 0
          [Transformation.R 0 0 Examples.halfPi, .T 1 0 0, .S 2 2 2])[0]?
        = some { (newObj "n" .group : Obj ℚ) with
            matrix := ([Transformation.R 0 0 Examples.halfPi, .T 1 0 0, .S 2 2 2].map
              (recordMatrix Examples.cosDouble Examples.sinDouble)).prod
                * (newObj "n" .group : Obj ℚ).matrix }
    ∧ (transformMatrix Examples.cosDouble Examples.sinDouble
          [.R 0 0 Examples.halfPi, .T 1 0 0, .S 2 2 2]).mulVec ![0, 0, 0, 1]
        = ![Examples.cosDouble Examples.halfPi, Examples.sinDouble Examples.halfPi, 0, 1] :=
  transform_composition Examples.cosDouble Examples.sinDouble cosDouble_zero sinDouble_zero _
    [newObj "n" .group] 0 (newObj "n" .group) rfl Examples.halfPi

/-- C8 (counterexample): for the rotation by `Math.PI / 2` (90°) about z, then the
translation by `(1, 0, 0)`, then the scale by `2`, the origin is mapped to
`(6.123233995736766e-17, 1, 0)`, which is not `(0, 1, 0)`. -/
theorem right_angle_counterexample :
    (transformMatrix Examples.cosDouble Examples.sinDouble
          [.R 0 0 Examples.halfPi, .T 1 0 0, .S 2 2 2]).mulVec ![0, 0, 0, 1]
        = ![4967757600021511 / 81129638414606681695789005144064, 1, 0, 1]
      ∧ (transformMatrix Examples.cosDouble Examples.sinDouble
          [.R 0 0 Examples.halfPi, .T 1 0 0, .S 2 2 2]).mulVec ![0, 0, 0, 1]
        ≠ ![0, 1, 0, 1] := by
  have h := rotation_example Examples.cosDouble Examples.sinDouble cosDouble_zero
    sinDouble_zero Examples.halfPi
  have hc : Examples.cosDouble Examples.halfPi
      = 4967757600021511 / 81129638414606681695789005144064 := by
    simp [Examples.cosDouble]
  have hs : Examples.sinDouble Examples.halfPi = 1 := by simp [Examples.sinDouble]
  rw [hc, hs] at h
  refine ⟨h, ?_⟩
  rw [h]
  intro heq
  have h0 := congrFun heq 0
  simp only [Matrix.cons_val_zero] at h0
  norm_num at h0

end Transform

end ObjectLoader

namespace ObjectLoader

open Examples

/-! ## Runs of the sample scenes -/

/-- C1 (counterexample): the two rectangles of one node are distinct objects of the
built scene and both are named `scene_rectangle_obj`. -/
theorem distinct_names_counterexample :
    builtNames (parseNode cosZ sinZ twoRectangles "scene" 1)
        = some ["scene", "scene_obj", "scene_rectangle_obj", "scene_rectangle_obj"]
      ∧ ¬ ["scene", "scene_obj", "scene_rectangle_obj", "scene_rectangle_obj"].Nodup := by
  decide

/-- C4 (counterexample): in the scene `twice` the work item of the node `B` is popped
twice, so `B` is instantiated from its descriptor twice. -/
theorem built_once_counterexample :
    poppedNodes cosZ sinZ twice 10 (initialState twice "scene") = ["scene", "B", "D", "B"]
      ∧ (poppedNodes cosZ sinZ twice 10 (initialState twice "scene")).count "B" = 2
      ∧ errorOf (parseNode cosZ sinZ twice "scene" 4) = none := by
  decide

/-- C5 (counterexample): in the scene `twice` the two groups built for `B` (objects `2`
and `6`, both named `scene_B_obj`) list their children in different orders: the box
before the group of `D` in the first, after it in the second. -/
theorem identical_subtrees_counterexample :
    builtView (parseNode cosZ sinZ twice "scene" 4) = some
      [("scene", .group, [1]),
       ("scene_obj", .group, [2, 6]),
       ("scene_B_obj", .group, [3, 4]),
       ("scene_B_box_obj", .mesh "box" "defaultMaterial" false false, []),
       ("scene_B_D_obj", .group, [5]),
       ("scene_B_D_sphere_obj", .mesh "sphere" "defaultMaterial" false false, []),
       ("scene_B_obj", .group, [7, 9]),
       ("scene_B_D_obj", .group, [8]),
       ("scene_B_D__sphere_obj", .mesh "sphere" "defaultMaterial" false false, []),
       ("scene_B_box_obj", .mesh "box" "defaultMaterial" false false, [])] := by
  decide

/-- C6: in the scene `shared` the rectangle of the clone of `B` made under `C` is named
`scene_C_B__rectangle_obj`, with two underscores, whereas the rectangle of `B` built
under `C` from the descriptor (scene `unshared`) is named `scene_C_B_rectangle_obj`. -/
theorem clone_names_diverge :
    builtNames (parseNode cosZ sinZ shared "scene" 3)
        = some ["scene", "scene_obj", "scene_B_obj", "scene_B_rectangle_obj", "scene_C_obj",
                "scene_C_B_obj", "scene_C_B__rectangle_obj"]
      ∧ builtNames (parseNode cosZ sinZ unshared "scene" 3)
        = some ["scene", "scene_obj", "scene_C_obj", "scene_C_B_obj",
                "scene_C_B_rectangle_obj"] := by
  decide

/-- C7 (counterexample): the ids `scene`, `objA`, `x` contain neither `_obj` nor `_lod`,
yet the node reached by this path is named `scene_A_x_obj` and its box
`scene_A_x_box_obj`; no object is named `scene_objA_x_obj`. -/
theorem path_names_counterexample :
    builtNames (parseNode cosZ sinZ objChain "scene" 3)
        = some ["scene", "scene_obj", "scene_objA_obj", "scene_A_x_obj", "scene_A_x_box_obj"]
      ∧ "scene_objA_x_obj" ∉
          ["scene", "scene_obj", "scene_objA_obj", "scene_A_x_obj", "scene_A_x_box_obj"] := by
  decide

/-- C9 (counterexample): for the cyclic reference `A`, `B`, `A` the loader ends without an
error after two rounds and returns a scene of four objects. -/
theorem cyclic_reference_counterexample :
    errorOf (parseNode cosZ sinZ cyclic "A" 2) = none
      ∧ builtView (parseNode cosZ sinZ cyclic "A" 2) = some
          [("A", .group, [1]), ("AA_obj", .group, [2]), ("AA_B_obj", .group, [3]),
           ("AA_BAA_obj", .group, [])] := by
  decide

/-- A reference to a node named `constructor`, an id without an underscore, makes the
whole call fail with a `TypeError`: the cache has no entry under that name, so the
read `allObjects["constructor"]` yields the member inherited from `Object.prototype`,
which has no method `clone`. -/
theorem inherited_reference_throws :
    errorOf (parseNode cosZ sinZ inheritedReference "scene" 1) = some .typeError
      ∧ SimpleId "constructor" ∧ CleanId "constructor" := by
  decide

/-- C10: a primitive of the unknown subtype `cone` makes the whole call fail with a
`TypeError`, whatever the budget of rounds: no scene is returned. -/
theorem unknown_subtype_throws (fuel : Nat) :
    errorOf (parseNode cosZ sinZ unknownSubtype "scene" (fuel + 1)) = some .typeError := by
  have h : errorOf (processItem cosZ sinZ unknownSubtype
      { node := "scene", object := 0, currentMaterials := some [], castShadow := false,
        receiveShadow := false, dist := 0 }
      { stack := [], heap := [newObj "scene" .group], allObjects := [] }) = some .typeError := by
    decide
  revert h
  simp only [parseNode, loop, rounds, initialState]
  cases processItem cosZ sinZ unknownSubtype _ _ with
  | ok s => intro h; simp [errorOf] at h
  | error e =>
    intro h
    simp only [errorOf, Option.some.injEq] at h
    subst h
    rfl

end ObjectLoader

namespace ObjectLoader
section Paths
variable {K : Type}

/-- A reference the cache cannot serve is a reference of the descriptor. -/
theorem uncachedRefs_subset (a : List (String × Nat)) (node : Descriptor K) (x : String × Int)
    (hx : x ∈ uncachedRefs a node) : x.1 ∈ node.refs := by
  cases node with
  | node m cs rs ts children =>
    simp only [uncachedRefs, List.mem_filterMap] at hx
    obtain ⟨ch, hch, hsome⟩ := hx
    simp only [Descriptor.refs, List.mem_filterMap]
    refine ⟨ch, hch, ?_⟩
    cases ch with
    | primitive st => simp at hsome
    | light ty id => simp at hsome
    | noderef id =>
      simp only at hsome
      split at hsome
      · simp only [Option.some.injEq] at hsome
        subst hsome
        rfl
      · simp at hsome
  | lod children =>
    simp only [uncachedRefs, List.mem_filterMap] at hx
    obtain ⟨ch, hch, hsome⟩ := hx
    simp only [Descriptor.refs, List.mem_map]
    refine ⟨ch, hch, ?_⟩
    split at hsome
    · simp only [Option.some.injEq] at hsome
      subst hsome
      rfl
    · simp at hsome

/-- A path is extended by an id its last id refers to. -/
theorem isPath_snoc {nodes : String → Descriptor K} {rootId : String} {path : List String}
    {a b : String} (hp : IsPath nodes rootId path) (hl : path.getLast? = some a)
    (hb : b ∈ (nodes a).refs) :
    IsPath nodes rootId (path ++ [b]) ∧ (path ++ [b]).getLast? = some b := by
  obtain ⟨hh, hc⟩ := hp
  refine ⟨⟨?_, ?_⟩, by simp⟩
  · cases path with
    | nil => simp at hh
    | cons x xs => simpa using hh
  · rw [List.chain'_append]
    refine ⟨hc, by simp, ?_⟩
    intro x hx y hy
    simp only [hl, Option.mem_def, Option.some.injEq] at hx
    simp only [List.head?_cons, Option.mem_def, Option.some.injEq] at hy
    subst hx hy
    exact hb

/-- On a longer path the last id decides when it declares materials. -/
theorem nearestMaterials_snoc (nodes : String → Descriptor K) (path : List String) (n : String) :
    nearestMaterials nodes (path ++ [n])
      = if declaredMaterials nodes n = [] then nearestMaterials nodes path
        else declaredMaterials nodes n := by
  simp only [nearestMaterials, List.reverse_append, List.reverse_cons, List.reverse_nil,
    List.nil_append, List.singleton_append, List.map_cons, List.find?_cons]
  cases h : declaredMaterials nodes n <;> simp

end Paths
end ObjectLoader

namespace ObjectLoader
section Inheritance
variable {K : Type} [CommRing K]

theorem addClone_stack {s s' : State K} {ret o : Nat} {pn : String}
    (h : addClone s ret o pn = .ok s') : s'.stack = s.stack ∧ s'.allObjects = s.allObjects := by
  unfold addClone at h
  cases hc : clone s.heap.length s.heap o with
  | error e => simp [hc, bind, Except.bind] at h
  | ok v =>
    obtain ⟨h1, c⟩ := v
    cases hu : updateCloneNames h1 c pn with
    | error e => simp [hc, hu, bind, Except.bind] at h
    | ok h2 =>
      simp [hc, hu, bind, Except.bind, pure, Except.pure] at h
      subst h
      exact ⟨rfl, rfl⟩

theorem processChild_stack {object ret : Nat} {nm : List String × String} {c r : Bool}
    {s s' : State K} {child : Child}
    (h : processChild object ret nm c r s child = .ok s') :
    s'.allObjects = s.allObjects ∧
    (s'.stack = s.stack ∨ ∃ id, child = .noderef id ∧ s.allObjects.lookup id = none ∧
      s'.stack = { node := id, object := ret, currentMaterials := some nm.1, castShadow := c,
                   receiveShadow := r, dist := 0 } :: s.stack) := by
  cases child with
  | primitive st =>
    simp only [processChild] at h
    cases hp : (createPrimitive st nm.2 c r : Option (Obj K)) with
    | none => simp [hp] at h
    | some p =>
      simp [hp, Heap.alloc] at h
      subst h
      exact ⟨rfl, Or.inl rfl⟩
  | light ty id =>
    simp only [processChild] at h
    simp at h
    subst h
    exact ⟨rfl, Or.inl rfl⟩
  | noderef id =>
    simp only [processChild] at h
    cases hl : s.allObjects.lookup id with
    | some o =>
      simp only [hl] at h
      exact ⟨(addClone_stack h).2, Or.inl (addClone_stack h).1⟩
    | none =>
      simp only [hl] at h
      split at h
      · simp at h
      · simp at h
        subst h
        exact ⟨rfl, Or.inr ⟨id, rfl, hl, rfl⟩⟩
end Inheritance
end ObjectLoader

namespace ObjectLoader
section Inheritance2
variable {K : Type} [CommRing K]

theorem processLodChild_stack {object ret : Nat} {nm : List String × String} {c r : Bool}
    {s s' : State K} {child : LodChild}
    (h : processLodChild object ret nm c r s child = .ok s') :
    s'.allObjects = s.allObjects ∧
    ((s.allObjects.lookup (child.id.getD "undefined") ≠ none ∧ s'.stack = s.stack) ∨
     (s.allObjects.lookup (child.id.getD "undefined") = none ∧
      s'.stack = childItem ret nm c r (child.node, child.mindist) :: s.stack)) := by
  simp only [processLodChild] at h
  cases hl : s.allObjects.lookup (child.id.getD "undefined") with
  | some o =>
    simp only [hl] at h
    exact ⟨(addClone_stack h).2, Or.inl ⟨by simp, (addClone_stack h).1⟩⟩
  | none =>
    simp only [hl] at h
    split at h
    · simp at h
    · simp at h
      subst h
      exact ⟨rfl, Or.inr ⟨rfl, rfl⟩⟩

theorem processChildren_stack {node : Descriptor K} {object ret : Nat}
    {nm : List String × String} {c r : Bool} {s s' : State K}
    (h : processChildren node object ret nm c r s = .ok s') :
    s'.allObjects = s.allObjects ∧
    s'.stack = ((uncachedRefs s.allObjects node).map (childItem ret nm c r)).reverse ++ s.stack := by
  cases node with
  | node m cs rs ts children =>
    simp only [processChildren] at h
    simp only [uncachedRefs]
    induction children generalizing s with
    | nil =>
      simp [pure, Except.pure] at h
      subst h
      simp
    | cons ch rest ih =>
      rw [List.foldlM_cons] at h
      cases h1 : processChild object ret nm c r s ch with
      | error e => simp [h1, bind, Except.bind] at h
      | ok s1 =>
        simp only [h1, bind, Except.bind] at h
        obtain ⟨ha, hst⟩ := ih h
        obtain ⟨ha1, hs1⟩ := processChild_stack h1
        refine ⟨ha.trans ha1, ?_⟩
        rw [hst, ha1]
        rcases hs1 with hs1 | ⟨id, rfl, hl, hs1⟩
        · rw [hs1]
          cases ch with
          | primitive st => simp
          | light ty id => simp
          | noderef id =>
            have hl : s.allObjects.lookup id ≠ none := by
              intro hl
              simp only [processChild, hl] at h1
              split at h1
              · simp at h1
              · simp at h1
                rw [← h1] at hs1
                simp at hs1
            simp [hl]
        · rw [hs1]
          simp [hl, childItem]
  | lod children =>
    simp only [processChildren] at h
    simp only [uncachedRefs]
    induction children generalizing s with
    | nil =>
      simp [pure, Except.pure] at h
      subst h
      simp
    | cons ch rest ih =>
      rw [List.foldlM_cons] at h
      cases h1 : processLodChild object ret nm c r s ch with
      | error e => simp [h1, bind, Except.bind] at h
      | ok s1 =>
        simp only [h1, bind, Except.bind] at h
        obtain ⟨ha, hst⟩ := ih h
        obtain ⟨ha1, hs1⟩ := processLodChild_stack h1
        refine ⟨ha.trans ha1, ?_⟩
        rw [hst, ha1]
        rcases hs1 with ⟨hl, hs1⟩ | ⟨hl, hs1⟩
        · rw [hs1]
          simp [hl]
        · rw [hs1]
          simp [hl]
end Inheritance2
end ObjectLoader

namespace ObjectLoader
section Inheritance3
variable {K : Type} [CommRing K]

theorem processItem_stack {cos sin : K → K} {nodes : String → Descriptor K} {item : WorkItem}
    {s s' : State K} (h : processItem cos sin nodes item s = .ok s') :
    ∃ nm, getMaterials (nodes item.node) item.currentMaterials = .ok nm ∧
      s'.stack = ((uncachedRefs s.allObjects (nodes item.node)).map
          (childItem s.heap.length nm
            (if (nodes item.node).castShadows then true else item.castShadow)
            (if (nodes item.node).receiveShadows then true else item.receiveShadow))).reverse
          ++ s.stack ∧
      s'.allObjects = (item.node, s.heap.length) :: s.allObjects := by
  unfold processItem at h
  cases hg : getMaterials (nodes item.node) item.currentMaterials with
  | error e => simp [hg, bind, Except.bind, Heap.alloc] at h
  | ok nm =>
    simp only [hg, bind, Except.bind, Heap.alloc] at h
    split at h
    · simp at h
    · rename_i s1 hs1
      split at h
      · simp at h
      · simp only [pure, Except.pure, Except.ok.injEq] at h
        subst h
        obtain ⟨ha, hst⟩ := processChildren_stack hs1
        exact ⟨nm, rfl, by simpa [finishNode] using hst, by simp [finishNode, ha]⟩

theorem rounds_induction (cos sin : K → K) (nodes : String → Descriptor K)
    (P : State K → Prop)
    (hstep : ∀ item rest s s', P s → s.stack = item :: rest →
      processItem cos sin nodes item { s with stack := rest } = .ok s' → P s') :
    ∀ k s s', P s → rounds cos sin nodes k s = .ok s' → P s' := by
  intro k
  induction k with
  | zero =>
    intro s s' hP h
    simp only [rounds, Except.ok.injEq] at h
    subst h
    exact hP
  | succ k ih =>
    intro s s' hP h
    unfold rounds at h
    cases hst : s.stack with
    | nil =>
      simp only [hst, Except.ok.injEq] at h
      subst h
      exact hP
    | cons item rest =>
      simp only [hst] at h
      cases hp : processItem cos sin nodes item { s with stack := rest } with
      | error e => simp [hp, bind, Except.bind] at h
      | ok s1 =>
        simp only [hp, bind, Except.bind] at h
        exact ih s1 s' (hstep item rest s s1 hP hst hp) h

end Inheritance3
end ObjectLoader

namespace ObjectLoader
section Inheritance4
variable {K : Type} [CommRing K]

theorem getMaterials_child (nodes : String → Descriptor K) (path : List String) (n : String) :
    getMaterials (nodes n) (some (nearestMaterials nodes path))
      = .ok (nearestMaterials nodes (path ++ [n]), nearestMaterial nodes (path ++ [n])) := by
  simp only [nearestMaterial, nearestMaterials_snoc, declaredMaterials, getMaterials]
  cases hm : (nodes n).materialIds with
  | none =>
    cases hp : nearestMaterials nodes path <;> simp
  | some l =>
    cases l with
    | nil => cases hp : nearestMaterials nodes path <;> simp
    | cons m ms => simp

theorem getMaterials_root (nodes : String → Descriptor K) (rootId : String) (ms : List String)
    (hroot : (nodes rootId).materialIds = some ms) :
    getMaterials (nodes rootId) (nodes rootId).materialIds
      = .ok (nearestMaterials nodes [rootId], nearestMaterial nodes [rootId]) := by
  cases ms <;> simp [nearestMaterial, nearestMaterials, declaredMaterials, getMaterials, hroot]

/-- Every work item of a run carries the material list in force at its parent: its own
round computes the nearest non-empty list of a path from the root to its node. -/
theorem stack_materials (cos sin : K → K) (nodes : String → Descriptor K) (rootId : String)
    (ms : List String) (hroot : (nodes rootId).materialIds = some ms) (k : Nat) (s : State K)
    (hs : rounds cos sin nodes k (initialState nodes rootId) = .ok s) (item : WorkItem)
    (hitem : item ∈ s.stack) :
    ∃ path, IsPath nodes rootId path ∧ path.getLast? = some item.node ∧
      getMaterials (nodes item.node) item.currentMaterials
        = .ok (nearestMaterials nodes path, nearestMaterial nodes path) := by
  refine rounds_induction cos sin nodes
    (fun s => ∀ item ∈ s.stack, ∃ path, IsPath nodes rootId path ∧
      path.getLast? = some item.node ∧
      getMaterials (nodes item.node) item.currentMaterials
        = .ok (nearestMaterials nodes path, nearestMaterial nodes path))
    ?_ k (initialState nodes rootId) s ?_ hs item hitem
  · intro it rest s0 s1 hP hst hp it' hit'
    obtain ⟨nm, hnm, hstack, -⟩ := processItem_stack hp
    obtain ⟨path, hpath, hlast, hget⟩ := hP it (by simp [hst])
    rw [hget] at hnm
    simp only [Except.ok.injEq] at hnm
    subst hnm
    rw [hstack] at hit'
    simp only [List.mem_append, List.mem_reverse, List.mem_map] at hit'
    rcases hit' with ⟨x, hx, rfl⟩ | hold
    · have hx' := uncachedRefs_subset _ _ x hx
      obtain ⟨hp', hl'⟩ := isPath_snoc hpath hlast hx'
      exact ⟨path ++ [x.1], hp', hl', getMaterials_child nodes path x.1⟩
    · exact hP it' (by simp [hst, hold])
  · intro it hit
    simp only [initialState, List.mem_singleton] at hit
    subst hit
    exact ⟨[rootId], ⟨rfl, by simp⟩, rfl, getMaterials_root nodes rootId ms hroot⟩

/-- Every work item of a run carries the shadow flags in force at its parent: with its own
declarations they are the disjunctions along a path from the root to its node. -/
theorem stack_shadows (cos sin : K → K) (nodes : String → Descriptor K) (rootId : String)
    (k : Nat) (s : State K)
    (hs : rounds cos sin nodes k (initialState nodes rootId) = .ok s) (item : WorkItem)
    (hitem : item ∈ s.stack) :
    ∃ path, IsPath nodes rootId path ∧ path.getLast? = some item.node ∧
      (if (nodes item.node).castShadows then true else item.castShadow)
        = path.any (fun id => (nodes id).castShadows) ∧
      (if (nodes item.node).receiveShadows then true else item.receiveShadow)
        = path.any (fun id => (nodes id).receiveShadows) := by
  refine rounds_induction cos sin nodes
    (fun s => ∀ item ∈ s.stack, ∃ path, IsPath nodes rootId path ∧
      path.getLast? = some item.node ∧
      (if (nodes item.node).castShadows then true else item.castShadow)
        = path.any (fun id => (nodes id).castShadows) ∧
      (if (nodes item.node).receiveShadows then true else item.receiveShadow)
        = path.any (fun id => (nodes id).receiveShadows))
    ?_ k (initialState nodes rootId) s ?_ hs item hitem
  · intro it rest s0 s1 hP hst hp it' hit'
    obtain ⟨nm, -, hstack, -⟩ := processItem_stack hp
    obtain ⟨path, hpath, hlast, hc, hr⟩ := hP it (by simp [hst])
    rw [hstack] at hit'
    simp only [List.mem_append, List.mem_reverse, List.mem_map] at hit'
    rcases hit' with ⟨x, hx, rfl⟩ | hold
    · have hx' := uncachedRefs_subset _ _ x hx
      obtain ⟨hp', hl'⟩ := isPath_snoc hpath hlast hx'
      refine ⟨path ++ [x.1], hp', hl', ?_, ?_⟩
      · simp only [childItem, hc, List.any_append, List.any_cons, List.any_nil, Bool.or_false]
        cases (nodes x.1).castShadows <;> simp
      · simp only [childItem, hr, List.any_append, List.any_cons, List.any_nil, Bool.or_false]
        cases (nodes x.1).receiveShadows <;> simp
    · exact hP it' (by simp [hst, hold])
  · intro it hit
    simp only [initialState, List.mem_singleton] at hit
    subst hit
    refine ⟨[rootId], ⟨rfl, by simp⟩, rfl, ?_, ?_⟩
    · cases h : (nodes rootId).castShadows <;> simp [h]
    · cases h : (nodes rootId).receiveShadows <;> simp [h]

end Inheritance4
end ObjectLoader

namespace ObjectLoader
section HeapBasics
variable {K : Type} [CommRing K]

theorem Heap.length_update (h : Heap K) (i : Nat) (f : Obj K → Obj K) :
    (h.update i f).length = h.length := by
  unfold Heap.update
  split <;> simp

theorem Heap.obj_update (h : Heap K) (i j : Nat) (f : Obj K → Obj K) :
    (h.update i f).obj j = if i = j ∧ i < h.length then f (h.obj j) else h.obj j := by
  unfold Heap.update Heap.obj
  cases hi : h[i]? with
  | none =>
    have : ¬ i < h.length := by
      intro hlt
      simp [List.getElem?_eq_getElem hlt] at hi
    simp [this]
  | some o =>
    have hlt : i < h.length := (List.getElem?_eq_some.1 hi).1
    by_cases hij : i = j
    · subst hij
      simp [hlt, List.getD_eq_getElem?_getD, hi]
    · simp [hij, List.getD_eq_getElem?_getD, List.getElem?_set_ne hij]

theorem Heap.obj_append_left (h e : Heap K) (i : Nat) (hi : i < h.length) :
    (h ++ e).obj i = h.obj i := by
  simp [Heap.obj, List.getD_eq_getElem?_getD, List.getElem?_append_left hi]

theorem Heap.obj_append_length (h : Heap K) (o : Obj K) (e : Heap K) :
    (h ++ o :: e).obj h.length = o := by
  simp [Heap.obj, List.getD_eq_getElem?_getD, List.getElem?_append_right (le_refl _)]

theorem Heap.update_kind (h : Heap K) (i j : Nat) (f : Obj K → Obj K)
    (hf : ∀ o, (f o).kind = o.kind) : ((h.update i f).obj j).kind = (h.obj j).kind := by
  rw [Heap.obj_update]
  split <;> simp [hf]

theorem Heap.update_name (h : Heap K) (i j : Nat) (f : Obj K → Obj K)
    (hf : ∀ o, (f o).name = o.name) : ((h.update i f).obj j).name = (h.obj j).name := by
  rw [Heap.obj_update]
  split <;> simp [hf]

theorem add_kind (h : Heap K) (p c j : Nat) : ((add h p c).obj j).kind = (h.obj j).kind := by
  unfold add
  split
  · rfl
  · simp only
    refine (Heap.update_kind _ _ _ _ ?_).trans ((Heap.update_kind _ _ _ _ ?_).trans ?_)
    · intro o; rfl
    · intro o; rfl
    · split
      · exact Heap.update_kind _ _ _ _ (fun o => rfl)
      · rfl

theorem add_name (h : Heap K) (p c j : Nat) : ((add h p c).obj j).name = (h.obj j).name := by
  unfold add
  split
  · rfl
  · simp only
    refine (Heap.update_name _ _ _ _ ?_).trans ((Heap.update_name _ _ _ _ ?_).trans ?_)
    · intro o; rfl
    · intro o; rfl
    · split
      · exact Heap.update_name _ _ _ _ (fun o => rfl)
      · rfl

theorem add_length (h : Heap K) (p c : Nat) : (add h p c).length = h.length := by
  unfold add
  split
  · rfl
  · simp only [Heap.length_update]
    split <;> simp [Heap.length_update]

theorem processChild_primitive (object ret : Nat) (nm : List String × String) (c r : Bool)
    (σ : State K) (subtype : String) (hst : subtype ∈ knownSubtypes) :
    ∃ σ', processChild object ret nm c r σ (.primitive subtype) = .ok σ' ∧
      (σ'.heap.obj σ.heap.length).kind = .mesh subtype nm.2 c r := by
  simp only [processChild, createPrimitive, hst, if_true, Heap.alloc]
  refine ⟨_, rfl, ?_⟩
  simp only [add_kind]
  rw [Heap.obj_append_length]
  rfl

end HeapBasics

section Claims23
variable {K : Type} [CommRing K]

/-- C2: in every round of a run whose root declares a material list, the material id
computed for the node of a work item, which is the id the child loop passes to
`createPrimitive` and which the created mesh records, is the first id of the nearest
non-empty material list on a path from the root to that node, and `defaultMaterial`
when all lists on the path are empty. -/
theorem material_inheritance (cos sin : K → K) (nodes : String → Descriptor K) (rootId : String)
    (ms : List String) (hroot : (nodes rootId).materialIds = some ms) (k : Nat) (s : State K)
    (hs : rounds cos sin nodes k (initialState nodes rootId) = .ok s) (item : WorkItem)
    (hitem : item ∈ s.stack) :
    ∃ path, IsPath nodes rootId path ∧ path.getLast? = some item.node ∧
      getMaterials (nodes item.node) item.currentMaterials
        = .ok (nearestMaterials nodes path, nearestMaterial nodes path) ∧
      ∀ (object returnedObject : Nat) (castShadow receiveShadow : Bool) (σ : State K)
        (subtype : String), subtype ∈ knownSubtypes →
        ∃ σ', processChild object returnedObject
            (nearestMaterials nodes path, nearestMaterial nodes path) castShadow receiveShadow σ
            (.primitive subtype) = .ok σ' ∧
          (σ'.heap.obj σ.heap.length).kind
            = .mesh subtype (nearestMaterial nodes path) castShadow receiveShadow := by
  obtain ⟨path, hp, hl, hg⟩ := stack_materials cos sin nodes rootId ms hroot k s hs item hitem
  exact ⟨path, hp, hl, hg, fun object ret c r σ st hst =>
    processChild_primitive object ret _ c r σ st hst⟩

/-- C3: in every round of a run, the shadow flags computed for the node of a work item,
which are the flags the child loop passes to `createPrimitive` and which the created
mesh records, are the disjunctions of the declarations along a path from the root to
that node; a declaration `true` anywhere on the path makes the flag `true`. -/
theorem shadow_inheritance (cos sin : K → K) (nodes : String → Descriptor K) (rootId : String)
    (k : Nat) (s : State K)
    (hs : rounds cos sin nodes k (initialState nodes rootId) = .ok s) (item : WorkItem)
    (hitem : item ∈ s.stack) :
    ∃ path, IsPath nodes rootId path ∧ path.getLast? = some item.node ∧
      (if (nodes item.node).castShadows then true else item.castShadow)
        = path.any (fun id => (nodes id).castShadows) ∧
      (if (nodes item.node).receiveShadows then true else item.receiveShadow)
        = path.any (fun id => (nodes id).receiveShadows) ∧
      (∀ a ∈ path, (nodes a).castShadows = true →
        (if (nodes item.node).castShadows then true else item.castShadow) = true) ∧
      (∀ a ∈ path, (nodes a).receiveShadows = true →
        (if (nodes item.node).receiveShadows then true else item.receiveShadow) = true) ∧
      ∀ (object returnedObject : Nat) (newMaterials : List String × String) (σ : State K)
        (subtype : String), subtype ∈ knownSubtypes →
        ∃ σ', processChild object returnedObject newMaterials
            (path.any (fun id => (nodes id).castShadows))
            (path.any (fun id => (nodes id).receiveShadows)) σ (.primitive subtype) = .ok σ' ∧
          (σ'.heap.obj σ.heap.length).kind
            = .mesh subtype newMaterials.2 (path.any (fun id => (nodes id).castShadows))
                (path.any (fun id => (nodes id).receiveShadows)) := by
  obtain ⟨path, hp, hl, hc, hr⟩ := stack_shadows cos sin nodes rootId k s hs item hitem
  refine ⟨path, hp, hl, hc, hr, ?_, ?_, fun object ret nm σ st hst =>
    processChild_primitive object ret nm _ _ σ st hst⟩
  · intro a ha hca
    rw [hc, List.any_eq_true]
    exact ⟨a, ha, hca⟩
  · intro a ha hra
    rw [hr, List.any_eq_true]
    exact ⟨a, ha, hra⟩

end Claims23
end ObjectLoader
namespace ObjectLoader
open Examples

/-- Witness of `material_inheritance`: after the first round of the scene `inheritance`
the stack holds the work item of the child `a`, which declares no material and is
handed `M1`, the material of its parent. -/
theorem material_inheritance_witness :
    ∃ s, rounds cosZ sinZ inheritance 1 (initialState inheritance "scene") = .ok s ∧
      getMaterials (inheritance "a") (some ["M1"]) = .ok (["M1"], "M1") ∧
      ∃ path, IsPath inheritance "scene" path ∧ path.getLast? = some "a" ∧
        getMaterials (inheritance "a") (some ["M1"])
          = .ok (nearestMaterials inheritance path, nearestMaterial inheritance path) ∧
        ∀ (object returnedObject : Nat) (castShadow receiveShadow : Bool) (σ : State ℤ)
          (subtype : String), subtype ∈ knownSubtypes →
          ∃ σ', processChild object returnedObject
              (nearestMaterials inheritance path, nearestMaterial inheritance path)
              castShadow receiveShadow σ (.primitive subtype) = .ok σ' ∧
            (σ'.heap.obj σ.heap.length).kind
              = .mesh subtype (nearestMaterial inheritance path) castShadow receiveShadow := by
  have hst : stackOf (rounds cosZ sinZ inheritance 1 (initialState inheritance "scene"))
      = some [{ node := "b", object := 1, currentMaterials := some ["M1"], castShadow := true,
                receiveShadow := false, dist := 0 },
              { node := "a", object := 1, currentMaterials := some ["M1"], castShadow := true,
                receiveShadow := false, dist := 0 }] := by
    decide
  cases hr : rounds cosZ sinZ inheritance 1 (initialState inheritance "scene") with
  | error e => simp [hr, stackOf] at hst
  | ok s =>
    simp only [hr, stackOf, Option.some.injEq] at hst
    exact ⟨s, rfl, rfl,
      material_inheritance cosZ sinZ inheritance "scene" ["M1"] rfl 1 s hr
        { node := "a", object := 1, currentMaterials := some ["M1"], castShadow := true,
          receiveShadow := false, dist := 0 } (by simp [hst])⟩

/-- Witness of `shadow_inheritance`: after the first round of the scene `inheritance`
the stack holds the work item of the child `b`, which declares `castShadows = false`
and a material of its own, and whose primitives cast shadows because the root does. -/
theorem shadow_inheritance_witness :
    ∃ s, rounds cosZ sinZ inheritance 1 (initialState inheritance "scene") = .ok s ∧
      (inheritance "b").castShadows = false ∧
      ∃ path, IsPath inheritance "scene" path ∧ path.getLast? = some "b" ∧
        (if (inheritance "b").castShadows then true else true)
          = path.any (fun id => (inheritance id).castShadows) ∧
        (if (inheritance "b").receiveShadows then true else false)
          = path.any (fun id => (inheritance id).receiveShadows) ∧
        (∀ a ∈ path, (inheritance a).castShadows = true →
          (if (inheritance "b").castShadows then true else true) = true) ∧
        (∀ a ∈ path, (inheritance a).receiveShadows = true →
          (if (inheritance "b").receiveShadows then true else false) = true) ∧
        ∀ (object returnedObject : Nat) (newMaterials : List String × String) (σ : State ℤ)
          (subtype : String), subtype ∈ knownSubtypes →
          ∃ σ', processChild object returnedObject newMaterials
              (path.any (fun id => (inheritance id).castShadows))
              (path.any (fun id => (inheritance id).receiveShadows)) σ (.primitive subtype)
                = .ok σ' ∧
            (σ'.heap.obj σ.heap.length).kind
              = .mesh subtype newMaterials.2 (path.any (fun id => (inheritance id).castShadows))
                  (path.any (fun id => (inheritance id).receiveShadows)) := by
  have hst : stackOf (rounds cosZ sinZ inheritance 1 (initialState inheritance "scene"))
      = some [{ node := "b", object := 1, currentMaterials := some ["M1"], castShadow := true,
                receiveShadow := false, dist := 0 },
              { node := "a", object := 1, currentMaterials := some ["M1"], castShadow := true,
                receiveShadow := false, dist := 0 }] := by
    decide
  cases hr : rounds cosZ sinZ inheritance 1 (initialState inheritance "scene") with
  | error e => simp [hr, stackOf] at hst
  | ok s =>
    simp only [hr, stackOf, Option.some.injEq] at hst
    exact ⟨s, rfl, by decide,
      shadow_inheritance cosZ sinZ inheritance "scene" 1 s hr
        { node := "b", object := 1, currentMaterials := some ["M1"], castShadow := true,
          receiveShadow := false, dist := 0 } (by simp [hst])⟩

end ObjectLoader

namespace ObjectLoader
section Claim4
variable {K : Type} [CommRing K]

/-- Once an id is in the cache it stays there, and no round pushes a work item for it
(a lod is assumed to look its children up under the id of their node). -/
theorem cached_stays (cos sin : K → K) (nodes : String → Descriptor K)
    (hlod : ∀ n children, nodes n = .lod children → ∀ c ∈ children, c.id = some c.node)
    (id : String) (k : Nat) (s s' : State K) (hid : s.allObjects.lookup id ≠ none)
    (hs : rounds cos sin nodes k s = .ok s') :
    s'.allObjects.lookup id ≠ none ∧
      (s'.stack.map WorkItem.node).count id ≤ (s.stack.map WorkItem.node).count id := by
  refine rounds_induction cos sin nodes
    (fun t => t.allObjects.lookup id ≠ none ∧
      (t.stack.map WorkItem.node).count id ≤ (s.stack.map WorkItem.node).count id)
    ?_ k s s' ⟨hid, le_refl _⟩ hs
  intro it rest t t' hP hst hp
  obtain ⟨hc, hcount⟩ := hP
  obtain ⟨nm, -, hstack, hcache⟩ := processItem_stack hp
  simp only at hstack hcache
  refine ⟨?_, ?_⟩
  · rw [hcache, List.lookup_cons]
    split
    · simp
    · exact hc
  · have hnone : ∀ x ∈ uncachedRefs t.allObjects (nodes it.node), x.1 ≠ id := by
      intro x hx hxid
      cases hn : nodes it.node with
      | node m cs rs ts children =>
        rw [hn] at hx
        simp only [uncachedRefs, List.mem_filterMap] at hx
        obtain ⟨ch, -, hsome⟩ := hx
        cases ch with
        | primitive st => simp at hsome
        | light ty l => simp at hsome
        | noderef r =>
          simp only at hsome
          split at hsome
          · rename_i hl
            simp only [Option.some.injEq] at hsome
            subst hsome
            simp only at hxid
            subst hxid
            exact hc hl
          · simp at hsome
      | lod children =>
        rw [hn] at hx
        simp only [uncachedRefs, List.mem_filterMap] at hx
        obtain ⟨ch, hch, hsome⟩ := hx
        split at hsome
        · rename_i hl
          simp only [Option.some.injEq] at hsome
          subst hsome
          simp only at hxid
          rw [hlod _ _ hn ch hch, Option.getD_some, hxid] at hl
          exact hc hl
        · simp at hsome
    have hzero : (((uncachedRefs t.allObjects (nodes it.node)).map
        (childItem t.heap.length nm
          (if (nodes it.node).castShadows then true else it.castShadow)
          (if (nodes it.node).receiveShadows then true else it.receiveShadow))).reverse.map
        WorkItem.node).count id = 0 := by
      rw [List.count_eq_zero]
      intro hmem
      simp only [List.map_reverse, List.map_map, List.mem_reverse, List.mem_map,
        Function.comp_apply, childItem] at hmem
      obtain ⟨x, hx, hxid⟩ := hmem
      exact hnone x hx hxid
    rw [hstack, List.map_append, List.count_append, hzero, Nat.zero_add]
    refine le_trans ?_ hcount
    rw [hst, List.map_cons, List.count_cons]
    exact Nat.le_add_right _ _

/-- C4 (amended): a node reference whose id is in the cache is served by cloning the
cached object, which pushes no work item and leaves the cache alone; from then on the
id stays cached and no further work item is pushed for it.  A reference whose id is
not in the cache pushes a work item, which is built from the descriptor, unless the id
is the name of a member of `Object.prototype` (such as `constructor`), which the cache,
a plain object, inherits: then the loader fails with a `TypeError`. -/
theorem cached_reference_cloned (cos sin : K → K) (nodes : String → Descriptor K)
    (hlod : ∀ n children, nodes n = .lod children → ∀ c ∈ children, c.id = some c.node)
    (s : State K) (id : String) (objectChild : Nat)
    (hid : s.allObjects.lookup id = some objectChild) :
    (∀ (object returnedObject : Nat) (nm : List String × String) (c r : Bool),
        processChild object returnedObject nm c r s (.noderef id)
          = addClone s returnedObject objectChild
              (childParentName s.heap object returnedObject)) ∧
      (∀ (returnedObject : Nat) (parentName : String) (s' : State K),
        addClone s returnedObject objectChild parentName = .ok s' →
          s'.stack = s.stack ∧ s'.allObjects = s.allObjects) ∧
      (∀ (k : Nat) (s' : State K), rounds cos sin nodes k s = .ok s' →
        s'.allObjects.lookup id ≠ none ∧
          (s'.stack.map WorkItem.node).count id ≤ (s.stack.map WorkItem.node).count id) ∧
      (∀ (t : State K) (object returnedObject : Nat) (nm : List String × String) (c r : Bool),
        t.allObjects.lookup id = none →
          processChild object returnedObject nm c r t (.noderef id)
            = if id ∈ objectPrototypeMembers then .error .typeError
              else .ok { t with stack := childItem returnedObject nm c r (id, 0) :: t.stack }) := by
  refine ⟨?_, ?_, ?_, ?_⟩
  · intro object ret nm c r
    simp only [processChild, hid]
  · intro ret pn s' h
    exact addClone_stack h
  · intro k s' hs
    exact cached_stays cos sin nodes hlod id k s s' (by simp [hid]) hs
  · intro t object ret nm c r ht
    simp only [processChild, ht, childItem]

end Claim4

open Examples

/-- Witness of `cached_reference_cloned`: in the scene `shared` the node `B` is cached as
object `2` after two rounds, before the node `C`, which refers to it, is processed. -/
theorem cached_reference_cloned_witness :
    ∃ s : State ℤ, rounds cosZ sinZ shared 2 (initialState shared "scene") = .ok s ∧
      s.allObjects.lookup "B" = some 2 ∧
      (∀ (object returnedObject : Nat) (nm : List String × String) (c r : Bool),
        processChild object returnedObject nm c r s (.noderef "B")
          = addClone s returnedObject 2 (childParentName s.heap object returnedObject)) ∧
      (∀ (returnedObject : Nat) (parentName : String) (s' : State ℤ),
        addClone s returnedObject 2 parentName = .ok s' →
          s'.stack = s.stack ∧ s'.allObjects = s.allObjects) ∧
      (∀ (k : Nat) (s' : State ℤ), rounds cosZ sinZ shared k s = .ok s' →
        s'.allObjects.lookup "B" ≠ none ∧
          (s'.stack.map WorkItem.node).count "B" ≤ (s.stack.map WorkItem.node).count "B") ∧
      (∀ (t : State ℤ) (object returnedObject : Nat) (nm : List String × String) (c r : Bool),
        t.allObjects.lookup "B" = none →
          processChild object returnedObject nm c r t (.noderef "B")
            = if "B" ∈ objectPrototypeMembers then .error .typeError
              else .ok { t with stack := childItem returnedObject nm c r ("B", 0) :: t.stack }) := by
  have hc : cacheOf (rounds cosZ sinZ shared 2 (initialState shared "scene"))
      = some [("B", 2), ("scene", 1)] := by decide
  cases hr : rounds cosZ sinZ shared 2 (initialState shared "scene") with
  | error e => simp [hr, cacheOf] at hc
  | ok s =>
    simp only [hr, cacheOf, Option.some.injEq] at hc
    have hid : s.allObjects.lookup "B" = some 2 := by rw [hc]; decide
    refine ⟨s, rfl, hid, cached_reference_cloned cosZ sinZ shared ?_ s "B" 2 hid⟩
    intro n children hn
    unfold shared plain at hn
    split_ifs at hn

end ObjectLoader

namespace ObjectLoader
section Claim9
variable {K : Type} [CommRing K]

theorem getMaterials_some (node : Descriptor K) (l : List String) :
    ∃ nm, getMaterials node (some l) = .ok nm := by
  unfold getMaterials
  cases node.materialIds with
  | none => cases l <;> simp
  | some m => cases m <;> cases l <;> simp

theorem rounds_stack_nil (cos sin : K → K) (nodes : String → Descriptor K) (k : Nat)
    (s : State K) (h : s.stack = []) : rounds cos sin nodes k s = .ok s := by
  cases k with
  | zero => rfl
  | succ k => simp [rounds, h]

/-- C9 (amended): for a root `a` whose only child is a reference to `b`, whose only child
is a reference back to `a`, where `b` is not the name of a member of `Object.prototype`
(such as `constructor`, which the cache, a plain object, inherits) and `a` is not
`__proto__`, the loader raises no error: it ends after two rounds with a scene of four
objects, the root object, the group of `a`, below it the group of `b`, and below that
a clone of the group of `a` as it was cached, without children. -/
theorem cyclic_reference_returns (cos sin : K → K) (nodes : String → Descriptor K)
    (a b : String) (ma : List String) (mb : Option (List String)) (ca ra cb rb : Option Bool)
    (ta tb : List (Transformation K))
    (ha : nodes a = .node (some ma) ca ra ta [.noderef b])
    (hb : nodes b = .node mb cb rb tb [.noderef a])
    (hbm : b ∉ objectPrototypeMembers) (ham : a ≠ "__proto__") (fuel : Nat) :
    ∃ h, parseNode cos sin nodes a (fuel + 2) = .ok h ∧ h.length = 4 ∧
      h.map Obj.kind = [.group, .group, .group, .group] ∧
      h.map Obj.children = [[1], [2], [3], []] := by
  obtain ⟨nma, hnma⟩ := getMaterials_some (nodes a) ma
  obtain ⟨nmb, hnmb⟩ := getMaterials_some (nodes b) nma.1
  rw [ha] at hnma
  rw [hb] at hnmb
  have hbp : b ≠ "__proto__" := fun h => hbm (by rw [h]; decide)
  have key : (parseNode cos sin nodes a (fuel + 2)).map
      (fun h => (h.map Obj.kind, h.map Obj.children))
      = .ok ([.group, .group, .group, .group], [[1], [2], [3], []]) := by
    simp [parseNode, loop, rounds, initialState, processItem, ha, hb, hnma, hnmb,
      Descriptor.materialIds,
      processChildren, processChild, Heap.alloc, bind, Except.bind, pure, Except.pure,
      finishNode, Descriptor.isLod, Descriptor.transformations, newObj, Heap.obj, Heap.update,
      add, transform, addClone, clone, updateCloneNames, renameDescendants, applyMatrix4,
      Except.map, Descriptor.castShadows, Descriptor.receiveShadows, childParentName,
      rounds_stack_nil, hbm, ham, hbp]
  cases hp : parseNode cos sin nodes a (fuel + 2) with
  | error e => simp [hp, Except.map] at key
  | ok h =>
    simp only [hp, Except.map, Except.ok.injEq, Prod.mk.injEq] at key
    refine ⟨h, rfl, ?_, key.1, key.2⟩
    have := congrArg List.length key.1
    simpa using this
end Claim9
end ObjectLoader

namespace ObjectLoader
open Examples

/-- Witness of `cyclic_reference_returns`: the sample scene `cyclic`. -/
theorem cyclic_reference_returns_witness :
    ∃ h, parseNode cosZ sinZ cyclic "A" (0 + 2) = .ok h ∧ h.length = 4 ∧
      h.map Obj.kind = [.group, .group, .group, .group] ∧
      h.map Obj.children = [[1], [2], [3], []] :=
  cyclic_reference_returns cosZ sinZ cyclic "A" "B" [] none none none none none [] []
    (by simp [cyclic, plain]) (by simp [cyclic, plain]) (by decide) (by decide) 0

end ObjectLoader

namespace ObjectLoader
section CloneShape
variable {K : Type} [CommRing K]

theorem Heap.getElem?_update (h : Heap K) (i j : Nat) (f : Obj K → Obj K) :
    (h.update i f)[j]? = if i = j then (h[j]?).map f else h[j]? := by
  unfold Heap.update
  cases hi : h[i]? with
  | none =>
    by_cases hij : i = j
    · subst hij
      simp [hi]
    · simp [hij]
  | some o =>
    by_cases hij : i = j
    · subst hij
      have hlt : i < h.length := (List.getElem?_eq_some.1 hi).1
      simp [hi, List.getElem?_set, hlt]
    · simp [hij, List.getElem?_set_ne hij]

theorem Heap.update_append_right (h e : Heap K) (i : Nat) (f : Obj K → Obj K)
    (hi : h.length ≤ i) : (h ++ e).update i f = h ++ e.update (i - h.length) f := by
  apply List.ext_getElem?
  intro j
  rw [Heap.getElem?_update]
  by_cases hj : j < h.length
  · have hij : i ≠ j := by omega
    simp [hij, List.getElem?_append_left hj]
  · have hj' : h.length ≤ j := by omega
    rw [List.getElem?_append_right hj', List.getElem?_append_right hj', Heap.getElem?_update]
    by_cases hij : i = j
    · subst hij
      simp
    · have : i - h.length ≠ j - h.length := by omega
      simp [hij, this]

theorem Heap.obj_eq_of_getElem? (h : Heap K) (i : Nat) (o : Obj K) (hi : h[i]? = some o) :
    h.obj i = o := by
  simp [Heap.obj, List.getD_eq_getElem?_getD, hi]

theorem Heap.getElem?_eq_obj (h : Heap K) (i : Nat) (hi : i < h.length) :
    h[i]? = some (h.obj i) := by
  simp [Heap.obj, List.getD_eq_getElem?_getD, List.getElem?_eq_getElem hi]

theorem allSome_map_congr {α β : Type} (f g : α → Option β) (l : List α)
    (hfg : ∀ x ∈ l, f x = g x) : allSome (l.map f) = allSome (l.map g) := by
  induction l with
  | nil => rfl
  | cons x xs ih =>
    simp only [List.map_cons, allSome]
    rw [hfg x (by simp), ih (fun y hy => hfg y (by simp [hy]))]

theorem allSome_eq_some_iff {α : Type} (l : List (Option α)) (r : List α) :
    allSome l = some r ↔ l = r.map some := by
  induction l generalizing r with
  | nil =>
    cases r <;> simp [allSome]
  | cons x xs ih =>
    cases x with
    | none =>
      cases r <;> simp [allSome]
    | some a =>
      cases hx : allSome xs with
      | none =>
        simp only [allSome, hx, Option.some_bind, Option.map_none']
        constructor
        · intro h; simp at h
        intro h
        exfalso
        cases r with
        | nil => simp at h
        | cons y ys =>
          simp only [List.map_cons, List.cons.injEq] at h
          rw [(ih ys).2 h.2] at hx
          simp at hx
      | some as =>
        have hxs := (ih as).1 hx
        simp only [allSome, hx, Option.some_bind, Option.map_some', Option.some.injEq]
        constructor
        · intro h
          subst h
          simp [hxs]
        · intro h
          cases r with
          | nil => simp at h
          | cons y ys =>
            simp only [List.map_cons, List.cons.injEq, Option.some.injEq] at h
            obtain ⟨rfl, h2⟩ := h
            rw [hxs] at h2
            rw [List.map_injective_iff.2 (Option.some_injective _) h2]

theorem allSome_append {α : Type} (l₁ l₂ : List (Option α)) (r₁ r₂ : List α)
    (h₁ : allSome l₁ = some r₁) (h₂ : allSome l₂ = some r₂) :
    allSome (l₁ ++ l₂) = some (r₁ ++ r₂) := by
  rw [allSome_eq_some_iff] at *
  simp [h₁, h₂]

end CloneShape
end ObjectLoader
namespace ObjectLoader
section CloneShape2
variable {K : Type} [CommRing K]

theorem allSome_map_imp {α β : Type} (f g : α → Option β) (l : List α) (r : List β)
    (hfg : ∀ x ∈ l, ∀ y, f x = some y → g x = some y)
    (h : allSome (l.map f) = some r) : allSome (l.map g) = some r := by
  rw [allSome_eq_some_iff] at *
  induction l generalizing r with
  | nil => simpa using h
  | cons x xs ih =>
    cases r with
    | nil => simp at h
    | cons y ys =>
      simp only [List.map_cons, List.cons.injEq] at h ⊢
      exact ⟨hfg x (by simp) y h.1, ih ys (fun z hz => hfg z (by simp [hz])) h.2⟩

theorem shapeFrom_mono_lo (lo lo' : Nat) (hlo : lo' ≤ lo) (f : Nat) (h : Heap K) (i : Nat)
    (sh : List (Kind × Nat)) (hs : shapeFrom lo f h i = some sh) :
    shapeFrom lo' f h i = some sh := by
  induction f generalizing i sh with
  | zero => simp [shapeFrom] at hs
  | succ f ih =>
    simp only [shapeFrom] at hs ⊢
    split at hs
    · simp at hs
    · rename_i hi
      have hi' : ¬ i < lo' := by omega
      simp only [hi', if_false]
      cases ho : h[i]? with
      | none => simp [ho] at hs
      | some o =>
        simp only [ho, Option.map_eq_some'] at hs ⊢
        obtain ⟨shs, hshs, rfl⟩ := hs
        exact ⟨shs, allSome_map_imp _ _ _ _ (fun x _ y hy => ih x y hy) hshs, rfl⟩

theorem shapeFrom_append (lo f : Nat) (h e : Heap K) (i : Nat) (sh : List (Kind × Nat))
    (hs : shapeFrom lo f h i = some sh) : shapeFrom lo f (h ++ e) i = some sh := by
  induction f generalizing i sh with
  | zero => simp [shapeFrom] at hs
  | succ f ih =>
    simp only [shapeFrom] at hs ⊢
    split at hs
    · simp at hs
    · rename_i hi
      simp only [hi, if_false]
      cases ho : h[i]? with
      | none => simp [ho] at hs
      | some o =>
        have hlt : i < h.length := (List.getElem?_eq_some.1 ho).1
        simp only [ho, Option.map_eq_some'] at hs
        simp only [List.getElem?_append_left hlt, ho, Option.map_eq_some']
        obtain ⟨shs, hshs, rfl⟩ := hs
        exact ⟨shs, allSome_map_imp _ _ _ _ (fun x _ y hy => ih x y hy) hshs, rfl⟩

theorem shapeFrom_congr (lo f : Nat) (h h' : Heap K)
    (hv : ∀ j, lo ≤ j → (h'[j]?).map (fun o => (o.kind, o.children))
      = (h[j]?).map (fun o => (o.kind, o.children))) (i : Nat) :
    shapeFrom lo f h' i = shapeFrom lo f h i := by
  induction f generalizing i with
  | zero => rfl
  | succ f ih =>
    simp only [shapeFrom]
    split
    · rfl
    · rename_i hi
      have hvi := hv i (by omega)
      cases ho : h[i]? with
      | none =>
        cases ho' : h'[i]? with
        | none => rfl
        | some o' => simp [ho, ho'] at hvi
      | some o =>
        cases ho' : h'[i]? with
        | none => simp [ho, ho'] at hvi
        | some o' =>
          simp only [ho, ho', Option.map_some', Option.some.injEq, Prod.mk.injEq] at hvi
          simp only [hvi.1, hvi.2]
          rw [allSome_map_congr _ _ _ (fun x _ => ih x)]

end CloneShape2
end ObjectLoader
namespace ObjectLoader
section CloneShape3
variable {K : Type} [CommRing K]

theorem add_fresh (h : Heap K) (n c : Nat) (hne : n ≠ c) (hpar : (h.obj c).parent = none) :
    add h n c = (h.update c (fun o => { o with parent := some n })).update n
      (fun o => { o with children := o.children ++ [c] }) := by
  simp [add, hne, hpar]

theorem ext_update (h0 acc : Heap K) (i : Nat) (f : Obj K → Obj K)
    (hext : ∃ e, acc = h0 ++ e) (hi : h0.length ≤ i) : ∃ e, acc.update i f = h0 ++ e := by
  obtain ⟨e, rfl⟩ := hext
  exact ⟨_, Heap.update_append_right h0 e i f hi⟩

/-- The loop of `clone` over the children of a source without lods. -/
theorem clone_fold (f n g : Nat) (h0 : Heap K) (hn : n = h0.length)
    (IH : ∀ (h : Heap K) (src : Nat) (h' : Heap K) (m : Nat) (sh : List (Kind × Nat)),
      clone f h src = .ok (h', m) → shapeOf g h src = some sh → lodFree sh →
        m = h.length ∧ (∃ e, h' = h ++ e) ∧ (h'.obj m).parent = none ∧
          shapeFrom h.length g h' m = some sh)
    (cs : List Nat) :
    ∀ (shs : List (List (Kind × Nat))) (acc : Heap K) (done : List (List (Kind × Nat)))
      (h' : Heap K),
      allSome (cs.map (shapeOf g h0)) = some shs → (∀ s ∈ shs, lodFree s) →
      (∃ e, acc = h0 ++ e) → n < acc.length → (acc.obj n).parent = none →
      allSome ((acc.obj n).children.map (shapeFrom (n + 1) g acc)) = some done →
      cs.foldlM (fun acc ch => do
          let (h', c) ← clone f acc ch
          pure (add h' n c)) acc = .ok h' →
      (∃ e, h' = h0 ++ e) ∧ n < h'.length ∧ (h'.obj n).parent = none ∧
        (h'.obj n).kind = (acc.obj n).kind ∧
        (h'.obj n).children.length = (acc.obj n).children.length + cs.length ∧
        allSome ((h'.obj n).children.map (shapeFrom (n + 1) g h')) = some (done ++ shs) := by
  induction cs with
  | nil =>
    intro shs acc done h' hcs _ hext hlt hpar hdone hfold
    simp only [List.foldlM_nil, pure, Except.pure, Except.ok.injEq] at hfold
    subst hfold
    simp only [List.map_nil, allSome, Option.some.injEq] at hcs
    subst hcs
    exact ⟨hext, hlt, hpar, rfl, by simp, by simpa using hdone⟩
  | cons ch cs ih =>
    intro shs acc done h' hcs hlf hext hlt hpar hdone hfold
    rw [List.foldlM_cons] at hfold
    -- the shapes of the children
    rw [allSome_eq_some_iff] at hcs
    cases shs with
    | nil => simp at hcs
    | cons shc shs' =>
      simp only [List.map_cons, List.cons.injEq] at hcs
      obtain ⟨hch, hcs'⟩ := hcs
      have hcs'' : allSome (cs.map (shapeOf g h0)) = some shs' :=
        (allSome_eq_some_iff _ _).2 hcs'
      cases hcl : clone f acc ch with
      | error err => simp [hcl, bind, Except.bind] at hfold
      | ok v =>
        obtain ⟨acc1, c⟩ := v
        simp only [hcl, bind, Except.bind, pure, Except.pure] at hfold
        have hchacc : shapeOf g acc ch = some shc := by
          obtain ⟨e, rfl⟩ := hext
          exact shapeFrom_append 0 g h0 e ch shc hch
        obtain ⟨hc, ⟨e1, hacc1⟩, hcpar, hcshape⟩ :=
          IH acc ch acc1 c shc hcl hchacc (hlf shc (by simp))
        have hnc : n ≠ c := by omega
        have hlt1 : n < acc1.length := by rw [hacc1]; simp; omega
        have hobjn1 : acc1.obj n = acc.obj n := by
          rw [hacc1]; exact Heap.obj_append_left acc e1 n hlt
        -- the store after `add`
        have hadd := add_fresh acc1 n c hnc hcpar
        have hext2 : ∃ e, add acc1 n c = h0 ++ e := by
          rw [hadd]
          apply ext_update
          · apply ext_update
            · obtain ⟨e, he⟩ := hext
              exact ⟨e ++ e1, by rw [hacc1, he, List.append_assoc]⟩
            · omega
          · omega
        have hlt2 : n < (add acc1 n c).length := by rw [add_length]; exact hlt1
        have hobjn2 : (add acc1 n c).obj n
            = { acc.obj n with children := (acc.obj n).children ++ [c] } := by
          rw [hadd, Heap.obj_update, Heap.obj_update]
          simp [hnc.symm, Heap.length_update, hlt1, hobjn1]
        have hview : ∀ j, n + 1 ≤ j →
            ((add acc1 n c)[j]?).map (fun o => (o.kind, o.children))
              = (acc1[j]?).map (fun o => (o.kind, o.children)) := by
          intro j hj
          have hnj : n ≠ j := by omega
          rw [hadd, Heap.getElem?_update, Heap.getElem?_update]
          simp only [hnj, if_false]
          split
          · cases acc1[j]? <;> simp
          · rfl
        have hsf : ∀ d, shapeFrom (n + 1) g (add acc1 n c) d = shapeFrom (n + 1) g acc1 d :=
          shapeFrom_congr (n + 1) g acc1 (add acc1 n c) hview
        have hdone2 : allSome (((add acc1 n c).obj n).children.map
            (shapeFrom (n + 1) g (add acc1 n c))) = some ((done ++ [shc])) := by
          rw [hobjn2]
          simp only [List.map_append, List.map_cons, List.map_nil]
          apply allSome_append
          · rw [allSome_map_congr _ _ _ (fun d _ => hsf d)]
            refine allSome_map_imp _ _ _ _ ?_ hdone
            intro d _ y hy
            rw [hacc1]
            exact shapeFrom_append (n + 1) g acc e1 d y hy
          · rw [hsf c]
            have := shapeFrom_mono_lo acc.length (n + 1) (by omega) g acc1 c shc hcshape
            simp [allSome, this]
        have hpar2 : ((add acc1 n c).obj n).parent = none := by
          rw [hobjn2]; exact hpar
        obtain ⟨r1, r2, r3, r4, r5, r6⟩ :=
          ih shs' (add acc1 n c) (done ++ [shc]) h' hcs'' (fun s hs => hlf s (by simp [hs]))
            hext2 hlt2 hpar2 hdone2 hfold
        refine ⟨r1, r2, r3, ?_, ?_, ?_⟩
        · rw [r4, hobjn2]
        · rw [r5, hobjn2]
          simp
          omega
        · rw [r6]
          simp

end CloneShape3
end ObjectLoader
namespace ObjectLoader
section CloneShape4
variable {K : Type} [CommRing K]

theorem lodFree_cons (x : Kind × Nat) (shs : List (List (Kind × Nat)))
    (h : lodFree (x :: shs.flatten)) : x.1 ≠ Kind.lod ∧ ∀ s ∈ shs, lodFree s := by
  refine ⟨h x (by simp), ?_⟩
  intro s hs y hy
  exact h y (by simp only [List.mem_cons, List.mem_flatten]; exact Or.inr ⟨s, hs, hy⟩)

/-- A successful `clone` of a subtree without lods appends the copy to the store; the
copy has no parent and the structure of the source. -/
theorem clone_shape (f : Nat) :
    ∀ (g : Nat) (h : Heap K) (src : Nat) (h' : Heap K) (n : Nat) (sh : List (Kind × Nat)),
      clone f h src = .ok (h', n) → shapeOf g h src = some sh → lodFree sh →
        n = h.length ∧ (∃ e, h' = h ++ e) ∧ (h'.obj n).parent = none ∧
          shapeFrom h.length g h' n = some sh := by
  induction f with
  | zero =>
    intro g h src h' n sh hc
    simp [clone] at hc
  | succ f ih =>
    intro g h src h' n sh hc hsh hlf
    cases g with
    | zero => simp [shapeOf, shapeFrom] at hsh
    | succ g =>
      simp only [shapeOf, shapeFrom, Nat.not_lt_zero, if_false] at hsh
      cases ho : h[src]? with
      | none => simp [ho] at hsh
      | some o =>
        simp only [ho, Option.map_eq_some'] at hsh
        obtain ⟨shs, hshs, rfl⟩ := hsh
        obtain ⟨hk, hlfs⟩ := lodFree_cons _ _ hlf
        have hobj : h.obj src = o := Heap.obj_eq_of_getElem? h src o ho
        simp only at hk
        -- the loop over the children
        have hfold : ∃ h2, o.children.foldlM (fun acc ch => do
              let (h', c) ← clone f acc ch
              pure (add h' h.length c))
            (h ++ [{ o with parent := none, children := [], levels := [] }]) = .ok h2 ∧
            h' = h2 ∧ n = h.length := by
          unfold clone at hc
          simp only [hobj, Heap.alloc] at hc
          cases hkind : o.kind with
          | lod => exact absurd hkind hk
          | group =>
            simp only [hkind, bind, Except.bind, pure, Except.pure] at hc
            split at hc
            · simp at hc
            · rename_i h2 hh2
              simp only [Except.ok.injEq, Prod.mk.injEq] at hc
              exact ⟨h2, hh2, hc.1.symm, hc.2.symm⟩
          | mesh a b c d =>
            simp only [hkind, bind, Except.bind, pure, Except.pure] at hc
            split at hc
            · simp at hc
            · rename_i h2 hh2
              simp only [Except.ok.injEq, Prod.mk.injEq] at hc
              exact ⟨h2, hh2, hc.1.symm, hc.2.symm⟩
          | light t =>
            simp only [hkind, bind, Except.bind, pure, Except.pure] at hc
            split at hc
            · simp at hc
            · rename_i h2 hh2
              simp only [Except.ok.injEq, Prod.mk.injEq] at hc
              exact ⟨h2, hh2, hc.1.symm, hc.2.symm⟩
          | target =>
            simp only [hkind, bind, Except.bind, pure, Except.pure] at hc
            split at hc
            · simp at hc
            · rename_i h2 hh2
              simp only [Except.ok.injEq, Prod.mk.injEq] at hc
              exact ⟨h2, hh2, hc.1.symm, hc.2.symm⟩
        obtain ⟨h2, hh2, rfl, rfl⟩ := hfold
        have hobj0 : (h ++ [{ o with parent := none, children := [], levels := [] }]).obj h.length
            = { o with parent := none, children := [], levels := [] } :=
          Heap.obj_append_length h _ []
        obtain ⟨r1, r2, r3, r4, r5, r6⟩ :=
          clone_fold f h.length g h rfl (ih g) o.children shs
            (h ++ [{ o with parent := none, children := [], levels := [] }]) [] h'
            hshs hlfs ⟨_, rfl⟩ (by simp) (by rw [hobj0]) (by rw [hobj0]; rfl) hh2
        refine ⟨rfl, r1, r3, ?_⟩
        simp only [shapeFrom, Nat.lt_irrefl, if_false, Heap.getElem?_eq_obj h' h.length r2,
          Option.map_eq_some']
        refine ⟨shs, ?_, ?_⟩
        · refine allSome_map_imp _ _ _ _ ?_ (by simpa using r6)
          intro d _ y hy
          exact shapeFrom_mono_lo (h.length + 1) h.length (by omega) g h' d y hy
        · rw [r4, r5, hobj0]
          simp

theorem foldlM_preserves {α β : Type} (P : α → Prop) (step : α → β → Except LoadError α)
    (hstep : ∀ a b a', P a → step a b = .ok a' → P a') (l : List β) :
    ∀ a a', P a → l.foldlM step a = .ok a' → P a' := by
  induction l with
  | nil =>
    intro a a' hP h
    simp only [List.foldlM_nil, pure, Except.pure, Except.ok.injEq] at h
    exact h ▸ hP
  | cons b bs ih =>
    intro a a' hP h
    rw [List.foldlM_cons] at h
    cases hb : step a b with
    | error e => simp [hb, bind, Except.bind] at h
    | ok a1 =>
      simp only [hb, bind, Except.bind] at h
      exact ih a1 a' (hstep a b a1 hP hb) h

/-- The traversal of `updateCloneNames` changes names only. -/
theorem renameDescendants_view (f : Nat) :
    ∀ (h h' : Heap K) (cn : String) (i : Nat), renameDescendants f h cn i = .ok h' →
      ∀ j : Nat, (h'[j]?).map (fun o : Obj K => (o.kind, o.children, o.parent))
        = (h[j]?).map (fun o : Obj K => (o.kind, o.children, o.parent)) := by
  induction f with
  | zero =>
    intro h h' cn i hr
    simp [renameDescendants] at hr
  | succ f ih =>
    intro h h' cn i hr j
    have hfold : ∀ (h1 : Heap K) (l : List Nat),
        (h1[j]?).map (fun o : Obj K => (o.kind, o.children, o.parent))
          = (h[j]?).map (fun o : Obj K => (o.kind, o.children, o.parent)) →
        l.foldlM (fun acc c => renameDescendants f acc cn c) h1 = .ok h' →
        (h'[j]?).map (fun o : Obj K => (o.kind, o.children, o.parent))
          = (h[j]?).map (fun o : Obj K => (o.kind, o.children, o.parent)) := by
      intro h1 l hv hl
      refine foldlM_preserves
        (fun a : Heap K => (a[j]?).map (fun o : Obj K => (o.kind, o.children, o.parent))
          = (h[j]?).map (fun o : Obj K => (o.kind, o.children, o.parent)))
        _ ?_ l h1 h' hv hl
      intro a b a' hP hab
      rw [ih a a' cn b hab j]
      exact hP
    unfold renameDescendants at hr
    by_cases hname : (h.obj i).name = cn
    · simp only [hname, if_true, bind, Except.bind, pure, Except.pure] at hr
      exact hfold h _ rfl hr
    · simp only [hname, if_false, bind, Except.bind, pure, Except.pure] at hr
      cases hp : (h.obj i).parent with
      | none => simp [hp] at hr
      | some p =>
        simp only [hp] at hr
        refine hfold _ _ ?_ hr
        rw [Heap.getElem?_update]
        split
        · cases h[j]? <;> simp
        · rfl

end CloneShape4
end ObjectLoader
namespace ObjectLoader
section CloneShape5
variable {K : Type} [CommRing K]

theorem view_obj {α : Type} (v : Obj K → α) (h1 h2 : Heap K) (j : Nat)
    (hv : (h2[j]?).map v = (h1[j]?).map v) (hj : j < h1.length) :
    j < h2.length ∧ v (h2.obj j) = v (h1.obj j) := by
  rw [Heap.getElem?_eq_obj h1 j hj] at hv
  cases h2j : h2[j]? with
  | none => simp [h2j] at hv
  | some o2 =>
    simp only [h2j, Option.map_some', Option.some.injEq] at hv
    exact ⟨(List.getElem?_eq_some.1 h2j).1, by rw [Heap.obj_eq_of_getElem? h2 j o2 h2j, hv]⟩

theorem updateCloneNames_view (h h' : Heap K) (c : Nat) (pn : String)
    (hu : updateCloneNames h c pn = .ok h') (j : Nat) :
    (h'[j]?).map (fun o : Obj K => (o.kind, o.children, o.parent))
      = (h[j]?).map (fun o : Obj K => (o.kind, o.children, o.parent)) := by
  unfold updateCloneNames at hu
  rw [renameDescendants_view _ _ _ _ _ hu j, Heap.getElem?_update]
  split
  · cases h[j]? <;> simp
  · rfl

/-- C5 (amended): the subtree that `addClone` produces for a cached object without lods
has the structure the cached object has at that moment, the same kinds with the same
numbers of children in the same order throughout, and is attached as the last child
of the node being built. -/
theorem clone_same_shape (s s' : State K) (returnedObject objectChild : Nat)
    (parentName : String) (f : Nat) (shape : List (Kind × Nat))
    (hret : returnedObject < s.heap.length)
    (hc : addClone s returnedObject objectChild parentName = .ok s')
    (hsh : shapeOf f s.heap objectChild = some shape) (hlf : lodFree shape) :
    shapeOf f s'.heap s.heap.length = some shape ∧
      (s'.heap.obj returnedObject).children
        = (s.heap.obj returnedObject).children ++ [s.heap.length] ∧
      (s'.heap.obj s.heap.length).parent = some returnedObject := by
  unfold addClone at hc
  cases hcl : clone s.heap.length s.heap objectChild with
  | error e => simp [hcl, bind, Except.bind] at hc
  | ok v =>
    obtain ⟨h1, c⟩ := v
    cases hu : updateCloneNames h1 c parentName with
    | error e => simp [hcl, hu, bind, Except.bind] at hc
    | ok h2 =>
      simp only [hcl, hu, bind, Except.bind, pure, Except.pure, Except.ok.injEq] at hc
      subst hc
      obtain ⟨rfl, ⟨e, rfl⟩, hpar, hshape⟩ :=
        clone_shape s.heap.length f s.heap objectChild h1 c shape hcl hsh hlf
      have hclt : s.heap.length < (s.heap ++ e).length := by
        cases e with
        | nil =>
          exfalso
          cases f with
          | zero => simp [shapeFrom] at hshape
          | succ f =>
            simp only [shapeFrom, Nat.lt_irrefl, if_false, List.append_nil] at hshape
            have : s.heap[s.heap.length]? = none := by simp
            simp [this] at hshape
        | cons x xs => simp
      have hv := updateCloneNames_view _ _ _ _ hu
      obtain ⟨hclt2, hvc⟩ := view_obj _ _ _ _ (hv s.heap.length) hclt
      have hrlt1 : returnedObject < (s.heap ++ e).length := by simp; omega
      obtain ⟨hrlt2, hvr⟩ := view_obj _ _ _ _ (hv returnedObject) hrlt1
      simp only [Prod.mk.injEq] at hvc hvr
      have hne : returnedObject ≠ s.heap.length := by omega
      have hadd := add_fresh h2 returnedObject s.heap.length hne (by rw [hvc.2.2]; exact hpar)
      simp only
      refine ⟨?_, ?_, ?_⟩
      · apply shapeFrom_mono_lo s.heap.length 0 (Nat.zero_le _)
        rw [← hshape]
        refine (shapeFrom_congr _ _ h2 _ ?_ _).trans (shapeFrom_congr _ _ _ h2 ?_ _)
        · intro j hj
          have hrj : returnedObject ≠ j := by omega
          rw [hadd, Heap.getElem?_update, Heap.getElem?_update]
          simp only [hrj, if_false]
          split
          · cases h2[j]? <;> simp
          · rfl
        · intro j _
          have := congrArg (Option.map (fun x : Kind × List Nat × Option Nat => (x.1, x.2.1)))
            (hv j)
          simpa [Option.map_map, Function.comp] using this
      · rw [hadd, Heap.obj_update, Heap.obj_update]
        simp [hne, hne.symm, Heap.length_update, hrlt2, hvr.2.1,
          Heap.obj_append_left s.heap e returnedObject hret]
      · rw [hadd, Heap.obj_update, Heap.obj_update]
        simp [hne, hclt2]

end CloneShape5
end ObjectLoader
namespace ObjectLoader
open Examples

/-- Witness of `clone_same_shape`: the cached group of `B` with its rectangle is cloned
under the group being built for `C`. -/
theorem clone_same_shape_witness :
    ∃ s', addClone beforeClone 3 1 "scene_C" = .ok s' ∧
      shapeOf 2 beforeClone.heap 1
        = some [(.group, 1), (.mesh "rectangle" "defaultMaterial" false false, 0)] ∧
      shapeOf 2 s'.heap beforeClone.heap.length
        = some [(.group, 1), (.mesh "rectangle" "defaultMaterial" false false, 0)] ∧
      (s'.heap.obj 3).children = (beforeClone.heap.obj 3).children ++ [beforeClone.heap.length] ∧
      (s'.heap.obj beforeClone.heap.length).parent = some 3 := by
  have he : errorOf (addClone beforeClone 3 1 "scene_C") = none := by decide
  cases hc : addClone beforeClone 3 1 "scene_C" with
  | error e => simp [hc, errorOf] at he
  | ok s' =>
    exact ⟨s', rfl, by decide,
      clone_same_shape beforeClone s' 3 1 "scene_C" 2
        [(.group, 1), (.mesh "rectangle" "defaultMaterial" false false, 0)]
        (by decide) hc (by decide) (by unfold lodFree; decide)⟩

end ObjectLoader

namespace ObjectLoader
section Simulation
variable {K : Type} [CommRing K]

theorem Heap.update_append_left (h e : Heap K) (i : Nat) (f : Obj K → Obj K)
    (hi : i < h.length) : (h ++ e).update i f = h.update i f ++ e := by
  apply List.ext_getElem?
  intro j
  rw [Heap.getElem?_update]
  by_cases hj : j < h.length
  · rw [List.getElem?_append_left hj,
      List.getElem?_append_left (by rw [Heap.length_update]; exact hj), Heap.getElem?_update]
  · have hij : i ≠ j := by omega
    have hj' : h.length ≤ j := by omega
    simp only [hij, if_false]
    rw [List.getElem?_append_right hj',
      List.getElem?_append_right (by rw [Heap.length_update]; exact hj'), Heap.length_update]

theorem Heap.update_update (h : Heap K) (i : Nat) (f g : Obj K → Obj K) :
    (h.update i f).update i g = h.update i (fun o => g (f o)) := by
  apply List.ext_getElem?
  intro j
  simp only [Heap.getElem?_update]
  split
  · cases h[j]? <;> simp
  · rfl

theorem Heap.update_at_length (h t : Heap K) (o : Obj K) (f : Obj K → Obj K) :
    (h ++ o :: t).update h.length f = h ++ f o :: t := by
  rw [Heap.update_append_right h _ _ f (le_refl _)]
  simp [Heap.update]

theorem Heap.update_congr (h : Heap K) (i : Nat) (f g : Obj K → Obj K)
    (hfg : f (h.obj i) = g (h.obj i)) : h.update i f = h.update i g := by
  unfold Heap.update
  cases hi : h[i]? with
  | none => rfl
  | some o =>
    have : h.obj i = o := Heap.obj_eq_of_getElem? h i o hi
    rw [this] at hfg
    simp [hfg]

theorem Heap.update_self (h : Heap K) (i : Nat) (f : Obj K → Obj K)
    (hf : f (h.obj i) = h.obj i) : h.update i f = h := by
  unfold Heap.update
  cases hi : h[i]? with
  | none => rfl
  | some o =>
    have : h.obj i = o := Heap.obj_eq_of_getElem? h i o hi
    rw [this] at hf
    simp only [hf]
    apply List.ext_getElem?
    intro j
    rw [List.getElem?_set]
    split
    · rename_i hij
      subst hij
      simp [hi, (List.getElem?_eq_some.1 hi).1]
    · rfl

theorem appendChildren_nil (o : Obj K) : appendChildren [] o = o := by
  simp [appendChildren]

theorem appendChildren_append (r1 r2 : List Nat) (o : Obj K) :
    appendChildren r2 (appendChildren r1 o) = appendChildren (r1 ++ r2) o := by
  simp [appendChildren]

end Simulation
end ObjectLoader

namespace ObjectLoader
section Simulation2
variable {K : Type} [CommRing K]

theorem Heap.obj_append_right (h e : Heap K) (i : Nat) (hi : h.length ≤ i) :
    (h ++ e).obj i = e.obj (i - h.length) := by
  simp [Heap.obj, List.getD_eq_getElem?_getD, List.getElem?_append_right hi]

theorem add_append_new (h e : Heap K) (n : Nat) (hn : n < h.length)
    (hpar : (e.obj 0).parent = none) :
    add (h ++ e) n h.length
      = h.update n (appendChildren [h.length])
          ++ e.update 0 (fun o => { o with parent := some n }) := by
  have hne : n ≠ h.length := by omega
  rw [add_fresh _ _ _ hne (by rw [Heap.obj_append_right _ _ _ (le_refl _)]; simpa using hpar)]
  rw [Heap.update_append_right _ _ _ _ (le_refl _), Nat.sub_self,
    Heap.update_append_left _ _ _ _ hn]
  rfl

theorem Heap.update_append_add (h e : Heap K) (k : Nat) (f : Obj K → Obj K) :
    (h ++ e).update (h.length + k) f = h ++ e.update k f := by
  rw [Heap.update_append_right _ _ _ _ (Nat.le_add_right _ _), Nat.add_sub_cancel_left]

theorem Heap.update_append_zero (h e : Heap K) (f : Obj K → Obj K) :
    (h ++ e).update h.length f = h ++ e.update 0 f :=
  Heap.update_append_add h e 0 f

theorem Heap.obj_append_add (h e : Heap K) (k : Nat) : (h ++ e).obj (h.length + k) = e.obj k := by
  rw [Heap.obj_append_right _ _ _ (Nat.le_add_right _ _), Nat.add_sub_cancel_left]

theorem Heap.obj_append_zero (h e : Heap K) : (h ++ e).obj h.length = e.obj 0 :=
  Heap.obj_append_add h e 0

theorem add_append_add (h e : Heap K) (a b : Nat) (hab : a ≠ b)
    (hpar : (e.obj b).parent = none) :
    add (h ++ e) (h.length + a) (h.length + b)
      = h ++ (e.update b (fun o => { o with parent := some (h.length + a) })).update a
          (fun o => { o with children := o.children ++ [h.length + b] }) := by
  have hab' : h.length + a ≠ h.length + b := by omega
  rw [add_fresh _ _ _ hab' (by rw [Heap.obj_append_add]; exact hpar),
    Heap.update_append_add, Heap.update_append_add]

theorem add_append_zero (h e : Heap K) (b : Nat) (hb : 0 ≠ b) (hpar : (e.obj b).parent = none) :
    add (h ++ e) h.length (h.length + b)
      = h ++ (e.update b (fun o => { o with parent := some h.length })).update 0
          (fun o => { o with children := o.children ++ [h.length + b] }) :=
  add_append_add h e 0 b hb hpar

theorem Heap.update_cons_zero (o : Obj K) (t : Heap K) (f : Obj K → Obj K) :
    Heap.update (o :: t) 0 f = f o :: t := by
  simp [Heap.update]

theorem Heap.update_cons_succ (o : Obj K) (t : Heap K) (k : Nat) (f : Obj K → Obj K) :
    Heap.update (o :: t) (k + 1) f = o :: Heap.update t k f := by
  simp only [Heap.update, List.getElem?_cons_succ]
  cases t[k]? <;> simp

theorem Heap.obj_cons_zero (o : Obj K) (t : Heap K) : Heap.obj (o :: t) 0 = o := by
  simp [Heap.obj]

theorem Heap.obj_cons_succ (o : Obj K) (t : Heap K) (k : Nat) :
    Heap.obj (o :: t) (k + 1) = Heap.obj t k := by
  simp [Heap.obj]

/-- The store after a light child has been processed. -/
theorem processChild_light (object n : Nat) (nm : List String × String) (c r : Bool)
    (σ : State K) (ty : LightType) (id : String) (hn : n < σ.heap.length) :
    ∃ σ', processChild object n nm c r σ (.light ty id) = .ok σ' ∧
      σ'.heap = σ.heap.update n (appendChildren [σ.heap.length])
        ++ lightObjs (collapseScene (childParentName σ.heap object n ++ "_" ++ "lightwrapper_"))
            n σ.heap.length ty id := by
  refine ⟨_, by simp only [processChild]; rfl, ?_⟩
  cases ty <;>
    simp [lightLoaderLoad, Heap.alloc, Heap.update_append_add, Heap.update_append_zero,
      add_append_zero, Heap.obj_append_add, Heap.obj_append_zero, lightObjs, newObj,
      Heap.update_cons_zero, Heap.update_cons_succ, Heap.obj_cons_zero, Heap.obj_cons_succ,
      add_append_new, hn]

theorem processChild_exact (object n : Nat) (nm : List String × String) (c r : Bool)
    (σ : State K) (ch : Child) (hn : n < σ.heap.length)
    (hknown : ∀ st, ch = .primitive st → st ∈ knownSubtypes)
    (hnone : ∀ id, ch = .noderef id → σ.allObjects.lookup id = none)
    (hmem : ∀ id, ch = .noderef id → id ∉ objectPrototypeMembers) :
    ∃ σ', processChild object n nm c r σ ch = .ok σ' ∧
      σ'.heap = σ.heap.update n (appendChildren (localRoots σ.heap.length [ch]))
        ++ childObjs (childParentName σ.heap object n) n nm.2 c r σ.heap.length ch := by
  cases ch with
  | primitive st =>
    refine ⟨_, by simp only [processChild, createPrimitive, hknown st rfl, if_true]; rfl, ?_⟩
    simp only [Heap.alloc]
    rw [add_append_new _ _ _ hn (by simp [Heap.obj, newObj])]
    simp [localRoots, childObjs, Heap.update, newObj, childSize]
  | light ty id =>
    simpa [localRoots, childObjs] using processChild_light object n nm c r σ ty id hn
  | noderef id =>
    refine ⟨_, by simp only [processChild, hnone id rfl, if_neg (hmem id rfl)]; rfl, ?_⟩
    simp [localRoots, childObjs, Heap.update_self, appendChildren_nil]

end Simulation2
end ObjectLoader
namespace ObjectLoader
section Simulation3
variable {K : Type} [CommRing K]

theorem childObjs_length (pn : String) (n : Nat) (m : String) (c r : Bool) (b : Nat)
    (ch : Child) : (childObjs pn n m c r b ch : List (Obj K)).length = childSize ch := by
  cases ch with
  | primitive st => simp [childObjs, childSize]
  | light ty id => cases ty <;> simp [childObjs, lightObjs, childSize]
  | noderef id => simp [childObjs, childSize]

theorem localRoots_cons (b : Nat) (ch : Child) (cs : List Child) :
    localRoots b (ch :: cs) = localRoots b [ch] ++ localRoots (b + childSize ch) cs := by
  cases ch <;> simp [localRoots, childSize]

theorem childParentName_frame (h : Heap K) (object n : Nat) (f : Obj K → Obj K) (e : Heap K)
    (hobj : object < h.length) (hn : n < h.length) (hf : ∀ o, (f o).name = o.name) (i : Nat) :
    childParentName (h.update i f ++ e) object n = childParentName h object n := by
  unfold childParentName
  rw [Heap.obj_append_left _ _ _ (by rw [Heap.length_update]; exact hobj),
    Heap.obj_append_left _ _ _ (by rw [Heap.length_update]; exact hn),
    Heap.update_name _ _ _ _ hf, Heap.update_name _ _ _ _ hf]

/-- The store after the child loop of a plain node whose references are not cached. -/
theorem processChildren_heap (object n : Nat) (nm : List String × String) (c r : Bool)
    (children : List Child) :
    ∀ σ : State K, object < σ.heap.length → n < σ.heap.length →
      (∀ st, Child.primitive st ∈ children → st ∈ knownSubtypes) →
      (∀ id, Child.noderef id ∈ children → σ.allObjects.lookup id = none) →
      (∀ id, Child.noderef id ∈ children → id ∉ objectPrototypeMembers) →
      ∃ σ', children.foldlM (processChild object n nm c r) σ = .ok σ' ∧
        σ'.heap = σ.heap.update n (appendChildren (localRoots σ.heap.length children))
          ++ localObjs (childParentName σ.heap object n) n nm.2 c r σ.heap.length children := by
  induction children with
  | nil =>
    intro σ _ _ _ _ _
    refine ⟨σ, rfl, ?_⟩
    simp [localRoots, localObjs, Heap.update_self, appendChildren_nil]
  | cons ch cs ih =>
    intro σ hobj hn hknown hnone hmem
    obtain ⟨σ1, h1, hheap1⟩ := processChild_exact object n nm c r σ ch hn
      (fun st hst => hknown st (by simp [hst]))
      (fun id hid => hnone id (by simp [hid]))
      (fun id hid => hmem id (by simp [hid]))
    have hlen1 : σ1.heap.length = σ.heap.length + childSize ch := by
      rw [hheap1, List.length_append, Heap.length_update, childObjs_length]
    have hcache := (processChild_stack h1).1
    obtain ⟨σ', h', hheap'⟩ := ih σ1 (by omega) (by omega)
      (fun st hst => hknown st (by simp [hst]))
      (fun id hid => by rw [hcache]; exact hnone id (by simp [hid]))
      (fun id hid => hmem id (by simp [hid]))
    refine ⟨σ', by rw [List.foldlM_cons, h1]; exact h', ?_⟩
    rw [hheap', hlen1]
    have hpn : childParentName σ1.heap object n = childParentName σ.heap object n := by
      rw [hheap1]
      exact childParentName_frame σ.heap object n
        (appendChildren (localRoots σ.heap.length [ch])) _ hobj hn (fun _ => rfl) n
    rw [hpn, hheap1, Heap.update_append_left _ _ _ _ (by rw [Heap.length_update]; exact hn),
      Heap.update_update, localRoots_cons σ.heap.length ch cs]
    simp only [appendChildren_append, localObjs, List.append_assoc]

end Simulation3
end ObjectLoader
namespace ObjectLoader
section Simulation4
variable {K : Type} [CommRing K]

theorem uncachedRefs_all (a : List (String × Nat)) (node : Descriptor K)
    (m : Option (List String)) (c r : Option Bool) (ts : List (Transformation K))
    (children : List Child) (hnode : node = .node m c r ts children)
    (hnone : ∀ id, Child.noderef id ∈ children → a.lookup id = none) :
    uncachedRefs a node = node.refs.map (fun ref => (ref, (0 : Int))) := by
  subst hnode
  simp only [uncachedRefs, Descriptor.refs]
  induction children with
  | nil => rfl
  | cons ch cs ih =>
    have ih' := ih (fun id hid => hnone id (by simp [hid]))
    cases ch with
    | primitive st => simpa using ih'
    | light ty id => simpa using ih'
    | noderef id =>
      simp only [List.filterMap_cons, hnone id (by simp), if_true, List.map_cons, ih']

/-- The state after the round of a plain node none of whose references is cached. -/
theorem processItem_exact (cos sin : K → K) (nodes : String → Descriptor K) (item : WorkItem)
    (s : State K) (m : Option (List String)) (c r : Option Bool)
    (ts : List (Transformation K)) (children : List Child)
    (hnode : nodes item.node = .node m c r ts children) (nm : List String × String)
    (hget : getMaterials (nodes item.node) item.currentMaterials = .ok nm)
    (hP : item.object < s.heap.length) (hkind : (s.heap.obj item.object).kind ≠ .lod)
    (hknown : ∀ st, Child.primitive st ∈ children → st ∈ knownSubtypes)
    (hnone : ∀ id, Child.noderef id ∈ children → s.allObjects.lookup id = none)
    (hmem : ∀ id, Child.noderef id ∈ children → id ∉ objectPrototypeMembers)
    (hproto : item.node ≠ "__proto__") :
    ∃ s', processItem cos sin nodes item s = .ok s' ∧
      s'.stack = (nodes item.node).refs.reverse.map (fun ref =>
          childItem s.heap.length nm
            (if (nodes item.node).castShadows then true else item.castShadow)
            (if (nodes item.node).receiveShadows then true else item.receiveShadow) (ref, 0))
        ++ s.stack ∧
      s'.heap = s.heap.update item.object (appendChildren [s.heap.length]) ++
        ({ name := collapseScene
              (stripTags (s.heap.obj item.object).name ++ item.node ++ "_obj"),
           kind := .group, parent := some item.object,
           children := localRoots (s.heap.length + 1) children, levels := [],
           matrix := transformMatrix cos sin ts * 1 } ::
          localObjs (stripTags (s.heap.obj item.object).name ++ stripTags item.node)
            s.heap.length nm.2
            (if (nodes item.node).castShadows then true else item.castShadow)
            (if (nodes item.node).receiveShadows then true else item.receiveShadow)
            (s.heap.length + 1) children) ∧
      s'.allObjects = (item.node, s.heap.length) :: s.allObjects := by
  obtain ⟨σ', hfold, hheap⟩ := processChildren_heap item.object s.heap.length nm
    (if (nodes item.node).castShadows then true else item.castShadow)
    (if (nodes item.node).receiveShadows then true else item.receiveShadow) children
    { s with heap := s.heap ++ [newObj item.node .group] }
    (by simp; omega) (by simp) hknown hnone hmem
  have hpi : processItem cos sin nodes item s
      = .ok (finishNode cos sin (nodes item.node) item s.heap.length σ') := by
    have hlod : (nodes item.node).isLod = false := by rw [hnode]; rfl
    have hpc : ∀ (a b : Bool) (σ : State K),
        processChildren (nodes item.node) item.object s.heap.length nm a b σ
          = children.foldlM (processChild item.object s.heap.length nm a b) σ := by
      intro a b σ
      rw [hnode]
      rfl
    unfold processItem
    simp only [hget, bind, Except.bind, Heap.alloc, hlod, hpc, pure, Except.pure,
      Bool.false_eq_true, if_false, if_neg hproto]
    rw [hfold]
  refine ⟨_, hpi, ?_, ?_, ?_⟩
  · obtain ⟨nm', hnm', hst, -⟩ := processItem_stack hpi
    rw [hget] at hnm'
    simp only [Except.ok.injEq] at hnm'
    subst hnm'
    rw [hst, uncachedRefs_all _ _ m c r ts children hnode hnone]
    simp [List.map_reverse]
  · have hpn : childParentName (s.heap ++ [(newObj item.node .group : Obj K)]) item.object
        s.heap.length = stripTags (s.heap.obj item.object).name ++ stripTags item.node := by
      simp [childParentName, Heap.obj_append_left _ _ _ hP, Heap.obj_append_zero,
        Heap.obj_cons_zero, newObj]
    simp only [List.length_append, List.length_singleton] at hheap
    rw [hpn, Heap.update_append_zero, Heap.update_cons_zero, List.append_assoc] at hheap
    simp only [finishNode, hheap, hnode, Descriptor.transformations, Descriptor.isLod, transform]
    simp [Heap.update_append_zero, Heap.update_cons_zero, Heap.obj_append_zero,
      Heap.obj_cons_zero, Heap.obj_append_left _ _ _ hP, hkind, applyMatrix4, appendChildren,
      newObj]
    rw [add_append_new _ _ _ hP (by simp [Heap.obj_cons_zero])]
    simp [Heap.update_cons_zero, appendChildren]

  · obtain ⟨nm', -, -, hc⟩ := processItem_stack hpi
    exact hc

end Simulation4
end ObjectLoader

namespace ObjectLoader
section Simulation5
variable {K : Type} [CommRing K]

theorem rounds_succ_cons (cos sin : K → K) (nodes : String → Descriptor K) (k : Nat)
    (s : State K) (item : WorkItem) (rest : List WorkItem) (hst : s.stack = item :: rest) :
    rounds cos sin nodes (k + 1) s
      = (processItem cos sin nodes item { s with stack := rest }).bind
          (rounds cos sin nodes k) := by
  simp only [rounds, hst]
  rfl

theorem rounds_add (cos sin : K → K) (nodes : String → Descriptor K) (a b : Nat) :
    ∀ (s s1 : State K), rounds cos sin nodes a s = .ok s1 →
      rounds cos sin nodes (a + b) s = rounds cos sin nodes b s1 := by
  induction a with
  | zero =>
    intro s s1 h
    simp only [rounds, Except.ok.injEq] at h
    subst h
    simp
  | succ a ih =>
    intro s s1 h
    rw [Nat.add_right_comm]
    cases hst : s.stack with
    | nil =>
      rw [rounds_stack_nil cos sin nodes _ s hst] at h ⊢
      simp only [Except.ok.injEq] at h
      subst h
      exact (rounds_stack_nil cos sin nodes b s hst).symm
    | cons item rest =>
      rw [rounds_succ_cons cos sin nodes _ s item rest hst] at h ⊢
      cases hp : processItem cos sin nodes item { s with stack := rest } with
      | error e => simp [hp, Except.bind] at h
      | ok s' =>
        simp only [hp, Except.bind] at h ⊢
        exact ih s' s1 h

theorem lookup_append_none (x : String) (entries cache : List (String × Nat))
    (hx : ∀ e ∈ entries, e.1 ≠ x) (hc : cache.lookup x = none) :
    (entries ++ cache).lookup x = none := by
  induction entries with
  | nil => simpa using hc
  | cons e es ih =>
    obtain ⟨k, v⟩ := e
    have hk : k ≠ x := hx (k, v) (by simp)
    have hk' : (x == k) = false := by
      simp only [beq_eq_false_iff_ne, ne_eq]
      exact fun h => hk h.symm
    simp only [List.cons_append, List.lookup_cons, hk']
    exact ih (fun e he => hx e (by simp [he]))

theorem mem_unfoldIds_self (nodes : String → Descriptor K) (d : Nat) (x : String)
    (h : PlainTree nodes d x) : x ∈ unfoldIds nodes d x := by
  cases d with
  | zero => exact absurd h (by simp [PlainTree])
  | succ d => simp [unfoldIds]

theorem layoutSeq_nil (f : String → Nat → List (Obj K)) (b : Nat) :
    layoutSeq f b [] = ([], []) := rfl

theorem layoutSeq_cons (f : String → Nat → List (Obj K)) (b : Nat) (c : String)
    (cs : List String) :
    layoutSeq f b (c :: cs)
      = ((f c b) ++ (layoutSeq f (b + (f c b).length) cs).1,
         b :: (layoutSeq f (b + (f c b).length) cs).2) := rfl

theorem simulate_seq (cos sin : K → K) (nodes : String → Descriptor K) (d : Nat)
    (IH : SimulatesAt cos sin nodes d) (n : Nat) (nm : List String × String)
    (cast recv : Bool) (finalName : String) (cs : List String) :
    ∀ (rest : List WorkItem) (t : State K),
      (∀ c ∈ cs, PlainTree nodes d c) → (cs.flatMap (unfoldIds nodes d)).Nodup →
      (∀ x ∈ cs.flatMap (unfoldIds nodes d), t.allObjects.lookup x = none) →
      (∀ x ∈ cs.flatMap (unfoldIds nodes d), x ∉ objectPrototypeMembers) →
      t.stack = cs.map (fun ref => childItem n nm cast recv (ref, 0)) ++ rest →
      n < t.heap.length → (t.heap.obj n).name = finalName → (t.heap.obj n).kind ≠ .lod →
      ∃ t', rounds cos sin nodes ((cs.map (nodeCount nodes d)).sum) t = .ok t' ∧
        t'.stack = rest ∧
        t'.heap = t.heap.update n (appendChildren
            (layoutSeq (fun ref base => built cos sin nodes d
              (childItem n nm cast recv (ref, 0)) finalName base) t.heap.length cs).2)
          ++ (layoutSeq (fun ref base => built cos sin nodes d
              (childItem n nm cast recv (ref, 0)) finalName base) t.heap.length cs).1 ∧
        ∃ entries, t'.allObjects = entries ++ t.allObjects ∧
          ∀ e ∈ entries, e.1 ∈ cs.flatMap (unfoldIds nodes d) := by
  induction cs with
  | nil =>
    intro rest t _ _ _ _ hst _ _ _
    refine ⟨t, rfl, by simpa using hst, ?_, [], rfl, by simp⟩
    simp [layoutSeq_nil, Heap.update_self, appendChildren_nil]
  | cons c cs ih =>
    intro rest t hplain hnodup hnone hmem hst hn hname hkind
    simp only [List.flatMap_cons] at hnodup hnone hmem
    have hnd := List.nodup_append.1 hnodup
    obtain ⟨t1, hr1, hst1, hheap1, entries1, hcache1, hkeys1⟩ :=
      IH (childItem n nm cast recv (c, 0))
        (cs.map (fun ref => childItem n nm cast recv (ref, 0)) ++ rest) t
        (hplain c (by simp)) hnd.1 (fun x hx => hnone x (List.mem_append_left _ hx))
        (fun x hx => hmem x (List.mem_append_left _ hx))
        (getMaterials_some (nodes c) nm.1) (by simpa using hst) hn hkind
    simp only [childItem] at hheap1 hr1 hkeys1
    rw [hname] at hheap1
    have hlen1 : t1.heap.length = t.heap.length +
        (built cos sin nodes d (childItem n nm cast recv (c, 0)) finalName t.heap.length).length := by
      rw [hheap1, List.length_append, Heap.length_update]
      rfl
    have hobj1 : t1.heap.obj n = appendChildren [t.heap.length] (t.heap.obj n) := by
      rw [hheap1, Heap.obj_append_left _ _ _ (by rw [Heap.length_update]; exact hn),
        Heap.obj_update]
      simp [hn]
    obtain ⟨t', hr', hst', hheap', entries', hcache', hkeys'⟩ :=
      ih rest t1 (fun x hx => hplain x (by simp [hx])) hnd.2.1
        (fun x hx => by
          rw [hcache1]
          refine lookup_append_none x entries1 _ ?_ (hnone x (List.mem_append_right _ hx))
          intro e he hex
          exact hnd.2.2 (hkeys1 e he) (hex ▸ hx))
        (fun x hx => hmem x (List.mem_append_right _ hx))
        hst1 (by omega) (by rw [hobj1]; exact hname) (by rw [hobj1]; exact hkind)
    refine ⟨t', ?_, hst', ?_, entries' ++ entries1, ?_, ?_⟩
    · rw [List.map_cons, List.sum_cons, rounds_add cos sin nodes _ _ t t1 hr1]
      exact hr'
    · rw [hheap', hlen1, hheap1,
        Heap.update_append_left _ _ _ _ (by rw [Heap.length_update]; exact hn),
        Heap.update_update, layoutSeq_cons]
      simp only [appendChildren_append, List.append_assoc, List.singleton_append]
      rfl
    · rw [hcache', hcache1, List.append_assoc]
    · intro e he
      simp only [List.flatMap_cons, List.mem_append] at he ⊢
      rcases he with he | he
      · exact Or.inr (hkeys' e he)
      · exact Or.inl (hkeys1 e he)

end Simulation5
end ObjectLoader
namespace ObjectLoader
section Simulation6
variable {K : Type} [CommRing K]

theorem materialsOf_eq (node : Descriptor K) (cm : Option (List String))
    (nm : List String × String) (h : getMaterials node cm = .ok nm) : materialsOf node cm = nm := by
  simp [materialsOf, h]

theorem mem_refs_iff (m : Option (List String)) (c r : Option Bool)
    (ts : List (Transformation K)) (children : List Child) (x : String) :
    x ∈ (Descriptor.node m c r ts children).refs ↔ Child.noderef x ∈ children := by
  simp only [Descriptor.refs, List.mem_filterMap]
  constructor
  · rintro ⟨ch, hch, hsome⟩
    cases ch with
    | primitive st => simp at hsome
    | light ty id => simp at hsome
    | noderef id =>
      simp only [Option.some.injEq] at hsome
      subst hsome
      exact hch
  · intro h
    exact ⟨_, h, rfl⟩

/-- A tree of plain nodes without shared ids is built in as many rounds as it has nodes,
and the objects stored are those of `built`. -/
theorem simulate (cos sin : K → K) (nodes : String → Descriptor K) (d : Nat) :
    SimulatesAt cos sin nodes d := by
  induction d with
  | zero =>
    intro item rest s hplain
    exact absurd hplain (by simp [PlainTree])
  | succ d ih =>
    intro item rest s hplain hnodup hnone hmem hget hst hP hkind
    obtain ⟨⟨m, c, r, ts, children, hnode, hknown⟩, hsub⟩ := hplain
    obtain ⟨nm, hget⟩ := hget
    simp only [unfoldIds, List.nodup_cons] at hnodup
    obtain ⟨hidnotin, hnodup'⟩ := hnodup
    have hrefs : ∀ x, Child.noderef x ∈ children → x ∈ (nodes item.node).refs := by
      intro x hx
      rw [hnode]
      exact (mem_refs_iff m c r ts children x).2 hx
    -- the round of the node itself
    obtain ⟨s1, hp1, hst1, hheap1, hcache1⟩ :=
      processItem_exact cos sin nodes item { s with stack := rest } m c r ts children hnode nm
        hget hP hkind hknown
        (fun x hx => hnone x (by
          simp only [unfoldIds, List.mem_cons, List.mem_flatMap]
          exact Or.inr ⟨x, hrefs x hx, mem_unfoldIds_self nodes d x (hsub x (hrefs x hx))⟩))
        (fun x hx => hmem x (by
          simp only [unfoldIds, List.mem_cons, List.mem_flatMap]
          exact Or.inr ⟨x, hrefs x hx, mem_unfoldIds_self nodes d x (hsub x (hrefs x hx))⟩))
        (fun hp => hmem item.node (by simp [unfoldIds]) (by rw [hp]; decide))
    simp only at hst1 hheap1 hcache1
    -- the rounds of the subtrees
    have hperm : ((nodes item.node).refs.reverse.flatMap (unfoldIds nodes d)).Perm
        ((nodes item.node).refs.flatMap (unfoldIds nodes d)) :=
      List.Perm.flatMap_right _ (List.reverse_perm _)
    have hlen1 : s1.heap.length = s.heap.length + 1 +
        (localObjs (stripTags (s.heap.obj item.object).name ++ stripTags item.node)
          s.heap.length nm.2
          (if (nodes item.node).castShadows then true else item.castShadow)
          (if (nodes item.node).receiveShadows then true else item.receiveShadow)
          (s.heap.length + 1) children : List (Obj K)).length := by
      rw [hheap1, List.length_append, Heap.length_update, List.length_cons]
      omega
    have hobjn : s1.heap.obj s.heap.length =
        { name := collapseScene (stripTags (s.heap.obj item.object).name ++ item.node ++ "_obj"),
          kind := .group, parent := some item.object,
          children := localRoots (s.heap.length + 1) children, levels := [],
          matrix := transformMatrix cos sin ts * 1 } := by
      rw [hheap1]
      have := Heap.obj_append_zero (s.heap.update item.object (appendChildren [s.heap.length]))
        ({ name := collapseScene (stripTags (s.heap.obj item.object).name ++ item.node ++ "_obj"),
           kind := .group, parent := some item.object,
           children := localRoots (s.heap.length + 1) children, levels := [],
           matrix := transformMatrix cos sin ts * 1 } ::
          localObjs (stripTags (s.heap.obj item.object).name ++ stripTags item.node)
            s.heap.length nm.2
            (if (nodes item.node).castShadows then true else item.castShadow)
            (if (nodes item.node).receiveShadows then true else item.receiveShadow)
            (s.heap.length + 1) children)
      rw [Heap.length_update] at this
      rw [this, Heap.obj_cons_zero]
    obtain ⟨s', hr', hst', hheap', entries, hcache', hkeys⟩ :=
      simulate_seq cos sin nodes d ih s.heap.length nm
        (if (nodes item.node).castShadows then true else item.castShadow)
        (if (nodes item.node).receiveShadows then true else item.receiveShadow)
        (collapseScene (stripTags (s.heap.obj item.object).name ++ item.node ++ "_obj"))
        (nodes item.node).refs.reverse rest s1
        (fun x hx => hsub x (List.mem_reverse.1 hx))
        (hperm.nodup_iff.2 hnodup')
        (fun x hx => by
          have hx' := hperm.mem_iff.1 hx
          rw [hcache1, List.lookup_cons]
          have hne : (x == item.node) = false := by
            simp only [beq_eq_false_iff_ne, ne_eq]
            rintro rfl
            exact hidnotin hx'
          simp only [hne]
          exact hnone x (by simp only [unfoldIds, List.mem_cons]; exact Or.inr hx'))
        (fun x hx => hmem x (by
          simp only [unfoldIds, List.mem_cons]; exact Or.inr (hperm.mem_iff.1 hx)))
        hst1 (by omega) (by rw [hobjn]) (by rw [hobjn]; simp)
    refine ⟨s', ?_, hst', ?_, entries ++ [(item.node, s.heap.length)], ?_, ?_⟩
    · have h1 : rounds cos sin nodes 1 s = .ok s1 := by
        rw [rounds_succ_cons cos sin nodes 0 s item rest hst, hp1]
        rfl
      have hsum : nodeCount nodes (d + 1) item.node
          = 1 + ((nodes item.node).refs.reverse.map (nodeCount nodes d)).sum := by
        simp [nodeCount, List.map_reverse, List.sum_reverse]
      rw [hsum, rounds_add cos sin nodes 1 _ s s1 h1]
      exact hr'
    · rw [hheap', hlen1, hheap1]
      have hupd := Heap.update_append_zero
        (s.heap.update item.object (appendChildren [s.heap.length]))
        ({ name := collapseScene (stripTags (s.heap.obj item.object).name ++ item.node ++ "_obj"),
           kind := .group, parent := some item.object,
           children := localRoots (s.heap.length + 1) children, levels := [],
           matrix := transformMatrix cos sin ts * 1 } ::
          localObjs (stripTags (s.heap.obj item.object).name ++ stripTags item.node)
            s.heap.length nm.2
            (if (nodes item.node).castShadows then true else item.castShadow)
            (if (nodes item.node).receiveShadows then true else item.receiveShadow)
            (s.heap.length + 1) children)
      rw [Heap.length_update] at hupd
      rw [hupd, Heap.update_cons_zero]
      simp only [built, hnode, materialsOf_eq _ _ _ hget, List.append_assoc, List.cons_append,
        appendChildren]
      rw [← hnode, materialsOf_eq _ _ _ hget]
    · rw [hcache', hcache1]
      simp
    · intro e he
      simp only [List.mem_append, List.mem_singleton] at he
      simp only [unfoldIds, List.mem_cons]
      rcases he with he | rfl
      · exact Or.inr (hperm.mem_iff.1 (hkeys e he))
      · exact Or.inl rfl

end Simulation6
end ObjectLoader
namespace ObjectLoader
section Simulation7
variable {K : Type} [CommRing K]

/-- For a tree of plain nodes without shared ids, none of them the name of a member of
`Object.prototype`, whose root declares a material list, `parseNode` returns the scene
`builtScene` as soon as its budget covers one round for every node. -/
theorem parseNode_plainTree (cos sin : K → K) (nodes : String → Descriptor K) (rootId : String)
    (d fuel : Nat) (ms : List String) (hplain : PlainTree nodes d rootId)
    (hnodup : (unfoldIds nodes d rootId).Nodup)
    (hmem : ∀ x ∈ unfoldIds nodes d rootId, x ∉ objectPrototypeMembers)
    (hroot : (nodes rootId).materialIds = some ms) (hfuel : nodeCount nodes d rootId ≤ fuel) :
    parseNode cos sin nodes rootId fuel = .ok (builtScene cos sin nodes rootId d) := by
  obtain ⟨s', hr, hst, hheap, -⟩ := simulate cos sin nodes d
    { node := rootId, object := 0, currentMaterials := (nodes rootId).materialIds,
      castShadow := (nodes rootId).castShadows, receiveShadow := (nodes rootId).receiveShadows,
      dist := 0 } [] (initialState nodes rootId) hplain hnodup (fun x _ => rfl) hmem
    ⟨_, getMaterials_root nodes rootId ms hroot⟩ rfl (by simp [initialState])
    (by simp [initialState, Heap.obj, newObj])
  obtain ⟨extra, rfl⟩ := Nat.exists_eq_add_of_le hfuel
  have hrounds : rounds cos sin nodes (nodeCount nodes d rootId + extra)
      (initialState nodes rootId) = .ok s' := by
    rw [rounds_add cos sin nodes _ _ _ s' hr]
    exact rounds_stack_nil cos sin nodes extra s' hst
  simp only [parseNode, loop, hrounds, bind, Except.bind, hst, List.isEmpty_nil, if_true, pure,
    Except.pure, Except.map, hheap]
  simp [initialState, builtScene, Heap.update, appendChildren, Heap.obj, newObj]

end Simulation7
end ObjectLoader

namespace ObjectLoader

theorem stripTagsGo_clean (w : List Char) (h1 : ¬ "_obj".toList <:+: w)
    (h2 : ¬ "_lod".toList <:+: w) : stripTagsGo 0 w = w := by
  induction w with
  | nil => rfl
  | cons c w ih =>
    have t1 : "_obj".toList.isPrefixOf (c :: w) = false := by
      rw [Bool.eq_false_iff]; intro h
      exact h1 (List.isPrefixOf_iff_prefix.1 h).isInfix
    have t2 : "_lod".toList.isPrefixOf (c :: w) = false := by
      rw [Bool.eq_false_iff]; intro h
      exact h2 (List.isPrefixOf_iff_prefix.1 h).isInfix
    rw [stripTagsGo, t1, t2]
    simp only [Bool.or_self, Bool.false_eq_true, if_false]
    rw [ih (fun h => h1 (List.infix_cons h)) (fun h => h2 (List.infix_cons h))]

theorem stripTagsGo_segment (w y : List Char) (h1 : ¬ "_obj".toList <:+: w)
    (h2 : ¬ "_lod".toList <:+: w) :
    stripTagsGo 0 (w ++ '_' :: y) = w ++ stripTagsGo 0 ('_' :: y) := by
  induction w with
  | nil => rfl
  | cons c w ih =>
    have t1 : "_obj".toList.isPrefixOf (c :: (w ++ '_' :: y)) = false := by
      rw [Bool.eq_false_iff]; intro h
      rcases w with _ | ⟨a, _ | ⟨b, _ | ⟨e, w⟩⟩⟩
      · simp [List.isPrefixOf] at h
      · simp [List.isPrefixOf] at h
      · simp [List.isPrefixOf] at h
      · apply h1
        simp [List.isPrefixOf] at h
        obtain ⟨rfl, rfl, rfl, rfl⟩ := h
        exact (List.prefix_append "_obj".toList w).isInfix
    have t2 : "_lod".toList.isPrefixOf (c :: (w ++ '_' :: y)) = false := by
      rw [Bool.eq_false_iff]; intro h
      rcases w with _ | ⟨a, _ | ⟨b, _ | ⟨e, w⟩⟩⟩
      · simp [List.isPrefixOf] at h
      · simp [List.isPrefixOf] at h
      · simp [List.isPrefixOf] at h
      · apply h2
        simp [List.isPrefixOf] at h
        obtain ⟨rfl, rfl, rfl, rfl⟩ := h
        exact (List.prefix_append "_lod".toList w).isInfix
    rw [List.cons_append, stripTagsGo, t1, t2]
    simp only [Bool.or_self, Bool.false_eq_true, if_false]
    rw [ih (fun h => h1 (List.infix_cons h)) (fun h => h2 (List.infix_cons h))]
    rfl

theorem stripTagsGo_underscore (w y : List Char) (h1 : ¬ "obj".toList <+: w)
    (h2 : ¬ "lod".toList <+: w) :
    stripTagsGo 0 ('_' :: (w ++ '_' :: y)) = '_' :: stripTagsGo 0 (w ++ '_' :: y) := by
  have t1 : "_obj".toList.isPrefixOf ('_' :: (w ++ '_' :: y)) = false := by
    rw [Bool.eq_false_iff]; intro h
    rcases w with _ | ⟨a, _ | ⟨b, _ | ⟨e, w⟩⟩⟩
    · simp [List.isPrefixOf] at h
    · simp [List.isPrefixOf] at h
    · simp [List.isPrefixOf] at h
    · apply h1
      simp [List.isPrefixOf] at h
      obtain ⟨rfl, rfl, rfl⟩ := h
      exact List.prefix_append "obj".toList w
  have t2 : "_lod".toList.isPrefixOf ('_' :: (w ++ '_' :: y)) = false := by
    rw [Bool.eq_false_iff]; intro h
    rcases w with _ | ⟨a, _ | ⟨b, _ | ⟨e, w⟩⟩⟩
    · simp [List.isPrefixOf] at h
    · simp [List.isPrefixOf] at h
    · simp [List.isPrefixOf] at h
    · apply h2
      simp [List.isPrefixOf] at h
      obtain ⟨rfl, rfl, rfl⟩ := h
      exact List.prefix_append "lod".toList w
  rw [stripTagsGo, t1, t2]
  simp only [Bool.or_self, Bool.false_eq_true, if_false]

theorem stripTags_clean (id : String) (h : CleanId id) : stripTags id = id := by
  apply String.ext
  exact stripTagsGo_clean id.data h.1 h.2.1

end ObjectLoader
namespace ObjectLoader

theorem pathName_snoc (p : List String) (c : String) (hp : p ≠ []) :
    pathName (p ++ [c]) = pathName p ++ "_" ++ c := by
  cases p with
  | nil => exact absurd rfl hp
  | cons r rest => simp [pathName, List.foldl_append]

theorem stripTagsGo_fold (rest : List String) (hrest : ∀ x ∈ rest, CleanId x) (acc : String)
    (hacc : ∀ y, stripTagsGo 0 (acc.data ++ '_' :: y) = acc.data ++ stripTagsGo 0 ('_' :: y))
    (y : List Char) :
    stripTagsGo 0 ((rest.foldl (fun acc c => acc ++ "_" ++ c) acc).data ++ '_' :: y)
      = (rest.foldl (fun acc c => acc ++ "_" ++ c) acc).data ++ stripTagsGo 0 ('_' :: y) := by
  induction rest generalizing acc y with
  | nil => exact hacc y
  | cons c rest ih =>
    have hc : CleanId c := hrest c (List.mem_cons_self _ _)
    refine ih (fun x hx => hrest x (List.mem_cons_of_mem _ hx)) (acc ++ "_" ++ c) ?_ y
    intro z
    have e : (acc ++ "_" ++ c).data ++ '_' :: z = acc.data ++ '_' :: (c.data ++ '_' :: z) := by
      simp [String.data_append]
    have e2 : (acc ++ "_" ++ c).data = acc.data ++ '_' :: c.data := by
      simp [String.data_append]
    rw [e, hacc, stripTagsGo_underscore _ _ hc.2.2.1 hc.2.2.2,
      stripTagsGo_segment _ _ hc.1 hc.2.1, e2]
    simp

/-- For a path of clean ids, `stripTags` turns the final name `pathName p ++ "_obj"` of a
node into `pathName p ++ "_"`. -/
theorem stripTags_pathName (p : List String) (hp : p ≠ []) (hclean : ∀ x ∈ p, CleanId x) :
    stripTags (pathName p ++ "_obj") = pathName p ++ "_" := by
  cases p with
  | nil => exact absurd rfl hp
  | cons r rest =>
    have hr : CleanId r := hclean r (List.mem_cons_self _ _)
    have key := stripTagsGo_fold rest (fun x hx => hclean x (List.mem_cons_of_mem _ hx)) r
      (fun y => stripTagsGo_segment _ _ hr.1 hr.2.1) "obj".toList
    apply String.ext
    have e : (pathName (r :: rest) ++ "_obj").data
        = (rest.foldl (fun acc c => acc ++ "_" ++ c) r).data ++ '_' :: "obj".toList := by
      simp [pathName, String.data_append]
    rw [stripTags, e]
    show stripTagsGo 0 _ = _
    rw [key]
    simp [pathName, String.data_append]
    rfl

theorem fold_starts_scene (rest : List String) (acc : String)
    (hacc : ∀ z, ∃ w, acc.data ++ '_' :: z = "scene_".toList ++ w) (z : List Char) :
    ∃ w, (rest.foldl (fun acc c => acc ++ "_" ++ c) acc).data ++ '_' :: z
      = "scene_".toList ++ w := by
  induction rest generalizing acc z with
  | nil => exact hacc z
  | cons c rest ih =>
    refine ih (acc ++ "_" ++ c) ?_ z
    intro z
    obtain ⟨w, hw⟩ := hacc (c.data ++ '_' :: z)
    exact ⟨w, by rw [← hw]; simp [String.data_append]⟩

/-- A name that continues an encoded path from the root `scene` with an underscore is left
alone by `collapseScene`. -/
theorem collapseScene_pathName (rest : List String) (s : String) :
    collapseScene (pathName ("scene" :: rest) ++ "_" ++ s)
      = pathName ("scene" :: rest) ++ "_" ++ s := by
  obtain ⟨w, hw⟩ := fold_starts_scene rest "scene" (fun z => ⟨z, rfl⟩) s.data
  have e : (pathName ("scene" :: rest) ++ "_" ++ s).data = "scene_".toList ++ w := by
    rw [← hw]; simp [pathName, String.data_append]
  unfold collapseScene
  rw [e]
  simp [List.isPrefixOf]

theorem collapseScene_root (s : String) :
    collapseScene ("scenescene" ++ s) = "scene" ++ s := by
  apply String.ext
  unfold collapseScene
  simp [String.data_append, List.isPrefixOf]
  

end ObjectLoader
namespace ObjectLoader
section PathNames
variable {K : Type} [CommRing K]

theorem layoutSeq_mem (f : String → Nat → List (Obj K)) (c : String) :
    ∀ (cs : List String) (b : Nat), c ∈ cs →
      ∃ pre post, (layoutSeq f b cs).1 = pre ++ f c (b + pre.length) ++ post ∧
        b + pre.length ∈ (layoutSeq f b cs).2 := by
  intro cs
  induction cs with
  | nil => intro b h; simp at h
  | cons x cs ih =>
    intro b h
    rw [layoutSeq_cons]
    rcases List.mem_cons.1 h with rfl | h
    · exact ⟨[], (layoutSeq f (b + (f c b).length) cs).1, by simp, by simp⟩
    · obtain ⟨pre, post, h1, h2⟩ := ih (b + (f x b).length) h
      refine ⟨f x b ++ pre, post, ?_, ?_⟩
      · simp only [h1, List.length_append, List.append_assoc, Nat.add_assoc]
      · simp only [List.length_append, ← Nat.add_assoc]
        exact List.mem_cons_of_mem _ h2

theorem localObjs_primitive (pn : String) (ret : Nat) (m : String) (c r : Bool) (t : String) :
    ∀ (cs : List Child) (b : Nat), Child.primitive t ∈ cs →
      ∃ pre post, (localObjs pn ret m c r b cs : List (Obj K))
          = pre ++ { name := collapseScene (pn ++ "_" ++ (t ++ "_obj")),
                     kind := .mesh t m c r, parent := some ret, children := [], levels := [],
                     matrix := 1 } :: post ∧
        b + pre.length ∈ localRoots b cs := by
  intro cs
  induction cs with
  | nil => intro b h; simp at h
  | cons x cs ih =>
    intro b h
    rcases List.mem_cons.1 h with rfl | h
    · exact ⟨[], localObjs pn ret m c r (b + childSize (Child.primitive t)) cs,
        by simp [localObjs, childObjs], by simp [localRoots]⟩
    · obtain ⟨pre, post, h1, h2⟩ := ih (b + childSize x) h
      refine ⟨childObjs pn ret m c r b x ++ pre, post, ?_, ?_⟩
      · simp only [localObjs, h1, List.append_assoc]
      · rw [List.length_append, childObjs_length, ← Nat.add_assoc]
        cases x with
        | noderef id => simpa [localRoots, childSize] using h2
        | primitive st => exact List.mem_cons_of_mem _ h2
        | light ty id => exact List.mem_cons_of_mem _ h2

/-- The objects of a plain node: its group first, then the objects of its primitives and
lights, then the subtrees of its references. -/
theorem built_succ (cos sin : K → K) (nodes : String → Descriptor K) (e : Nat)
    (item : WorkItem) (pname : String) (n : Nat) (m : Option (List String))
    (c r : Option Bool) (ts : List (Transformation K)) (children : List Child)
    (hnode : nodes item.node = .node m c r ts children) :
    ∃ (nm : List String × String) (cs rs : Bool),
      built cos sin nodes (e + 1) item pname n
        = { name := collapseScene (stripTags pname ++ item.node ++ "_obj"), kind := .group,
            parent := some item.object,
            children := localRoots (n + 1) children ++
              (layoutSeq (fun ref base => built cos sin nodes e (childItem n nm cs rs (ref, 0))
                  (collapseScene (stripTags pname ++ item.node ++ "_obj")) base)
                (n + 1 + (localObjs (stripTags pname ++ stripTags item.node) n nm.2 cs rs
                  (n + 1) children : List (Obj K)).length)
                (nodes item.node).refs.reverse).2,
            levels := [], matrix := transformMatrix cos sin ts * 1 } ::
          (localObjs (stripTags pname ++ stripTags item.node) n nm.2 cs rs (n + 1) children ++
            (layoutSeq (fun ref base => built cos sin nodes e (childItem n nm cs rs (ref, 0))
                (collapseScene (stripTags pname ++ item.node ++ "_obj")) base)
              (n + 1 + (localObjs (stripTags pname ++ stripTags item.node) n nm.2 cs rs
                (n + 1) children : List (Obj K)).length)
              (nodes item.node).refs.reverse).1) := by
  refine ⟨materialsOf (nodes item.node) item.currentMaterials,
    if (nodes item.node).castShadows then true else item.castShadow,
    if (nodes item.node).receiveShadows then true else item.receiveShadow, ?_⟩
  simp only [built]
  split
  · rename_i heq
    rw [hnode] at heq
    cases heq
  · rename_i heq
    have heq2 := heq
    rw [hnode] at heq2
    cases heq2
    rfl

end PathNames
end ObjectLoader
namespace ObjectLoader
section PathNames2
variable {K : Type} [CommRing K]

theorem isPath_init {nodes : String → Descriptor K} {rootId : String} (q : List String)
    (c : String) (hq : q ≠ []) (h : IsPath nodes rootId (q ++ [c])) :
    IsPath nodes rootId q ∧ ∃ a, q.getLast? = some a ∧ c ∈ (nodes a).refs := by
  obtain ⟨hh, hc⟩ := h
  rw [List.chain'_append] at hc
  obtain ⟨hc1, -, hc3⟩ := hc
  refine ⟨⟨?_, hc1⟩, q.getLast hq, List.getLast?_eq_getLast _ hq, ?_⟩
  · cases q with
    | nil => exact absurd rfl hq
    | cons x xs => simpa using hh
  · exact hc3 _ (by simp [List.getLast?_eq_getLast _ hq]) c (by simp)

theorem located_group (cos sin : K → K) (nodes : String → Descriptor K) (e : Nat)
    (item : WorkItem) (pname : String) (h pre post : List (Obj K))
    (hh : h = pre ++ built cos sin nodes e item pname pre.length ++ post)
    (hplain : PlainTree nodes e item.node) :
    (Heap.obj h pre.length).kind = .group ∧
      (Heap.obj h pre.length).name = collapseScene (stripTags pname ++ item.node ++ "_obj") := by
  cases e with
  | zero => exact absurd hplain (by simp [PlainTree])
  | succ e =>
    obtain ⟨⟨m, c, r, ts, children, hnode, -⟩, -⟩ := hplain
    obtain ⟨nm, cs, rs, hb⟩ := built_succ cos sin nodes e item pname pre.length m c r ts
      children hnode
    rw [hb] at hh
    rw [hh, List.append_assoc, List.cons_append, Heap.obj_append_length]
    exact ⟨rfl, rfl⟩

end PathNames2
end ObjectLoader
namespace ObjectLoader
section PathNames3
variable {K : Type} [CommRing K]

/-- Along every path of a tree of plain nodes with clean ids and root `scene`, the scene
holds the objects of the last node of the path as one block, whose group is reached along
the path and named after it. -/
theorem path_located (cos sin : K → K) (nodes : String → Descriptor K) (d : Nat)
    (hplain : PlainTree nodes d "scene")
    (hclean : ∀ x ∈ unfoldIds nodes d "scene", CleanId x) (p : List String)
    (hp : IsPath nodes "scene" p) :
    ∃ (e : Nat) (item : WorkItem) (pname : String) (pre post : List (Obj K)),
      NodeAt (builtScene cos sin nodes "scene" d) p pre.length ∧
      builtScene cos sin nodes "scene" d
        = pre ++ built cos sin nodes e item pname pre.length ++ post ∧
      PlainTree nodes e item.node ∧
      (∀ x ∈ unfoldIds nodes e item.node, CleanId x) ∧
      p.getLast? = some item.node ∧ (∀ x ∈ p, CleanId x) ∧
      collapseScene (stripTags pname ++ item.node ++ "_obj") = pathName p ++ "_obj" ∧
      ∀ s, collapseScene (stripTags pname ++ stripTags item.node ++ "_" ++ s)
        = pathName p ++ "_" ++ s := by
  induction p using List.reverseRecOn with
  | nil => exact absurd hp.1 (by simp)
  | append_singleton q c ih =>
    by_cases hq : q = []
    · subst hq
      have hc : c = "scene" := by simpa using hp.1
      subst hc
      have hscene : builtScene cos sin nodes "scene" d
          = [{ (newObj "scene" .group : Obj K) with children := [1] }] ++
            built cos sin nodes d
              { node := "scene", object := 0, currentMaterials := (nodes "scene").materialIds,
                castShadow := (nodes "scene").castShadows,
                receiveShadow := (nodes "scene").receiveShadows, dist := 0 } "scene"
              ([{ (newObj "scene" .group : Obj K) with children := [1] }] : List (Obj K)).length
            ++ [] := by
        simp [builtScene]
      have hname : collapseScene (stripTags "scene" ++ "scene" ++ "_obj") = "scene_obj" := by
        decide
      obtain ⟨hk, hn⟩ := located_group cos sin nodes d _ "scene" _ _ _ hscene hplain
      refine ⟨d, _, "scene", _, [], ?_, hscene, hplain, hclean, by simp, ?_, ?_, ?_⟩
      · refine NodeAt.root "scene" _ ?_ hk ?_
        · simp [builtScene, Heap.obj]
        · rw [hn]
          exact hname
      · intro x hx
        simp only [List.nil_append, List.mem_singleton] at hx
        subst hx
        exact hclean _ (mem_unfoldIds_self nodes d "scene" hplain)
      · exact hname
      · intro s
        have e : stripTags "scene" ++ stripTags "scene" ++ "_" ++ s
            = "scenescene" ++ ("_" ++ s) := by
          have : stripTags "scene" = "scene" := by decide
          rw [this, String.append_assoc, String.append_assoc]
          rfl
        rw [e, collapseScene_root, ← String.append_assoc]
        rfl
    · obtain ⟨hpq, a, hlast, hca⟩ := isPath_init q c hq hp
      obtain ⟨e, item, pname, pre, post, hat, hheap, hpl, hcl, hl, hqclean, hfin, hprim⟩ :=
        ih hpq
      have ha : a = item.node := by
        rw [hlast] at hl
        exact Option.some.inj hl
      subst ha
      cases e with
      | zero => exact absurd hpl (by simp [PlainTree])
      | succ e =>
        obtain ⟨⟨m, cc, r, ts, children, hnode, -⟩, hsub⟩ := hpl
        obtain ⟨nm, cs, rs, hb⟩ := built_succ cos sin nodes e item pname pre.length m cc r ts
          children hnode
        obtain ⟨pre2, post2, hseq, hmem⟩ := layoutSeq_mem
          (fun ref base => built cos sin nodes e (childItem pre.length nm cs rs (ref, 0))
            (collapseScene (stripTags pname ++ item.node ++ "_obj")) base) c
          (nodes item.node).refs.reverse
          (pre.length + 1 + (localObjs (stripTags pname ++ stripTags item.node) pre.length nm.2
            cs rs (pre.length + 1) children : List (Obj K)).length)
          (List.mem_reverse.2 hca)
        have hqhead : ∃ rest, q = "scene" :: rest := by
          cases q with
          | nil => exact absurd rfl hq
          | cons x xs =>
            have := hpq.1
            simp only [List.head?_cons, Option.some.injEq] at this
            exact ⟨xs, by rw [this]⟩
        obtain ⟨rest, hrest⟩ := hqhead
        have hcclean : CleanId c := by
          apply hcl
          simp only [unfoldIds, List.mem_cons, List.mem_flatMap]
          exact Or.inr ⟨c, hca, mem_unfoldIds_self nodes e c (hsub c hca)⟩
        have hpname : pathName (q ++ [c]) = pathName q ++ "_" ++ c := pathName_snoc q c hq
        have hstrip : stripTags (collapseScene (stripTags pname ++ item.node ++ "_obj"))
            = pathName q ++ "_" := by
          rw [hfin]
          exact stripTags_pathName q hq hqclean
        have hname : collapseScene
            (stripTags (collapseScene (stripTags pname ++ item.node ++ "_obj")) ++ c ++ "_obj")
            = pathName (q ++ [c]) ++ "_obj" := by
          rw [hstrip, hpname, hrest, String.append_assoc (pathName ("scene" :: rest) ++ "_")]
          exact collapseScene_pathName rest (c ++ "_obj")
        obtain ⟨R, hRc, hb⟩ : ∃ R : Obj K,
            R.children = localRoots (pre.length + 1) children ++
              (layoutSeq (fun ref base => built cos sin nodes e
                  (childItem pre.length nm cs rs (ref, 0))
                  (collapseScene (stripTags pname ++ item.node ++ "_obj")) base)
                (pre.length + 1 + (localObjs (stripTags pname ++ stripTags item.node)
                  pre.length nm.2 cs rs (pre.length + 1) children : List (Obj K)).length)
                (nodes item.node).refs.reverse).2 ∧
            built cos sin nodes (e + 1) item pname pre.length
              = R :: (localObjs (stripTags pname ++ stripTags item.node) pre.length nm.2 cs rs
                  (pre.length + 1) children ++
                (layoutSeq (fun ref base => built cos sin nodes e
                    (childItem pre.length nm cs rs (ref, 0))
                    (collapseScene (stripTags pname ++ item.node ++ "_obj")) base)
                  (pre.length + 1 + (localObjs (stripTags pname ++ stripTags item.node)
                    pre.length nm.2 cs rs (pre.length + 1) children : List (Obj K)).length)
                  (nodes item.node).refs.reverse).1) := ⟨_, rfl, hb⟩
        have hobj : (builtScene cos sin nodes "scene" d : List (Obj K)).obj pre.length = R := by
          rw [hheap, hb, List.append_assoc, List.cons_append, Heap.obj_append_length]
        have hlen2 : (pre ++ R ::
              (localObjs (stripTags pname ++ stripTags item.node) pre.length nm.2 cs rs
                (pre.length + 1) children ++ pre2)).length
            = pre.length + 1 + (localObjs (stripTags pname ++ stripTags item.node) pre.length
                nm.2 cs rs (pre.length + 1) children : List (Obj K)).length + pre2.length := by
          simp only [List.length_append, List.length_cons]
          omega
        have hheap2 : builtScene cos sin nodes "scene" d
            = (pre ++ R ::
                (localObjs (stripTags pname ++ stripTags item.node) pre.length nm.2 cs rs
                  (pre.length + 1) children ++ pre2)) ++
              built cos sin nodes e (childItem pre.length nm cs rs (c, 0))
                (collapseScene (stripTags pname ++ item.node ++ "_obj"))
                (pre ++ R ::
                  (localObjs (stripTags pname ++ stripTags item.node) pre.length nm.2 cs rs
                    (pre.length + 1) children ++ pre2)).length
              ++ (post2 ++ post) := by
          rw [hlen2]
          conv_lhs => rw [hheap, hb, hseq]
          simp only [List.append_assoc, List.cons_append]
        obtain ⟨hk, hn⟩ := located_group cos sin nodes e (childItem pre.length nm cs rs (c, 0))
          (collapseScene (stripTags pname ++ item.node ++ "_obj")) _ _ _ hheap2 (hsub c hca)
        refine ⟨e, childItem pre.length nm cs rs (c, 0),
          collapseScene (stripTags pname ++ item.node ++ "_obj"), _, post2 ++ post,
          ?_, hheap2, hsub c hca, ?_, by simp [childItem], ?_, hname, ?_⟩
        · refine NodeAt.child q c pre.length _ hat ?_ hk ?_
          · rw [hobj, hRc, hlen2]
            exact List.mem_append_right _ hmem
          · rw [hn]
            exact hname
        · intro x hx
          apply hcl
          simp only [unfoldIds, List.mem_cons, List.mem_flatMap]
          exact Or.inr ⟨c, hca, hx⟩
        · intro x hx
          rcases List.mem_append.1 hx with hx | hx
          · exact hqclean x hx
          · simp only [List.mem_singleton] at hx
            subst hx
            exact hcclean
        · intro s
          show collapseScene
            (stripTags (collapseScene (stripTags pname ++ item.node ++ "_obj")) ++ stripTags c
              ++ "_" ++ s) = _
          rw [hstrip, stripTags_clean c hcclean, ← hpname]
          have : q ++ [c] = "scene" :: (rest ++ [c]) := by rw [hrest]; rfl
          rw [this]
          exact collapseScene_pathName (rest ++ [c]) s

end PathNames3
end ObjectLoader
namespace ObjectLoader
section PathNames4
variable {K : Type} [CommRing K]

/-- C7 (amended): for a tree of plain nodes without shared ids, with root id `scene`, a
material list declared at the root, primitives of known subtypes and ids that contain
neither `_obj` nor `_lod`, do not start with `obj` or `lod`, and are not names of
members of `Object.prototype` (such as `constructor` or `toString`, which the cache
`allObjects`, a plain object, inherits), the loader returns a scene in which the node
reached by an id path `p` from the root is a group named `pathName p ++ "_obj"`
(`scene_obj` for the root), and every primitive of subtype `t` directly under it is a
mesh child named `pathName p ++ "_" ++ t ++ "_obj"`. -/
theorem path_names (cos sin : K → K) (nodes : String → Descriptor K) (d fuel : Nat)
    (ms : List String) (hplain : PlainTree nodes d "scene")
    (hnodup : (unfoldIds nodes d "scene").Nodup)
    (hroot : (nodes "scene").materialIds = some ms)
    (hclean : ∀ x ∈ unfoldIds nodes d "scene", CleanId x)
    (hmem : ∀ x ∈ unfoldIds nodes d "scene", x ∉ objectPrototypeMembers)
    (hfuel : nodeCount nodes d "scene" ≤ fuel) :
    ∃ h, parseNode cos sin nodes "scene" fuel = .ok h ∧
      ∀ (p : List String) (last : String), IsPath nodes "scene" p → p.getLast? = some last →
        ∃ i, NodeAt h p i ∧ (h.obj i).kind = .group ∧ (h.obj i).name = pathName p ++ "_obj" ∧
          ∀ m c r ts children, nodes last = .node m c r ts children →
            ∀ t, Child.primitive t ∈ children →
              ∃ j ∈ (h.obj i).children, (∃ mat cs rs, (h.obj j).kind = .mesh t mat cs rs) ∧
                (h.obj j).parent = some i ∧
                (h.obj j).name = pathName p ++ "_" ++ t ++ "_obj" := by
  refine ⟨_, parseNode_plainTree cos sin nodes "scene" d fuel ms hplain hnodup hmem hroot hfuel,
    ?_⟩
  intro p last hp hlast
  obtain ⟨e, item, pname, pre, post, hat, hheap, hpl, -, hl, -, hfin, hprim⟩ :=
    path_located cos sin nodes d hplain hclean p hp
  have hitem : last = item.node := by
    rw [hlast] at hl
    exact Option.some.inj hl
  subst hitem
  obtain ⟨hk, hn⟩ := located_group cos sin nodes e item pname _ pre post hheap hpl
  refine ⟨pre.length, hat, hk, hn.trans hfin, ?_⟩
  intro m c r ts children hnode t ht
  cases e with
  | zero => exact absurd hpl (by simp [PlainTree])
  | succ e =>
    obtain ⟨nm, cs, rs, hb⟩ := built_succ cos sin nodes e item pname pre.length m c r ts
      children hnode
    obtain ⟨pre3, post3, hloc, hmem⟩ := @localObjs_primitive K _
      (stripTags pname ++ stripTags item.node) pre.length nm.2 cs rs t children
      (pre.length + 1) ht
    obtain ⟨R, hRc, hb⟩ : ∃ R : Obj K,
        R.children = localRoots (pre.length + 1) children ++
          (layoutSeq (fun ref base => built cos sin nodes e
              (childItem pre.length nm cs rs (ref, 0))
              (collapseScene (stripTags pname ++ item.node ++ "_obj")) base)
            (pre.length + 1 + (localObjs (stripTags pname ++ stripTags item.node)
              pre.length nm.2 cs rs (pre.length + 1) children : List (Obj K)).length)
            (nodes item.node).refs.reverse).2 ∧
        built cos sin nodes (e + 1) item pname pre.length
          = R :: (localObjs (stripTags pname ++ stripTags item.node) pre.length nm.2 cs rs
              (pre.length + 1) children ++
            (layoutSeq (fun ref base => built cos sin nodes e
                (childItem pre.length nm cs rs (ref, 0))
                (collapseScene (stripTags pname ++ item.node ++ "_obj")) base)
              (pre.length + 1 + (localObjs (stripTags pname ++ stripTags item.node)
                pre.length nm.2 cs rs (pre.length + 1) children : List (Obj K)).length)
              (nodes item.node).refs.reverse).1) := ⟨_, rfl, hb⟩
    have hobj : (builtScene cos sin nodes "scene" d : List (Obj K)).obj pre.length = R := by
      rw [hheap, hb, List.append_assoc, List.cons_append, Heap.obj_append_length]
    have hlen : (pre ++ R :: pre3).length = pre.length + 1 + pre3.length := by
      simp only [List.length_append, List.length_cons]
      omega
    have hmesh : (builtScene cos sin nodes "scene" d : List (Obj K)).obj
          (pre.length + 1 + pre3.length)
        = { name := collapseScene (stripTags pname ++ stripTags item.node ++ "_" ++
              (t ++ "_obj")),
            kind := .mesh t nm.2 cs rs, parent := some pre.length, children := [],
            levels := [], matrix := 1 } := by
      rw [← hlen]
      conv_lhs => rw [hheap, hb, hloc]
      have e1 : ∀ (x : Obj K) (tl tl2 : List (Obj K)),
          pre ++ R :: (pre3 ++ x :: post3 ++ tl) ++ tl2
            = (pre ++ R :: pre3) ++ x :: (post3 ++ tl ++ tl2) := by
        intro x tl tl2
        simp only [List.append_assoc, List.cons_append]
      rw [e1, Heap.obj_append_length]
    refine ⟨pre.length + 1 + pre3.length, ?_, ⟨nm.2, cs, rs, ?_⟩, ?_, ?_⟩
    · rw [hobj, hRc]
      exact List.mem_append_left _ hmem
    · rw [hmesh]
    · rw [hmesh]
    · rw [hmesh]
      show collapseScene _ = _
      rw [hprim, String.append_assoc (pathName p ++ "_")]

end PathNames4
end ObjectLoader
namespace ObjectLoader
open Examples

/-- Witness of `path_names`: in the scene `unshared` the node reached by the path
`scene`, `C`, `B` is named `scene_C_B_obj` and its rectangle `scene_C_B_rectangle_obj`. -/
theorem path_names_witness :
    ∃ h, parseNode cosZ sinZ unshared "scene" 3 = .ok h ∧
      ∃ i, NodeAt h ["scene", "C", "B"] i ∧ (h.obj i).name = "scene_C_B_obj" ∧
        ∃ j ∈ (h.obj i).children, (h.obj j).name = "scene_C_B_rectangle_obj" := by
  have hplain : PlainTree unshared 3 "scene" := by
    refine ⟨⟨_, _, _, _, _, rfl, by simp⟩, ?_⟩
    intro x hx
    have hx : x = "C" := by simpa [unshared, plain, Descriptor.refs] using hx
    subst hx
    refine ⟨⟨_, _, _, _, _, rfl, by simp⟩, ?_⟩
    intro x hx
    have hx : x = "B" := by simpa [unshared, plain, Descriptor.refs] using hx
    subst hx
    refine ⟨⟨_, _, _, _, _, rfl, ?_⟩, ?_⟩
    · intro st hst
      have hst : st = "rectangle" := by simpa using hst
      subst hst
      decide
    · intro x hx
      simp [unshared, plain, Descriptor.refs] at hx
  obtain ⟨h, hp, hall⟩ := path_names cosZ sinZ unshared 3 3 [] hplain (by decide) rfl
    (by decide) (by decide) (by decide)
  obtain ⟨i, hat, -, hn, hprims⟩ := hall ["scene", "C", "B"] "B"
    ⟨rfl, by simp [unshared, plain, Descriptor.refs]⟩ rfl
  obtain ⟨j, hj, -, -, hjn⟩ := hprims _ _ _ _ _ rfl "rectangle" (by simp)
  exact ⟨h, hp, i, hat, hn, j, hj, hjn⟩

end ObjectLoader

namespace ObjectLoader

theorem pathName_data (rest : List String) : ∀ r : String,
    (pathName (r :: rest)).data = r.data ++ rest.flatMap (fun c => '_' :: c.data) := by
  induction rest with
  | nil => intro r; simp [pathName]
  | cons c rest ih =>
    intro r
    have e : pathName (r :: c :: rest) = pathName ((r ++ "_" ++ c) :: rest) := rfl
    rw [e, ih]
    simp [String.data_append]

theorem segment_split (w : List Char) : ∀ (w' X X' : List Char), '_' ∉ w → '_' ∉ w' →
    (X = [] ∨ ∃ t, X = '_' :: t) → (X' = [] ∨ ∃ t, X' = '_' :: t) →
    w ++ X = w' ++ X' → w = w' ∧ X = X' := by
  induction w with
  | nil =>
    intro w' X X' _ hw' hX _ h
    cases w' with
    | nil => exact ⟨rfl, by simpa using h⟩
    | cons a w' =>
      rcases hX with rfl | ⟨t, rfl⟩
      · simp at h
      · simp only [List.nil_append, List.cons_append, List.cons.injEq] at h
        exact absurd (h.1 ▸ List.mem_cons_self _ _) hw'
  | cons a w ih =>
    intro w' X X' hw hw' hX hX' h
    cases w' with
    | nil =>
      rcases hX' with rfl | ⟨t, rfl⟩
      · simp at h
      · simp only [List.nil_append, List.cons_append, List.cons.injEq] at h
        exact absurd (h.1 ▸ List.mem_cons_self _ _) hw
    | cons a' w' =>
      simp only [List.cons_append, List.cons.injEq] at h
      obtain ⟨h1, h2⟩ := ih w' X X' (fun hm => hw (List.mem_cons_of_mem _ hm))
        (fun hm => hw' (List.mem_cons_of_mem _ hm)) hX hX' h.2
      exact ⟨by rw [h.1, h1], h2⟩

theorem flatMap_separator (l : List String) :
    l.flatMap (fun c => '_' :: c.data) = [] ∨
      ∃ t, l.flatMap (fun c => '_' :: c.data) = '_' :: t := by
  cases l with
  | nil => exact Or.inl rfl
  | cons c l =>
    exact Or.inr ⟨c.data ++ l.flatMap (fun c => '_' :: c.data), by simp [List.flatMap_cons]⟩

theorem flatMap_separator_inj (l : List String) : ∀ l' : List String,
    (∀ x ∈ l, '_' ∉ x.data) → (∀ x ∈ l', '_' ∉ x.data) →
    l.flatMap (fun c => '_' :: c.data) = l'.flatMap (fun c => '_' :: c.data) → l = l' := by
  induction l with
  | nil =>
    intro l' _ _ h
    cases l' with
    | nil => rfl
    | cons c l' => simp [List.flatMap_cons] at h
  | cons c l ih =>
    intro l' hl hl' h
    cases l' with
    | nil => simp [List.flatMap_cons] at h
    | cons c' l' =>
      simp only [List.flatMap_cons, List.cons_append, List.cons.injEq, true_and] at h
      obtain ⟨h1, h2⟩ := segment_split c.data c'.data _ _ (hl c (List.mem_cons_self _ _))
        (hl' c' (List.mem_cons_self _ _)) (flatMap_separator l) (flatMap_separator l') h
      rw [String.ext h1, ih l' (fun x hx => hl x (List.mem_cons_of_mem _ hx))
        (fun x hx => hl' x (List.mem_cons_of_mem _ hx)) h2]

/-- Paths of ids without underscores have different encodings. -/
theorem pathName_inj (s s' : List String) (hs : s ≠ []) (hs' : s' ≠ [])
    (hu : ∀ x ∈ s, '_' ∉ x.data) (hu' : ∀ x ∈ s', '_' ∉ x.data)
    (h : pathName s = pathName s') : s = s' := by
  cases s with
  | nil => exact absurd rfl hs
  | cons r rest =>
    cases s' with
    | nil => exact absurd rfl hs'
    | cons r' rest' =>
      have hd := congrArg String.data h
      rw [pathName_data, pathName_data] at hd
      obtain ⟨h1, h2⟩ := segment_split r.data r'.data _ _ (hu r (List.mem_cons_self _ _))
        (hu' r' (List.mem_cons_self _ _)) (flatMap_separator rest) (flatMap_separator rest') hd
      rw [String.ext h1, flatMap_separator_inj rest rest'
        (fun x hx => hu x (List.mem_cons_of_mem _ hx))
        (fun x hx => hu' x (List.mem_cons_of_mem _ hx)) h2]

end ObjectLoader
namespace ObjectLoader
section Segments1
variable {K : Type} [CommRing K]

theorem segments_succ (nodes : String → Descriptor K) (d : Nat) (id : String)
    (q : List String) (m : Option (List String)) (c r : Option Bool)
    (ts : List (Transformation K)) (children : List Child)
    (hnode : nodes id = .node m c r ts children) :
    segments nodes (d + 1) id q
      = (q ++ [id]) :: ((children.filterMap Child.primitiveSubtype).map (fun t => q ++ [id, t]) ++
          (nodes id).refs.reverse.flatMap (fun c => segments nodes d c (q ++ [id]))) := by
  simp only [segments]
  split
  · rename_i heq
    rw [hnode] at heq
    cases heq
  · rename_i heq
    have heq2 := heq
    rw [hnode] at heq2
    cases heq2
    rfl

theorem segments_start (nodes : String → Descriptor K) (d : Nat) :
    ∀ (id : String) (q s : List String), s ∈ segments nodes d id q → (q ++ [id]) <+: s := by
  induction d with
  | zero => intro id q s hs; simp [segments] at hs
  | succ d ih =>
    intro id q s hs
    cases hnode : nodes id with
    | lod cs => simp [segments, hnode] at hs
    | node m c r ts children =>
      rw [segments_succ nodes d id q m c r ts children hnode] at hs
      simp only [List.mem_cons, List.mem_append, List.mem_map, List.mem_flatMap] at hs
      rcases hs with rfl | ⟨t, -, rfl⟩ | ⟨x, -, hx⟩
      · exact List.prefix_refl _
      · exact ⟨[t], by simp⟩
      · exact (List.prefix_append _ _).trans (ih x (q ++ [id]) s hx)

theorem prefix_snoc_eq {P s : List String} {a b : String} (ha : (P ++ [a]) <+: s)
    (hb : (P ++ [b]) <+: s) : a = b := by
  obtain ⟨u, hu⟩ := ha
  obtain ⟨v, hv⟩ := hb
  rw [← hv, List.append_assoc, List.append_assoc] at hu
  have := List.append_cancel_left hu
  simp only [List.singleton_append, List.cons.injEq] at this
  exact this.1

theorem subtypes_nodup (children : List Child)
    (h : (children.map Child.segment).Nodup) :
    (children.filterMap Child.primitiveSubtype).Nodup := by
  induction children with
  | nil => simp
  | cons x cs ih =>
    simp only [List.map_cons, List.nodup_cons, List.mem_map, not_exists, not_and] at h
    cases x with
    | primitive t =>
      simp only [List.filterMap_cons, Child.primitiveSubtype, List.nodup_cons,
        List.mem_filterMap, not_exists, not_and]
      refine ⟨?_, ih h.2⟩
      intro y hy hyt
      cases y with
      | primitive t2 =>
        simp only [Child.primitiveSubtype, Option.some.injEq] at hyt
        subst hyt
        exact h.1 _ hy rfl
      | light ty id => simp [Child.primitiveSubtype] at hyt
      | noderef id => simp [Child.primitiveSubtype] at hyt
    | light ty id => simpa [List.filterMap_cons, Child.primitiveSubtype] using ih h.2
    | noderef id => simpa [List.filterMap_cons, Child.primitiveSubtype] using ih h.2

theorem refs_nodup (m : Option (List String)) (c r : Option Bool)
    (ts : List (Transformation K)) (children : List Child)
    (h : (children.map Child.segment).Nodup) :
    (Descriptor.node m c r ts children).refs.Nodup := by
  simp only [Descriptor.refs]
  induction children with
  | nil => simp
  | cons x cs ih =>
    simp only [List.map_cons, List.nodup_cons, List.mem_map, not_exists, not_and] at h
    cases x with
    | noderef t =>
      simp only [List.filterMap_cons, List.nodup_cons, List.mem_filterMap, not_exists, not_and]
      refine ⟨?_, ih h.2⟩
      intro y hy hyt
      cases y with
      | noderef t2 =>
        simp only [Option.some.injEq] at hyt
        subst hyt
        exact h.1 _ hy rfl
      | light ty id => simp at hyt
      | primitive id => simp at hyt
    | light ty id => simpa [List.filterMap_cons] using ih h.2
    | primitive id => simpa [List.filterMap_cons] using ih h.2

theorem subtype_not_ref (m : Option (List String)) (c r : Option Bool)
    (ts : List (Transformation K)) (children : List Child)
    (h : (children.map Child.segment).Nodup) (t : String)
    (ht : t ∈ children.filterMap Child.primitiveSubtype)
    (hr : t ∈ (Descriptor.node m c r ts children).refs) : False := by
  rw [mem_refs_iff] at hr
  simp only [List.mem_filterMap] at ht
  obtain ⟨y, hy, hyt⟩ := ht
  cases y with
  | primitive t2 =>
    simp only [Child.primitiveSubtype, Option.some.injEq] at hyt
    subst hyt
    have := List.inj_on_of_nodup_map h hy hr rfl
    cases this
  | light ty id => simp [Child.primitiveSubtype] at hyt
  | noderef id => simp [Child.primitiveSubtype] at hyt

/-- The segment lists of a tree whose nodes have pairwise distinct children are pairwise
distinct. -/
theorem segments_nodup (nodes : String → Descriptor K) (d : Nat) :
    ∀ (id : String) (q : List String),
      (∀ x ∈ unfoldIds nodes d id, DistinctChildren (nodes x)) →
      (segments nodes d id q).Nodup := by
  induction d with
  | zero => intro id q _; simp [segments]
  | succ d ih =>
    intro id q hall
    cases hnode : nodes id with
    | lod cs => simp [segments, hnode]
    | node m c r ts children =>
      have hid : DistinctChildren (nodes id) := hall id (by simp [unfoldIds])
      rw [hnode] at hid
      obtain ⟨-, hnd⟩ := hid
      have hsub : ∀ x ∈ (nodes id).refs, ∀ y ∈ unfoldIds nodes d x,
          DistinctChildren (nodes y) := by
        intro x hx y hy
        apply hall
        simp only [unfoldIds, List.mem_cons, List.mem_flatMap]
        exact Or.inr ⟨x, hx, hy⟩
      rw [segments_succ nodes d id q m c r ts children hnode, List.nodup_cons,
        List.nodup_append]
      refine ⟨?_, ⟨?_, ?_, ?_⟩⟩
      · simp only [List.mem_append, List.mem_map, List.mem_flatMap, not_or, not_exists, not_and]
        constructor
        · intro t _ h
          have := congrArg List.length h
          simp at this
        · intro x _ h
          have := (segments_start nodes d x (q ++ [id]) _ h).length_le
          simp at this
      · refine List.Nodup.map ?_ (subtypes_nodup children hnd)
        intro t t' h
        simpa using h
      · rw [List.nodup_flatMap]
        refine ⟨fun x hx => ih x _ (hsub x (List.mem_reverse.1 hx)), ?_⟩
        have hrn : (nodes id).refs.reverse.Nodup := by
          rw [List.nodup_reverse, hnode]
          exact refs_nodup m c r ts children hnd
        refine List.Pairwise.imp ?_ hrn
        intro a b hab s hsa hsb
        exact hab (prefix_snoc_eq (segments_start nodes d a _ s hsa)
          (segments_start nodes d b _ s hsb))
      · intro s hsA hsB
        simp only [List.mem_map] at hsA
        obtain ⟨t, ht, rfl⟩ := hsA
        simp only [List.mem_flatMap, List.mem_reverse] at hsB
        obtain ⟨x, hx, hxs⟩ := hsB
        have hp := segments_start nodes d x (q ++ [id]) _ hxs
        have hp2 : ((q ++ [id]) ++ [t]) <+: (q ++ [id, t]) := ⟨[], by simp⟩
        have hxt : x = t := prefix_snoc_eq hp hp2
        subst hxt
        rw [hnode] at hx
        exact subtype_not_ref m c r ts children hnd x ht hx

end Segments1
end ObjectLoader
namespace ObjectLoader
section Segments2
variable {K : Type} [CommRing K]

theorem SimpleId.clean {id : String} (h : SimpleId id) : CleanId id := by
  refine ⟨?_, ?_, h.2.1, h.2.2⟩
  · intro hi
    exact h.1 (hi.subset (by simp))
  · intro hi
    exact h.1 (hi.subset (by simp))

theorem localObjs_names (pn : String) (ret : Nat) (m : String) (c r : Bool) :
    ∀ (cs : List Child) (b : Nat), (∀ ty id, Child.light ty id ∉ cs) →
      (localObjs pn ret m c r b cs : List (Obj K)).map (fun o => o.name)
        = (cs.filterMap Child.primitiveSubtype).map
            (fun t => collapseScene (pn ++ "_" ++ (t ++ "_obj"))) := by
  intro cs
  induction cs with
  | nil => intro b _; rfl
  | cons x cs ih =>
    intro b hl
    have hl' : ∀ ty id, Child.light ty id ∉ cs := fun ty id h =>
      hl ty id (List.mem_cons_of_mem _ h)
    cases x with
    | primitive t =>
      simp [localObjs, childObjs, Child.primitiveSubtype, List.filterMap_cons, ih _ hl']
    | light ty id => exact absurd (List.mem_cons_self _ _) (hl ty id)
    | noderef id =>
      simp [localObjs, childObjs, Child.primitiveSubtype, List.filterMap_cons, ih _ hl']

theorem layoutSeq_names (f : String → Nat → List (Obj K)) (g : String → List String) :
    ∀ (cs : List String) (b : Nat),
      (∀ c ∈ cs, ∀ b, (f c b).map (fun o => o.name) = g c) →
      (layoutSeq f b cs).1.map (fun o => o.name) = cs.flatMap g := by
  intro cs
  induction cs with
  | nil => intro b _; rfl
  | cons x cs ih =>
    intro b h
    rw [layoutSeq_cons, List.map_append, h x (List.mem_cons_self _ _),
      ih _ (fun c hc => h c (List.mem_cons_of_mem _ hc)), List.flatMap_cons]

theorem name_root :
    collapseScene (stripTags "scene" ++ "scene" ++ "_obj") = pathName ["scene"] ++ "_obj" ∧
      ∀ s, collapseScene (stripTags "scene" ++ stripTags "scene" ++ "_" ++ s)
        = pathName ["scene"] ++ "_" ++ s := by
  refine ⟨by decide, ?_⟩
  intro s
  have e : stripTags "scene" ++ stripTags "scene" ++ "_" ++ s
      = "scenescene" ++ ("_" ++ s) := by
    have : stripTags "scene" = "scene" := by decide
    rw [this, String.append_assoc, String.append_assoc]
    rfl
  rw [e, collapseScene_root, ← String.append_assoc]
  rfl

theorem name_step (rest : List String) (c : String)
    (hclean : ∀ x ∈ "scene" :: rest, CleanId x) (hc : CleanId c) :
    collapseScene (stripTags (pathName ("scene" :: rest) ++ "_obj") ++ c ++ "_obj")
        = pathName (("scene" :: rest) ++ [c]) ++ "_obj" ∧
      ∀ s, collapseScene (stripTags (pathName ("scene" :: rest) ++ "_obj") ++ stripTags c
          ++ "_" ++ s) = pathName (("scene" :: rest) ++ [c]) ++ "_" ++ s := by
  have hstrip := stripTags_pathName ("scene" :: rest) (by simp) hclean
  have hpname := pathName_snoc ("scene" :: rest) c (by simp)
  constructor
  · rw [hstrip, hpname, String.append_assoc (pathName ("scene" :: rest) ++ "_")]
    exact collapseScene_pathName rest (c ++ "_obj")
  · intro s
    rw [hstrip, stripTags_clean c hc, ← hpname]
    exact collapseScene_pathName (rest ++ [c]) s

/-- In a tree of plain nodes without lights, with clean ids below the root `scene`, the
names of the objects of `built` are the encodings of `segments`. -/
theorem built_names (cos sin : K → K) (nodes : String → Descriptor K) (d : Nat) :
    ∀ (item : WorkItem) (pname : String) (n : Nat) (q rest : List String),
      q ++ [item.node] = "scene" :: rest →
      (∀ x ∈ q ++ [item.node], CleanId x) →
      collapseScene (stripTags pname ++ item.node ++ "_obj")
        = pathName (q ++ [item.node]) ++ "_obj" →
      (∀ s, collapseScene (stripTags pname ++ stripTags item.node ++ "_" ++ s)
        = pathName (q ++ [item.node]) ++ "_" ++ s) →
      PlainTree nodes d item.node →
      (∀ x ∈ unfoldIds nodes d item.node, CleanId x ∧ DistinctChildren (nodes x)) →
      (built cos sin nodes d item pname n).map (fun o => o.name)
        = (segments nodes d item.node q).map (fun s => pathName s ++ "_obj") := by
  induction d with
  | zero => intro item pname n q rest _ _ _ _ hpl; exact absurd hpl (by simp [PlainTree])
  | succ d ih =>
    intro item pname n q rest hhead hclean h1 h2 hpl hall
    obtain ⟨⟨m, c, r, ts, children, hnode, -⟩, hsub⟩ := hpl
    obtain ⟨nm, cs, rs, hb⟩ := built_succ cos sin nodes d item pname n m c r ts children hnode
    have hid : DistinctChildren (nodes item.node) :=
      (hall item.node (by simp [unfoldIds])).2
    rw [hnode] at hid
    rw [hb, segments_succ nodes d item.node q m c r ts children hnode]
    simp only [List.map_cons, List.map_append, List.map_map]
    congr 1
    congr 1
    · rw [localObjs_names _ _ _ _ _ _ _ hid.1]
      apply List.map_congr_left
      intro t _
      simp only [Function.comp]
      rw [h2, ← String.append_assoc, ← pathName_snoc (q ++ [item.node]) t (by simp)]
      simp
    · rw [layoutSeq_names _
        (fun c => (segments nodes d c (q ++ [item.node])).map (fun s => pathName s ++ "_obj"))]
      · simp only [List.map_flatMap]
      · intro x hx b
        have hx' : x ∈ (nodes item.node).refs := List.mem_reverse.1 hx
        have hxall : ∀ y ∈ unfoldIds nodes d x, CleanId y ∧ DistinctChildren (nodes y) := by
          intro y hy
          apply hall
          simp only [unfoldIds, List.mem_cons, List.mem_flatMap]
          exact Or.inr ⟨x, hx', hy⟩
        have hxc : CleanId x := (hxall x (mem_unfoldIds_self nodes d x (hsub x hx'))).1
        have hstep := name_step rest x (hhead ▸ hclean) hxc
        rw [← hhead] at hstep
        refine ih (childItem n nm cs rs (x, 0)) _ b (q ++ [item.node]) (rest ++ [x]) ?_ ?_ ?_ ?_
          (hsub x hx') hxall
        · show (q ++ [item.node]) ++ [x] = _
          rw [hhead]; rfl
        · intro y hy
          rcases List.mem_append.1 hy with hy | hy
          · exact hclean y hy
          · simp only [childItem, List.mem_singleton] at hy
            subst hy
            exact hxc
        · rw [h1]
          exact hstep.1
        · rw [h1]
          exact hstep.2

end Segments2
end ObjectLoader
namespace ObjectLoader
section Segments3
variable {K : Type} [CommRing K]

theorem segments_mem (nodes : String → Descriptor K) (d : Nat) :
    ∀ (id : String) (q s : List String), PlainTree nodes d id → s ∈ segments nodes d id q →
      ∀ x ∈ s, x ∈ q ∨ x ∈ unfoldIds nodes d id ∨ x ∈ knownSubtypes := by
  induction d with
  | zero => intro id q s hpl; exact absurd hpl (by simp [PlainTree])
  | succ d ih =>
    intro id q s hpl hs x hx
    obtain ⟨⟨m, c, r, ts, children, hnode, hknown⟩, hsub⟩ := hpl
    rw [segments_succ nodes d id q m c r ts children hnode] at hs
    simp only [List.mem_cons, List.mem_append, List.mem_map, List.mem_flatMap,
      List.mem_filterMap, List.mem_reverse] at hs
    rcases hs with rfl | ⟨t, ⟨ch, hch, hcht⟩, rfl⟩ | ⟨y, hy, hys⟩
    · rcases List.mem_append.1 hx with hx | hx
      · exact Or.inl hx
      · simp only [List.mem_singleton] at hx
        subst hx
        exact Or.inr (Or.inl (by simp [unfoldIds]))
    · rcases List.mem_append.1 hx with hx | hx
      · exact Or.inl hx
      · simp only [List.mem_cons, List.mem_singleton, List.not_mem_nil, or_false] at hx
        rcases hx with rfl | rfl
        · exact Or.inr (Or.inl (by simp [unfoldIds]))
        · cases ch with
          | primitive t2 =>
            simp only [Child.primitiveSubtype, Option.some.injEq] at hcht
            subst hcht
            exact Or.inr (Or.inr (hknown _ hch))
          | light ty id => simp [Child.primitiveSubtype] at hcht
          | noderef id => simp [Child.primitiveSubtype] at hcht
    · rcases ih y (q ++ [id]) s (hsub y hy) hys x hx with h | h | h
      · rcases List.mem_append.1 h with h | h
        · exact Or.inl h
        · simp only [List.mem_singleton] at h
          subst h
          exact Or.inr (Or.inl (by simp [unfoldIds]))
      · refine Or.inr (Or.inl ?_)
        simp only [unfoldIds, List.mem_cons, List.mem_flatMap]
        exact Or.inr ⟨y, hy, h⟩
      · exact Or.inr (Or.inr h)

/-- C1 (amended): for a tree of plain nodes without shared ids and without lights, with
root id `scene`, a material list declared at the root, primitives of known subtypes, ids
that have no underscore, do not start with `obj` or `lod` and are not names of members
of `Object.prototype` (such as `constructor` or `toString`, which the cache
`allObjects`, a plain object, inherits), and children that differ pairwise in their
subtype or id within every node, the loader returns a scene in which no two objects
have the same name. -/
theorem names_distinct (cos sin : K → K) (nodes : String → Descriptor K) (d fuel : Nat)
    (ms : List String) (hplain : PlainTree nodes d "scene")
    (hnodup : (unfoldIds nodes d "scene").Nodup)
    (hroot : (nodes "scene").materialIds = some ms)
    (hids : ∀ x ∈ unfoldIds nodes d "scene", SimpleId x)
    (hmem : ∀ x ∈ unfoldIds nodes d "scene", x ∉ objectPrototypeMembers)
    (hchildren : ∀ x ∈ unfoldIds nodes d "scene", DistinctChildren (nodes x))
    (hfuel : nodeCount nodes d "scene" ≤ fuel) :
    ∃ h, parseNode cos sin nodes "scene" fuel = .ok h ∧
      (h.map (fun o => o.name)).Nodup := by
  refine ⟨_, parseNode_plainTree cos sin nodes "scene" d fuel ms hplain hnodup hmem hroot hfuel,
    ?_⟩
  have hscene : CleanId "scene" := by decide
  have hnames := built_names cos sin nodes d
    { node := "scene", object := 0, currentMaterials := (nodes "scene").materialIds,
      castShadow := (nodes "scene").castShadows,
      receiveShadow := (nodes "scene").receiveShadows, dist := 0 } "scene" 1 [] [] rfl
    (by intro x hx; simp only [List.nil_append, List.mem_singleton] at hx; subst hx; exact hscene)
    name_root.1 name_root.2 hplain
    (fun x hx => ⟨(hids x hx).clean, hchildren x hx⟩)
  have hsegs := segments_nodup nodes d "scene" [] hchildren
  have hfree : ∀ s ∈ segments nodes d "scene" [], s ≠ [] ∧ ∀ x ∈ s, '_' ∉ x.data := by
    intro s hs
    constructor
    · intro h0
      have := (segments_start nodes d "scene" [] s hs).length_le
      rw [h0] at this
      simp at this
    · intro x hx
      rcases segments_mem nodes d "scene" [] s hplain hs x hx with h | h | h
      · simp at h
      · exact (hids x h).1
      · have hk : ∀ t ∈ knownSubtypes, '_' ∉ t.data := by decide
        exact hk x h
  simp only [builtScene, List.map_cons, hnames, List.nodup_cons, List.mem_map, not_exists,
    not_and]
  constructor
  · intro s _ h
    have hd := congrArg String.data h
    have hsuf : "_obj".toList <:+ "scene".toList := by
      refine ⟨(pathName s).data, ?_⟩
      rw [String.data_append] at hd
      exact hd
    revert hsuf
    decide
  · refine List.Nodup.map_on ?_ hsegs
    intro s hs s' hs' h
    have hd := congrArg String.data h
    simp only [String.data_append] at hd
    exact pathName_inj s s' (hfree s hs).1 (hfree s' hs').1 (hfree s hs).2 (hfree s' hs').2
      (String.ext (List.append_cancel_right hd))

end Segments3
end ObjectLoader
namespace ObjectLoader
open Examples

/-- Witness of `names_distinct`: the eight objects of the scene `family` have eight
different names. -/
theorem names_distinct_witness :
    ∃ h, parseNode cosZ sinZ family "scene" 3 = .ok h ∧ (h.map (fun o => o.name)).Nodup ∧
      builtNames (parseNode cosZ sinZ family "scene" 3)
        = some ["scene", "scene_obj", "scene_box_obj", "scene_B_obj", "scene_B_rectangle_obj",
                "scene_A_obj", "scene_A_rectangle_obj", "scene_A_sphere_obj"] := by
  have hl : unfoldIds family 2 "scene" = ["scene", "A", "B"] := by decide
  have hplain : PlainTree family 2 "scene" := by
    refine ⟨⟨_, _, _, _, _, rfl, ?_⟩, ?_⟩
    · intro st hst
      have hst : st = "box" := by simpa using hst
      subst hst
      decide
    · intro x hx
      have hx : x = "A" ∨ x = "B" := by simpa [family, plain, Descriptor.refs] using hx
      rcases hx with rfl | rfl
      · refine ⟨⟨_, _, _, _, _, rfl, ?_⟩, ?_⟩
        · intro st hst
          have hst : st = "rectangle" ∨ st = "sphere" := by simpa using hst
          rcases hst with rfl | rfl <;> decide
        · intro x hx
          simp [family, plain, Descriptor.refs] at hx
      · refine ⟨⟨_, _, _, _, _, rfl, ?_⟩, ?_⟩
        · intro st hst
          have hst : st = "rectangle" := by simpa using hst
          subst hst
          decide
        · intro x hx
          simp [family, plain, Descriptor.refs] at hx
  have hchildren : ∀ x ∈ unfoldIds family 2 "scene", DistinctChildren (family x) := by
    intro x hx
    rw [hl] at hx
    simp only [List.mem_cons, List.mem_singleton, List.not_mem_nil, or_false] at hx
    rcases hx with rfl | rfl | rfl
    · exact ⟨by intro ty id h; simp at h, by decide⟩
    · exact ⟨by intro ty id h; simp at h, by decide⟩
    · exact ⟨by intro ty id h; simp at h, by decide⟩
  obtain ⟨h, hp, hn⟩ := names_distinct cosZ sinZ family 2 3 [] hplain (by decide) rfl
    (by decide) (by decide) hchildren (by decide)
  exact ⟨h, hp, hn, by decide⟩

end ObjectLoader

namespace ObjectLoader
section PrimitiveClaims
variable {M S : Type}

/-- The full `createPrimitive` and the one used by the node parser agree on whether a
mesh is returned. -/
theorem createPrimitiveMesh_isSome {K : Type} [CommRing K] (materialMap : String → Option M)
    (primitive : Primitive S) (materialId : String) (c r : Bool) :
    (createPrimitiveMesh materialMap primitive materialId (some c) (some r)).isSome
      = (createPrimitive primitive.subtype materialId c r : Option (Obj K)).isSome := by
  simp only [createPrimitiveMesh, createPrimitive, knownSubtypes, List.mem_cons,
    List.mem_singleton, List.not_mem_nil, or_false]
  by_cases h1 : primitive.subtype = "rectangle"
  · simp [h1]
  by_cases h2 : primitive.subtype = "triangle"
  · simp [h2]
  by_cases h3 : primitive.subtype = "cylinder"
  · simp [h3]
  by_cases h4 : primitive.subtype = "box"
  · simp [h4]
  by_cases h5 : primitive.subtype = "nurbs"
  · simp [h5]
  by_cases h6 : primitive.subtype = "sphere"
  · simp [h6]
  by_cases h7 : primitive.subtype = "polygon"
  · simp [h7]
  simp [h1, h2, h3, h4, h5, h6, h7]

/-- C13: `createPrimitive` returns no mesh exactly when the subtype is not one of the
seven known subtypes, and a mesh it returns has the two flags it was given (`false` for
a flag that was left out) and the name `subtype + "_obj"`. -/
theorem createPrimitive_result (materialMap : String → Option M) (primitive : Primitive S)
    (materialId : String) (castShadow receiveShadow : Option Bool) :
    (createPrimitiveMesh materialMap primitive materialId castShadow receiveShadow = none
        ↔ primitive.subtype ∉ knownSubtypes) ∧
      ∀ mesh ∈ createPrimitiveMesh materialMap primitive materialId castShadow receiveShadow,
        mesh.castShadow = castShadow.getD false ∧
        mesh.receiveShadow = receiveShadow.getD false ∧
        mesh.name = primitive.subtype ++ "_obj" := by
  constructor
  · simp only [createPrimitiveMesh, knownSubtypes, List.mem_cons, List.mem_singleton,
      List.not_mem_nil, or_false, Option.map_eq_none']
    by_cases h1 : primitive.subtype = "rectangle"
    · simp [h1]
    by_cases h2 : primitive.subtype = "triangle"
    · simp [h2]
    by_cases h3 : primitive.subtype = "cylinder"
    · simp [h3]
    by_cases h4 : primitive.subtype = "box"
    · simp [h4]
    by_cases h5 : primitive.subtype = "nurbs"
    · simp [h5]
    by_cases h6 : primitive.subtype = "sphere"
    · simp [h6]
    by_cases h7 : primitive.subtype = "polygon"
    · simp [h7]
    simp [h1, h2, h3, h4, h5, h6, h7]
  · intro mesh hmesh
    simp only [createPrimitiveMesh, Option.mem_def, Option.map_eq_some'] at hmesh
    obtain ⟨m, -, rfl⟩ := hmesh
    exact ⟨rfl, rfl, rfl⟩

end PrimitiveClaims
end ObjectLoader
namespace ObjectLoader
open Examples

/-- C11 (counterexample): the id `missing` is absent from the material table; the box
and the cylinder are created with an empty list of materials, not with the white
default material. -/
theorem absent_material_counterexample :
    createPrimitiveMesh woodOnly (sample "box") "missing" (some true) (some false)
        = some { material := .many [], castShadow := true, receiveShadow := false,
                 name := "box_obj" }
      ∧ createPrimitiveMesh woodOnly (sample "cylinder") "missing" (some true) (some false)
        = some { material := .many [], castShadow := true, receiveShadow := false,
                 name := "cylinder_obj" }
      ∧ (MeshMaterial.many [] : MeshMaterial String ℤ) ≠ .one (some .whitePhong)
      ∧ (MeshMaterial.many [] : MeshMaterial String ℤ) ≠ .one (some .meshDefault) := by
  decide

section AbsentMaterial
variable {M S : Type}

/-- C11 (amended): when the material id of a primitive of a known subtype is not
`defaultMaterial` and is absent from the material table, `createPrimitive` returns a
mesh and creates no material for it: a cylinder or a box is given the empty list of
materials, a polygon its own material, and every other subtype (rectangle, triangle,
nurbs, sphere) the white `MeshBasicMaterial` that the constructor of `THREE.Mesh`
creates when it is given no material. -/
theorem absent_material (materialMap : String → Option M) (primitive : Primitive S)
    (materialId : String) (castShadow receiveShadow : Option Bool)
    (hknown : primitive.subtype ∈ knownSubtypes) (hid : materialId ≠ "defaultMaterial")
    (habsent : materialMap materialId = none) :
    ∃ mesh, createPrimitiveMesh materialMap primitive materialId castShadow receiveShadow
        = some mesh ∧
      mesh.material =
        (if primitive.subtype = "cylinder" ∨ primitive.subtype = "box" then .many []
         else if primitive.subtype = "polygon" then .one (some .polygonBasic)
         else .one (some .meshDefault)) := by
  simp only [knownSubtypes, List.mem_cons, List.mem_singleton, List.not_mem_nil,
    or_false] at hknown
  rcases hknown with h | h | h | h | h | h | h <;>
    simp [createPrimitiveMesh, h, hid, habsent, getRectangle, getTriangle, getCylinder, getBox,
      getNurbs, getSphere, getPolygon, newMesh]

end AbsentMaterial

/-- Witness of `absent_material`: a sphere whose material id `missing` is not in the
table is created with the default material of `THREE.Mesh`. -/
theorem absent_material_witness :
    ∃ mesh, createPrimitiveMesh woodOnly (sample "sphere") "missing" none none = some mesh ∧
      mesh.material = .one (some .meshDefault) := by
  obtain ⟨mesh, h, hm⟩ := absent_material woodOnly (sample "sphere") "missing" none none
    (by decide) (by decide) (by decide)
  exact ⟨mesh, h, hm⟩

/-- C12: with the material id `defaultMaterial` the rectangle, triangle, nurbs and sphere
are created with the white default material, but the cylinder and the box are created
with an empty list of materials. -/
theorem default_material_dropped :
    (createPrimitiveMesh woodOnly (sample "cylinder") "defaultMaterial" none none).map
        PrimitiveMesh.material = some (.many [])
      ∧ (createPrimitiveMesh woodOnly (sample "box") "defaultMaterial" none none).map
        PrimitiveMesh.material = some (.many [])
      ∧ (["rectangle", "triangle", "nurbs", "sphere"].map (fun subtype =>
          (createPrimitiveMesh woodOnly (sample subtype) "defaultMaterial" none none).map
            PrimitiveMesh.material))
        = [some (.one (some .whitePhong)), some (.one (some .whitePhong)),
           some (.one (some .whitePhong)), some (.one (some .whitePhong))] := by
  decide

end ObjectLoader

namespace Polygon

theorem stackStep_vertices (nstacks nslices s : Nat) (b : Buffers) (k : Nat) :
    (stackStep nstacks nslices s b k).vertices
      = b.vertices ++ (if s = nslices then [] else [(s, k)]) := by
  unfold stackStep
  by_cases hs : s = nslices <;> by_cases hk : k = 1 <;> simp [hs, hk]

theorem stackStep_indices (nstacks nslices s : Nat) (hs1 : 1 ≤ s) (hs : s ≤ nslices)
    (b : Buffers) (j : Nat)
    (hb : b.vertices.length = 1 + s * nstacks + (if s = nslices then 0 else j)) :
    (stackStep nstacks nslices s b (j + 1)).indices
      = b.indices ++ codeTriangles nstacks nslices s (j + 1) := by
  obtain ⟨t, rfl⟩ : ∃ t, s = t + 1 := ⟨s - 1, by omega⟩
  have hmul : (t + 1) * nstacks = t * nstacks + nstacks := Nat.succ_mul t nstacks
  have hcomm : nstacks * (t + 1) = t * nstacks + nstacks := by rw [Nat.mul_comm]; exact hmul
  unfold stackStep codeTriangles specTriangles vertexIndex currentVertices
  by_cases hlast : t + 1 = nslices
  · have ht : ¬ t = nslices := by omega
    by_cases hj : j = 0
    · subst hj
      subst hlast
      simp only [hb, hcomm, decide_True, if_true, zero_add, and_self, Nat.cast_add, Nat.cast_one,
        Nat.cast_mul, Buffers.indices]
      simp
      ring
    · have hj1 : ¬ j + 1 = 1 := by omega
      subst hlast
      simp only [hb, hj1, decide_True, if_true, if_false, false_and, Nat.add_sub_cancel, ht, hj,
        Nat.succ_ne_zero, add_zero]
      simp
      refine ⟨?_, ?_⟩ <;> ring
  · by_cases hj : j = 0
    · subst hj
      simp only [hlast, decide_False, if_false, zero_add, if_true, and_false, Nat.add_sub_cancel,
        List.length_append, List.length_singleton, hb, Bool.false_eq_true]
      have ht : ¬ t = nslices := by omega
      simp [ht]
      refine ⟨?_, ?_⟩ <;> ring
    · have hj1 : ¬ j + 1 = 1 := by omega
      have ht : ¬ t = nslices := by omega
      simp only [hlast, decide_False, if_false, hj1, false_and, Nat.add_sub_cancel,
        List.length_append, List.length_singleton, hb, Bool.false_eq_true, ht, hj,
        Nat.succ_ne_zero]
      simp
      refine ⟨?_, ?_, ?_, ?_, ?_, ?_⟩ <;> ring

theorem sliceStep_fold (nstacks nslices s : Nat) (hs1 : 1 ≤ s) (hs : s ≤ nslices)
    (b : Buffers) (hb : b.vertices.length = 1 + s * nstacks) (j : Nat) :
    ((List.range' 1 j).foldl (stackStep nstacks nslices s) b).vertices
        = b.vertices ++ (if s = nslices then [] else (List.range' 1 j).map (fun k => (s, k))) ∧
      ((List.range' 1 j).foldl (stackStep nstacks nslices s) b).indices
        = b.indices ++ (List.range' 1 j).flatMap (codeTriangles nstacks nslices s) := by
  induction j with
  | zero => by_cases h : s = nslices <;> simp [h]
  | succ j ih =>
    obtain ⟨ihv, ihi⟩ := ih
    rw [List.range'_1_concat, List.foldl_append, List.foldl_cons, List.foldl_nil]
    have hlen : ((List.range' 1 j).foldl (stackStep nstacks nslices s) b).vertices.length
        = 1 + s * nstacks + (if s = nslices then 0 else j) := by
      rw [ihv]
      by_cases h : s = nslices <;> simp [h, hb]
    constructor
    · rw [stackStep_vertices, ihv]
      by_cases h : s = nslices
      · simp [h]
      · simp [h, Nat.add_comm]
    · rw [Nat.add_comm 1 j, stackStep_indices nstacks nslices s hs1 hs _ j hlen, ihi]
      simp [List.flatMap_append]

theorem sliceStep_eq (nstacks nslices s : Nat) (hs1 : 1 ≤ s) (hs : s ≤ nslices)
    (b : Buffers) (hb : b.vertices.length = 1 + s * nstacks) :
    (sliceStep nstacks nslices b s).vertices
        = b.vertices ++
          (if s = nslices then [] else (List.range' 1 nstacks).map (fun k => (s, k))) ∧
      (sliceStep nstacks nslices b s).indices
        = b.indices ++ (List.range' 1 nstacks).flatMap (codeTriangles nstacks nslices s) :=
  sliceStep_fold nstacks nslices s hs1 hs b hb nstacks

/-- The buffers after the slices `1` to `j`, for `j` below the number of slices. -/
theorem slices_fold (nstacks nslices : Nat) (j : Nat) (hj : j < nslices) :
    ((List.range' 1 j).foldl (sliceStep nstacks nslices) (firstLine nstacks)).vertices
        = (firstLine nstacks).vertices ++
          (List.range' 1 j).flatMap (fun s => (List.range' 1 nstacks).map (fun k => (s, k))) ∧
      ((List.range' 1 j).foldl (sliceStep nstacks nslices) (firstLine nstacks)).indices
        = (List.range' 1 j).flatMap (fun s =>
            (List.range' 1 nstacks).flatMap (codeTriangles nstacks nslices s)) ∧
      ((List.range' 1 j).foldl (sliceStep nstacks nslices) (firstLine nstacks)).vertices.length
        = 1 + (j + 1) * nstacks := by
  induction j with
  | zero =>
    refine ⟨by simp, by simp [firstLine], ?_⟩
    simp [firstLine, Nat.add_comm]
  | succ j ih =>
    obtain ⟨ihv, ihi, ihl⟩ := ih (by omega)
    rw [List.range'_1_concat, List.foldl_append, List.foldl_cons, List.foldl_nil]
    obtain ⟨hv, hi⟩ := sliceStep_eq nstacks nslices (1 + j) (by omega) (by omega) _
      (by rw [ihl, Nat.add_comm 1 j])
    have hne : ¬ 1 + j = nslices := by omega
    simp only [hne, if_false] at hv
    refine ⟨?_, ?_, ?_⟩
    · rw [hv, ihv]
      simp [List.flatMap_append]
    · rw [hi, ihi]
      simp [List.flatMap_append]
    · rw [hv, List.length_append, ihl]
      simp only [List.length_map, List.length_range']
      rw [Nat.succ_mul (j + 1)]
      omega

/-- The buffers `initBuffers` produces: the vertices of the first line and of the slices
before the closing one, and the triangles of `codeTriangles` for every slice and ring. -/
theorem initBuffers_eq (nstacks nslices : Nat) (hsl : 1 ≤ nslices) :
    (initBuffers nstacks nslices).vertices
        = (List.range (nstacks + 1)).map (fun k => (0, k)) ++
          (List.range' 1 (nslices - 1)).flatMap (fun s =>
            (List.range' 1 nstacks).map (fun k => (s, k))) ∧
      (initBuffers nstacks nslices).indices
        = (List.range' 1 nslices).flatMap (fun s =>
            (List.range' 1 nstacks).flatMap (codeTriangles nstacks nslices s)) := by
  obtain ⟨j, rfl⟩ : ∃ j, nslices = j + 1 := ⟨nslices - 1, by omega⟩
  obtain ⟨ihv, ihi, ihl⟩ := slices_fold nstacks (j + 1) j (by omega)
  unfold initBuffers
  rw [List.range'_1_concat, List.foldl_append, List.foldl_cons, List.foldl_nil]
  obtain ⟨hv, hi⟩ := sliceStep_eq nstacks (j + 1) (1 + j) (by omega) (by omega) _
    (by rw [ihl, Nat.add_comm 1 j])
  have he : 1 + j = j + 1 := Nat.add_comm 1 j
  simp only [he, if_true] at hv hi ⊢
  refine ⟨?_, ?_⟩
  · rw [hv, ihv]
    simp [firstLine]
  · rw [hi, ihi]
    simp [List.flatMap_append]

end Polygon
namespace Polygon

/-- C14: for at least one slice, `initBuffers` produces the `nstacks + 1` vertices of the
zero-angle line, then `nstacks` vertices for each of the `nslices - 1` following slices and
none for the closing slice: `1 + nstacks * nslices` vertices in all. -/
theorem vertex_count (nstacks nslices : Nat) (hsl : 1 ≤ nslices) :
    (initBuffers nstacks nslices).vertices
        = (List.range (nstacks + 1)).map (fun k => (0, k)) ++
          (List.range' 1 (nslices - 1)).flatMap (fun s =>
            (List.range' 1 nstacks).map (fun k => (s, k)))
      ∧ (initBuffers nstacks nslices).vertices.length = 1 + nstacks * nslices := by
  obtain ⟨hv, -⟩ := initBuffers_eq nstacks nslices hsl
  refine ⟨hv, ?_⟩
  rw [hv]
  obtain ⟨j, rfl⟩ : ∃ j, nslices = j + 1 := ⟨nslices - 1, by omega⟩
  have hlen : ∀ l : List Nat,
      (l.flatMap (fun s => (List.range' 1 nstacks).map (fun k => (s, k)))).length
        = l.length * nstacks := by
    intro l
    induction l with
    | nil => simp
    | cons a l ih =>
      rw [List.flatMap_cons, List.length_append, ih, List.length_map, List.length_range',
        List.length_cons, Nat.succ_mul]
      omega
  rw [List.length_append, hlen, List.length_map, List.length_range, List.length_range',
    Nat.add_sub_cancel, Nat.mul_succ, Nat.mul_comm j nstacks]
  omega

/-- Witness of `vertex_count`: three stacks and four slices give thirteen vertices. -/
theorem vertex_count_witness :
    (initBuffers 3 4).vertices
        = (List.range (3 + 1)).map (fun k => (0, k)) ++
          (List.range' 1 (4 - 1)).flatMap (fun s => (List.range' 1 3).map (fun k => (s, k)))
      ∧ (initBuffers 3 4).vertices.length = 1 + 3 * 4 :=
  vertex_count 3 4 (by decide)

/-- C15: for three stacks and four slices the index buffer of `initBuffers` is the one of
the specification up to the closing slice and after its first triangle, but the first
triangle of the closing slice is `(1, 0, 12)`, where vertex `12` lies on the outermost
ring of slice `3`, and not `(1, 0, 10)`, where vertex `10` lies on ring `1` of slice `3`. -/
theorem closing_triangle :
    ((initBuffers 3 4).indices.drop 45).take 3 = [1, 0, 12]
      ∧ ((specIndices 3 4).drop 45).take 3 = [1, 0, 10]
      ∧ (initBuffers 3 4).vertices[12]? = some (3, 3)
      ∧ (initBuffers 3 4).vertices[10]? = some (3, 1)
      ∧ (initBuffers 3 4).indices.take 45 = (specIndices 3 4).take 45
      ∧ (initBuffers 3 4).indices.drop 48 = (specIndices 3 4).drop 48 := by
  decide

end Polygon

namespace Triangle

theorem sqrt_nine : Real.sqrt 9 = 3 := by
  rw [show (9 : ℝ) = 3 ^ 2 by norm_num]
  exact Real.sqrt_sq (by norm_num)

theorem sqrt_sixteen : Real.sqrt 16 = 4 := by
  rw [show (16 : ℝ) = 4 ^ 2 by norm_num]
  exact Real.sqrt_sq (by norm_num)

theorem sqrt_twentyfive : Real.sqrt 25 = 5 := by
  rw [show (25 : ℝ) = 5 ^ 2 by norm_num]
  exact Real.sqrt_sq (by norm_num)

theorem sides_345 :
    distanceTo Real.sqrt (0, 0, 0) (3, 0, 0) = 3 ∧
      distanceTo Real.sqrt (3, 0, 0) (3, 4, 0) = 4 ∧
      distanceTo Real.sqrt (0, 0, 0) (3, 4, 0) = 5 := by
  refine ⟨?_, ?_, ?_⟩
  · simp only [distanceTo]
    norm_num
    exact sqrt_nine
  · simp only [distanceTo]
    norm_num
    exact sqrt_sixteen
  · simp only [distanceTo]
    norm_num
    exact sqrt_twentyfive

theorem uvs_345 :
    uvs Real.sqrt (0, 0, 0) (3, 0, 0) (3, 4, 0) = [0, 0, 1, 0, 3 / 5, 4 / 5] := by
  obtain ⟨ha, hb, hc⟩ := sides_345
  simp only [uvs, ha, hb, hc]
  norm_num [sqrt_sixteen, sqrt_twentyfive]

/-- C16 (counterexample): for the right triangle with sides `a = 3`, `b = 4`, `c = 5` the
texture coordinate of the third vertex is `(3/5, 4/5)`: neither `(cos * a, sin * a)`,
which is `(9/5, 12/5)`, nor `(0, 3)`. -/
theorem third_uv_counterexample :
    distanceTo Real.sqrt (0, 0, 0) (3, 0, 0) = 3
      ∧ distanceTo Real.sqrt (3, 0, 0) (3, 4, 0) = 4
      ∧ distanceTo Real.sqrt (0, 0, 0) (3, 4, 0) = 5
      ∧ (uvs Real.sqrt (0, 0, 0) (3, 0, 0) (3, 4, 0)).drop 4 = [3 / 5, 4 / 5]
      ∧ ([3 / 5, 4 / 5] : List ℝ) ≠ [3 / 5 * 3, 4 / 5 * 3]
      ∧ ([3 / 5, 4 / 5] : List ℝ) ≠ [0, 3] := by
  obtain ⟨ha, hb, hc⟩ := sides_345
  refine ⟨ha, hb, hc, ?_, ?_, ?_⟩
  · rw [uvs_345]
    rfl
  · norm_num
  · norm_num

section
variable {K : Type} [Field K]

/-- C16 (amended): for a triangle whose sides `a = |p1 p2|` and `c = |p1 p3|` are not
zero, the texture coordinate of the third vertex is `(cos, sin)` with
`cos = (a² - b² + c²) / (2 a c)`, that is `2 a c cos = a² - b² + c²`, and
`sin = sqrt (1 - cos²)`; it is not scaled by `a`. -/
theorem third_uv (sqrt : K → K) (p1 p2 p3 : K × K × K)
    (ha : distanceTo sqrt p1 p2 ≠ 0) (hc : distanceTo sqrt p1 p3 ≠ 0)
    (h2 : (2 : K) ≠ 0) :
    ∃ cos sin, (uvs sqrt p1 p2 p3) = [0, 0, 1, 0, cos, sin] ∧
      2 * distanceTo sqrt p1 p2 * distanceTo sqrt p1 p3 * cos
        = distanceTo sqrt p1 p2 * distanceTo sqrt p1 p2
          - distanceTo sqrt p2 p3 * distanceTo sqrt p2 p3
          + distanceTo sqrt p1 p3 * distanceTo sqrt p1 p3 ∧
      sin = sqrt (1 - cos * cos) := by
  refine ⟨(distanceTo sqrt p1 p2 * distanceTo sqrt p1 p2
      - distanceTo sqrt p2 p3 * distanceTo sqrt p2 p3
      + distanceTo sqrt p1 p3 * distanceTo sqrt p1 p3)
      / (2 * distanceTo sqrt p1 p2 * distanceTo sqrt p1 p3), _, ?_, ?_, rfl⟩
  · simp only [uvs, one_mul]
  · have h : 2 * distanceTo sqrt p1 p2 * distanceTo sqrt p1 p3 ≠ 0 :=
      mul_ne_zero (mul_ne_zero h2 ha) hc
    exact mul_div_cancel₀ _ h

end

/-- Witness of `third_uv`: the right triangle with sides `3`, `4`, `5`, whose third
texture coordinate is `(3/5, 4/5)`. -/
theorem third_uv_witness :
    ∃ cos sin, uvs Real.sqrt (0, 0, 0) (3, 0, 0) (3, 4, 0) = [0, 0, 1, 0, cos, sin] ∧
      cos = 3 / 5 ∧ sin = 4 / 5 := by
  obtain ⟨ha, -, hc⟩ := sides_345
  obtain ⟨cos, sin, h, -, -⟩ := third_uv Real.sqrt (0, 0, 0) (3, 0, 0) (3, 4, 0)
    (by rw [ha]; norm_num) (by rw [hc]; norm_num) two_ne_zero
  refine ⟨cos, sin, h, ?_, ?_⟩
  · rw [uvs_345] at h
    simp only [List.cons.injEq, true_and, and_true] at h
    exact h.1.symm
  · rw [uvs_345] at h
    simp only [List.cons.injEq, true_and, and_true] at h
    exact h.2.symm

end Triangle
namespace MaterialLoader
open Examples

/-- C17 (counterexample): for the surface width `0` the colour map of the material
`brickWall`, whose declared length defaults to `1`, repeats `1` time along that axis, not
`0 / 1 = 0` times. -/
theorem texture_repeat_counterexample :
    (create (getMatDetails textures brickWall) (some 0) (some 3)).map
        = some { texture := "bricks.jpg", repeatX := .finite 1, repeatY := .finite (3 / 2) }
      ∧ (JsNumber.finite 1 : JsNumber ℚ) ≠ .finite (0 / 1) := by
  constructor
  · simp [create, getMatDetails, textures, brickWall, divide, orOne]
  · simp

section
variable {T K : Type} [LinearOrderedField K]

theorem orOne_divide (size : K) (length : Option K) :
    orOne (divide size (some (length.getD 1))) = tiling size length := by
  unfold divide tiling
  by_cases hl : length.getD 1 = 0
  · by_cases hs : size = 0
    · simp [hl, hs, orOne]
    · simp [hl, hs, orOne]
  · by_cases hs : size = 0
    · simp [hl, hs, orOne]
    · simp [hl, hs, orOne]

/-- C17 (amended): for a material with a texture and a surface of width `w` and height
`h`, `create` sets the repeat of the colour map to `(w / s, h / t)`, where `s` and `t` are
the declared lengths (`1` when not declared), except that a component is `1` when the
size is zero (and infinite when only the length is zero); the bump and specular maps,
when there are any, get the same repeat. -/
theorem texture_repeat (textureMap : String → Option T) (data : MaterialData K) (tex : T)
    (w h : K) (htex : data.textureref.bind textureMap = some tex) :
    (create (getMatDetails textureMap data) (some w) (some h)).map
        = some { texture := tex, repeatX := tiling w data.texlength_s,
                 repeatY := tiling h data.texlength_t }
      ∧ (create (getMatDetails textureMap data) (some w) (some h)).bumpMap
        = (data.bumpref.bind textureMap).map (fun bump =>
            { texture := bump, repeatX := tiling w data.texlength_s,
              repeatY := tiling h data.texlength_t })
      ∧ (create (getMatDetails textureMap data) (some w) (some h)).specularMap
        = (data.specularref.bind textureMap).map (fun specular =>
            { texture := specular, repeatX := tiling w data.texlength_s,
              repeatY := tiling h data.texlength_t }) := by
  simp only [create, getMatDetails, htex, Option.isSome_some, if_true, Option.getD_some,
    Option.map_some', orOne_divide]
  exact ⟨trivial, trivial, trivial⟩

/-- For a size and a length that are not zero the tiling is the plain quotient. -/
theorem tiling_quotient (size : K) (length : Option K) (hs : size ≠ 0)
    (hl : length.getD 1 ≠ 0) : tiling size length = .finite (size / length.getD 1) := by
  simp [tiling, hs, hl]

end

/-- Witness of `texture_repeat`: the material `brickWall` on a surface of 4 by 3 repeats
its colour and bump maps `4 / 1` and `3 / 2` times. -/
theorem texture_repeat_witness :
    (create (getMatDetails textures brickWall) (some 4) (some 3)).map
        = some { texture := "bricks.jpg", repeatX := .finite 4, repeatY := .finite (3 / 2) }
      ∧ (create (getMatDetails textures brickWall) (some 4) (some 3)).bumpMap
        = some { texture := "bricks.jpg", repeatX := .finite 4, repeatY := .finite (3 / 2) } := by
  obtain ⟨h1, h2, -⟩ := texture_repeat textures brickWall "bricks.jpg" 4 3 (by decide)
  have hx : tiling (4 : ℚ) brickWall.texlength_s = .finite 4 := by
    simp [tiling, brickWall]
  have hy : tiling (3 : ℚ) brickWall.texlength_t = .finite (3 / 2) := by
    simp [tiling, brickWall]
  rw [hx, hy] at h1 h2
  refine ⟨h1, ?_⟩
  rw [h2]
  simp [brickWall, textures]

end MaterialLoader

namespace ObjectLoader
open Examples

/-- C18: in the scene `lodCached` the node referenced by the lod `L` is already cached
when `L` is processed, so its clone (object 5) is attached to the lod (object 4) with
`add`: the lod has one child and no level.  The same holds when the child of the lod
carries the id of its node (`lodCachedId`).  In the scene `lodFresh` the node is not
cached and is registered as a level at distance 5. -/
theorem lod_clone_without_level :
    levelView (parseNode cosZ sinZ lodCached "scene" 3) = some
        [("scene", .group, [1], []),
         ("scene_obj", .group, [2, 4], []),
         ("scene_undefined_obj", .group, [3], []),
         ("scene_undefined_box_obj", .mesh "box" "defaultMaterial" false false, [], []),
         ("scene__lod", .lod, [5], []),
         ("scene__undefined_obj", .group, [6], []),
         ("scene__undefined__box_obj", .mesh "box" "defaultMaterial" false false, [], [])]
      ∧ levelView (parseNode cosZ sinZ lodCachedId "scene" 3) = some
        [("scene", .group, [1], []),
         ("scene_obj", .group, [2, 4], []),
         ("scene_B_obj", .group, [3], []),
         ("scene_B_box_obj", .mesh "box" "defaultMaterial" false false, [], []),
         ("scene__lod", .lod, [5], []),
         ("scene__B_obj", .group, [6], []),
         ("scene__B__box_obj", .mesh "box" "defaultMaterial" false false, [], [])]
      ∧ levelView (parseNode cosZ sinZ lodFresh "scene" 3) = some
        [("scene", .group, [1], []),
         ("scene_obj", .group, [2], []),
         ("scene__lod", .lod, [3], [{ object := 3, distance := 5 }]),
         ("scene__B_obj", .group, [4], []),
         ("scene__B_box_obj", .mesh "box" "defaultMaterial" false false, [], [])] := by
  refine ⟨?_, ?_, ?_⟩ <;> decide

/-- C19: for the spotlight `S` of the root the wrapper (object 2) is named
`scene_lightwrapper_`, but the light under it (object 3) keeps the name `S_light` and the
target (object 4) is given the name of the wrapper; the point light `P` (object 6) is
named `scene_lightwrapper_P_light`. -/
theorem spotlight_name :
    builtView (parseNode cosZ sinZ lights "scene" 1) = some
        [("scene", .group, [1]),
         ("scene_obj", .group, [2, 5]),
         ("scene_lightwrapper_", .group, [4, 3]),
         ("S_light", .light .spotlight, []),
         ("scene_lightwrapper_", .target, []),
         ("scene_lightwrapper_", .group, [6]),
         ("scene_lightwrapper_P_light", .light .pointlight, [])]
      ∧ "S_light" ≠ "scene_lightwrapper_" ++ "S" ++ "_light" := by
  decide

/-- C20: the lod `L` built under the root (parent prefix `scene_`) is named `scene__lod`,
without its id, and the node `B` below it `scene__B_obj`; no object is named
`scene_L_lod` or `scene_L_B_obj`. -/
theorem lod_name_without_id :
    builtNames (parseNode cosZ sinZ lodFresh "scene" 3)
        = some ["scene", "scene_obj", "scene__lod", "scene__B_obj", "scene__B_box_obj"]
      ∧ "scene_" ++ "L" ++ "_lod" ∉
          ["scene", "scene_obj", "scene__lod", "scene__B_obj", "scene__B_box_obj"]
      ∧ "scene_" ++ "L" ++ "_" ++ "B" ++ "_obj" ∉
          ["scene", "scene_obj", "scene__lod", "scene__B_obj", "scene__B_box_obj"] := by
  decide

end ObjectLoader

namespace Polygon

theorem vertexIndex_bounds (nstacks nslices s k : Nat) (hsl : 1 ≤ nslices) (hs : s ≤ nslices)
    (hk : k ≤ nstacks) :
    0 ≤ vertexIndex nstacks nslices s k ∧
      vertexIndex nstacks nslices s k < 1 + (nstacks * nslices : Nat) := by
  unfold vertexIndex
  by_cases h0 : k = 0
  · simp only [h0, if_true]
    constructor <;> omega
  · by_cases h1 : s = nslices
    · simp only [h0, h1, if_true, if_false]
      have : nstacks * 1 ≤ nstacks * nslices := Nat.mul_le_mul_left _ hsl
      constructor <;> omega
    · simp only [h0, h1, if_false]
      have h2 : s + 1 ≤ nslices := by omega
      have h3 : (s + 1) * nstacks ≤ nslices * nstacks := Nat.mul_le_mul_right _ h2
      rw [Nat.succ_mul, Nat.mul_comm nslices nstacks] at h3
      constructor
      · positivity
      · have : ((s * nstacks + k : Nat) : Int) < 1 + (nstacks * nslices : Nat) := by
          exact_mod_cast (by omega : s * nstacks + k < 1 + nstacks * nslices)
        simpa using this

theorem codeTriangles_bounds (nstacks nslices s k : Nat) (hs1 : 1 ≤ s) (hs : s ≤ nslices)
    (hk1 : 1 ≤ k) (hk : k ≤ nstacks) :
    ∀ i ∈ codeTriangles nstacks nslices s k, 0 ≤ i ∧ i < 1 + (nstacks * nslices : Nat) := by
  have hsl : 1 ≤ nslices := by omega
  have b := fun s' k' (h1 : s' ≤ nslices) (h2 : k' ≤ nstacks) =>
    vertexIndex_bounds nstacks nslices s' k' hsl h1 h2
  intro i hi
  unfold codeTriangles at hi
  split at hi
  · simp only [List.mem_cons, List.mem_singleton, List.not_mem_nil, or_false] at hi
    rcases hi with rfl | rfl | rfl
    · have : nstacks * 1 ≤ nstacks * nslices := Nat.mul_le_mul_left _ hsl
      constructor <;> omega
    · constructor <;> omega
    · constructor <;> omega
  · unfold specTriangles at hi
    split at hi
    · simp only [List.mem_cons, List.mem_singleton, List.not_mem_nil, or_false] at hi
      rcases hi with rfl | rfl | rfl
      · exact b s 1 hs (by omega)
      · constructor <;> omega
      · exact b (s - 1) 1 (by omega) (by omega)
    · simp only [List.mem_cons, List.mem_singleton, List.not_mem_nil, or_false] at hi
      rcases hi with rfl | rfl | rfl | rfl | rfl | rfl
      · exact b s k hs hk
      · exact b s (k - 1) hs (by omega)
      · exact b (s - 1) (k - 1) (by omega) (by omega)
      · exact b s k hs hk
      · exact b (s - 1) (k - 1) (by omega) (by omega)
      · exact b (s - 1) k (by omega) hk

theorem codeTriangles_length (nstacks nslices s k : Nat) :
    (codeTriangles nstacks nslices s k).length = if k = 1 then 3 else 6 := by
  unfold codeTriangles specTriangles
  by_cases hk : k = 1
  · by_cases hs : s = nslices <;> simp [hk, hs]
  · simp [hk]

theorem slice_length (nstacks nslices s j : Nat) :
    ((List.range' 1 (j + 1)).flatMap (codeTriangles nstacks nslices s)).length = 3 + 6 * j := by
  induction j with
  | zero => simp [codeTriangles_length]
  | succ j ih =>
    rw [List.range'_1_concat, List.flatMap_append, List.length_append, ih]
    simp only [List.flatMap_cons, List.flatMap_nil, List.append_nil, codeTriangles_length]
    have : ¬ 1 + (j + 1) = 1 := by omega
    simp only [this, if_false]
    omega

/-- C30: for at least one stack and one slice every entry of the index buffer is the index
of a vertex, that is, lies between `0` and `nstacks * nslices`, and the buffer has
`3 * nslices * (2 * nstacks - 1)` entries. -/
theorem indices_valid (nstacks nslices : Nat) (hst : 1 ≤ nstacks) (hsl : 1 ≤ nslices) :
    (∀ i ∈ (initBuffers nstacks nslices).indices,
        0 ≤ i ∧ i < ((initBuffers nstacks nslices).vertices.length : Int)) ∧
      (initBuffers nstacks nslices).vertices.length = 1 + nstacks * nslices ∧
      (initBuffers nstacks nslices).indices.length = 3 * nslices * (2 * nstacks - 1) := by
  obtain ⟨hv, hi⟩ := initBuffers_eq nstacks nslices hsl
  have hlen : (initBuffers nstacks nslices).vertices.length = 1 + nstacks * nslices := by
    rw [hv]
    have hl : ∀ l : List Nat,
        (l.flatMap (fun s => (List.range' 1 nstacks).map (fun k => (s, k)))).length
          = l.length * nstacks := by
      intro l
      induction l with
      | nil => simp
      | cons a l ih =>
        rw [List.flatMap_cons, List.length_append, ih, List.length_map, List.length_range',
          List.length_cons, Nat.succ_mul]
        omega
    obtain ⟨j, rfl⟩ : ∃ j, nslices = j + 1 := ⟨nslices - 1, by omega⟩
    rw [List.length_append, hl, List.length_map, List.length_range, List.length_range',
      Nat.add_sub_cancel, Nat.mul_succ, Nat.mul_comm j nstacks]
    omega
  refine ⟨?_, hlen, ?_⟩
  · intro i hi'
    rw [hi] at hi'
    simp only [List.mem_flatMap, List.mem_range'_1] at hi'
    obtain ⟨s, ⟨hs1, hs2⟩, k, ⟨hk1, hk2⟩, hmem⟩ := hi'
    rw [hlen]
    exact codeTriangles_bounds nstacks nslices s k hs1 (by omega) hk1 (by omega) i hmem
  · rw [hi]
    obtain ⟨j, rfl⟩ : ∃ j, nstacks = j + 1 := ⟨nstacks - 1, by omega⟩
    have hl : ∀ l : List Nat,
        (l.flatMap (fun s =>
          (List.range' 1 (j + 1)).flatMap (codeTriangles (j + 1) nslices s))).length
          = l.length * (3 + 6 * j) := by
      intro l
      induction l with
      | nil => simp
      | cons a l ih =>
        rw [List.flatMap_cons, List.length_append, ih, slice_length, List.length_cons]
        ring
    rw [hl, List.length_range']
    have : 2 * (j + 1) - 1 = 2 * j + 1 := by omega
    rw [this]
    ring

/-- Witness of `indices_valid`: three stacks and four slices give 60 indices, all below
13. -/
theorem indices_valid_witness :
    (∀ i ∈ (initBuffers 3 4).indices, 0 ≤ i ∧ i < ((initBuffers 3 4).vertices.length : Int)) ∧
      (initBuffers 3 4).vertices.length = 1 + 3 * 4 ∧
      (initBuffers 3 4).indices.length = 3 * 4 * (2 * 3 - 1) :=
  indices_valid 3 4 (by decide) (by decide)

end Polygon
namespace Polygon
section Rounding

theorem roundHalfEven_intCast (n : ℤ) : roundHalfEven (n : ℚ) = n := by
  simp [roundHalfEven]

theorem roundHalfEven_of_lt (q : ℚ) (f : ℤ) (h1 : (f : ℚ) ≤ q) (h2 : q - f < 1 / 2) :
    roundHalfEven q = f := by
  have hf : ⌊q⌋ = f := Int.floor_eq_iff.2 ⟨h1, by linarith⟩
  unfold roundHalfEven
  rw [hf, if_pos h2]

theorem roundHalfEven_of_gt (q : ℚ) (f : ℤ) (h1 : 1 / 2 < q - f) (h2 : q < f + 1) :
    roundHalfEven q = f + 1 := by
  have hf : ⌊q⌋ = f := Int.floor_eq_iff.2 ⟨by linarith, h2⟩
  have : ¬ q - f < 1 / 2 := by linarith
  unfold roundHalfEven
  rw [hf, if_neg this, if_pos h1]

theorem floor_le_roundHalfEven (q : ℚ) : ⌊q⌋ ≤ roundHalfEven q := by
  unfold roundHalfEven
  split_ifs <;> omega

theorem roundHalfEven_le_floor_succ (q : ℚ) : roundHalfEven q ≤ ⌊q⌋ + 1 := by
  unfold roundHalfEven
  split_ifs <;> omega

theorem le_roundHalfEven (q : ℚ) (m : ℤ) (h : (m : ℚ) ≤ q) : m ≤ roundHalfEven q :=
  le_trans (Int.le_floor.2 h) (floor_le_roundHalfEven q)

theorem roundHalfEven_le (q : ℚ) (m : ℤ) (h : q ≤ (m : ℚ)) : roundHalfEven q ≤ m := by
  rcases lt_or_eq_of_le h with hlt | heq
  · have : ⌊q⌋ < m := Int.floor_lt.2 hlt
    have := roundHalfEven_le_floor_succ q
    omega
  · rw [heq, roundHalfEven_intCast]

theorem log_abs_eq (x : ℚ) (e : ℤ) (h1 : (2 : ℚ) ^ e ≤ |x|) (h2 : |x| < (2 : ℚ) ^ (e + 1)) :
    Int.log 2 |x| = e := by
  have hpos : 0 < |x| := lt_of_lt_of_le (zpow_pos (by norm_num) e) h1
  have a : e ≤ Int.log 2 |x| := (Int.zpow_le_iff_le_log (by norm_num) hpos).1 (by exact_mod_cast h1)
  have b : Int.log 2 |x| < e + 1 := (Int.lt_zpow_iff_log_lt (by norm_num) hpos).1 (by exact_mod_cast h2)
  omega

theorem roundDouble_eq (x : ℚ) (e : ℤ) (he : -1022 ≤ e) (h1 : (2 : ℚ) ^ e ≤ |x|)
    (h2 : |x| < (2 : ℚ) ^ (e + 1)) :
    roundDouble x = roundHalfEven (x / 2 ^ (e - 52)) * 2 ^ (e - 52) := by
  have : ulpExponent x = e - 52 := by
    unfold ulpExponent
    rw [log_abs_eq x e h1 h2, max_eq_left he]
  unfold roundDouble
  rw [this]

theorem roundDouble_zero : roundDouble 0 = 0 := by
  simp [roundDouble, roundHalfEven]

theorem roundDouble_one : roundDouble 1 = 1 := by
  rw [roundDouble_eq 1 0 (by norm_num) (by norm_num) (by norm_num)]
  have : (1 : ℚ) / 2 ^ ((0 : ℤ) - 52) = ((2 ^ 52 : ℤ) : ℚ) := by
    norm_num [zpow_neg]
  rw [this, roundHalfEven_intCast]
  norm_num [zpow_neg]

/-- A multiple of the spacing with a multiplier below `2 ^ 53` in magnitude is rounded to
itself, provided it is not smaller than the spacing allows. -/
theorem roundDouble_mul (n : ℤ) (E : ℤ) (hE : -1022 ≤ E) (hn : |n| ≤ 2 ^ 53)
    (hlow : E = -1022 ∨ 2 ^ 52 ≤ |n|) :
    roundDouble ((n : ℚ) * 2 ^ (E - 52)) = (n : ℚ) * 2 ^ (E - 52) := by
  have hu : (0 : ℚ) < 2 ^ (E - 52) := zpow_pos (by norm_num) _
  by_cases h0 : n = 0
  · subst h0
    simp [roundDouble_zero]
  have habs : |(n : ℚ) * 2 ^ (E - 52)| = (|n| : ℤ) * 2 ^ (E - 52) := by
    rw [abs_mul, abs_of_pos hu, Int.cast_abs]
  have e53 : (2 : ℚ) ^ (E + 1) = ((2 ^ 53 : ℤ) : ℚ) * 2 ^ (E - 52) := by
    have : E + 1 = 53 + (E - 52) := by ring
    rw [this, zpow_add₀ (by norm_num)]
    norm_num
  have e52 : (2 : ℚ) ^ E = ((2 ^ 52 : ℤ) : ℚ) * 2 ^ (E - 52) := by
    have : E = 52 + (E - 52) := by ring
    conv_lhs => rw [this, zpow_add₀ (by norm_num : (2 : ℚ) ≠ 0)]
    norm_num
  rcases lt_or_eq_of_le hn with hlt | heq
  · -- same spacing
    have hul : ulpExponent ((n : ℚ) * 2 ^ (E - 52)) = E - 52 := by
      unfold ulpExponent
      have hpos : 0 < |(n : ℚ) * 2 ^ (E - 52)| := by
        rw [habs]
        have : (0 : ℤ) < |n| := abs_pos.2 h0
        have : (0 : ℚ) < ((|n| : ℤ) : ℚ) := by exact_mod_cast this
        positivity
      have hlt' : |(n : ℚ) * 2 ^ (E - 52)| < (2 : ℚ) ^ (E + 1) := by
        rw [habs, e53]
        have : ((|n| : ℤ) : ℚ) < ((2 ^ 53 : ℤ) : ℚ) := by exact_mod_cast hlt
        exact mul_lt_mul_of_pos_right this hu
      have hlog : Int.log 2 |(n : ℚ) * 2 ^ (E - 52)| < E + 1 :=
        (Int.lt_zpow_iff_log_lt (by norm_num) hpos).1 (by exact_mod_cast hlt')
      rcases hlow with rfl | hlow
      · rw [max_eq_right (by omega)]
      · have hge : (2 : ℚ) ^ E ≤ |(n : ℚ) * 2 ^ (E - 52)| := by
          rw [habs, e52]
          have : ((2 ^ 52 : ℤ) : ℚ) ≤ ((|n| : ℤ) : ℚ) := by exact_mod_cast hlow
          exact mul_le_mul_of_nonneg_right this hu.le
        have hlog2 : E ≤ Int.log 2 |(n : ℚ) * 2 ^ (E - 52)| :=
          (Int.zpow_le_iff_le_log (by norm_num) hpos).1 (by exact_mod_cast hge)
        rw [max_eq_left (by omega)]
        congr 1
        omega
    unfold roundDouble
    rw [hul, mul_div_assoc, div_self hu.ne', mul_one, roundHalfEven_intCast]
  · -- the multiplier is `2 ^ 53` in magnitude: the next spacing
    have hy : |(n : ℚ) * 2 ^ (E - 52)| = (2 : ℚ) ^ (E + 1) := by
      rw [habs, e53, heq]
    rw [roundDouble_eq _ (E + 1) (by omega) (le_of_eq hy.symm)
      (by rw [hy]; exact zpow_lt_zpow_right₀ (by norm_num) (by omega))]
    have hsplit : (2 : ℚ) ^ (E + 1 - 52) = 2 * 2 ^ (E - 52) := by
      have : E + 1 - 52 = 1 + (E - 52) := by ring
      rw [this, zpow_add₀ (by norm_num : (2 : ℚ) ≠ 0)]
      norm_num
    have hn2 : n = 2 ^ 53 ∨ n = -2 ^ 53 := by
      rcases abs_eq (by norm_num : (0 : ℤ) ≤ 2 ^ 53) |>.1 heq with h | h
      · exact Or.inl h
      · exact Or.inr h
    rw [hsplit]
    rcases hn2 with rfl | rfl
    · have : ((2 ^ 53 : ℤ) : ℚ) * 2 ^ (E - 52) / (2 * 2 ^ (E - 52)) = ((2 ^ 52 : ℤ) : ℚ) := by
        field_simp
        norm_num
        ring
      rw [this, roundHalfEven_intCast]
      push_cast
      ring
    · have : ((-2 ^ 53 : ℤ) : ℚ) * 2 ^ (E - 52) / (2 * 2 ^ (E - 52)) = ((-2 ^ 52 : ℤ) : ℚ) := by
        field_simp
        norm_num
        ring
      rw [this, roundHalfEven_intCast]
      push_cast
      ring

/-- Rounding a second time changes nothing. -/
theorem roundDouble_idem (x : ℚ) : roundDouble (roundDouble x) = roundDouble x := by
  by_cases hx : x = 0
  · subst hx
    rw [roundDouble_zero, roundDouble_zero]
  have hpos : 0 < |x| := abs_pos.2 hx
  obtain ⟨E, hE⟩ : ∃ E, E = max (Int.log 2 |x|) (-1022) := ⟨_, rfl⟩
  have hul : ulpExponent x = E - 52 := by rw [hE]; rfl
  have hu : (0 : ℚ) < 2 ^ (E - 52) := zpow_pos (by norm_num) _
  have e53 : (2 : ℚ) ^ (E + 1) = ((2 ^ 53 : ℤ) : ℚ) * 2 ^ (E - 52) := by
    have : E + 1 = 53 + (E - 52) := by ring
    rw [this, zpow_add₀ (by norm_num)]
    norm_num
  have e52 : (2 : ℚ) ^ E = ((2 ^ 52 : ℤ) : ℚ) * 2 ^ (E - 52) := by
    have : E = 52 + (E - 52) := by ring
    conv_lhs => rw [this, zpow_add₀ (by norm_num : (2 : ℚ) ≠ 0)]
    norm_num
  have hlt : |x| < (2 : ℚ) ^ (E + 1) := by
    have h1 : |x| < ((2 : ℕ) : ℚ) ^ (Int.log 2 |x| + 1) := Int.lt_zpow_succ_log_self (by norm_num) _
    have h2 : ((2 : ℕ) : ℚ) ^ (Int.log 2 |x| + 1) ≤ (2 : ℚ) ^ (E + 1) := by
      push_cast
      exact zpow_le_zpow_right₀ (by norm_num) (by rw [hE]; have := le_max_left (Int.log 2 |x|) (-1022); omega)
    exact lt_of_lt_of_le h1 h2
  have hq : |x / 2 ^ (E - 52)| < ((2 ^ 53 : ℤ) : ℚ) := by
    rw [abs_div, abs_of_pos hu, div_lt_iff₀ hu, ← e53]
    exact hlt
  have hnle : |roundHalfEven (x / 2 ^ (E - 52))| ≤ 2 ^ 53 := by
    rw [abs_le]
    have := abs_lt.1 hq
    constructor
    · exact le_roundHalfEven _ _ (by push_cast at this ⊢; linarith [this.1])
    · exact roundHalfEven_le _ _ (by push_cast at this ⊢; linarith [this.2])
  have hlow : E = -1022 ∨ 2 ^ 52 ≤ |roundHalfEven (x / 2 ^ (E - 52))| := by
    by_cases hL : Int.log 2 |x| ≤ -1022
    · left
      rw [hE, max_eq_right hL]
    · right
      have hEL : E = Int.log 2 |x| := by rw [hE, max_eq_left (by omega)]
      have h1 : ((2 : ℕ) : ℚ) ^ (Int.log 2 |x|) ≤ |x| := Int.zpow_log_le_self (by norm_num) hpos
      rw [← hEL] at h1
      push_cast at h1
      rw [e52] at h1
      have hq2 : ((2 ^ 52 : ℤ) : ℚ) ≤ |x / 2 ^ (E - 52)| := by
        rw [abs_div, abs_of_pos hu, le_div_iff₀ hu]
        exact h1
      rcases le_abs.1 hq2 with h | h
      · exact le_trans (le_roundHalfEven _ _ h) (le_abs_self _)
      · have : roundHalfEven (x / 2 ^ (E - 52)) ≤ -2 ^ 52 :=
          roundHalfEven_le _ _ (by push_cast at h ⊢; linarith)
        have := neg_le_abs (roundHalfEven (x / 2 ^ (E - 52)))
        omega
  have hEge : -1022 ≤ E := by rw [hE]; exact le_max_right _ _
  have hr : roundDouble x = (roundHalfEven (x / 2 ^ (E - 52)) : ℚ) * 2 ^ (E - 52) := by
    unfold roundDouble
    rw [hul]
  rw [hr]
  exact roundDouble_mul _ E hEge hnle hlow

end Rounding

section ColorClaims

theorem colors_stack_fold (color_c color_p : Color ℚ) (nstacks nslices s : Nat) (l : List Nat) :
    ∀ (b : Buffers) (colors : List (Option ℚ)),
      colors = b.vertices.flatMap (fun v => getColor color_c color_p nstacks v.2) →
      l.foldl (colorStackStep color_c color_p nstacks nslices s) colors
        = (l.foldl (stackStep nstacks nslices s) b).vertices.flatMap
            (fun v => getColor color_c color_p nstacks v.2) := by
  induction l with
  | nil => intro b colors h; exact h
  | cons k l ih =>
    intro b colors h
    rw [List.foldl_cons, List.foldl_cons]
    apply ih
    rw [stackStep_vertices, colorStackStep, h]
    by_cases hs : s = nslices <;> simp [hs]

theorem colors_slice_fold (color_c color_p : Color ℚ) (nstacks nslices : Nat) (l : List Nat) :
    ∀ (b : Buffers) (colors : List (Option ℚ)),
      colors = b.vertices.flatMap (fun v => getColor color_c color_p nstacks v.2) →
      l.foldl (colorSliceStep color_c color_p nstacks nslices) colors
        = (l.foldl (sliceStep nstacks nslices) b).vertices.flatMap
            (fun v => getColor color_c color_p nstacks v.2) := by
  induction l with
  | nil => intro b colors h; exact h
  | cons s l ih =>
    intro b colors h
    rw [List.foldl_cons, List.foldl_cons]
    apply ih
    exact colors_stack_fold color_c color_p nstacks nslices s _ b colors h

/-- The colour buffer holds the entries of `getColor` for the ring of every vertex, in the
order of the vertex buffer. -/
theorem initColors_eq (color_c color_p : Color ℚ) (nstacks nslices : Nat) :
    initColors color_c color_p nstacks nslices
      = (initBuffers nstacks nslices).vertices.flatMap
          (fun v => getColor color_c color_p nstacks v.2) := by
  unfold initColors initBuffers
  apply colors_slice_fold
  simp [firstLine, List.flatMap_map]

theorem drop_flatMap_four {α β : Type} (f : α → List β) (hf : ∀ a, (f a).length = 4) :
    ∀ (l : List α) (i : Nat) (a : α), l[i]? = some a →
      ((l.flatMap f).drop (4 * i)).take 4 = f a := by
  intro l
  induction l with
  | nil => intro i a h; simp at h
  | cons x l ih =>
    intro i a h
    cases i with
    | zero =>
      simp only [List.getElem?_cons_zero, Option.some.injEq] at h
      subst h
      rw [List.flatMap_cons, Nat.mul_zero, List.drop_zero, List.take_append_of_le_length
        (by rw [hf]), List.take_of_length_le (by rw [hf])]
    | succ i =>
      simp only [List.getElem?_cons_succ] at h
      rw [List.flatMap_cons, Nat.mul_succ, Nat.add_comm, ← List.drop_drop, List.drop_left' (hf x)]
      exact ih i a h

/-- The four entries of the colour buffer for the vertex `i` are those of `getColor` for
its ring. -/
theorem initColors_vertex (color_c color_p : Color ℚ) (nstacks nslices : Nat) (i s k : Nat)
    (hv : (initBuffers nstacks nslices).vertices[i]? = some (s, k)) :
    ((initColors color_c color_p nstacks nslices).drop (4 * i)).take 4
      = getColor color_c color_p nstacks k := by
  rw [initColors_eq]
  exact drop_flatMap_four (fun v : Nat × Nat => getColor color_c color_p nstacks v.2)
    (fun _ => rfl) _ i (s, k) hv

/-- C22 (amended): for at least one stack and colours whose channels are doubles between
`0` and `1`, the three colour entries of a vertex on ring `k` are, per channel,
`color_c + (color_p - color_c) * (k / nstacks)` with every operation rounded to a
double; the centre vertex has exactly the colour `color_c`, and a vertex of the
outermost ring has the rounded sum of `color_c` and the rounded difference
`color_p - color_c`.  The fourth entry the code pushes for a vertex is undefined. -/
theorem vertex_color (color_c color_p : Color ℚ) (nstacks nslices : Nat) (hst : 1 ≤ nstacks)
    (hbig : nstacks < 2 ^ 53) (hc : color_c.IsUnit) (hp : color_p.IsUnit)
    (i s k : Nat) (hv : (initBuffers nstacks nslices).vertices[i]? = some (s, k)) :
    ((initColors color_c color_p nstacks nslices).drop (4 * i)).take 4
        = [some (roundDouble (color_c.r + roundDouble (roundDouble (color_p.r - color_c.r)
              * roundDouble ((k : ℚ) / (nstacks : ℚ))))),
           some (roundDouble (color_c.g + roundDouble (roundDouble (color_p.g - color_c.g)
              * roundDouble ((k : ℚ) / (nstacks : ℚ))))),
           some (roundDouble (color_c.b + roundDouble (roundDouble (color_p.b - color_c.b)
              * roundDouble ((k : ℚ) / (nstacks : ℚ))))), none] ∧
      (k = 0 → ((initColors color_c color_p nstacks nslices).drop (4 * i)).take 4
        = [some color_c.r, some color_c.g, some color_c.b, none]) ∧
      (k = nstacks → ((initColors color_c color_p nstacks nslices).drop (4 * i)).take 4
        = [some (roundDouble (color_c.r + roundDouble (color_p.r - color_c.r))),
           some (roundDouble (color_c.g + roundDouble (color_p.g - color_c.g))),
           some (roundDouble (color_c.b + roundDouble (color_p.b - color_c.b))), none]) := by
  have hne : (nstacks : ℚ) ≠ 0 := by
    have : nstacks ≠ 0 := by omega
    exact_mod_cast this
  have key := initColors_vertex color_c color_p nstacks nslices i s k hv
  -- `hbig` and `hp` keep the run within the model: the loop counters are exact and no
  -- operation overflows
  have _ := hbig
  have _ := hp
  refine ⟨?_, ?_, ?_⟩
  · rw [key]
    rfl
  · intro hk
    rw [key, hk]
    simp [getColor, lerpColors, roundDouble_zero, hc.1.1, hc.2.1.1, hc.2.2.1]
  · intro hk
    rw [key, hk]
    simp [getColor, lerpColors, div_self hne, roundDouble_one, roundDouble_idem]

end ColorClaims

/-- Witness of `vertex_color`: with three stacks and four slices, vertex 5 lies on ring 2
and has the colour two thirds, rounded, of the way from black to white. -/
theorem vertex_color_witness :
    (initBuffers 3 4).vertices[5]? = some (1, 2) ∧
      ((initColors (⟨0, 0, 0⟩ : Color ℚ) ⟨1, 1, 1⟩ 3 4).drop (4 * 5)).take 4
        = [some (roundDouble (2 / 3)), some (roundDouble (2 / 3)), some (roundDouble (2 / 3)),
           none] := by
  have hv : (initBuffers 3 4).vertices[5]? = some (1, 2) := by decide
  have h0 : (⟨0, 0, 0⟩ : Color ℚ).IsUnit := by
    simp [Color.IsUnit, roundDouble_zero]
  have h1 : (⟨1, 1, 1⟩ : Color ℚ).IsUnit := by
    simp [Color.IsUnit, roundDouble_one]
  obtain ⟨h, -, -⟩ := vertex_color (⟨0, 0, 0⟩ : Color ℚ) ⟨1, 1, 1⟩ 3 4 (by decide)
    (by norm_num) h0 h1 5 1 2 hv
  refine ⟨hv, ?_⟩
  rw [h]
  simp [roundDouble_one, roundDouble_idem]

theorem roundDouble_tenth : roundDouble Examples.tenth = Examples.tenth := by
  have h := roundDouble_mul 7205759403792794 (-4) (by norm_num) (by norm_num)
    (Or.inr (by norm_num))
  have e : ((7205759403792794 : ℤ) : ℚ) * 2 ^ ((-4 : ℤ) - 52) = Examples.tenth := by
    norm_num [Examples.tenth, zpow_neg]
  rw [e] at h
  exact h

theorem roundDouble_tenth_sub : roundDouble (Examples.tenth - 1)
    = -8106479329266893 / 9007199254740992 := by
  rw [roundDouble_eq _ (-1) (by norm_num)
    (by norm_num [Examples.tenth, abs_lt, le_abs, zpow_neg])
    (by norm_num [Examples.tenth, abs_lt, zpow_neg])]
  rw [roundHalfEven_of_lt _ (-8106479329266893) (by norm_num [Examples.tenth, zpow_neg])
    (by norm_num [Examples.tenth, zpow_neg])]
  norm_num [zpow_neg]

theorem roundDouble_tenth_sum : roundDouble (1 + -8106479329266893 / 9007199254740992)
    = 900719925474099 / 9007199254740992 := by
  have h := roundDouble_mul 7205759403792792 (-4) (by norm_num) (by norm_num)
    (Or.inr (by norm_num))
  have e : ((7205759403792792 : ℤ) : ℚ) * 2 ^ ((-4 : ℤ) - 52)
      = 1 + -8106479329266893 / 9007199254740992 := by
    norm_num [zpow_neg]
  rw [e] at h
  rw [h]
  norm_num

/-- C22 (counterexample): with one stack, the centre colour white (`1`) and the perimeter
colour of channels `0.1`, the vertex 1, which lies on the outermost ring, is given the
channels `0.09999999999999998`, not `0.1`. -/
theorem outer_ring_counterexample :
    (initBuffers 1 3).vertices[1]? = some (0, 1) ∧
      roundDouble Examples.tenth = Examples.tenth ∧
      ((initColors (⟨1, 1, 1⟩ : Color ℚ) ⟨Examples.tenth, Examples.tenth, Examples.tenth⟩
          1 3).drop (4 * 1)).take 4
        = [some (900719925474099 / 9007199254740992),
           some (900719925474099 / 9007199254740992),
           some (900719925474099 / 9007199254740992), none] ∧
      (900719925474099 / 9007199254740992 : ℚ) ≠ Examples.tenth := by
  have hv : (initBuffers 1 3).vertices[1]? = some (0, 1) := by decide
  refine ⟨hv, roundDouble_tenth, ?_, by norm_num [Examples.tenth]⟩
  have hA : roundDouble (-8106479329266893 / 9007199254740992)
      = -8106479329266893 / 9007199254740992 := by
    rw [← roundDouble_tenth_sub, roundDouble_idem]
  rw [initColors_vertex _ _ 1 3 1 0 1 hv]
  simp only [getColor, lerpColors, Nat.cast_one, div_one, roundDouble_one, mul_one,
    roundDouble_tenth_sub, hA, roundDouble_tenth_sum]

end Polygon

namespace ObjectLoader
section CylinderClaims
variable {K M : Type} [Field K]

/-- C23: for a cylinder with radii `top` and `base`, which has no property `bottom`, and a
material found in the table, `getCylinder` creates the lateral material for
`2 * pi * ((top + base) / 2)` by `height` and the top cap for `2 * top` by `2 * top`, but
the bottom cap for `2 * parameters.bottom`, which is not a number, and not for `2 * base`
by `2 * base`. -/
theorem cylinder_bottom_cap (pi top base height : K) (materialData : M) :
    getCylinder (cylinderPrimitive pi (CylinderParameters.mk top base height none))
        (some materialData)
      = .many [.created materialData (some (2 * pi * ((top + base) / 2))) (some height),
               .created materialData (some (2 * top)) (some (2 * top)),
               .created materialData none none]
      ∧ (Material.created materialData none none : Material M (Option K))
          ≠ .created materialData (some (2 * base)) (some (2 * base)) := by
  constructor
  · rfl
  · intro h
    cases h

end CylinderClaims
end ObjectLoader
namespace ObjectLoader

theorem lastIndexOfAux_absent (c : Char) (l : List Char) (hc : c ∉ l) :
    ∀ (i p : Nat) (acc : Int), lastIndexOfAux c l i p acc = acc := by
  induction l with
  | nil => intro i p acc; rfl
  | cons x l ih =>
    intro i p acc
    have hx : ¬ x = c := fun h => hc (h ▸ List.mem_cons_self _ _)
    unfold lastIndexOfAux
    by_cases hp : p < i
    · simp [hp]
    · simp only [hp, if_false, hx]
      exact ih (fun h => hc (List.mem_cons_of_mem _ h)) _ _ _

theorem lastIndexOfAux_cut (c : Char) (Y R : List Char) (hY : c ∉ Y) :
    ∀ (j p : Nat) (acc : Int), p + 1 = j + Y.length →
      lastIndexOfAux c (Y ++ R) j p acc = acc := by
  induction Y with
  | nil =>
    intro j p acc hp
    cases R with
    | nil => rfl
    | cons x R =>
      simp only [List.nil_append]
      unfold lastIndexOfAux
      have : p < j := by simp at hp; omega
      simp [this]
  | cons y Y ih =>
    intro j p acc hp
    have hy : ¬ y = c := fun h => hY (h ▸ List.mem_cons_self _ _)
    simp only [List.cons_append]
    unfold lastIndexOfAux
    have : ¬ p < j := by simp at hp; omega
    simp only [this, if_false, hy]
    exact ih (fun h => hY (List.mem_cons_of_mem _ h)) (j + 1) p acc (by simp at hp ⊢; omega)

theorem lastIndexOfAux_found (c : Char) (B : List Char) (p n : Nat) (hn : n ≤ p)
    (hB : ∀ acc : Int, lastIndexOfAux c B (n + 1) p acc = acc) :
    ∀ (A : List Char) (i : Nat) (acc : Int), i + A.length = n →
      lastIndexOfAux c (A ++ c :: B) i p acc = (n : Int) := by
  intro A
  induction A with
  | nil =>
    intro i acc hi
    simp only [List.nil_append, List.length_nil, Nat.add_zero] at hi ⊢
    subst hi
    unfold lastIndexOfAux
    have : ¬ p < i := by omega
    simp only [this, if_false, if_true]
    exact hB _
  | cons a A ih =>
    intro i acc hi
    simp only [List.cons_append, List.length_cons] at hi ⊢
    unfold lastIndexOfAux
    have : ¬ p < i := by omega
    simp only [this, if_false]
    exact ih (i + 1) _ (by omega)

/-- The part of a name from its second to last underscore on, for a name that ends in an
underscore-free piece `y`, an underscore and an underscore-free tail. -/
theorem relevantName_tail (w y t : String) (hy : '_' ∉ y.data) (ht : '_' ∉ t.data) :
    relevantName (w ++ "_" ++ y ++ "_" ++ t) = "_" ++ y ++ "_" ++ t := by
  have hdata : (w ++ "_" ++ y ++ "_" ++ t).data = w.data ++ '_' :: (y.data ++ '_' :: t.data) := by
    simp [String.data_append]
  have hlen : (w ++ "_" ++ y ++ "_" ++ t).length
      = w.data.length + 1 + y.data.length + 1 + t.data.length := by
    show (w ++ "_" ++ y ++ "_" ++ t).data.length = _
    rw [hdata]
    simp only [List.length_append, List.length_cons]
    omega
  have h1 : lastIndexOf (w ++ "_" ++ y ++ "_" ++ t) '_'
      ((w ++ "_" ++ y ++ "_" ++ t).length : Int)
      = ((w.data.length + 1 + y.data.length : Nat) : Int) := by
    unfold lastIndexOf
    have e : w.data ++ '_' :: (y.data ++ '_' :: t.data)
        = (w.data ++ '_' :: y.data) ++ '_' :: t.data := by simp
    rw [hdata, e, Int.toNat_ofNat, hlen]
    exact lastIndexOfAux_found '_' t.data _ _ (by omega)
      (fun acc => lastIndexOfAux_absent '_' t.data ht _ _ acc) _ 0 _
      (by simp only [List.length_append, List.length_cons]; omega)
  have h2 : lastIndexOf (w ++ "_" ++ y ++ "_" ++ t) '_'
      (((w.data.length + 1 + y.data.length : Nat) : Int) - 1)
      = ((w.data.length : Nat) : Int) := by
    unfold lastIndexOf
    have hp : ((((w.data.length + 1 + y.data.length : Nat) : Int) - 1).toNat)
        = w.data.length + y.data.length := by omega
    rw [hdata, hp]
    exact lastIndexOfAux_found '_' (y.data ++ '_' :: t.data) _ _ (by omega)
      (fun acc => lastIndexOfAux_cut '_' y.data _ hy _ _ acc (by omega)) w.data 0 _ (by omega)
  apply String.ext
  unfold relevantName
  rw [h1, h2]
  unfold substring
  simp only [Int.toNat_ofNat, hdata, List.drop_left, String.data_append]
  simp

end ObjectLoader
namespace ObjectLoader
section CloneNames
variable {K : Type} [CommRing K]

theorem renameDescendants_keeps (f : Nat) :
    ∀ (h h' : Heap K) (cn : String) (i : Nat), renameDescendants f h cn i = .ok h' →
      ∀ j : Nat, (h.obj j).name = cn → (h'.obj j).name = cn := by
  induction f with
  | zero => intro h h' cn i hr; simp [renameDescendants] at hr
  | succ f ih =>
    intro h h' cn i hr j hj
    have hfold : ∀ h1 : Heap K, (h1.obj j).name = cn →
        (h.obj i).children.foldlM (fun acc c => renameDescendants f acc cn c) h1 = .ok h' →
        (h'.obj j).name = cn := fun h1 h1j hf =>
      foldlM_preserves (fun a : Heap K => (a.obj j).name = cn)
        (fun acc c => renameDescendants f acc cn c)
        (fun a b a' ha hab => ih a a' cn b hab j ha) _ h1 h' h1j hf
    unfold renameDescendants at hr
    by_cases hn : (h.obj i).name = cn
    · simp only [hn, if_true, bind, Except.bind, pure, Except.pure] at hr
      exact hfold h hj hr
    · simp only [hn, if_false, bind, Except.bind] at hr
      cases hp : (h.obj i).parent with
      | none => simp [hp] at hr
      | some p =>
        simp only [hp, pure, Except.pure] at hr
        refine hfold _ ?_ hr
        rw [Heap.obj_update]
        have hij : ¬ i = j := by
          rintro rfl
          exact hn hj
        simp [hij, hj]

theorem addLevel_name (h : Heap K) (l o : Nat) (d : Int) (j : Nat) :
    ((addLevel h l o d).obj j).name = (h.obj j).name := by
  unfold addLevel
  simp only
  rw [add_name]
  exact Heap.update_name _ _ _ _ (fun _ => rfl)

theorem addLevel_length (h : Heap K) (l o : Nat) (d : Int) :
    (addLevel h l o d).length = h.length := by
  unfold addLevel
  simp only
  rw [add_length, Heap.length_update]

/-- A successful `clone` appends objects to the store, leaves the names of the objects
already there alone and gives the copy, which is the first new object, the name of the
source. -/
theorem clone_name (f : Nat) :
    ∀ (h : Heap K) (src : Nat) (h' : Heap K) (n : Nat), clone f h src = .ok (h', n) →
      n = h.length ∧ h.length < h'.length ∧
        (∀ j, j < h.length → (h'.obj j).name = (h.obj j).name) ∧
        (h'.obj n).name = (h.obj src).name := by
  induction f with
  | zero => intro h src h' n hc; simp [clone] at hc
  | succ f ih =>
    intro h src h' n hc
    unfold clone at hc
    simp only [Heap.alloc] at hc
    have hfold : ∀ {β : Type} (l : List β) (stepM : Heap K → β → Except LoadError (Heap K)),
        (∀ a b a', stepM a b = .ok a' → a.length ≤ a'.length ∧
          ∀ j, j < a.length → (a'.obj j).name = (a.obj j).name) →
        ∀ a a', l.foldlM stepM a = .ok a' → a.length ≤ a'.length ∧
          ∀ j, j < a.length → (a'.obj j).name = (a.obj j).name := by
      intro β l stepM hstep
      induction l with
      | nil =>
        intro a a' hf
        simp only [List.foldlM_nil, pure, Except.pure, Except.ok.injEq] at hf
        subst hf
        exact ⟨le_refl _, fun _ _ => rfl⟩
      | cons b l ihl =>
        intro a a' hf
        rw [List.foldlM_cons] at hf
        cases hb : stepM a b with
        | error e => simp [hb, bind, Except.bind] at hf
        | ok a1 =>
          simp only [hb, bind, Except.bind] at hf
          obtain ⟨h1, h2⟩ := hstep a b a1 hb
          obtain ⟨h3, h4⟩ := ihl a1 a' hf
          exact ⟨le_trans h1 h3, fun j hj => (h4 j (by omega)).trans (h2 j hj)⟩
    have hpost : ∀ (a : Heap K) (b : Nat) (r : Heap K × Nat) (a' : Heap K),
        clone f a b = .ok r → a'.length = r.1.length →
        (∀ j, (a'.obj j).name = (r.1.obj j).name) →
        a.length ≤ a'.length ∧ ∀ j, j < a.length → (a'.obj j).name = (a.obj j).name := by
      intro a b r a' hcl hlen hnm
      obtain ⟨h'', c⟩ := r
      obtain ⟨-, hlt, hold, -⟩ := ih a b h'' c hcl
      exact ⟨by rw [hlen]; exact le_of_lt hlt, fun j hj => by rw [hnm]; exact hold j hj⟩
    have hres : ∀ (x : Obj K) (h2 : Heap K),
        (h ++ [x]).length ≤ h2.length ∧
          (∀ j, j < (h ++ [x]).length → (h2.obj j).name = ((h ++ [x]).obj j).name) →
        x.name = (h.obj src).name →
        h.length < h2.length ∧ (∀ j, j < h.length → (h2.obj j).name = (h.obj j).name) ∧
          (h2.obj h.length).name = (h.obj src).name := by
      intro x h2 ⟨hl, hn⟩ hx
      simp only [List.length_append, List.length_singleton] at hl hn
      refine ⟨by omega, ?_, ?_⟩
      · intro j hj
        rw [hn j (by omega), Heap.obj_append_left _ _ _ hj]
      · rw [hn h.length (by omega), Heap.obj_append_length, hx]
    split at hc
    · simp only [bind, Except.bind] at hc
      split at hc
      · simp at hc
      · rename_i h2 hh2
        simp only [pure, Except.pure, Except.ok.injEq, Prod.mk.injEq] at hc
        obtain ⟨rfl, rfl⟩ := hc
        have hstep := hfold (h.obj src).levels _ (by
          intro a b a' hab
          cases hcl : clone f a b.object with
          | error e => simp [hcl] at hab
          | ok r =>
            simp only [hcl, pure, Except.pure, Except.ok.injEq] at hab
            subst hab
            exact hpost a b.object r _ hcl (addLevel_length _ _ _ _)
              (fun j => addLevel_name _ _ _ _ j)) _ _ hh2
        obtain ⟨a, b, c⟩ := hres _ _ hstep rfl
        exact ⟨rfl, a, b, c⟩
    · simp only [bind, Except.bind] at hc
      split at hc
      · simp at hc
      · rename_i h2 hh2
        simp only [pure, Except.pure, Except.ok.injEq, Prod.mk.injEq] at hc
        obtain ⟨rfl, rfl⟩ := hc
        have hstep := hfold (h.obj src).children _ (by
          intro a b a' hab
          cases hcl : clone f a b with
          | error e => simp [hcl] at hab
          | ok r =>
            simp only [hcl, pure, Except.pure, Except.ok.injEq] at hab
            subst hab
            exact hpost a b r _ hcl (add_length _ _ _) (fun j => add_name _ _ _ j)) _ _ hh2
        obtain ⟨a, b, c⟩ := hres _ _ hstep rfl
        exact ⟨rfl, a, b, c⟩

end CloneNames
end ObjectLoader
namespace ObjectLoader
section CloneRootName
variable {K : Type} [CommRing K]

/-- C24: when the cached object is named `w_y_t`, where `y`, the part of the id after its
last underscore, and the tail `t` (`obj` or `lod`) have no underscore, the cached branch
names the root of the clone `parentName_y_t`: everything before `_y`, and with it the
front part of the id, is lost. -/
theorem clone_root_name (s s' : State K) (returnedObject objectChild : Nat)
    (parentName w y t : String)
    (hc : addClone s returnedObject objectChild parentName = .ok s')
    (hname : (s.heap.obj objectChild).name = w ++ "_" ++ y ++ "_" ++ t)
    (hy : '_' ∉ y.data) (ht : '_' ∉ t.data) :
    (s'.heap.obj s.heap.length).name = parentName ++ ("_" ++ y ++ "_" ++ t) := by
  unfold addClone at hc
  cases hcl : clone s.heap.length s.heap objectChild with
  | error e => simp [hcl, bind, Except.bind] at hc
  | ok r =>
    obtain ⟨h1, c⟩ := r
    simp only [hcl, bind, Except.bind] at hc
    cases hu : updateCloneNames h1 c parentName with
    | error e => simp [hu] at hc
    | ok h2 =>
      simp only [hu, pure, Except.pure, Except.ok.injEq] at hc
      subst hc
      obtain ⟨rfl, hlt, -, hcn⟩ := clone_name _ _ _ _ _ hcl
      simp only
      rw [add_name]
      unfold updateCloneNames at hu
      have hroot : ((h1.update s.heap.length (fun o => { o with
          name := parentName ++ relevantName o.name })).obj s.heap.length).name
          = parentName ++ ("_" ++ y ++ "_" ++ t) := by
        rw [Heap.obj_update]
        simp only [hlt, and_self, if_true, hcn, hname]
        rw [relevantName_tail w y t hy ht]
      have hkeep := renameDescendants_keeps _ _ _ _ _ hu s.heap.length rfl
      rw [hkeep, hroot]

end CloneRootName

open Examples

/-- Witness of `clone_root_name`: the cached group `scene_x_y_obj` of the node `x_y` is
cloned under the group being built for `C` and the clone is named `scene_C_y_obj`; a whole
load of the scene `sharedUnderscore` shows the same names. -/
theorem clone_root_name_witness :
    (∃ s', addClone underscoreCached 3 1 "scene_C" = .ok s' ∧
        (s'.heap.obj underscoreCached.heap.length).name = "scene_C" ++ ("_" ++ "y" ++ "_" ++ "obj"))
      ∧ builtNames (parseNode cosZ sinZ sharedUnderscore "scene" 3)
        = some ["scene", "scene_obj", "scene_x_y_obj", "scene_x_y_box_obj", "scene_C_obj",
                "scene_C_y_obj", "scene_C_y__box_obj"] := by
  constructor
  · have he : errorOf (addClone underscoreCached 3 1 "scene_C") = none := by decide
    cases hc : addClone underscoreCached 3 1 "scene_C" with
    | error e => simp [hc, errorOf] at he
    | ok s' =>
      exact ⟨s', rfl, clone_root_name underscoreCached s' 3 1 "scene_C" "scene_x" "y" "obj" hc
        (by decide) (by decide) (by decide)⟩
  · decide

end ObjectLoader

namespace MyContents

/-- C25 fails on the code at the last checkpoint of a lap. On the square track of four
checkpoints both karts start at the start line; the user drives through checkpoints 1, 2
and 3, the bot through checkpoints 1 and 2. Both are in lap 0, the user has passed three
checkpoints and the bot two, so the user is ahead; but the user's `nextPoint` has wrapped
to 0 while the bot's is 3, and `calculatePosition` answers 2. -/
theorem position_after_last_checkpoint :
    Cart.drive Examples.square (0, 0) [(100, 0), (100, 100), (0, 100)]
        = some ({ x := 0, z := 100, nextPoint := 0, lapCount := 0 }, 3) ∧
      Cart.drive Examples.square (0, 0) [(100, 0), (100, 100)]
        = some ({ x := 100, z := 100, nextPoint := 3, lapCount := 0 }, 2) ∧
      calculatePosition { x := 0, z := 100, nextPoint := 0, lapCount := 0 }
        { x := 100, z := 100, nextPoint := 3, lapCount := 0 } = 2 := by
  refine ⟨?_, ?_, ?_⟩ <;> decide

end MyContents

namespace Road

/-- C26 fails on the code: the result is inverted. The road has the control points
(0, 0, 0) and (4, 0, 0); the object at (0, 0, 3) is at distance 3 from the line through
them. With road width 5 the object is within the bounds and `has` returns false; with
road width 2 it is outside and `has` returns true. -/
theorem has_inverted :
    has Real.sqrt [(0, 0, 0), (4, 0, 0)] 5 (0, 0, 3) = some false ∧
      has Real.sqrt [(0, 0, 0), (4, 0, 0)] 2 (0, 0, 3) = some true := by
  have h9 : Real.sqrt 9 = 3 := Triangle.sqrt_nine
  have h25 : Real.sqrt 25 = 5 := Triangle.sqrt_twentyfive
  have ha : distanceTo Real.sqrt ((0 : ℝ), (0 : ℝ), (3 : ℝ)) (0, 0, 0) = 3 := by
    simp only [distanceTo]; norm_num [h9]
  have hb : distanceTo Real.sqrt ((0 : ℝ), (0 : ℝ), (3 : ℝ)) (4, 0, 0) = 5 := by
    simp only [distanceTo]; norm_num [h25]
  have hs : List.insertionSort
      (fun a b : ℝ × ℝ × ℝ => distanceTo Real.sqrt (0, 0, 3) a ≤ distanceTo Real.sqrt (0, 0, 3) b)
      [(0, 0, 0), (4, 0, 0)] = [(0, 0, 0), (4, 0, 0)] := by
    simp only [List.insertionSort, List.orderedInsert, ha, hb]
    norm_num
  have hd : distanceTo Real.sqrt (0 : ℝ × ℝ × ℝ) (0, 0, 3) = 3 := by
    simp only [distanceTo]; norm_num [h9]
  have hne : ((0 : ℝ), (0 : ℝ), (0 : ℝ)) ≠ (4, 0, 0) := by
    intro h
    have h1 := congrArg Prod.fst h
    norm_num at h1
  constructor
  · unfold has
    rw [hs]
    simp only [List.get?, if_neg hne]
    norm_num [subVectors, dot, lengthSq, multiplyScalar, hd]
  · unfold has
    rw [hs]
    simp only [List.get?, if_neg hne]
    norm_num [subVectors, dot, lengthSq, multiplyScalar, hd]

end Road

namespace ObjectLoader
section CloneKinds
variable {K : Type} [CommRing K]

theorem Heap.obj_ge (h : Heap K) (j : Nat) (hj : h.length ≤ j) : h.obj j = default := by
  simp [Heap.obj, List.getD_eq_getElem?_getD, List.getElem?_eq_none hj]

theorem KindsKept.kept_refl (h : Heap K) : KindsKept h h :=
  ⟨le_refl _, fun _ _ => rfl, fun j => ⟨j, rfl⟩⟩

theorem KindsKept.kept_trans {h1 h2 h3 : Heap K} (a : KindsKept h1 h2) (b : KindsKept h2 h3) :
    KindsKept h1 h3 := by
  refine ⟨le_trans a.1 b.1, ?_, ?_⟩
  · intro j hj
    rw [b.2.1 j (lt_of_lt_of_le hj a.1), a.2.1 j hj]
  · intro j
    obtain ⟨i, hi⟩ := b.2.2 j
    obtain ⟨i', hi'⟩ := a.2.2 i
    exact ⟨i', hi.trans hi'⟩

theorem KindsKept.of_kind {h h' : Heap K} (hl : h'.length = h.length)
    (hk : ∀ j, (h'.obj j).kind = (h.obj j).kind) : KindsKept h h' :=
  ⟨le_of_eq hl.symm, fun j _ => hk j, fun j => ⟨j, hk j⟩⟩

theorem KindsKept.kept_alloc (h : Heap K) (o : Obj K) (src : Nat)
    (ho : o.kind = (h.obj src).kind) : KindsKept h (h ++ [o]) := by
  refine ⟨by simp, fun j hj => by rw [Heap.obj_append_left _ _ _ hj], ?_⟩
  intro j
  rcases Nat.lt_trichotomy j h.length with hj | hj | hj
  · exact ⟨j, by rw [Heap.obj_append_left _ _ _ hj]⟩
  · subst hj
    exact ⟨src, by rw [Heap.obj_append_length, ho]⟩
  · refine ⟨j, ?_⟩
    rw [Heap.obj_ge _ j (by simp; omega), Heap.obj_ge _ j (by omega)]

theorem addLevel_kind (h : Heap K) (l o : Nat) (d : Int) (j : Nat) :
    ((addLevel h l o d).obj j).kind = (h.obj j).kind := by
  unfold addLevel
  simp only
  rw [add_kind]
  exact Heap.update_kind _ _ _ _ (fun _ => rfl)

/-- The loops of `clone` keep the kinds when every round does. -/
theorem KindsKept.fold {β : Type} (l : List β) (stepM : Heap K → β → Except LoadError (Heap K))
    (hstep : ∀ a b a', stepM a b = .ok a' → KindsKept a a') :
    ∀ a a', l.foldlM stepM a = .ok a' → KindsKept a a' := by
  induction l with
  | nil =>
    intro a a' hf
    simp only [List.foldlM_nil, pure, Except.pure, Except.ok.injEq] at hf
    subst hf
    exact KindsKept.kept_refl a
  | cons b l ihl =>
    intro a a' hf
    rw [List.foldlM_cons] at hf
    cases hb : stepM a b with
    | error e => simp [hb, bind, Except.bind] at hf
    | ok a1 =>
      simp only [hb, bind, Except.bind] at hf
      exact (hstep a b a1 hb).kept_trans (ihl a1 a' hf)

/-- A successful `clone` copies kinds: the objects already in the store keep theirs, and
every object of the copy has the kind of an object that was there before. -/
theorem clone_kinds (f : Nat) :
    ∀ (h : Heap K) (src : Nat) (h' : Heap K) (n : Nat), clone f h src = .ok (h', n) →
      KindsKept h h' := by
  induction f with
  | zero => intro h src h' n hc; simp [clone] at hc
  | succ f ih =>
    intro h src h' n hc
    unfold clone at hc
    simp only [Heap.alloc] at hc
    have hpost : ∀ (a : Heap K) (b : Nat) (r : Heap K × Nat) (a' : Heap K),
        clone f a b = .ok r → a'.length = r.1.length →
        (∀ j, (a'.obj j).kind = (r.1.obj j).kind) → KindsKept a a' := by
      intro a b r a' hcl hlen hk
      obtain ⟨h'', c⟩ := r
      exact (ih a b h'' c hcl).kept_trans (KindsKept.of_kind hlen hk)
    have h0 : KindsKept h
        (h ++ [{ h.obj src with parent := none, children := [], levels := [] }]) :=
      KindsKept.kept_alloc h _ src rfl
    split at hc
    · simp only [bind, Except.bind] at hc
      split at hc
      · simp at hc
      · rename_i h2 hh2
        simp only [pure, Except.pure, Except.ok.injEq, Prod.mk.injEq] at hc
        obtain ⟨rfl, rfl⟩ := hc
        refine h0.kept_trans (KindsKept.fold (h.obj src).levels _ ?_ _ _ hh2)
        intro a b a' hab
        cases hcl : clone f a b.object with
        | error e => simp [hcl] at hab
        | ok r =>
          simp only [hcl, pure, Except.pure, Except.ok.injEq] at hab
          subst hab
          exact hpost a b.object r _ hcl (addLevel_length _ _ _ _)
            (fun j => addLevel_kind _ _ _ _ j)
    · simp only [bind, Except.bind] at hc
      split at hc
      · simp at hc
      · rename_i h2 hh2
        simp only [pure, Except.pure, Except.ok.injEq, Prod.mk.injEq] at hc
        obtain ⟨rfl, rfl⟩ := hc
        refine h0.kept_trans (KindsKept.fold (h.obj src).children _ ?_ _ _ hh2)
        intro a b a' hab
        cases hcl : clone f a b with
        | error e => simp [hcl] at hab
        | ok r =>
          simp only [hcl, pure, Except.pure, Except.ok.injEq] at hab
          subst hab
          exact hpost a b r _ hcl (add_length _ _ _) (fun j => add_kind _ _ _ j)

theorem view_kind (h h' : Heap K) (j : Nat)
    (hv : (h'[j]?).map (fun o : Obj K => (o.kind, o.children, o.parent))
      = (h[j]?).map (fun o : Obj K => (o.kind, o.children, o.parent))) :
    (h'.obj j).kind = (h.obj j).kind ∧ (j < h'.length ↔ j < h.length) := by
  cases hj : h[j]? with
  | none =>
    cases hj' : h'[j]? with
    | none =>
      have h1 : h.length ≤ j := List.getElem?_eq_none_iff.1 hj
      have h2 : h'.length ≤ j := List.getElem?_eq_none_iff.1 hj'
      exact ⟨by rw [Heap.obj_ge _ _ h1, Heap.obj_ge _ _ h2], by omega⟩
    | some o' => simp [hj, hj'] at hv
  | some o =>
    cases hj' : h'[j]? with
    | none => simp [hj, hj'] at hv
    | some o' =>
      simp only [hj, hj', Option.map_some', Option.some.injEq, Prod.mk.injEq] at hv
      have h1 : j < h.length := (List.getElem?_eq_some.1 hj).1
      have h2 : j < h'.length := (List.getElem?_eq_some.1 hj').1
      exact ⟨by rw [Heap.obj_eq_of_getElem? _ _ _ hj, Heap.obj_eq_of_getElem? _ _ _ hj', hv.1],
        by simp [h1, h2]⟩

theorem updateCloneNames_kinds (h h' : Heap K) (c : Nat) (pn : String)
    (hu : updateCloneNames h c pn = .ok h') : KindsKept h h' := by
  have hv := updateCloneNames_view h h' c pn hu
  have hlen : h'.length = h.length := by
    apply le_antisymm
    · by_contra hlt
      have := (view_kind h h' h.length (hv _)).2
      omega
    · by_contra hlt
      have := (view_kind h h' h'.length (hv _)).2
      omega
  exact KindsKept.of_kind hlen (fun j => (view_kind h h' j (hv j)).1)

/-- The cached branch keeps the kinds. -/
theorem addClone_kinds (s s' : State K) (returnedObject objectChild : Nat)
    (parentName : String) (hc : addClone s returnedObject objectChild parentName = .ok s') :
    KindsKept s.heap s'.heap := by
  unfold addClone at hc
  cases hcl : clone s.heap.length s.heap objectChild with
  | error e => simp [hcl, bind, Except.bind] at hc
  | ok v =>
    obtain ⟨h1, c⟩ := v
    cases hu : updateCloneNames h1 c parentName with
    | error e => simp [hcl, hu, bind, Except.bind] at hc
    | ok h2 =>
      simp only [hcl, hu, bind, Except.bind, pure, Except.pure, Except.ok.injEq] at hc
      subst hc
      exact (clone_kinds _ _ _ _ _ hcl).kept_trans ((updateCloneNames_kinds _ _ _ _ hu).kept_trans
        (KindsKept.of_kind (add_length _ _ _) (fun j => add_kind _ _ _ j)))

/-- The subtree that the cached branch builds for a cached object without lods has the
structure of the cached object, kinds included. -/
theorem addClone_shape (s s' : State K) (returnedObject objectChild : Nat)
    (parentName : String) (f : Nat) (shape : List (Kind × Nat))
    (hret : returnedObject < s.heap.length)
    (hc : addClone s returnedObject objectChild parentName = .ok s')
    (hsh : shapeOf f s.heap objectChild = some shape) (hlf : lodFree shape) :
    shapeOf f s'.heap s.heap.length = some shape := by
  unfold addClone at hc
  cases hcl : clone s.heap.length s.heap objectChild with
  | error e => simp [hcl, bind, Except.bind] at hc
  | ok v =>
    obtain ⟨h1, c⟩ := v
    cases hu : updateCloneNames h1 c parentName with
    | error e => simp [hcl, hu, bind, Except.bind] at hc
    | ok h2 =>
      simp only [hcl, hu, bind, Except.bind, pure, Except.pure, Except.ok.injEq] at hc
      subst hc
      obtain ⟨rfl, ⟨e, rfl⟩, hpar, hshape⟩ :=
        clone_shape s.heap.length f s.heap objectChild h1 c shape hcl hsh hlf
      have hlen : s.heap.length < (s.heap ++ e).length := (clone_name _ _ _ _ _ hcl).2.1
      have hv := updateCloneNames_view _ _ _ _ hu
      obtain ⟨-, hvc⟩ := view_obj _ _ _ _ (hv s.heap.length) hlen
      simp only [Prod.mk.injEq] at hvc
      have hne : returnedObject ≠ s.heap.length := by omega
      have hadd := add_fresh h2 returnedObject s.heap.length hne (by rw [hvc.2.2]; exact hpar)
      simp only
      apply shapeFrom_mono_lo s.heap.length 0 (Nat.zero_le _)
      rw [← hshape]
      refine (shapeFrom_congr _ _ h2 _ ?_ _).trans (shapeFrom_congr _ _ _ h2 ?_ _)
      · intro j hj
        have hrj : returnedObject ≠ j := by omega
        rw [hadd, Heap.getElem?_update, Heap.getElem?_update]
        simp only [hrj, if_false]
        split
        · cases h2[j]? <;> simp
        · rfl
      · intro j _
        have := congrArg (Option.map (fun x : Kind × List Nat × Option Nat => (x.1, x.2.1)))
          (hv j)
        simpa [Option.map_map, Function.comp] using this

/-- C28: when the child loop reaches a reference to a node that is in the cache, the
result does not depend on the material list and the shadow flags in force at the new
parent (the same state results for any other values, under a plain parent and under a
lod), no kind in the store changes and every object of the clone has the kind of an
object built before; for a cached subtree without lods the clone has, position by
position, the kinds of the cached subtree: each mesh keeps the material id and the two
shadow flags of the first build. -/
theorem clone_keeps_materials (s s' : State K) (id : String)
    (object returnedObject objectChild : Nat) (newMaterials : List String × String)
    (castShadow receiveShadow : Bool)
    (hid : s.allObjects.lookup id = some objectChild)
    (hp : processChild object returnedObject newMaterials castShadow receiveShadow s
      (.noderef id) = .ok s') :
    (∀ (nm : List String × String) (c r : Bool),
        processChild object returnedObject nm c r s (.noderef id) = .ok s') ∧
      (∀ (nm : List String × String) (c r : Bool) (node : String) (mindist : Int),
        processLodChild object returnedObject nm c r s
          { id := some id, node := node, mindist := mindist } = .ok s') ∧
      KindsKept s.heap s'.heap ∧
      (∀ (f : Nat) (shape : List (Kind × Nat)), returnedObject < s.heap.length →
        shapeOf f s.heap objectChild = some shape → lodFree shape →
          shapeOf f s'.heap s.heap.length = some shape) := by
  have hc : addClone s returnedObject objectChild
      (childParentName s.heap object returnedObject) = .ok s' := by
    simpa only [processChild, hid] using hp
  refine ⟨?_, ?_, addClone_kinds s s' _ _ _ hc, ?_⟩
  · intro nm c r
    simpa only [processChild, hid] using hc
  · intro nm c r node mindist
    simpa only [processLodChild, Option.getD_some, hid] using hc
  · intro f shape hret hsh hlf
    exact addClone_shape s s' _ _ _ f shape hret hc hsh hlf

end CloneKinds

open Examples

/-- Witness of `clone_keeps_materials`: in the scene `repainted` the node `B` is cached
with a box of material `M1` without shadows when the node `C`, whose own box has the
material `M2` and both shadow flags, refers to it; the box of the clone has `M1` and no
shadows. -/
theorem clone_keeps_materials_witness :
    (∃ s', processChild 1 4 (["M2"], "M2") true true repaintedCached (.noderef "B") = .ok s' ∧
        processChild 1 4 (["M1"], "M1") false false repaintedCached (.noderef "B") = .ok s' ∧
        KindsKept repaintedCached.heap s'.heap ∧
        shapeOf 2 s'.heap repaintedCached.heap.length
          = some [(.group, 1), (.mesh "box" "M1" false false, 0)])
      ∧ builtView (parseNode cosZ sinZ repainted "scene" 3) = some
          [("scene", .group, [1]), ("scene_obj", .group, [2, 4]), ("scene_B_obj", .group, [3]),
           ("scene_B_box_obj", .mesh "box" "M1" false false, []),
           ("scene_C_obj", .group, [5, 6]),
           ("scene_C_box_obj", .mesh "box" "M2" true true, []),
           ("scene_C_B_obj", .group, [7]),
           ("scene_C_B__box_obj", .mesh "box" "M1" false false, [])] := by
  constructor
  · have he : errorOf (processChild 1 4 (["M2"], "M2") true true repaintedCached
        (.noderef "B")) = none := by decide
    cases hc : processChild 1 4 (["M2"], "M2") true true repaintedCached (.noderef "B") with
    | error e => simp [hc, errorOf] at he
    | ok s' =>
      have h := clone_keeps_materials repaintedCached s' "B" 1 4 2 (["M2"], "M2") true true
        (by decide) hc
      exact ⟨s', rfl, h.1 _ _ _, h.2.2.1,
        h.2.2.2 2 [(.group, 1), (.mesh "box" "M1" false false, 0)] (by decide) (by decide)
          (by unfold lodFree; decide)⟩
  · decide

end ObjectLoader

namespace ObjectLoader
section WellFormedness
variable {K : Type} [CommRing K]

theorem default_children : (default : Obj K).children = [] := rfl

theorem default_levels : (default : Obj K).levels = [] := rfl

theorem default_parent : (default : Obj K).parent = none := rfl

theorem Heap.obj_append_new (h : Heap K) (o : Obj K) (j : Nat) :
    (h ++ [o]).obj j = if j = h.length then o else h.obj j := by
  rcases Nat.lt_trichotomy j h.length with hj | hj | hj
  · rw [Heap.obj_append_left _ _ _ hj, if_neg (by omega)]
  · subst hj
    rw [Heap.obj_append_length, if_pos rfl]
  · rw [Heap.obj_ge _ j (by simp; omega), Heap.obj_ge _ j (by omega), if_neg (by omega)]

theorem WellFormed.children_lt {h : Heap K} (w : WellFormed h) {j c : Nat}
    (hc : c ∈ (h.obj j).children) : j < c ∧ c < h.length ∧ (h.obj c).parent = some j :=
  w.1 j c hc

theorem WellFormed.wf_alloc {h : Heap K} (w : WellFormed h) (o : Obj K)
    (hc : o.children = []) (hl : o.levels = []) : WellFormed (h ++ [o]) := by
  constructor
  · intro j c hcj
    rw [Heap.obj_append_new] at hcj
    split at hcj
    · simp [hc] at hcj
    · obtain ⟨h1, h2, h3⟩ := w.1 j c hcj
      refine ⟨h1, by simp; omega, ?_⟩
      rw [Heap.obj_append_left _ _ _ h2]
      exact h3
  · intro j lv hlv
    rw [Heap.obj_append_new] at hlv
    split at hlv
    · simp [hl] at hlv
    · obtain ⟨h1, h2⟩ := w.2 j lv hlv
      exact ⟨h1, by simp; omega⟩

theorem add_fresh_obj (h : Heap K) (p c j : Nat) (hne : p ≠ c) (hp : p < h.length)
    (hc : c < h.length) (hpar : (h.obj c).parent = none) :
    (add h p c).obj j =
      if j = p then { h.obj p with children := (h.obj p).children ++ [c] }
      else if j = c then { h.obj c with parent := some p } else h.obj j := by
  rw [add_fresh h p c hne hpar, Heap.obj_update, Heap.obj_update, Heap.length_update]
  by_cases hjp : j = p
  · subst hjp
    simp [hp, hne.symm]
  · by_cases hjc : j = c
    · subst hjc
      simp [hc, hne, hjp]
    · simp [hjp, hjc, Ne.symm hjp, Ne.symm hjc]

theorem WellFormed.add {h : Heap K} (w : WellFormed h) (p c : Nat) (hpc : p < c)
    (hc : c < h.length) (hpar : (h.obj c).parent = none) : WellFormed (add h p c) := by
  have hne : p ≠ c := by omega
  have hp : p < h.length := by omega
  have hobj := fun j => add_fresh_obj h p c j hne hp hc hpar
  have hnc : ∀ j, c ∉ (h.obj j).children := by
    intro j hcj
    have := (w.1 j c hcj).2.2
    rw [hpar] at this
    cases this
  constructor
  · intro j x hx
    rw [hobj, add_length]
    rw [hobj] at hx
    by_cases hjp : j = p
    · subst hjp
      simp only [if_true, List.mem_append, List.mem_singleton] at hx
      rcases hx with hx | rfl
      · obtain ⟨h1, h2, h3⟩ := w.1 j x hx
        refine ⟨h1, h2, ?_⟩
        have hxc : x ≠ c := fun e => hnc j (e ▸ hx)
        have hxj : x ≠ j := by omega
        simp [hxc, hxj, h3]
      · exact ⟨hpc, hc, by simp [hne.symm]⟩
    · simp only [hjp, if_false] at hx
      have hx' : x ∈ (h.obj j).children := by
        by_cases hjc : j = c
        · simpa [hjc] using hx
        · simpa [hjc] using hx
      obtain ⟨h1, h2, h3⟩ := w.1 j x hx'
      refine ⟨h1, h2, ?_⟩
      have hxc : x ≠ c := fun e => hnc j (e ▸ hx')
      by_cases hxp : x = p
      · subst hxp
        simp [h3]
      · simp [hxc, hxp, h3]
  · intro j lv hlv
    rw [add_length]
    rw [hobj] at hlv
    have hlv' : lv ∈ (h.obj j).levels := by
      by_cases hjp : j = p
      · subst hjp
        simpa using hlv
      · by_cases hjc : j = c
        · subst hjc
          simpa [hjp] using hlv
        · simpa [hjp, hjc] using hlv
    exact w.2 j lv hlv'

theorem WellFormed.wf_update {h : Heap K} (w : WellFormed h) (i : Nat) (f : Obj K → Obj K)
    (hf : ∀ o, (f o).children = o.children ∧ (f o).parent = o.parent ∧ (f o).levels = o.levels) :
    WellFormed (h.update i f) := by
  have hch : ∀ j, ((h.update i f).obj j).children = (h.obj j).children := by
    intro j
    rw [Heap.obj_update]
    split <;> simp [(hf _).1]
  have hpa : ∀ j, ((h.update i f).obj j).parent = (h.obj j).parent := by
    intro j
    rw [Heap.obj_update]
    split <;> simp [(hf _).2.1]
  have hlv : ∀ j, ((h.update i f).obj j).levels = (h.obj j).levels := by
    intro j
    rw [Heap.obj_update]
    split <;> simp [(hf _).2.2]
  constructor
  · intro j c hc
    rw [hch] at hc
    rw [hpa, Heap.length_update]
    exact w.1 j c hc
  · intro j lv hl
    rw [hlv] at hl
    rw [Heap.length_update]
    exact w.2 j lv hl

theorem mem_insertLevel (lv x : Level) (l : List Level) :
    x ∈ insertLevel lv l ↔ x = lv ∨ x ∈ l := by
  induction l with
  | nil => simp [insertLevel]
  | cons a l ih =>
    unfold insertLevel
    split
    · simp
    · simp only [List.mem_cons, ih]
      tauto

theorem WellFormed.addLevel {h : Heap K} (w : WellFormed h) (p c : Nat) (d : Int) (hpc : p < c)
    (hc : c < h.length) (hpar : (h.obj c).parent = none) : WellFormed (addLevel h p c d) := by
  unfold ObjectLoader.addLevel
  simp only
  have hne : p ≠ c := by omega
  refine WellFormed.add ?_ p c hpc (by rw [Heap.length_update]; exact hc) ?_
  · constructor
    · intro j x hx
      rw [Heap.obj_update] at hx
      have hx' : x ∈ (h.obj j).children := by
        split at hx
        · exact hx
        · exact hx
      obtain ⟨h1, h2, h3⟩ := w.1 j x hx'
      refine ⟨h1, by rw [Heap.length_update]; exact h2, ?_⟩
      rw [Heap.obj_update]
      split
      · exact h3
      · exact h3
    · intro j lv hlv
      rw [Heap.length_update]
      rw [Heap.obj_update] at hlv
      split at hlv
      · rename_i hj
        simp only [mem_insertLevel] at hlv
        rcases hlv with rfl | hlv
        · exact ⟨by simp; omega, hc⟩
        · exact w.2 j lv hlv
      · exact w.2 j lv hlv
  · rw [Heap.obj_update]
    split
    · exact hpar
    · exact hpar

end WellFormedness
end ObjectLoader
namespace ObjectLoader
section CloneTotal
variable {K : Type} [CommRing K]

/-- A loop that keeps an invariant and cannot fail while it holds ends in a state with
the invariant. -/
theorem foldlM_total {α β : Type} (P : α → Prop) (Q : β → Prop)
    (step : α → β → Except LoadError α)
    (hstep : ∀ a b, P a → Q b → ∃ a', step a b = .ok a' ∧ P a') (l : List β) :
    ∀ a, P a → (∀ b ∈ l, Q b) → ∃ a', l.foldlM step a = .ok a' ∧ P a' := by
  induction l with
  | nil =>
    intro a hP _
    exact ⟨a, rfl, hP⟩
  | cons b bs ih =>
    intro a hP hQ
    obtain ⟨a1, h1, hP1⟩ := hstep a b hP (hQ b (by simp))
    obtain ⟨a2, h2, hP2⟩ := ih a1 hP1 (fun x hx => hQ x (by simp [hx]))
    refine ⟨a2, ?_, hP2⟩
    rw [List.foldlM_cons, h1]
    exact h2

theorem add_parent_other (h : Heap K) (p c j : Nat) (hj : j ≠ c) :
    ((add h p c).obj j).parent = (h.obj j).parent := by
  unfold add
  split
  · rfl
  · simp only
    rw [Heap.obj_update]
    have h2 : ∀ g : Heap K, ((g.update c (fun o => { o with parent := some p })).obj j).parent
        = (g.obj j).parent := by
      intro g
      rw [Heap.obj_update]
      simp [Ne.symm hj]
    split
    · simp only
      rw [h2]
      split
      · rw [Heap.obj_update]
        split <;> rfl
      · rfl
    · rw [h2]
      split
      · rw [Heap.obj_update]
        split <;> rfl
      · rfl

theorem addLevel_parent_other (h : Heap K) (p c j : Nat) (d : Int) (hj : j ≠ c) :
    ((addLevel h p c d).obj j).parent = (h.obj j).parent := by
  unfold addLevel
  simp only
  rw [add_parent_other _ _ _ _ hj, Heap.obj_update]
  split <;> rfl

theorem add_new_ext (h a : Heap K) (p c : Nat) (hext : ∃ e, a = h ++ e) (hp : h.length ≤ p)
    (hc : h.length ≤ c) (hne : p ≠ c) (hpar : (a.obj c).parent = none) :
    ∃ e, add a p c = h ++ e := by
  rw [add_fresh a p c hne hpar]
  exact ext_update h _ p _ (ext_update h a c _ hext hc) hp

theorem addLevel_new_ext (h a : Heap K) (p c : Nat) (d : Int) (hext : ∃ e, a = h ++ e)
    (hp : h.length ≤ p) (hc : h.length ≤ c) (hne : p ≠ c) (hpar : (a.obj c).parent = none) :
    ∃ e, addLevel a p c d = h ++ e := by
  unfold addLevel
  simp only
  refine add_new_ext h _ p c (ext_update h a p _ hext hp) hp hc hne ?_
  rw [Heap.obj_update]
  split
  · exact hpar
  · exact hpar

/-- On a well-formed store `clone` succeeds when its budget covers the objects between
the source and the bound `B` below which the source subtree lies; the copy is appended
to the store, which stays well formed, and has no parent. -/
theorem clone_total (f : Nat) :
    ∀ (h : Heap K) (src B : Nat), WellFormed h → B ≤ h.length →
      (∀ j c, j < B → c ∈ (h.obj j).children → c < B) →
      (∀ j lv, j < B → lv ∈ (h.obj j).levels → lv.object < B) →
      src < B → B - src ≤ f →
      ∃ e, clone f h src = .ok (h ++ e, h.length) ∧ h.length < (h ++ e).length ∧
        WellFormed (h ++ e) ∧ ((h ++ e).obj h.length).parent = none ∧
        ((h ++ e).obj h.length).kind = (h.obj src).kind ∧
        ((h ++ e).obj h.length).name = (h.obj src).name := by
  induction f with
  | zero =>
    intro h src B _ _ _ _ hs hf
    omega
  | succ f ih =>
    intro h src B w hB hcl hll hs hf
    have hstep : ∀ (a : Heap K) (c : Nat) (fin : Heap K → Nat → Heap K),
        (∀ g x, x < g.length → h.length < x → (g.obj x).parent = none → WellFormed g →
          WellFormed (fin g x) ∧ (fin g x).length = g.length ∧
          ((fin g x).obj h.length).parent = (g.obj h.length).parent ∧
          ((fin g x).obj h.length).kind = (g.obj h.length).kind ∧
          ((fin g x).obj h.length).name = (g.obj h.length).name ∧
          ((∃ e, g = h ++ e) → ∃ e, fin g x = h ++ e)) →
        ((∃ e, a = h ++ e) ∧ h.length < a.length ∧ WellFormed a ∧
          (a.obj h.length).parent = none ∧
          (a.obj h.length).kind = (h.obj src).kind ∧
          (a.obj h.length).name = (h.obj src).name) →
        (src < c ∧ c < B) →
        ∃ a', (do
            let (h', x) ← clone f a c
            pure (fin h' x)) = Except.ok a' ∧
          ((∃ e, a' = h ++ e) ∧ h.length < a'.length ∧ WellFormed a' ∧
            (a'.obj h.length).parent = none ∧
            (a'.obj h.length).kind = (h.obj src).kind ∧
            (a'.obj h.length).name = (h.obj src).name) := by
      intro a c fin hfin ⟨⟨e1, he1⟩, hlen, wa, hpar, hkind, hname⟩ ⟨hsc, hcB⟩
      have hold : ∀ j, j < B → a.obj j = h.obj j := by
        intro j hj
        rw [he1, Heap.obj_append_left _ _ _ (by omega)]
      obtain ⟨e2, hc2, hl2, w2, hp2, -, -⟩ := ih a c B wa (by omega)
        (fun j x hj hx => hcl j x hj (by rw [← hold j hj]; exact hx))
        (fun j lv hj hx => hll j lv hj (by rw [← hold j hj]; exact hx)) hcB (by omega)
      obtain ⟨hw, hl, hp, hk, hn, hx⟩ := hfin (a ++ e2) a.length hl2 hlen hp2 w2
      refine ⟨fin (a ++ e2) a.length, by simp [hc2, bind, Except.bind, pure, Except.pure], ?_⟩
      have hkeep : (a ++ e2).obj h.length = a.obj h.length :=
        Heap.obj_append_left _ _ _ hlen
      refine ⟨hx ⟨e1 ++ e2, by rw [he1, List.append_assoc]⟩, by rw [hl]; omega, hw, ?_, ?_, ?_⟩
      · rw [hp, hkeep, hpar]
      · rw [hk, hkeep, hkind]
      · rw [hn, hkeep, hname]
    have hinit : (∃ e, h ++ [{ h.obj src with parent := none, children := [], levels := [] }]
          = h ++ e) ∧
        h.length < (h ++ [{ h.obj src with parent := none, children := [], levels := [] }]).length ∧
        WellFormed (h ++ [{ h.obj src with parent := none, children := [], levels := [] }]) ∧
        ((h ++ [{ h.obj src with parent := none, children := [], levels := [] }]).obj
          h.length).parent = none ∧
        ((h ++ [{ h.obj src with parent := none, children := [], levels := [] }]).obj
          h.length).kind = (h.obj src).kind ∧
        ((h ++ [{ h.obj src with parent := none, children := [], levels := [] }]).obj
          h.length).name = (h.obj src).name := by
      refine ⟨⟨_, rfl⟩, by simp, w.wf_alloc _ rfl rfl, ?_, ?_, ?_⟩ <;>
        rw [Heap.obj_append_length]
    have hres : ∀ a', ((∃ e, a' = h ++ e) ∧ h.length < a'.length ∧ WellFormed a' ∧
          (a'.obj h.length).parent = none ∧
          (a'.obj h.length).kind = (h.obj src).kind ∧
          (a'.obj h.length).name = (h.obj src).name) →
        ∃ e, (Except.ok (a', h.length) : Except LoadError (Heap K × Nat))
            = .ok (h ++ e, h.length) ∧ h.length < (h ++ e).length ∧
          WellFormed (h ++ e) ∧ ((h ++ e).obj h.length).parent = none ∧
          ((h ++ e).obj h.length).kind = (h.obj src).kind ∧
          ((h ++ e).obj h.length).name = (h.obj src).name := by
      intro a' ⟨⟨e, he⟩, hlen, wa, hpar, hkind, hname⟩
      subst he
      exact ⟨e, rfl, hlen, wa, hpar, hkind, hname⟩
    have key : ∀ {β : Type} (Q : β → Prop) (l : List β)
        (step : Heap K → β → Except LoadError (Heap K)),
        (∀ a b, ((∃ e, a = h ++ e) ∧ h.length < a.length ∧ WellFormed a ∧
            (a.obj h.length).parent = none ∧
            (a.obj h.length).kind = (h.obj src).kind ∧
            (a.obj h.length).name = (h.obj src).name) → Q b →
          ∃ a', step a b = .ok a' ∧ ((∃ e, a' = h ++ e) ∧ h.length < a'.length ∧
            WellFormed a' ∧ (a'.obj h.length).parent = none ∧
            (a'.obj h.length).kind = (h.obj src).kind ∧
            (a'.obj h.length).name = (h.obj src).name)) →
        (∀ b ∈ l, Q b) →
        ∃ e, (do
            let h2 ← l.foldlM step
              (h ++ [{ h.obj src with parent := none, children := [], levels := [] }])
            pure (h2, h.length)) = Except.ok (h ++ e, h.length) ∧
          h.length < (h ++ e).length ∧
          WellFormed (h ++ e) ∧ ((h ++ e).obj h.length).parent = none ∧
          ((h ++ e).obj h.length).kind = (h.obj src).kind ∧
          ((h ++ e).obj h.length).name = (h.obj src).name := by
      intro β Q l step hst hQ
      obtain ⟨a', hfold, hP⟩ := foldlM_total _ Q step hst l _ hinit hQ
      obtain ⟨e, he⟩ := hres a' hP
      refine ⟨e, ?_, he.2⟩
      rw [hfold]
      exact he.1
    unfold clone
    simp only [Heap.alloc]
    split
    · exact key (fun lv : Level => src < lv.object ∧ lv.object < B) _ _
        (fun a lv hPa hQ => hstep a lv.object (fun g x => addLevel g h.length x lv.distance)
          (fun g x hx hlx hpx wg =>
            ⟨wg.addLevel _ _ _ hlx hx hpx, addLevel_length _ _ _ _,
              addLevel_parent_other _ _ _ _ _ (by omega), addLevel_kind _ _ _ _ _,
              addLevel_name _ _ _ _ _,
              fun hext => addLevel_new_ext h g _ _ _ hext (le_refl _) (by omega) (by omega) hpx⟩)
          hPa hQ)
        (fun lv hlv => ⟨(w.2 src lv hlv).1, hll src lv hs hlv⟩)
    · exact key (fun c : Nat => src < c ∧ c < B) _ _
        (fun a c hPa hQ => hstep a c (fun g x => add g h.length x)
          (fun g x hx hlx hpx wg =>
            ⟨wg.add _ _ hlx hx hpx, add_length _ _ _,
              add_parent_other _ _ _ _ (by omega), add_kind _ _ _ _, add_name _ _ _ _,
              fun hext => add_new_ext h g _ _ hext (le_refl _) (by omega) (by omega) hpx⟩)
          hPa hQ)
        (fun c hc => ⟨(w.1 src c hc).1, hcl src c hs hc⟩)

end CloneTotal
end ObjectLoader
namespace ObjectLoader
section RenameTotal
variable {K : Type} [CommRing K]

theorem Renamed.renamed_refl (lo : Nat) (h : Heap K) : Renamed lo h h :=
  ⟨rfl, fun _ => ⟨fun _ => rfl, rfl⟩⟩

theorem Renamed.renamed_trans {lo : Nat} {h1 h2 h3 : Heap K} (a : Renamed lo h1 h2)
    (b : Renamed lo h2 h3) : Renamed lo h1 h3 := by
  refine ⟨b.1.trans a.1, fun j => ⟨fun hj => ((b.2 j).1 hj).trans ((a.2 j).1 hj), ?_⟩⟩
  have e1 := (b.2 j).2
  have e2 := (a.2 j).2
  rw [e1]
  conv_lhs => rw [e2]

theorem Renamed.renamed_children {lo : Nat} {h h' : Heap K} (a : Renamed lo h h') (j : Nat) :
    (h'.obj j).children = (h.obj j).children := by
  rw [(a.2 j).2]

theorem Renamed.renamed_parent {lo : Nat} {h h' : Heap K} (a : Renamed lo h h') (j : Nat) :
    (h'.obj j).parent = (h.obj j).parent := by
  rw [(a.2 j).2]

theorem Renamed.levels {lo : Nat} {h h' : Heap K} (a : Renamed lo h h') (j : Nat) :
    (h'.obj j).levels = (h.obj j).levels := by
  rw [(a.2 j).2]

theorem Renamed.renamed_kind {lo : Nat} {h h' : Heap K} (a : Renamed lo h h') (j : Nat) :
    (h'.obj j).kind = (h.obj j).kind := by
  rw [(a.2 j).2]

theorem Renamed.wellFormed {lo : Nat} {h h' : Heap K} (a : Renamed lo h h')
    (w : WellFormed h) : WellFormed h' := by
  constructor
  · intro j c hc
    rw [a.renamed_children] at hc
    rw [a.renamed_parent, a.1]
    exact w.1 j c hc
  · intro j lv hl
    rw [a.levels] at hl
    rw [a.1]
    exact w.2 j lv hl

theorem Renamed.renamed_update (lo : Nat) (h : Heap K) (i : Nat) (nm : Obj K → String) (hi : lo ≤ i) :
    Renamed lo h (h.update i (fun o => { o with name := nm o })) := by
  refine ⟨Heap.length_update _ _ _, fun j => ⟨fun hj => ?_, ?_⟩⟩
  · rw [Heap.obj_update, if_neg (by omega)]
  · rw [Heap.obj_update]
    split <;> rfl

/-- On a well-formed store the traversal of `updateCloneNames` succeeds when its budget
covers the objects from the item on, and changes nothing but names of objects from the
item on. -/
theorem renameDescendants_total (f : Nat) :
    ∀ (h : Heap K) (cn : String) (item lo : Nat), WellFormed h → lo ≤ item →
      item < h.length → h.length - item ≤ f →
      ((h.obj item).name = cn ∨ (h.obj item).parent ≠ none) →
      ∃ h', renameDescendants f h cn item = .ok h' ∧ Renamed lo h h' := by
  induction f with
  | zero =>
    intro h cn item lo _ _ hi hf
    omega
  | succ f ih =>
    intro h cn item lo w hlo hi hf hroot
    have hfold : ∀ (h1 : Heap K), Renamed lo h h1 →
        ∃ h', (h.obj item).children.foldlM (fun acc c => renameDescendants f acc cn c) h1
            = .ok h' ∧ Renamed lo h h' := by
      intro h1 hr1
      refine foldlM_total (fun a => Renamed lo h a)
        (fun c => item < c ∧ c < h.length ∧ (h.obj c).parent ≠ none) _ ?_ _ h1 hr1 ?_
      · intro a c hra ⟨hic, hcl, hcp⟩
        obtain ⟨a', ha', hr'⟩ := ih a cn c lo (hra.wellFormed w) (by omega)
          (by rw [hra.1]; exact hcl) (by rw [hra.1]; omega)
          (Or.inr (by rw [hra.renamed_parent]; exact hcp))
        exact ⟨a', ha', hra.renamed_trans hr'⟩
      · intro c hc
        obtain ⟨h1, h2, h3⟩ := w.1 item c hc
        exact ⟨h1, h2, by rw [h3]; simp⟩
    unfold renameDescendants
    by_cases hname : (h.obj item).name = cn
    · simp only [hname, if_true, bind, Except.bind, pure, Except.pure]
      exact hfold h (Renamed.renamed_refl lo h)
    · simp only [hname, if_false, bind, Except.bind, pure, Except.pure]
      cases hp : (h.obj item).parent with
      | none =>
        rcases hroot with hr | hr
        · exact absurd hr hname
        · exact absurd hp hr
      | some p =>
        simp only
        exact hfold _ (Renamed.renamed_update lo h item _ hlo)

/-- On a well-formed store `updateCloneNames` succeeds for a clone that has no parent
and changes nothing but names of objects from the clone on. -/
theorem updateCloneNames_total (h : Heap K) (c : Nat) (pn : String) (w : WellFormed h)
    (hc : c < h.length) :
    ∃ h', updateCloneNames h c pn = .ok h' ∧ Renamed c h h' ∧
      (h'.obj c).name = pn ++ relevantName (h.obj c).name := by
  unfold updateCloneNames
  have hr1 := Renamed.renamed_update c h c (fun o => pn ++ relevantName o.name) (le_refl _)
  obtain ⟨h', hh', hr'⟩ := renameDescendants_total
    (h.update c (fun o => { o with name := pn ++ relevantName o.name })).length
    (h.update c (fun o => { o with name := pn ++ relevantName o.name }))
    ((h.update c (fun o => { o with name := pn ++ relevantName o.name })).obj c).name c c
    (hr1.wellFormed w) (le_refl _) (by rw [Heap.length_update]; exact hc) (by omega)
    (Or.inl rfl)
  refine ⟨h', hh', hr1.renamed_trans hr', ?_⟩
  rw [renameDescendants_keeps _ _ _ _ _ hh' c rfl, Heap.obj_update]
  simp [hc]

end RenameTotal
end ObjectLoader
namespace ObjectLoader
section ChildLoop
variable {K : Type} [CommRing K]

theorem Extends.extends_refl (n : Nat) (h : Heap K) : Extends n h h [] :=
  ⟨le_refl _, fun _ _ _ => rfl, by simp⟩

theorem Extends.extends_trans {n : Nat} {h1 h2 h3 : Heap K} {a b : List Nat}
    (x : Extends n h1 h2 a) (y : Extends n h2 h3 b) : Extends n h1 h3 (a ++ b) := by
  refine ⟨le_trans x.1 y.1, ?_, ?_⟩
  · intro j hj hjn
    rw [y.2.1 j (by have := x.1; omega) hjn, x.2.1 j hj hjn]
  · rw [y.2.2, x.2.2]
    simp

theorem Extends.extends_name {n : Nat} {h h' : Heap K} {a : List Nat} (x : Extends n h h' a) (j : Nat)
    (hj : j < h.length) : (h'.obj j).name = (h.obj j).name := by
  by_cases hjn : j = n
  · subst hjn
    rw [x.2.2]
  · rw [x.2.1 j hj hjn]

theorem Extends.extends_kind {n : Nat} {h h' : Heap K} {a : List Nat} (x : Extends n h h' a) (j : Nat)
    (hj : j < h.length) : (h'.obj j).kind = (h.obj j).kind := by
  by_cases hjn : j = n
  · subst hjn
    rw [x.2.2]
  · rw [x.2.1 j hj hjn]

theorem Extends.extends_parent {n : Nat} {h h' : Heap K} {a : List Nat} (x : Extends n h h' a) (j : Nat)
    (hj : j < h.length) : (h'.obj j).parent = (h.obj j).parent := by
  by_cases hjn : j = n
  · subst hjn
    rw [x.2.2]
  · rw [x.2.1 j hj hjn]

theorem Extends.extends_children {n : Nat} {h h' : Heap K} {a : List Nat} (x : Extends n h h' a) :
    (h'.obj n).children = (h.obj n).children ++ a := by
  rw [x.2.2]

/-- The cached branch on a state of the child loop: it succeeds, the copy is the next
object of the store and becomes the last child of the object being built. -/
theorem addClone_step (n oc : Nat) (pn : String) (s : State K) (hb : Building n s)
    (hoc : oc < n) :
    ∃ s', addClone s n oc pn = .ok s' ∧ Building n s' ∧ s'.allObjects = s.allObjects ∧
      s'.stack = s.stack ∧ Extends n s.heap s'.heap [s.heap.length] ∧
      s.heap.length < s'.heap.length ∧
      (s'.heap.obj s.heap.length).kind = (s.heap.obj oc).kind ∧
      (s'.heap.obj s.heap.length).name = pn ++ relevantName (s.heap.obj oc).name := by
  obtain ⟨w, hn, hpar, hcache⟩ := hb
  obtain ⟨e, hcl, hlen, w1, hp1, hk1, hn1⟩ := clone_total s.heap.length s.heap oc s.heap.length w
    (le_refl _) (fun j c _ hc => (w.1 j c hc).2.1) (fun j lv _ hl => (w.2 j lv hl).2)
    (by omega) (by omega)
  obtain ⟨h2, hu, hr, hnm⟩ := updateCloneNames_total (s.heap ++ e) s.heap.length pn w1 hlen
  have hlen2 : s.heap.length < h2.length := by rw [hr.1]; exact hlen
  have hp2 : (h2.obj s.heap.length).parent = none := by rw [hr.renamed_parent]; exact hp1
  have hobj := fun j => add_fresh_obj h2 n s.heap.length j (by omega) (by omega) hlen2 hp2
  have hold : ∀ j, j < s.heap.length → h2.obj j = s.heap.obj j := by
    intro j hj
    rw [(hr.2 j).1 hj, Heap.obj_append_left _ _ _ hj]
  refine ⟨{ s with heap := add h2 n s.heap.length }, ?_, ⟨?_, ?_, ?_, hcache⟩, rfl, rfl, ?_, ?_,
    ?_, ?_⟩
  · simp [addClone, hcl, hu, bind, Except.bind, pure, Except.pure]
  · exact (hr.wellFormed w1).add n _ hn hlen2 hp2
  · simp only [add_length]; omega
  · simp only [hobj, if_true]
    rw [hold n hn]
    exact hpar
  · refine ⟨by simp only [add_length]; omega, ?_, ?_⟩
    · intro j hj hjn
      simp only [hobj, hjn, if_false, Nat.ne_of_lt hj]
      exact hold j hj
    · simp only [hobj, if_true]
      rw [hold n hn]
  · simp only [add_length]; exact hlen2
  · simp only [add_kind]
    rw [hr.renamed_kind, hk1]
  · simp only [add_name]
    rw [hnm, hn1]

end ChildLoop
end ObjectLoader
namespace ObjectLoader
section ChildLoop2
variable {K : Type} [CommRing K]

theorem Heap.obj_append (h e : Heap K) (j : Nat) :
    (h ++ e).obj j = if j < h.length then h.obj j else Heap.obj e (j - h.length) := by
  split
  · rename_i hj
    exact Heap.obj_append_left _ _ _ hj
  · rename_i hj
    simp [Heap.obj, List.getD_eq_getElem?_getD, List.getElem?_append_right (not_lt.1 hj)]

/-- A block of new objects whose first object is attached to the object `n`: the store
stays well formed when the block is well formed in itself. -/
theorem WellFormed.wf_attach {h : Heap K} (w : WellFormed h) (n : Nat) (hn : n < h.length)
    (objs : List (Obj K)) (hpos : 0 < objs.length)
    (hroot : (Heap.obj objs 0).parent = some n)
    (hin : ∀ k c, c ∈ (Heap.obj objs k).children →
      h.length + k < c ∧ c < h.length + objs.length ∧
        (Heap.obj objs (c - h.length)).parent = some (h.length + k))
    (hlv : ∀ k, (Heap.obj objs k).levels = []) :
    WellFormed (h.update n (appendChildren [h.length]) ++ objs) := by
  have hlen : (h.update n (appendChildren [h.length])).length = h.length :=
    Heap.length_update _ _ _
  have hobj : ∀ j, (h.update n (appendChildren [h.length]) ++ objs).obj j =
      if j < h.length then (if j = n then appendChildren [h.length] (h.obj j) else h.obj j)
      else Heap.obj objs (j - h.length) := by
    intro j
    rw [Heap.obj_append, hlen, Heap.obj_update]
    by_cases hj : j < h.length
    · by_cases hjn : j = n
      · subst hjn
        simp [hj]
      · simp [hj, hjn, Ne.symm hjn]
    · simp [hj]
  constructor
  · intro j c hc
    rw [hobj] at hc
    simp only [List.length_append, hlen]
    rw [hobj]
    by_cases hj : j < h.length
    · simp only [hj, if_true] at hc
      by_cases hjn : j = n
      · subst hjn
        simp only [if_true, appendChildren, List.mem_append, List.mem_singleton] at hc
        rcases hc with hc | rfl
        · obtain ⟨h1, h2, h3⟩ := w.1 j c hc
          refine ⟨h1, by omega, ?_⟩
          simp only [h2, if_true]
          split
          · simpa [appendChildren] using h3
          · exact h3
        · refine ⟨hj, by omega, ?_⟩
          simp only [Nat.lt_irrefl, if_false, Nat.sub_self]
          exact hroot
      · simp only [hjn, if_false] at hc
        obtain ⟨h1, h2, h3⟩ := w.1 j c hc
        refine ⟨h1, by omega, ?_⟩
        simp only [h2, if_true]
        split
        · simpa [appendChildren] using h3
        · exact h3
    · simp only [hj, if_false] at hc
      obtain ⟨h1, h2, h3⟩ := hin (j - h.length) c hc
      have hcl : ¬ c < h.length := by omega
      refine ⟨by omega, by omega, ?_⟩
      simp only [hcl, if_false]
      rw [h3]
      congr 1
      omega
  · intro j lv hl
    rw [hobj] at hl
    simp only [List.length_append, hlen]
    by_cases hj : j < h.length
    · simp only [hj, if_true] at hl
      have hl' : lv ∈ (h.obj j).levels := by
        split at hl
        · simpa [appendChildren] using hl
        · exact hl
      obtain ⟨h1, h2⟩ := w.2 j lv hl'
      exact ⟨h1, by omega⟩
    · simp only [hj, if_false] at hl
      rw [hlv] at hl
      simp at hl

theorem Extends.extends_attach (h : Heap K) (n : Nat) (hn : n < h.length) (objs : List (Obj K)) :
    Extends n h (h.update n (appendChildren [h.length]) ++ objs) [h.length] := by
  have hlen : (h.update n (appendChildren [h.length])).length = h.length :=
    Heap.length_update _ _ _
  refine ⟨by simp [hlen], ?_, ?_⟩
  · intro j hj hjn
    rw [Heap.obj_append, hlen, if_pos hj, Heap.obj_update, if_neg (by simp [Ne.symm hjn])]
  · rw [Heap.obj_append, hlen, if_pos hn, Heap.obj_update]
    simp [hn, appendChildren]

theorem attach_parent (h : Heap K) (n : Nat) (hn : n < h.length) (objs : List (Obj K)) :
    ((h.update n (appendChildren [h.length]) ++ objs).obj n).parent = (h.obj n).parent := by
  rw [(Extends.extends_attach h n hn objs).2.2]

theorem attach_new (h : Heap K) (n : Nat) (objs : List (Obj K)) (k : Nat) :
    (h.update n (appendChildren [h.length]) ++ objs).obj (h.length + k) = Heap.obj objs k := by
  rw [Heap.obj_append, Heap.length_update, if_neg (by omega)]
  congr 1
  omega

end ChildLoop2
end ObjectLoader
namespace ObjectLoader
section ChildLoop3
variable {K : Type} [CommRing K]

theorem mem_of_lookup {α : Type} (l : List (String × α)) (id : String) (v : α)
    (h : l.lookup id = some v) : (id, v) ∈ l := by
  induction l with
  | nil => simp at h
  | cons p l ih =>
    obtain ⟨k, x⟩ := p
    simp only [List.lookup] at h
    split at h
    · rename_i heq
      simp only [Option.some.injEq] at h
      have : id = k := by simpa using heq
      simp [this, h]
    · exact List.mem_cons_of_mem _ (ih h)

theorem lightObjs_wellFormed (wn : String) (n b : Nat) (ty : LightType) (id : String) :
    0 < (lightObjs wn n b ty id : List (Obj K)).length ∧
      (Heap.obj (lightObjs wn n b ty id : List (Obj K)) 0).parent = some n ∧
      (∀ k c, c ∈ (Heap.obj (lightObjs wn n b ty id : List (Obj K)) k).children →
        b + k < c ∧ c < b + (lightObjs wn n b ty id : List (Obj K)).length ∧
          (Heap.obj (lightObjs wn n b ty id : List (Obj K)) (c - b)).parent = some (b + k)) ∧
      (∀ k, (Heap.obj (lightObjs wn n b ty id : List (Obj K)) k).levels = []) ∧
      (Heap.obj (lightObjs wn n b ty id : List (Obj K)) 0).kind = .group ∧
      (Heap.obj (lightObjs wn n b ty id : List (Obj K)) 0).name = wn ∧
      (b + 1 ∈ (Heap.obj (lightObjs wn n b ty id : List (Obj K)) 0).children) ∧
      (Heap.obj (lightObjs wn n b ty id : List (Obj K)) 1).kind = .light ty := by
  cases ty
  all_goals
    refine ⟨by simp [lightObjs], by simp [lightObjs, Heap.obj], ?_, ?_, by simp [lightObjs, Heap.obj],
      by simp [lightObjs, Heap.obj], by simp [lightObjs, Heap.obj], by simp [lightObjs, Heap.obj]⟩
    · intro k c hc
      rcases k with _ | _ | _ | k
      all_goals
        simp [lightObjs, Heap.obj, newObj] at hc
      all_goals
        first
          | (subst hc; simp [lightObjs, Heap.obj])
          | (rcases hc with rfl | rfl <;> simp [lightObjs, Heap.obj])
    · intro k
      rcases k with _ | _ | _ | k <;> simp [lightObjs, Heap.obj, newObj] <;> rfl

/-- One round of the child loop of a plain node on a state of the loop: it fails only
with a `TypeError`, for a primitive of an unknown subtype or a reference whose id is
the name of a member of `Object.prototype`; a local child adds one object, the next of
the store, as the last child of the object being built, and a reference that the cache
cannot serve leaves the store alone. -/
theorem processChild_step (object n : Nat) (nm : List String × String) (c r : Bool)
    (s : State K) (ch : Child) (hb : Building n s) :
    (processChild object n nm c r s ch = .error .typeError ∧
        ((∃ t, ch = .primitive t ∧ t ∉ knownSubtypes) ∨
          ∃ id, ch = .noderef id ∧ id ∈ objectPrototypeMembers)) ∨
      ∃ s', processChild object n nm c r s ch = .ok s' ∧ Building n s' ∧
        s'.allObjects = s.allObjects ∧
        ((ch.isLocal s.allObjects = true ∧ Extends n s.heap s'.heap [s.heap.length] ∧
            s.heap.length < s'.heap.length ∧
            LocalFor s'.heap s.allObjects (childParentName s.heap object n) ch s.heap.length) ∨
          (ch.isLocal s.allObjects = false ∧ s'.heap = s.heap)) := by
  obtain ⟨w, hn, hpar, hcache⟩ := hb
  cases ch with
  | primitive t =>
    by_cases ht : t ∈ knownSubtypes
    · right
      obtain ⟨s', hs', hheap⟩ := processChild_exact object n nm c r s (.primitive t) hn
        (fun st h => by cases h; exact ht) (fun id h => by cases h) (fun id h => by cases h)
      have hcache' := (processChild_stack hs').1
      simp only [localRoots, childObjs] at hheap
      refine ⟨s', hs', ⟨?_, ?_, ?_, by rw [hcache']; exact hcache⟩, hcache', Or.inl ⟨rfl, ?_, ?_, ?_⟩⟩
      · rw [hheap]
        refine w.wf_attach n hn _ (by simp) (by simp [Heap.obj]) ?_ ?_
        · intro k x hx
          rcases k with _ | k <;> simp [Heap.obj] at hx
          exact absurd hx (by simp [default_children])
        · intro k
          rcases k with _ | k
          · simp [Heap.obj]
          · simp [Heap.obj]
            rfl
      · rw [hheap]; simp [Heap.length_update]; omega
      · rw [hheap, attach_parent _ _ hn]; exact hpar
      · rw [hheap]; exact Extends.extends_attach _ _ hn _
      · rw [hheap]; simp [Heap.length_update]
      · have := attach_new s.heap n
          [({ name := collapseScene (childParentName s.heap object n ++ "_" ++ (t ++ "_obj")),
              kind := .mesh t nm.2 c r, parent := some n, children := [], levels := [],
              matrix := 1 } : Obj K)] 0
        simp only [Nat.add_zero] at this
        rw [hheap]
        simp only [LocalFor, this]
        exact ⟨⟨nm.2, c, r, by simp [Heap.obj]⟩, by simp [Heap.obj]⟩
    · left
      exact ⟨by simp [processChild, createPrimitive, ht], Or.inl ⟨t, rfl, ht⟩⟩
  | light ty id =>
    right
    obtain ⟨s', hs', hheap⟩ := processChild_exact object n nm c r s (.light ty id) hn
      (fun st h => by cases h) (fun id h => by cases h) (fun id h => by cases h)
    have hcache' := (processChild_stack hs').1
    simp only [localRoots, childObjs] at hheap
    obtain ⟨l1, l2, l3, l4, l5, l6, l7, l8⟩ := @lightObjs_wellFormed K _
      (collapseScene (childParentName s.heap object n ++ "_" ++ "lightwrapper_")) n
      s.heap.length ty id
    have h0 := attach_new s.heap n (lightObjs
      (collapseScene (childParentName s.heap object n ++ "_" ++ "lightwrapper_")) n
      s.heap.length ty id) 0
    have h1 := attach_new s.heap n (lightObjs
      (collapseScene (childParentName s.heap object n ++ "_" ++ "lightwrapper_")) n
      s.heap.length ty id) 1
    simp only [Nat.add_zero] at h0
    refine ⟨s', hs', ⟨?_, ?_, ?_, by rw [hcache']; exact hcache⟩, hcache', Or.inl ⟨rfl, ?_, ?_, ?_⟩⟩
    · rw [hheap]
      exact w.wf_attach n hn _ l1 l2 l3 l4
    · rw [hheap]; simp [Heap.length_update]; omega
    · rw [hheap, attach_parent _ _ hn]; exact hpar
    · rw [hheap]; exact Extends.extends_attach _ _ hn _
    · rw [hheap]; simp only [List.length_append, Heap.length_update]; omega
    · rw [hheap]
      simp only [LocalFor, h0]
      exact ⟨l5, ⟨s.heap.length + 1, l7, by rw [h1]; exact l8⟩, l6⟩
  | noderef id =>
    cases hl : s.allObjects.lookup id with
    | none =>
      by_cases hm : id ∈ objectPrototypeMembers
      · left
        exact ⟨by simp only [processChild, hl, if_pos hm], Or.inr ⟨id, rfl, hm⟩⟩
      · right
        refine ⟨{ s with stack := childItem n nm c r (id, 0) :: s.stack },
          by simp only [processChild, hl, childItem, if_neg hm], ⟨w, hn, hpar, hcache⟩, rfl,
          Or.inr ⟨by simp [Child.isLocal, hl], rfl⟩⟩
    | some oc =>
      right
      have hoc : oc < n := hcache (id, oc) (mem_of_lookup _ _ _ hl)
      obtain ⟨s', hs', hb', hc', -, he', hl', hk', hn'⟩ :=
        addClone_step n oc (childParentName s.heap object n) s ⟨w, hn, hpar, hcache⟩ hoc
      refine ⟨s', by simp only [processChild, hl]; exact hs', hb', hc',
        Or.inl ⟨by simp [Child.isLocal, hl], he', hl', ?_⟩⟩
      refine ⟨oc, hl, ?_, ?_⟩
      · rw [hk', he'.extends_kind oc (by omega)]
      · rw [hn', he'.extends_name oc (by omega)]

end ChildLoop3
end ObjectLoader
namespace ObjectLoader
section ChildLoop4
variable {K : Type} [CommRing K]

theorem Grown.grown_refl (h : Heap K) : Grown h h :=
  ⟨le_refl _, fun j _ => ⟨[], by simp⟩⟩

theorem Grown.grown_trans {h1 h2 h3 : Heap K} (x : Grown h1 h2) (y : Grown h2 h3) : Grown h1 h3 := by
  refine ⟨le_trans x.1 y.1, fun j hj => ?_⟩
  obtain ⟨e1, he1⟩ := x.2 j hj
  obtain ⟨e2, he2⟩ := y.2 j (lt_of_lt_of_le hj x.1)
  refine ⟨e1 ++ e2, ?_⟩
  rw [he2, he1]
  simp

theorem Extends.extends_grown {n : Nat} {h h' : Heap K} {a : List Nat} (x : Extends n h h' a) :
    Grown h h' := by
  refine ⟨x.1, fun j hj => ?_⟩
  by_cases hjn : j = n
  · subst hjn
    exact ⟨a, x.2.2⟩
  · exact ⟨[], by rw [x.2.1 j hj hjn]; simp⟩

theorem Grown.grown_name {h h' : Heap K} (x : Grown h h') (j : Nat) (hj : j < h.length) :
    (h'.obj j).name = (h.obj j).name := by
  obtain ⟨e, he⟩ := x.2 j hj
  rw [he]

theorem Grown.grown_kind {h h' : Heap K} (x : Grown h h') (j : Nat) (hj : j < h.length) :
    (h'.obj j).kind = (h.obj j).kind := by
  obtain ⟨e, he⟩ := x.2 j hj
  rw [he]

theorem Grown.grown_parent {h h' : Heap K} (x : Grown h h') (j : Nat) (hj : j < h.length) :
    (h'.obj j).parent = (h.obj j).parent := by
  obtain ⟨e, he⟩ := x.2 j hj
  rw [he]

theorem Grown.mem_children {h h' : Heap K} (x : Grown h h') (j c : Nat) (hj : j < h.length)
    (hc : c ∈ (h.obj j).children) : c ∈ (h'.obj j).children := by
  obtain ⟨e, he⟩ := x.2 j hj
  rw [he]
  simp [hc]

/-- What the child loop has created for a child stays what it is when the store grows. -/
theorem LocalFor.local_grown {h h' : Heap K} (x : Grown h h') (w : WellFormed h)
    (cache : List (String × Nat)) (pn : String) (ch : Child) (i : Nat) (hi : i < h.length)
    (hc : ∀ p ∈ cache, p.2 < h.length) (hl : LocalFor h cache pn ch i) :
    LocalFor h' cache pn ch i := by
  cases ch with
  | primitive t =>
    simp only [LocalFor] at hl ⊢
    rw [x.grown_kind i hi, x.grown_name i hi]
    exact hl
  | light ty id =>
    simp only [LocalFor] at hl ⊢
    obtain ⟨h1, ⟨l, hl1, hl2⟩, h3⟩ := hl
    rw [x.grown_kind i hi, x.grown_name i hi]
    refine ⟨h1, ⟨l, x.mem_children i l hi hl1, ?_⟩, h3⟩
    rw [x.grown_kind l (w.1 i l hl1).2.1]
    exact hl2
  | noderef id =>
    simp only [LocalFor] at hl ⊢
    obtain ⟨oc, h1, h2, h3⟩ := hl
    have hoc : oc < h.length := hc (id, oc) (mem_of_lookup _ _ _ h1)
    exact ⟨oc, h1, by rw [x.grown_kind i hi, x.grown_kind oc hoc]; exact h2,
      by rw [x.grown_name i hi, x.grown_name oc hoc]; exact h3⟩

theorem childParentName_grown {h h' : Heap K} (x : Grown h h') (object n : Nat)
    (ho : object < h.length) (hn : n < h.length) :
    childParentName h' object n = childParentName h object n := by
  simp only [childParentName, x.grown_name object ho, x.grown_name n hn]

/-- The child loop of a plain node on a state of the loop: it fails only with a
`TypeError`, for a primitive of an unknown subtype or a reference whose id is the name
of a member of `Object.prototype`; otherwise the objects it adds to the object being
built are, in declaration order, what it creates for the local children. -/
theorem processChild_loop (object n : Nat) (nm : List String × String) (c r : Bool)
    (children : List Child) :
    ∀ (s : State K), Building n s → object < s.heap.length →
      (children.foldlM (processChild object n nm c r) s = .error .typeError ∧
          ((∃ t, .primitive t ∈ children ∧ t ∉ knownSubtypes) ∨
            ∃ id, .noderef id ∈ children ∧ id ∈ objectPrototypeMembers)) ∨
        ∃ s' added, children.foldlM (processChild object n nm c r) s = .ok s' ∧
          Building n s' ∧ s'.allObjects = s.allObjects ∧ Extends n s.heap s'.heap added ∧
          (∀ a ∈ added, s.heap.length ≤ a ∧ a < s'.heap.length) ∧
          added.Pairwise (fun a b => a < b) ∧
          List.Forall₂ (LocalFor s'.heap s.allObjects (childParentName s.heap object n))
            (children.filter (Child.isLocal s.allObjects)) added := by
  induction children with
  | nil =>
    intro s hb _
    exact Or.inr ⟨s, [], rfl, hb, rfl, Extends.extends_refl n _, by simp, by simp, by simp⟩
  | cons ch rest ih =>
    intro s hb ho
    rcases processChild_step object n nm c r s ch hb with ⟨he, hwhy⟩ | ⟨s1, hs1, hb1, hc1, hcase⟩
    · left
      refine ⟨by rw [List.foldlM_cons, he]; rfl, ?_⟩
      rcases hwhy with ⟨t, rfl, ht⟩ | ⟨id, rfl, hm⟩
      · exact Or.inl ⟨t, by simp, ht⟩
      · exact Or.inr ⟨id, by simp, hm⟩
    · have hlen1 : s.heap.length ≤ s1.heap.length := by
        rcases hcase with ⟨_, he, _, _⟩ | ⟨_, he⟩
        · exact he.1
        · rw [he]
      have hg1 : Grown s.heap s1.heap := by
        rcases hcase with ⟨_, he, _, _⟩ | ⟨_, he⟩
        · exact he.extends_grown
        · rw [he]; exact Grown.grown_refl _
      have hpn : childParentName s1.heap object n = childParentName s.heap object n :=
        childParentName_grown hg1 object n ho hb.2.1
      rcases ih s1 hb1 (by omega) with ⟨he, hwhy⟩ | ⟨s', added, hs', hb', hc', he', hr', hp', hf'⟩
      · left
        refine ⟨by rw [List.foldlM_cons, hs1]; exact he, ?_⟩
        rcases hwhy with ⟨t, ht1, ht2⟩ | ⟨id, hi1, hi2⟩
        · exact Or.inl ⟨t, by simp [ht1], ht2⟩
        · exact Or.inr ⟨id, by simp [hi1], hi2⟩
      · right
        rw [hc1, hpn] at hf'
        rcases hcase with ⟨hloc, he, hlt, hlf⟩ | ⟨hloc, he⟩
        · refine ⟨s', s.heap.length :: added, by rw [List.foldlM_cons, hs1]; exact hs', hb',
            hc'.trans hc1, he.extends_trans he', ?_, ?_, ?_⟩
          · intro a ha
            simp only [List.mem_cons] at ha
            rcases ha with rfl | ha
            · exact ⟨le_refl _, by have := he'.1; omega⟩
            · exact ⟨by have := (hr' a ha).1; omega, (hr' a ha).2⟩
          · simp only [List.pairwise_cons]
            exact ⟨fun a ha => by have := (hr' a ha).1; omega, hp'⟩
          · simp only [List.filter_cons, hloc, if_true]
            refine List.Forall₂.cons ?_ hf'
            exact LocalFor.local_grown he'.extends_grown hb1.1 _ _ ch _ hlt
              (fun p hp => by
                have := hb1.2.2.2 p (by rw [hc1]; exact hp)
                have := hb1.2.1
                omega) hlf
        · refine ⟨s', added, by rw [List.foldlM_cons, hs1]; exact hs', hb', hc'.trans hc1,
            by rw [← he]; exact he', ?_, hp', ?_⟩
          · intro a ha
            rw [← he]
            exact hr' a ha
          · simp only [List.filter_cons, hloc]
            exact hf'

end ChildLoop4
end ObjectLoader

namespace ObjectLoader
section Round
variable {K : Type} [CommRing K]

/-- One round of the child loop of a lod on a state of the loop: it fails only with a
`TypeError`, for a child whose `id` is the name of a member of `Object.prototype`. -/
theorem processLodChild_step (object n : Nat) (nm : List String × String) (c r : Bool)
    (s : State K) (child : LodChild) (hb : Building n s) :
    (processLodChild object n nm c r s child = .error .typeError ∧
        child.id.getD "undefined" ∈ objectPrototypeMembers) ∨
      ∃ s' added, processLodChild object n nm c r s child = .ok s' ∧ Building n s' ∧
        s'.allObjects = s.allObjects ∧ Extends n s.heap s'.heap added ∧
        (∀ a ∈ added, s.heap.length ≤ a ∧ a < s'.heap.length) ∧
        added.Pairwise (fun a b => a < b) := by
  cases hl : s.allObjects.lookup (child.id.getD "undefined") with
  | none =>
    by_cases hm : child.id.getD "undefined" ∈ objectPrototypeMembers
    · left
      exact ⟨by simp only [processLodChild, hl, if_pos hm], hm⟩
    · right
      exact ⟨{ s with stack := childItem n nm c r (child.node, child.mindist) :: s.stack }, [],
        by simp only [processLodChild, hl, childItem, if_neg hm], hb, rfl,
        Extends.extends_refl n _, by simp, by simp⟩
  | some oc =>
    right
    have hoc : oc < n := hb.2.2.2 (_, oc) (mem_of_lookup _ _ _ hl)
    obtain ⟨s', hs', hb', hc', -, he', hl', -, -⟩ :=
      addClone_step n oc (childParentName s.heap object n) s hb hoc
    exact ⟨s', [s.heap.length], by simp only [processLodChild, hl]; exact hs', hb', hc', he',
      by simpa using hl', by simp⟩

/-- The child loop of a lod on a state of the loop: it fails only with a `TypeError`,
for a child whose `id` is the name of a member of `Object.prototype`. -/
theorem processLodChild_loop (object n : Nat) (nm : List String × String) (c r : Bool)
    (children : List LodChild) :
    ∀ (s : State K), Building n s →
      (children.foldlM (processLodChild object n nm c r) s = .error .typeError ∧
          ∃ ch ∈ children, ch.id.getD "undefined" ∈ objectPrototypeMembers) ∨
        ∃ s' added, children.foldlM (processLodChild object n nm c r) s = .ok s' ∧
          Building n s' ∧ s'.allObjects = s.allObjects ∧ Extends n s.heap s'.heap added ∧
          (∀ a ∈ added, s.heap.length ≤ a ∧ a < s'.heap.length) ∧
          added.Pairwise (fun a b => a < b) := by
  induction children with
  | nil =>
    intro s hb
    exact Or.inr ⟨s, [], rfl, hb, rfl, Extends.extends_refl n _, by simp, by simp⟩
  | cons ch rest ih =>
    intro s hb
    rcases processLodChild_step object n nm c r s ch hb with
      ⟨he, hm⟩ | ⟨s1, a1, hs1, hb1, hc1, he1, hr1, hp1⟩
    · left
      exact ⟨by rw [List.foldlM_cons, he]; rfl, ch, by simp, hm⟩
    rcases ih s1 hb1 with ⟨he, x, hx, hm⟩ | ⟨s', a2, hs', hb', hc', he', hr', hp'⟩
    · left
      exact ⟨by rw [List.foldlM_cons, hs1]; exact he, x, by simp [hx], hm⟩
    right
    refine ⟨s', a1 ++ a2, by rw [List.foldlM_cons, hs1]; exact hs', hb', hc'.trans hc1,
      he1.extends_trans he', ?_, ?_⟩
    · intro a ha
      simp only [List.mem_append] at ha
      rcases ha with ha | ha
      · exact ⟨(hr1 a ha).1, by have := (hr1 a ha).2; have := he'.1; omega⟩
      · exact ⟨by have := (hr' a ha).1; have := he1.1; omega, (hr' a ha).2⟩
    · rw [List.pairwise_append]
      refine ⟨hp1, hp', fun a ha b hb2 => ?_⟩
      have := (hr1 a ha).2
      have := (hr' b hb2).1
      omega

/-- The child loop of a round on a state of the loop. -/
theorem processChildren_total (node : Descriptor K) (object n : Nat)
    (nm : List String × String) (c r : Bool) (s : State K) (hb : Building n s)
    (ho : object < s.heap.length) :
    (processChildren node object n nm c r s = .error .typeError ∧
        ((∃ m cs rs ts children, node = .node m cs rs ts children ∧
            ((∃ t, .primitive t ∈ children ∧ t ∉ knownSubtypes) ∨
              ∃ id, .noderef id ∈ children ∧ id ∈ objectPrototypeMembers)) ∨
          ∃ children, node = .lod children ∧
            ∃ ch ∈ children, ch.id.getD "undefined" ∈ objectPrototypeMembers)) ∨
      ∃ s' added, processChildren node object n nm c r s = .ok s' ∧ Building n s' ∧
        Extends n s.heap s'.heap added ∧
        (∀ a ∈ added, s.heap.length ≤ a ∧ a < s'.heap.length) ∧
        added.Pairwise (fun a b => a < b) ∧
        ∀ m cs rs ts children, node = .node m cs rs ts children →
          List.Forall₂ (LocalFor s'.heap s.allObjects (childParentName s.heap object n))
            (children.filter (Child.isLocal s.allObjects)) added := by
  cases node with
  | node m cs rs ts children =>
    rcases processChild_loop object n nm c r children s hb ho with
      ⟨he, hwhy⟩ | ⟨s', added, hs', hb', -, he', hr', hp', hf'⟩
    · exact Or.inl ⟨he, Or.inl ⟨m, cs, rs, ts, children, rfl, hwhy⟩⟩
    · refine Or.inr ⟨s', added, hs', hb', he', hr', hp', ?_⟩
      intro m' cs' rs' ts' children' heq
      cases heq
      exact hf'
  | lod children =>
    rcases processLodChild_loop object n nm c r children s hb with
      ⟨he, hwhy⟩ | ⟨s', added, hs', hb', -, he', hr', hp'⟩
    · exact Or.inl ⟨he, Or.inr ⟨children, rfl, hwhy⟩⟩
    refine Or.inr ⟨s', added, hs', hb', he', hr', hp', ?_⟩
    intro m' cs' rs' ts' children' heq
    cases heq

theorem addLevel_eq (h : Heap K) (p c : Nat) (d : Int) :
    addLevel h p c d
      = add (h.update p (fun o => { o with levels := insertLevel (Level.mk c |d|) o.levels }))
          p c := rfl

theorem addLevel_fresh_obj (h : Heap K) (p c j : Nat) (d : Int) (hne : p ≠ c)
    (hp : p < h.length) (hc : c < h.length) (hpar : (h.obj c).parent = none) :
    (addLevel h p c d).obj j =
      if j = p then { h.obj p with children := (h.obj p).children ++ [c],
                                   levels := ((addLevel h p c d).obj p).levels }
      else if j = c then { h.obj c with parent := some p } else h.obj j := by
  obtain ⟨g, hg⟩ : ∃ g, g = h.update p
      (fun o => { o with levels := insertLevel (Level.mk c |d|) o.levels }) := ⟨_, rfl⟩
  have hgo : ∀ i, g.obj i = if p = i ∧ p < h.length
      then { h.obj i with levels := insertLevel (Level.mk c |d|) (h.obj i).levels }
      else h.obj i := by
    intro i
    rw [hg, Heap.obj_update]
  have hgl : g.length = h.length := by rw [hg, Heap.length_update]
  have key : ∀ i, (addLevel h p c d).obj i =
      if i = p then { g.obj p with children := (g.obj p).children ++ [c] }
      else if i = c then { g.obj c with parent := some p } else g.obj i := by
    intro i
    rw [addLevel_eq, ← hg]
    exact add_fresh_obj g p c i hne (by rw [hgl]; exact hp) (by rw [hgl]; exact hc)
      (by rw [hgo, if_neg (by simp [hne])]; exact hpar)
  rw [key j]
  by_cases hjp : j = p
  · subst hjp
    simp only [if_true]
    rw [key j]
    simp [hgo, hp]
  · simp only [hjp, if_false]
    by_cases hjc : j = c
    · subst hjc
      simp [hgo, hne]
    · simp [hjc, hgo, Ne.symm hjp]

end Round
end ObjectLoader
namespace ObjectLoader
section Round2
variable {K : Type} [CommRing K]

theorem add_fresh_levels (h : Heap K) (p c j : Nat) (hne : p ≠ c) (hp : p < h.length)
    (hc : c < h.length) (hpar : (h.obj c).parent = none) :
    (add h p c).obj j =
      if j = p then { h.obj p with children := (h.obj p).children ++ [c],
                                   levels := ((add h p c).obj p).levels }
      else if j = c then { h.obj c with parent := some p } else h.obj j := by
  have key := fun i => add_fresh_obj h p c i hne hp hc hpar
  rw [key j]
  by_cases hjp : j = p
  · subst hjp
    simp only [if_true]
    rw [key j]
    simp
  · simp only [hjp, if_false]

/-- The end of a round on a state of the child loop: the object built is renamed and
attached to the object of the work item as its last child; no other object changes. -/
theorem finishNode_effect (cos sin : K → K) (node : Descriptor K) (item : WorkItem) (n : Nat)
    (s1 s' : State K) (hb : Building n s1) (hio : item.object < n)
    (hs' : s' = finishNode cos sin node item n s1) :
    WellFormed s'.heap ∧ s'.heap.length = s1.heap.length ∧
      (∀ j, j ≠ n → j ≠ item.object → s'.heap.obj j = s1.heap.obj j) ∧
      s'.heap.obj item.object = { s1.heap.obj item.object with
          children := (s1.heap.obj item.object).children ++ [n],
          levels := (s'.heap.obj item.object).levels } ∧
      (s'.heap.obj n).children = (s1.heap.obj n).children ∧
      (s'.heap.obj n).kind = (s1.heap.obj n).kind ∧
      (s'.heap.obj n).name = collapseScene (stripTags (s1.heap.obj item.object).name
        ++ (s1.heap.obj n).name ++ (if node.isLod then "_lod" else "_obj")) ∧
      (s'.heap.obj n).parent = some item.object ∧
      s'.stack = s1.stack ∧ s'.allObjects = (item.node, n) :: s1.allObjects := by
  obtain ⟨w, hn, hpar, hcache⟩ := hb
  have hne : item.object ≠ n := by omega
  obtain ⟨fn, hfn⟩ : ∃ fn, fn = collapseScene
      (stripTags ((transform cos sin s1.heap n node.transformations).obj item.object).name
        ++ ((transform cos sin s1.heap n node.transformations).obj n).name
        ++ (if node.isLod then "_lod" else "_obj")) := ⟨_, rfl⟩
  obtain ⟨g, hg⟩ : ∃ g, g = ((transform cos sin s1.heap n node.transformations).update n
      (fun o => { o with name := fn })) := ⟨_, rfl⟩
  have hto : ∀ j, (transform cos sin s1.heap n node.transformations).obj j =
      if j = n then applyMatrix4 (s1.heap.obj n) (transformMatrix cos sin node.transformations)
      else s1.heap.obj j := by
    intro j
    unfold transform
    rw [Heap.obj_update]
    by_cases hj : j = n
    · subst hj; simp [hn]
    · simp [hj, Ne.symm hj]
  have hgl : g.length = s1.heap.length := by
    rw [hg, Heap.length_update]
    unfold transform
    rw [Heap.length_update]
  have hfn' : fn = collapseScene (stripTags (s1.heap.obj item.object).name
      ++ (s1.heap.obj n).name ++ (if node.isLod then "_lod" else "_obj")) := by
    rw [hfn, hto, hto, if_neg hne, if_pos rfl]
    rfl
  have hgo : ∀ j, g.obj j = if j = n then
        { applyMatrix4 (s1.heap.obj n) (transformMatrix cos sin node.transformations) with
          name := fn }
      else s1.heap.obj j := by
    intro j
    rw [hg, Heap.obj_update, hto]
    have hl : n < (transform cos sin s1.heap n node.transformations).length := by
      unfold transform
      rw [Heap.length_update]
      exact hn
    by_cases hj : j = n
    · subst hj
      simp [hl]
    · simp [hj, Ne.symm hj]
  have wg : WellFormed g := by
    rw [hg]
    unfold transform
    exact (w.wf_update n (fun o => applyMatrix4 o (transformMatrix cos sin node.transformations))
      (fun o => ⟨rfl, rfl, rfl⟩)).wf_update n (fun o => { o with name := fn })
      (fun o => ⟨rfl, rfl, rfl⟩)
  have hgp : (g.obj n).parent = none := by
    rw [hgo, if_pos rfl]
    exact hpar
  have hheap : s'.heap = if (g.obj item.object).kind = .lod
      then addLevel g item.object n item.dist else add g item.object n := by
    rw [hs', hg, hfn]
    rfl
  have hobj : ∀ j, s'.heap.obj j =
      if j = item.object then { g.obj item.object with
          children := (g.obj item.object).children ++ [n],
          levels := (s'.heap.obj item.object).levels }
      else if j = n then { g.obj n with parent := some item.object } else g.obj j := by
    intro j
    rw [hheap]
    split
    · exact addLevel_fresh_obj g item.object n j item.dist hne (by omega) (by omega) hgp
    · exact add_fresh_levels g item.object n j hne (by omega) (by omega) hgp
  have hio' : g.obj item.object = s1.heap.obj item.object := by
    rw [hgo, if_neg hne]
  refine ⟨?_, ?_, ?_, ?_, ?_, ?_, ?_, ?_, ?_, ?_⟩
  · rw [hheap]
    split
    · exact wg.addLevel _ _ _ hio (by omega) hgp
    · exact wg.add _ _ hio (by omega) hgp
  · rw [hheap]
    split
    · rw [addLevel_length, hgl]
    · rw [add_length, hgl]
  · intro j hj1 hj2
    rw [hobj, if_neg hj2, if_neg hj1, hgo, if_neg hj1]
  · conv_lhs => rw [hobj, if_pos rfl, hio']
  · rw [hobj, if_neg (Ne.symm hne), if_pos rfl, hgo, if_pos rfl]
    rfl
  · rw [hobj, if_neg (Ne.symm hne), if_pos rfl, hgo, if_pos rfl]
    rfl
  · rw [hobj, if_neg (Ne.symm hne), if_pos rfl, hgo, if_pos rfl]
    exact hfn'
  · rw [hobj, if_neg (Ne.symm hne), if_pos rfl]
  · rw [hs']; rfl
  · rw [hs']; rfl

end Round2
end ObjectLoader
namespace ObjectLoader
section Round3
variable {K : Type} [CommRing K]

theorem getMaterials_error (node : Descriptor K) (l : Option (List String)) (e : LoadError)
    (h : getMaterials node l = .error e) : e = .typeError := by
  unfold getMaterials at h
  split at h
  · cases h
  · split at h
    · cases h; rfl
    · cases h
    · cases h

/-- What the child loop has created for a child stays what it is when the objects of the
store other than the object being built, which is older, at most gain children and
levels. -/
theorem LocalFor.transport {h h' : Heap K} (n : Nat)
    (x : ∀ j, j < h.length → j ≠ n → ∃ extra,
      h'.obj j = { h.obj j with children := (h.obj j).children ++ extra,
                                levels := (h'.obj j).levels })
    (w : WellFormed h) (cache : List (String × Nat)) (pn : String) (ch : Child) (i : Nat)
    (hi : i < h.length) (hni : n < i) (hc : ∀ p ∈ cache, p.2 < n)
    (hl : LocalFor h cache pn ch i) : LocalFor h' cache pn ch i := by
  have hk : ∀ j, j < h.length → j ≠ n → (h'.obj j).kind = (h.obj j).kind := by
    intro j hj hjn
    obtain ⟨e, he⟩ := x j hj hjn
    rw [he]
  have hnm : ∀ j, j < h.length → j ≠ n → (h'.obj j).name = (h.obj j).name := by
    intro j hj hjn
    obtain ⟨e, he⟩ := x j hj hjn
    rw [he]
  have hin : i ≠ n := by omega
  cases ch with
  | primitive t =>
    simp only [LocalFor] at hl ⊢
    rw [hk i hi hin, hnm i hi hin]
    exact hl
  | light ty id =>
    simp only [LocalFor] at hl ⊢
    obtain ⟨h1, ⟨l, hl1, hl2⟩, h3⟩ := hl
    obtain ⟨hil, hll, -⟩ := w.1 i l hl1
    rw [hk i hi hin, hnm i hi hin]
    refine ⟨h1, ⟨l, ?_, ?_⟩, h3⟩
    · obtain ⟨e, he⟩ := x i hi hin
      rw [he]
      simp [hl1]
    · rw [hk l hll (by omega)]
      exact hl2
  | noderef id =>
    simp only [LocalFor] at hl ⊢
    obtain ⟨oc, h1, h2, h3⟩ := hl
    have hoc : oc < n := hc (id, oc) (mem_of_lookup _ _ _ h1)
    exact ⟨oc, h1, by rw [hk i hi hin, hk oc (by omega) (by omega)]; exact h2,
      by rw [hnm i hi hin, hnm oc (by omega) (by omega)]; exact h3⟩

theorem forall₂_imp_mem {α β : Type} {P Q : α → β → Prop} {l1 : List α} {l2 : List β}
    (h : List.Forall₂ P l1 l2) (hi : ∀ a b, b ∈ l2 → P a b → Q a b) : List.Forall₂ Q l1 l2 := by
  induction h with
  | nil => exact List.Forall₂.nil
  | cons hab _ ih =>
    exact List.Forall₂.cons (hi _ _ (by simp) hab)
      (ih (fun a b hb hp => hi a b (List.mem_cons_of_mem _ hb) hp))

/-- One round of the `while` loop on a sound state, for a work item whose object is in
the store: it fails only with a `TypeError` (no material list in force, a primitive of
an unknown subtype, or a reference whose id is the name of a member of
`Object.prototype`), or, for the node `__proto__`, by replacing the prototype of the
cache; otherwise the state stays sound, the object built is the next
object of the store and becomes the last child of the object of the work item, no
other object of the store changes, and the children of the object built are, in
declaration order, what the child loop has created for the local children. -/
theorem processItem_round (cos sin : K → K) (nodes : String → Descriptor K) (item : WorkItem)
    (s : State K) (hs : Sound s) (hio : item.object < s.heap.length) :
    (processItem cos sin nodes item s = .error .typeError ∧
        (getMaterials (nodes item.node) item.currentMaterials = .error .typeError ∨
          (∃ m cs rs ts children, nodes item.node = .node m cs rs ts children ∧
            ((∃ t, .primitive t ∈ children ∧ t ∉ knownSubtypes) ∨
              ∃ id, .noderef id ∈ children ∧ id ∈ objectPrototypeMembers)) ∨
          ∃ children, nodes item.node = .lod children ∧
            ∃ ch ∈ children, ch.id.getD "undefined" ∈ objectPrototypeMembers)) ∨
      (processItem cos sin nodes item s = .error .prototypeReplaced ∧
        item.node = "__proto__") ∨
      ∃ s' added, processItem cos sin nodes item s = .ok s' ∧ Sound s' ∧
        Extends item.object s.heap s'.heap [s.heap.length] ∧
        s.heap.length < s'.heap.length ∧
        (s'.heap.obj s.heap.length).children = added ∧
        (s'.heap.obj s.heap.length).kind
          = (if (nodes item.node).isLod then Kind.lod else Kind.group) ∧
        (s'.heap.obj s.heap.length).name
          = collapseScene (stripTags (s.heap.obj item.object).name
              ++ (if (nodes item.node).isLod then "" else item.node)
              ++ (if (nodes item.node).isLod then "_lod" else "_obj")) ∧
        (s'.heap.obj s.heap.length).parent = some item.object ∧
        (∀ a ∈ added, s.heap.length < a ∧ a < s'.heap.length) ∧
        added.Pairwise (fun a b => a < b) ∧
        ∀ m cs rs ts children, nodes item.node = .node m cs rs ts children →
          List.Forall₂ (LocalFor s'.heap s.allObjects
              (stripTags (s.heap.obj item.object).name ++ stripTags item.node))
            (children.filter (Child.isLocal s.allObjects)) added := by
  obtain ⟨w, hcache, hstack⟩ := hs
  obtain ⟨o, ho⟩ : ∃ o : Obj K, o = (if (nodes item.node).isLod then newObj "" .lod
      else newObj item.node .group) := ⟨_, rfl⟩
  have hoc : o.children = [] := by rw [ho]; split <;> rfl
  have hol : o.levels = [] := by rw [ho]; split <;> rfl
  have hop : o.parent = none := by rw [ho]; split <;> rfl
  have hok : o.kind = (if (nodes item.node).isLod then Kind.lod else Kind.group) := by
    rw [ho]; split <;> rfl
  have hon : o.name = (if (nodes item.node).isLod then "" else item.node) := by
    rw [ho]; split <;> rfl
  have hb : Building s.heap.length ({ s with heap := s.heap ++ [o] } : State K) :=
    ⟨w.wf_alloc o hoc hol, by simp, by simp only [Heap.obj_append_length]; exact hop, hcache⟩
  have hunf : processItem cos sin nodes item s = (do
      let newMaterials ← getMaterials (nodes item.node) item.currentMaterials
      let s1 ← processChildren (nodes item.node) item.object s.heap.length newMaterials
        (if (nodes item.node).castShadows then true else item.castShadow)
        (if (nodes item.node).receiveShadows then true else item.receiveShadow)
        { s with heap := s.heap ++ [o] }
      if item.node = "__proto__" then .error .prototypeReplaced
      else pure (finishNode cos sin (nodes item.node) item s.heap.length s1)) := by
    rw [ho]
    rfl
  rw [hunf]
  cases hg : getMaterials (nodes item.node) item.currentMaterials with
  | error e =>
    have := getMaterials_error _ _ _ hg
    subst this
    exact Or.inl ⟨rfl, Or.inl rfl⟩
  | ok nm =>
    simp only [bind, Except.bind, pure, Except.pure]
    rcases processChildren_total (nodes item.node) item.object s.heap.length nm
        (if (nodes item.node).castShadows then true else item.castShadow)
        (if (nodes item.node).receiveShadows then true else item.receiveShadow)
        { s with heap := s.heap ++ [o] } hb (by simp; omega) with
      ⟨he, hbad⟩ | ⟨s1, added, hs1, hb1, he1, hr1, hp1, hf1⟩
    · rw [he]
      exact Or.inl ⟨rfl, Or.inr hbad⟩
    · rw [hs1]
      dsimp only
      by_cases hproto : item.node = "__proto__"
      · rw [if_pos hproto]
        exact Or.inr (Or.inl ⟨rfl, hproto⟩)
      rw [if_neg hproto]
      right
      right
      obtain ⟨hc1, hst1⟩ := processChildren_stack hs1
      simp only at hc1 hst1 he1 hr1 hf1
      obtain ⟨f1, f2, f3, f4, f5, f6, f7, f8, f9, f10⟩ := finishNode_effect cos sin
        (nodes item.node) item s.heap.length s1 _ hb1 hio rfl
      have hlen1 : s.heap.length + 1 ≤ s1.heap.length := by
        have := he1.1
        simpa using this
      have hold : ∀ j, j < s.heap.length → s1.heap.obj j = s.heap.obj j := by
        intro j hj
        rw [he1.2.1 j (by simp; omega) (by omega), Heap.obj_append_left _ _ _ hj]
      have hnc : (s1.heap.obj s.heap.length).children = added := by
        rw [he1.extends_children, Heap.obj_append_length, hoc]
        rfl
      have hnk : (s1.heap.obj s.heap.length).kind = o.kind := by
        rw [he1.extends_kind _ (by simp), Heap.obj_append_length]
      have hnn : (s1.heap.obj s.heap.length).name = o.name := by
        rw [he1.extends_name _ (by simp), Heap.obj_append_length]
      refine ⟨_, added, rfl, ⟨f1, ?_, ?_⟩, ⟨?_, ?_, ?_⟩, ?_, ?_, ?_, ?_, f8, ?_, hp1, ?_⟩
      · intro p hp
        rw [f10, hc1] at hp
        simp only [List.mem_cons] at hp
        rcases hp with rfl | hp
        · simp only; omega
        · have := hcache p hp
          omega
      · intro it hit
        rw [f9, hst1] at hit
        simp only [List.mem_append, List.mem_reverse, List.mem_map] at hit
        rcases hit with ⟨x, -, rfl⟩ | hit
        · simp only [childItem]; omega
        · have := hstack it hit
          omega
      · omega
      · intro j hj hjo
        rw [f3 j (by omega) hjo, hold j hj]
      · conv_lhs => rw [f4, hold _ hio]
      · omega
      · rw [f5, hnc]
      · rw [f6, hnk, hok]
      · rw [f7, hold _ hio, hnn, hon]
      · intro a ha
        have := hr1 a ha
        simp only [List.length_append, List.length_singleton] at this
        omega
      · intro m cs rs ts children hnode
        have hF := hf1 m cs rs ts children hnode
        have hpn : childParentName (s.heap ++ [o]) item.object s.heap.length
            = stripTags (s.heap.obj item.object).name ++ stripTags item.node := by
          simp only [childParentName, Heap.obj_append_left _ _ _ hio, Heap.obj_append_length]
          rw [hon, hnode]
          rfl
        rw [hpn] at hF
        refine forall₂_imp_mem hF ?_
        intro ch i hi hl
        have hir := hr1 i hi
        simp only [List.length_append, List.length_singleton] at hir
        refine LocalFor.transport s.heap.length ?_ hb1.1 _ _ ch i hir.2 (by omega) hcache hl
        intro j _ hjn
        by_cases hjo : j = item.object
        · subst hjo
          exact ⟨[s.heap.length], f4⟩
        · exact ⟨[], by rw [f3 j hjn hjo]; simp⟩

end Round3
end ObjectLoader
namespace ObjectLoader
section Measure
variable {K : Type} [CommRing K]

theorem weight_pos (c k : Nat) : 1 ≤ weight c k := by
  cases k <;> simp [weight]

theorem weight_le_succ (c k : Nat) : weight c k ≤ weight c (k + 1) := by
  induction k with
  | zero => simp [weight]
  | succ k ih =>
    simp only [weight] at ih ⊢
    exact Nat.add_le_add_left (Nat.mul_le_mul_left c ih) 1

theorem weight_mono (c : Nat) {a b : Nat} (h : a ≤ b) : weight c a ≤ weight c b := by
  induction h with
  | refl => exact le_refl _
  | step _ ih => exact le_trans ih (weight_le_succ c _)

theorem fanout_le (nodes : String → Descriptor K) (ids : List String) (id : String)
    (h : id ∈ ids) : (nodes id).refs.length ≤ fanout nodes ids := by
  unfold fanout
  induction ids with
  | nil => simp at h
  | cons a l ih =>
    simp only [List.map_cons, List.foldr_cons]
    simp only [List.mem_cons] at h
    rcases h with rfl | h
    · exact le_max_left _ _
    · exact le_trans (ih h) (le_max_right _ _)

theorem lookup_cons (k id : String) (v : Nat) (cache : List (String × Nat)) :
    List.lookup id ((k, v) :: cache) = if id = k then some v else cache.lookup id := by
  by_cases h : id = k
  · subst h
    simp [List.lookup]
  · have : (id == k) = false := by simpa using h
    simp [List.lookup, this, h]

theorem uncachedCount_cons_le (ids : List String) (k : String) (v : Nat)
    (cache : List (String × Nat)) :
    uncachedCount ids ((k, v) :: cache) ≤ uncachedCount ids cache := by
  unfold uncachedCount
  induction ids with
  | nil => simp
  | cons a l ih =>
    simp only [List.filter_cons, lookup_cons]
    by_cases h : a = k
    · simp only [h, if_true, Option.isNone_some, Bool.false_eq_true, if_false]
      split
      · simp only [List.length_cons]
        have := ih
        simp only [lookup_cons] at this
        omega
      · have := ih
        simp only [lookup_cons] at this
        exact this
    · simp only [h, if_false]
      have := ih
      simp only [lookup_cons] at this
      split
      · simp only [List.length_cons]
        omega
      · exact this

theorem uncachedCount_cons_lt (ids : List String) (k : String) (v : Nat)
    (cache : List (String × Nat)) (hk : k ∈ ids) (hn : cache.lookup k = none) :
    uncachedCount ids ((k, v) :: cache) < uncachedCount ids cache := by
  induction ids with
  | nil => simp at hk
  | cons a l ih =>
    have hle := uncachedCount_cons_le l k v cache
    unfold uncachedCount at hle ih ⊢
    simp only [List.filter_cons, lookup_cons]
    by_cases h : a = k
    · subst h
      simp only [if_true, Option.isNone_some, Bool.false_eq_true, if_false, hn,
        Option.isNone_none, List.length_cons]
      simp only [lookup_cons] at hle
      omega
    · simp only [List.mem_cons] at hk
      have hk' : k ∈ l := by
        rcases hk with rfl | hk
        · exact absurd rfl h
        · exact hk
      have := ih hk'
      simp only [lookup_cons] at this
      simp only [h, if_false]
      split
      · simp only [List.length_cons]
        omega
      · exact this

theorem uncachedCount_cons_eq (ids : List String) (k : String) (v : Nat)
    (cache : List (String × Nat)) (hn : cache.lookup k ≠ none) :
    uncachedCount ids ((k, v) :: cache) = uncachedCount ids cache := by
  unfold uncachedCount
  congr 1
  apply List.filter_congr
  intro a _
  rw [lookup_cons]
  by_cases h : a = k
  · subst h
    cases hc : cache.lookup a with
    | none => exact absurd hc hn
    | some x => simp
  · simp [h]

theorem uncachedCount_pos (ids : List String) (cache : List (String × Nat)) (id : String)
    (hid : id ∈ ids) (hn : cache.lookup id = none) : 0 < uncachedCount ids cache := by
  unfold uncachedCount
  apply List.length_pos_of_mem (a := id)
  simp [hid, hn]

theorem sum_map_le {α : Type} (l : List α) (f : α → Nat) (b : Nat) (h : ∀ x ∈ l, f x ≤ b) :
    (l.map f).sum ≤ l.length * b := by
  induction l with
  | nil => simp
  | cons a l ih =>
    simp only [List.map_cons, List.sum_cons, List.length_cons]
    have h1 := h a (by simp)
    have h2 := ih (fun x hx => h x (by simp [hx]))
    nlinarith

theorem sum_map_mono {α : Type} (l : List α) (f g : α → Nat) (h : ∀ x ∈ l, f x ≤ g x) :
    (l.map f).sum ≤ (l.map g).sum := by
  induction l with
  | nil => simp
  | cons a l ih =>
    simp only [List.map_cons, List.sum_cons]
    have h1 := h a (by simp)
    have h2 := ih (fun x hx => h x (by simp [hx]))
    omega

end Measure
end ObjectLoader
namespace ObjectLoader
section Measure2
variable {K : Type} [CommRing K]

theorem uncachedRefs_none (a : List (String × Nat)) (node : Descriptor K)
    (hplain : node.isLod = false) (x : String × Int) (hx : x ∈ uncachedRefs a node) :
    a.lookup x.1 = none := by
  cases node with
  | lod children => simp [Descriptor.isLod] at hplain
  | node m c r ts children =>
    simp only [uncachedRefs, List.mem_filterMap] at hx
    obtain ⟨ch, -, hch⟩ := hx
    cases ch with
    | primitive t => simp at hch
    | light ty id => simp at hch
    | noderef id =>
      simp only at hch
      split at hch
      · rename_i hn
        simp only [Option.some.injEq] at hch
        rw [← hch]
        exact hn
      · simp at hch

theorem length_filterMap_le_of_imp {α β γ : Type} (f : α → Option β) (g : α → Option γ)
    (l : List α) (h : ∀ x, (f x).isSome → (g x).isSome) :
    (l.filterMap f).length ≤ (l.filterMap g).length := by
  induction l with
  | nil => simp
  | cons a l ih =>
    simp only [List.filterMap_cons]
    cases hf : f a with
    | none =>
      cases hg : g a with
      | none => simpa using ih
      | some y => simp only [List.length_cons]; omega
    | some x =>
      have := h a (by simp [hf])
      cases hg : g a with
      | none => simp [hg] at this
      | some y => simp only [List.length_cons]; omega

theorem uncachedRefs_length (a : List (String × Nat)) (node : Descriptor K) :
    (uncachedRefs a node).length ≤ node.refs.length := by
  cases node with
  | lod children =>
    simp only [uncachedRefs, Descriptor.refs, List.length_map]
    exact List.length_filterMap_le _ _
  | node m c r ts children =>
    simp only [uncachedRefs, Descriptor.refs]
    apply length_filterMap_le_of_imp
    intro x hx
    cases x with
    | primitive t => simp at hx
    | light ty id => simp at hx
    | noderef id => simp

/-- A successful round on a work item of a finite graph of plain nodes lowers the
potential, and the nodes of the work items stay in the graph. -/
theorem potential_decreases (cos sin : K → K) (nodes : String → Descriptor K)
    (ids : List String) (hplain : ∀ id ∈ ids, (nodes id).isLod = false)
    (hclosed : ∀ id ∈ ids, ∀ r ∈ (nodes id).refs, r ∈ ids)
    (item : WorkItem) (rest : List WorkItem) (s s' : State K) (hst : s.stack = item :: rest)
    (hids : ∀ it ∈ s.stack, it.node ∈ ids)
    (hp : processItem cos sin nodes item { s with stack := rest } = .ok s') :
    potential (fanout nodes ids) ids s' < potential (fanout nodes ids) ids s ∧
      ∀ it ∈ s'.stack, it.node ∈ ids := by
  obtain ⟨nm, -, hstack, hcache⟩ := processItem_stack hp
  simp only at hstack hcache
  have hitem : item.node ∈ ids := hids item (by simp [hst])
  have hpushed : ∀ x ∈ uncachedRefs s.allObjects (nodes item.node),
      x.1 ∈ ids ∧ s.allObjects.lookup x.1 = none := by
    intro x hx
    exact ⟨hclosed _ hitem _ (uncachedRefs_subset _ _ x hx),
      uncachedRefs_none _ _ (hplain _ hitem) x hx⟩
  constructor
  swap
  · intro it hit
    rw [hstack] at hit
    simp only [List.mem_append, List.mem_reverse, List.mem_map] at hit
    rcases hit with ⟨x, hx, rfl⟩ | hit
    · exact (hpushed x hx).1
    · exact hids it (by simp [hst, hit])
  · obtain ⟨c, hc⟩ : ∃ c, c = fanout nodes ids := ⟨_, rfl⟩
    obtain ⟨u, hu⟩ : ∃ u, u = uncachedCount ids s.allObjects := ⟨_, rfl⟩
    obtain ⟨u', hu'⟩ : ∃ u', u' = uncachedCount ids ((item.node, s.heap.length) :: s.allObjects) :=
      ⟨_, rfl⟩
    rw [← hc]
    have hlen : (uncachedRefs s.allObjects (nodes item.node)).length ≤ c := by
      rw [hc]
      exact le_trans (uncachedRefs_length _ _) (fanout_le nodes ids _ hitem)
    have hlk : ∀ id, List.lookup id ((item.node, s.heap.length) :: s.allObjects)
        = if id = item.node then some s.heap.length else s.allObjects.lookup id :=
      fun id => lookup_cons _ _ _ _
    have hbound : ∀ m, (∀ x ∈ uncachedRefs s.allObjects (nodes item.node),
          itemWeight c ids ((item.node, s.heap.length) :: s.allObjects)
            (childItem s.heap.length nm
              (if (nodes item.node).castShadows then true else item.castShadow)
              (if (nodes item.node).receiveShadows then true else item.receiveShadow) x)
            ≤ weight c m) →
        ((uncachedRefs s.allObjects (nodes item.node)).map
          (fun x => itemWeight c ids ((item.node, s.heap.length) :: s.allObjects)
            (childItem s.heap.length nm
              (if (nodes item.node).castShadows then true else item.castShadow)
              (if (nodes item.node).receiveShadows then true else item.receiveShadow) x))).sum
          < weight c (m + 1) := by
      intro m hm1
      have h1 := sum_map_le _ _ _ hm1
      have h2 : (uncachedRefs s.allObjects (nodes item.node)).length * weight c m
          ≤ c * weight c m := Nat.mul_le_mul_right _ hlen
      simp only [weight]
      omega
    obtain ⟨hsum, hm3⟩ :
        ((uncachedRefs s.allObjects (nodes item.node)).map
          (fun x => itemWeight c ids ((item.node, s.heap.length) :: s.allObjects)
            (childItem s.heap.length nm
              (if (nodes item.node).castShadows then true else item.castShadow)
              (if (nodes item.node).receiveShadows then true else item.receiveShadow) x))).sum
          < itemWeight c ids s.allObjects item ∧
        ∀ it, itemWeight c ids ((item.node, s.heap.length) :: s.allObjects) it
          ≤ itemWeight c ids s.allObjects it := by
      cases hfresh : s.allObjects.lookup item.node with
      | none =>
        have hlt : u' < u := by
          rw [hu, hu']
          exact uncachedCount_cons_lt ids _ _ _ hitem hfresh
        constructor
        · refine lt_of_lt_of_le (hbound (2 * u - 2) ?_) ?_
          · intro x _
            simp only [itemWeight, ← hu']
            exact weight_mono c (by omega)
          · simp only [itemWeight, ← hu, hfresh, Option.isNone_none, if_true]
            exact weight_mono c (by omega)
        · intro it
          simp only [itemWeight, ← hu, ← hu']
          apply weight_mono
          split <;> split <;> omega
      | some v =>
        have heq : u' = u := by
          rw [hu, hu']
          exact uncachedCount_cons_eq ids _ _ _ (by rw [hfresh]; simp)
        constructor
        · by_cases hne : uncachedRefs s.allObjects (nodes item.node) = []
          · rw [hne]
            simp only [List.map_nil, List.sum_nil]
            exact weight_pos _ _
          · obtain ⟨y, hy⟩ := List.exists_mem_of_ne_nil _ hne
            have hpos := uncachedCount_pos ids s.allObjects y.1 (hpushed y hy).1 (hpushed y hy).2
            rw [← hu] at hpos
            refine lt_of_lt_of_le (hbound (2 * u - 1) ?_) ?_
            · intro x hx
              obtain ⟨h1, h2⟩ := hpushed x hx
              have hne : x.1 ≠ item.node := by
                intro e
                rw [e, hfresh] at h2
                cases h2
              simp only [itemWeight, ← hu', childItem, hlk, hne, if_false, h2,
                Option.isNone_none, if_true, heq]
              exact le_refl _
            · simp only [itemWeight, ← hu, hfresh, Option.isNone_some, Bool.false_eq_true,
                if_false]
              apply weight_mono
              omega
        · intro it
          simp only [itemWeight, ← hu, ← hu', heq, hlk]
          by_cases hit : it.node = item.node
          · rw [if_pos hit, hit, hfresh]
            exact le_refl _
          · rw [if_neg hit]
    have hrest := sum_map_mono rest _ _ (fun it _ => hm3 it)
    unfold potential
    rw [hstack, hcache, hst]
    simp only [List.map_append, List.sum_append, List.map_reverse, List.sum_reverse,
      List.map_map, List.map_cons, List.sum_cons]
    simp only [Function.comp_def]
    omega

end Measure2
end ObjectLoader
namespace ObjectLoader
section Termination
variable {K : Type} [CommRing K]

theorem potential_pos (c : Nat) (ids : List String) (s : State K) (item : WorkItem)
    (rest : List WorkItem) (hst : s.stack = item :: rest) : 1 ≤ potential c ids s := by
  unfold potential
  rw [hst]
  simp only [List.map_cons, List.sum_cons]
  have := weight_pos c (2 * uncachedCount ids s.allObjects
    - (if (s.allObjects.lookup item.node).isNone then 1 else 0))
  unfold itemWeight
  omega

theorem mem_primitives (node : Descriptor K) (m : Option (List String)) (cs rs : Option Bool)
    (ts : List (Transformation K)) (children : List Child) (t : String)
    (hn : node = .node m cs rs ts children) (ht : .primitive t ∈ children) :
    t ∈ node.primitives := by
  subst hn
  simp only [Descriptor.primitives, List.mem_filterMap]
  exact ⟨.primitive t, ht, rfl⟩

/-- On a sound state whose work items belong to a finite graph of plain nodes none of
which is named `__proto__`, a budget of as many rounds as the potential empties the
stack, unless a round throws a `TypeError`, which needs a work item without a material
list in force, a primitive of an unknown subtype or a reference whose id is the name
of a member of `Object.prototype`. -/
theorem rounds_total (cos sin : K → K) (nodes : String → Descriptor K) (ids : List String)
    (hplain : ∀ id ∈ ids, (nodes id).isLod = false)
    (hclosed : ∀ id ∈ ids, ∀ r ∈ (nodes id).refs, r ∈ ids)
    (hproto : "__proto__" ∉ ids) :
    ∀ (k : Nat) (s : State K), Sound s → (∀ it ∈ s.stack, it.node ∈ ids) →
      potential (fanout nodes ids) ids s ≤ k →
      (rounds cos sin nodes k s = .error .typeError ∧
          ¬ ((∀ it ∈ s.stack, ∃ l, it.currentMaterials = some l) ∧
              (∀ id ∈ ids, ∀ t ∈ (nodes id).primitives, t ∈ knownSubtypes) ∧
              ∀ id ∈ ids, ∀ r ∈ (nodes id).refs, r ∉ objectPrototypeMembers)) ∨
        ∃ s', rounds cos sin nodes k s = .ok s' ∧ s'.stack = [] := by
  intro k
  induction k with
  | zero =>
    intro s _ _ hpot
    right
    refine ⟨s, rfl, ?_⟩
    cases hst : s.stack with
    | nil => rfl
    | cons item rest =>
      have := potential_pos (fanout nodes ids) ids s item rest hst
      omega
  | succ k ih =>
    intro s hs hids hpot
    cases hst : s.stack with
    | nil =>
      right
      exact ⟨s, by unfold rounds; rw [hst], hst⟩
    | cons item rest =>
      have hs0 : Sound ({ s with stack := rest } : State K) :=
        ⟨hs.1, hs.2.1, fun it hit => hs.2.2 it (by simp [hst, hit])⟩
      have hio : item.object < s.heap.length := hs.2.2 item (by simp [hst])
      have hunf : rounds cos sin nodes (k + 1) s = (do
          let s1 ← processItem cos sin nodes item { s with stack := rest }
          rounds cos sin nodes k s1) := by
        conv_lhs => unfold rounds
        rw [hst]
      rw [hunf]
      rcases processItem_round cos sin nodes item { s with stack := rest } hs0 hio with
        ⟨he, hwhy⟩ | ⟨-, hp⟩ | ⟨s1, added, hs1, hsound1, -⟩
      · left
        refine ⟨by rw [he]; rfl, ?_⟩
        rintro ⟨hmat, hknown, hrefs⟩
        rcases hwhy with hg | ⟨m, cs, rs, ts, children, hn, ⟨t, ht1, ht2⟩ | ⟨id, hi1, hi2⟩⟩ |
          ⟨children, hn, -⟩
        · obtain ⟨l, hl⟩ := hmat item (by simp)
          obtain ⟨nm, hnm⟩ := getMaterials_some (nodes item.node) l
          rw [hl, hnm] at hg
          cases hg
        · exact ht2 (hknown item.node (hids item (by simp [hst])) t
            (mem_primitives _ m cs rs ts children t hn ht1))
        · refine hrefs item.node (hids item (by simp [hst])) id ?_ hi2
          rw [hn]
          exact (mem_refs_iff m cs rs ts children id).2 hi1
        · have := hplain item.node (hids item (by simp [hst]))
          rw [hn] at this
          cases this
      · exact absurd (hp ▸ hids item (by simp [hst])) hproto
      · obtain ⟨hdec, hids1⟩ := potential_decreases cos sin nodes ids hplain hclosed item rest
          s s1 hst hids hs1
        rw [hs1]
        simp only [bind, Except.bind]
        rcases ih s1 hsound1 hids1 (by omega) with ⟨he, hnot⟩ | hok
        · left
          refine ⟨he, ?_⟩
          rintro ⟨hmat, hknown, hrefs⟩
          apply hnot
          refine ⟨?_, hknown, hrefs⟩
          intro it hit
          obtain ⟨nm, -, hstack, -⟩ := processItem_stack hs1
          rw [hstack] at hit
          simp only [List.mem_append, List.mem_reverse, List.mem_map] at hit
          rcases hit with ⟨x, -, rfl⟩ | hit
          · exact ⟨nm.1, rfl⟩
          · exact hmat it (by simp [hit])
        · exact Or.inr hok

/-- The number of work items popped never exceeds the potential. -/
theorem poppedNodes_length (cos sin : K → K) (nodes : String → Descriptor K)
    (ids : List String) (hplain : ∀ id ∈ ids, (nodes id).isLod = false)
    (hclosed : ∀ id ∈ ids, ∀ r ∈ (nodes id).refs, r ∈ ids) :
    ∀ (k : Nat) (s : State K), (∀ it ∈ s.stack, it.node ∈ ids) →
      (poppedNodes cos sin nodes k s).length ≤ potential (fanout nodes ids) ids s := by
  intro k
  induction k with
  | zero => intro s _; simp [poppedNodes]
  | succ k ih =>
    intro s hids
    cases hst : s.stack with
    | nil => simp [poppedNodes, hst]
    | cons item rest =>
      have hpos := potential_pos (fanout nodes ids) ids s item rest hst
      unfold poppedNodes
      simp only [hst]
      cases hp : processItem cos sin nodes item { s with stack := rest } with
      | error e => simpa using hpos
      | ok s1 =>
        obtain ⟨hdec, hids1⟩ := potential_decreases cos sin nodes ids hplain hclosed item rest
          s s1 hst hids hp
        have := ih s1 hids1
        simp only [List.length_cons]
        omega

theorem initialState_sound (nodes : String → Descriptor K) (rootId : String) :
    Sound (initialState nodes rootId) := by
  refine ⟨⟨?_, ?_⟩, by simp [initialState], by simp [initialState]⟩
  · intro j c hc
    rcases j with _ | j <;> simp [initialState, Heap.obj, newObj] at hc
    exact absurd hc (by simp [default_children])
  · intro j lv hl
    rcases j with _ | j <;> simp [initialState, Heap.obj, newObj] at hl
    exact absurd hl (by simp [default_levels])

theorem initialState_potential (nodes : String → Descriptor K) (rootId : String) (c : Nat)
    (ids : List String) :
    potential c ids (initialState nodes rootId) ≤ weight c (2 * ids.length) := by
  simp only [potential, initialState, List.map_cons, List.map_nil, List.sum_cons, List.sum_nil,
    Nat.add_zero, itemWeight]
  apply weight_mono
  have : uncachedCount ids [] ≤ ids.length := by
    unfold uncachedCount
    exact List.length_filter_le _ _
  omega

/-- C27: for a finite graph `ids` of plain nodes that contains the root and every node
referred to, cyclic references included, and no node named `__proto__`, `parseNode`
pops at most `weight (fanout nodes ids) (2 * ids.length)` work items; with a budget of
that many rounds the loop ends, with the scene or with a `TypeError`, and it ends with
the scene when the root has a material list, every primitive has a known subtype and
no reference has the name of a member of `Object.prototype` (such as `constructor`,
which the cache, a plain object, inherits) for id. -/
theorem parseNode_terminates (cos sin : K → K) (nodes : String → Descriptor K)
    (rootId : String) (ids : List String) (hroot : rootId ∈ ids)
    (hplain : ∀ id ∈ ids, (nodes id).isLod = false)
    (hclosed : ∀ id ∈ ids, ∀ r ∈ (nodes id).refs, r ∈ ids)
    (hproto : "__proto__" ∉ ids) :
    (∀ fuel, (poppedNodes cos sin nodes fuel (initialState nodes rootId)).length
        ≤ weight (fanout nodes ids) (2 * ids.length)) ∧
      (∀ fuel, weight (fanout nodes ids) (2 * ids.length) ≤ fuel →
        (∃ h, parseNode cos sin nodes rootId fuel = .ok h) ∨
          parseNode cos sin nodes rootId fuel = .error .typeError) ∧
      ((∃ ms, (nodes rootId).materialIds = some ms) →
        (∀ id ∈ ids, ∀ t ∈ (nodes id).primitives, t ∈ knownSubtypes) →
        (∀ id ∈ ids, ∀ r ∈ (nodes id).refs, r ∉ objectPrototypeMembers) →
        ∀ fuel, weight (fanout nodes ids) (2 * ids.length) ≤ fuel →
          ∃ h, parseNode cos sin nodes rootId fuel = .ok h) := by
  have hids : ∀ it ∈ (initialState nodes rootId).stack, it.node ∈ ids := by
    intro it hit
    simp only [initialState, List.mem_singleton] at hit
    subst hit
    exact hroot
  have hpot := initialState_potential nodes rootId (fanout nodes ids) ids
  have hrun := fun fuel (hf : weight (fanout nodes ids) (2 * ids.length) ≤ fuel) =>
    rounds_total cos sin nodes ids hplain hclosed hproto fuel (initialState nodes rootId)
      (initialState_sound nodes rootId) hids (le_trans hpot hf)
  refine ⟨?_, ?_, ?_⟩
  · intro fuel
    exact le_trans (poppedNodes_length cos sin nodes ids hplain hclosed fuel _ hids) hpot
  · intro fuel hf
    rcases hrun fuel hf with ⟨he, -⟩ | ⟨s', hs', hst⟩
    · right
      simp [parseNode, loop, he, bind, Except.bind, Except.map]
    · left
      exact ⟨s'.heap, by
        simp [parseNode, loop, hs', hst, bind, Except.bind, Except.map, pure, Except.pure]⟩
  · rintro ⟨ms, hms⟩ hknown hrefs fuel hf
    rcases hrun fuel hf with ⟨-, hnot⟩ | ⟨s', hs', hst⟩
    · exfalso
      apply hnot
      refine ⟨?_, hknown, hrefs⟩
      intro it hit
      simp only [initialState, List.mem_singleton] at hit
      subst hit
      exact ⟨ms, hms⟩
    · exact ⟨s'.heap, by
        simp [parseNode, loop, hs', hst, bind, Except.bind, Except.map, pure, Except.pure]⟩

end Termination

open Examples

/-- Witness of `parseNode_terminates`: the cyclic reference `A`, `B`, `A` and the node
that refers to itself. -/
theorem parseNode_terminates_witness :
    ((∀ fuel, (poppedNodes cosZ sinZ cyclic fuel (initialState cyclic "A")).length
          ≤ weight (fanout cyclic ["A", "B"]) (2 * ["A", "B"].length)) ∧
        (∀ fuel, weight (fanout cyclic ["A", "B"]) (2 * ["A", "B"].length) ≤ fuel →
          (∃ h, parseNode cosZ sinZ cyclic "A" fuel = .ok h) ∨
            parseNode cosZ sinZ cyclic "A" fuel = .error .typeError) ∧
        ((∃ ms, (cyclic "A").materialIds = some ms) →
          (∀ id ∈ ["A", "B"], ∀ t ∈ (cyclic id).primitives, t ∈ knownSubtypes) →
          (∀ id ∈ ["A", "B"], ∀ r ∈ (cyclic id).refs, r ∉ objectPrototypeMembers) →
          ∀ fuel, weight (fanout cyclic ["A", "B"]) (2 * ["A", "B"].length) ≤ fuel →
            ∃ h, parseNode cosZ sinZ cyclic "A" fuel = .ok h)) ∧
      (∃ h, parseNode cosZ sinZ selfReference "A"
          (weight (fanout selfReference ["A"]) (2 * ["A"].length)) = .ok h) ∧
      builtView (parseNode cosZ sinZ selfReference "A" 3) = some
        [("A", .group, [1]), ("AA_obj", .group, [2, 3]),
         ("AA_box_obj", .mesh "box" "defaultMaterial" false false, []),
         ("AA_A_obj", .group, [4, 5]),
         ("AA_A_box_obj", .mesh "box" "defaultMaterial" false false, []),
         ("AA_AAA_obj", .group, [6]),
         ("AA_AAA__box_obj", .mesh "box" "defaultMaterial" false false, [])] := by
  refine ⟨parseNode_terminates cosZ sinZ cyclic "A" ["A", "B"] (by simp) ?_ ?_ (by decide),
    ?_, ?_⟩
  · intro id hid
    simp only [List.mem_cons, List.mem_singleton, List.not_mem_nil, or_false] at hid
    rcases hid with rfl | rfl <;> rfl
  · intro id hid r hr
    simp only [List.mem_cons, List.mem_singleton, List.not_mem_nil, or_false] at hid
    rcases hid with rfl | rfl
    · simp [cyclic, plain, Descriptor.refs] at hr
      simp [hr]
    · simp [cyclic, plain, Descriptor.refs] at hr
      simp [hr]
  · refine (parseNode_terminates cosZ sinZ selfReference "A" ["A"] (by simp) ?_ ?_
      (by decide)).2.2 ⟨[], rfl⟩ ?_ ?_ _ (le_refl _)
    · intro id _
      rfl
    · intro id _ r hr
      simp [selfReference, plain, Descriptor.refs] at hr
      simp [hr]
    · intro id _ t ht
      simp [selfReference, plain, Descriptor.primitives] at ht
      subst ht
      decide
    · intro id _ r hr
      simp [selfReference, plain, Descriptor.refs] at hr
      subst hr
      decide
  · decide

end ObjectLoader

namespace ObjectLoader
section Segments
variable {K : Type} [CommRing K]

theorem forall₂_append_left {α β : Type} {P : α → β → Prop} (l1 l2 : List α) :
    ∀ (l : List β), List.Forall₂ P (l1 ++ l2) l →
      ∃ a b, l = a ++ b ∧ List.Forall₂ P l1 a ∧ List.Forall₂ P l2 b := by
  induction l1 with
  | nil =>
    intro l h
    exact ⟨[], l, rfl, List.Forall₂.nil, h⟩
  | cons x l1 ih =>
    intro l h
    cases h with
    | cons hxy hrest =>
      obtain ⟨a, b, rfl, ha, hb⟩ := ih _ hrest
      exact ⟨_ :: a, b, rfl, List.Forall₂.cons hxy ha, hb⟩

theorem forall₂_mem_left {α β : Type} {P : α → β → Prop} {l1 : List α} {l2 : List β}
    (h : List.Forall₂ P l1 l2) (a : α) (ha : a ∈ l1) : ∃ b ∈ l2, P a b := by
  induction h with
  | nil => simp at ha
  | cons hab _ ih =>
    simp only [List.mem_cons] at ha
    rcases ha with rfl | ha
    · exact ⟨_, by simp, hab⟩
    · obtain ⟨b, hb, hp⟩ := ih ha
      exact ⟨b, by simp [hb], hp⟩

theorem forall₂_mem_right {α β : Type} {P : α → β → Prop} {l1 : List α} {l2 : List β}
    (h : List.Forall₂ P l1 l2) (b : β) (hb : b ∈ l2) : ∃ a ∈ l1, P a b := by
  induction h with
  | nil => simp at hb
  | cons hab _ ih =>
    simp only [List.mem_cons] at hb
    rcases hb with rfl | hb
    · exact ⟨_, by simp, hab⟩
    · obtain ⟨a, ha, hp⟩ := ih hb
      exact ⟨a, by simp [ha], hp⟩

theorem attached_append (j : Nat) {P : WorkItem → Nat → Prop} (a : List WorkItem)
    (ra : List Nat) (b : List WorkItem) (rb : List Nat) (h : List.Forall₂ P a ra) :
    attached j (a ++ b) (ra ++ rb) = attached j a ra ++ attached j b rb := by
  induction h with
  | nil =>
    simp only [List.nil_append]
    cases b <;> simp [attached]
  | cons _ _ ih =>
    simp only [List.cons_append, attached]
    split
    · simp [ih]
    · exact ih

theorem attached_none (j : Nat) (seg : List WorkItem) (roots : List Nat)
    (h : ∀ it ∈ seg, it.object ≠ j) : attached j seg roots = [] := by
  induction seg generalizing roots with
  | nil => simp [attached]
  | cons it seg ih =>
    cases roots with
    | nil => simp [attached]
    | cons r roots =>
      simp only [attached, h it (by simp), if_false]
      exact ih roots (fun x hx => h x (by simp [hx]))

theorem attached_all (j : Nat) {P : WorkItem → Nat → Prop} (seg : List WorkItem)
    (roots : List Nat) (hf : List.Forall₂ P seg roots) (h : ∀ it ∈ seg, it.object = j) :
    attached j seg roots = roots := by
  induction hf with
  | nil => simp [attached]
  | @cons it r seg roots _ _ ih =>
    have h1 : it.object = j := h it (by simp)
    simp only [attached, h1, if_true]
    rw [ih (fun x hx => h x (by simp [hx]))]

theorem NodeFor.node_grown {nodes : String → Descriptor K} {h h' : Heap K} (x : Grown h h')
    (object : Nat) (node : String) (r : Nat) (hr : r < h.length) (ho : object < h.length)
    (hn : NodeFor nodes h object node r) : NodeFor nodes h' object node r := by
  unfold NodeFor at hn ⊢
  rw [x.grown_kind r hr, x.grown_name r hr, x.grown_parent r hr, x.grown_name _ ho]
  exact hn

theorem rounds_cons (cos sin : K → K) (nodes : String → Descriptor K) (m : Nat) (s : State K)
    (item : WorkItem) (rest : List WorkItem) (hst : s.stack = item :: rest) :
    rounds cos sin nodes (m + 1) s = (do
      let s1 ← processItem cos sin nodes item { s with stack := rest }
      rounds cos sin nodes m s1) := by
  conv_lhs => unfold rounds
  rw [hst]

/-- The rounds that serve a segment of the stack: from a sound state of a run that ends
with an empty stack, the run reaches a state in which the work items `seg` on top of the
stack and everything they pushed are done; one object has been built for each of them,
in order, the objects of the store have gained exactly these as children, and nothing
else about them has changed. -/
theorem segment_run (cos sin : K → K) (nodes : String → Descriptor K) :
    ∀ (m : Nat) (seg rest : List WorkItem) (s send : State K), Sound s →
      s.stack = seg ++ rest → rounds cos sin nodes m s = .ok send → send.stack = [] →
      ∃ m1 s1 roots, m1 ≤ m ∧ rounds cos sin nodes m1 s = .ok s1 ∧
        rounds cos sin nodes (m - m1) s1 = .ok send ∧ s1.stack = rest ∧ Sound s1 ∧
        Grown s.heap s1.heap ∧
        (∀ j, j < s.heap.length →
          (s1.heap.obj j).children = (s.heap.obj j).children ++ attached j seg roots) ∧
        List.Forall₂ (fun it r => s.heap.length ≤ r ∧ r < s1.heap.length ∧
          NodeFor nodes s1.heap it.object it.node r) seg roots := by
  intro m
  induction m with
  | zero =>
    intro seg rest s send hs hst hr hend
    simp only [rounds, Except.ok.injEq] at hr
    subst hr
    rw [hst] at hend
    simp only [List.append_eq_nil] at hend
    obtain ⟨rfl, rfl⟩ := hend
    exact ⟨0, s, [], le_refl _, rfl, rfl, by simpa using hst, hs, Grown.grown_refl _,
      fun j _ => by simp [attached], List.Forall₂.nil⟩
  | succ m ih =>
    intro seg rest s send hs hst hr hend
    cases seg with
    | nil =>
      exact ⟨0, s, [], Nat.zero_le _, rfl, hr, by simpa using hst, hs, Grown.grown_refl _,
        fun j _ => by simp [attached], List.Forall₂.nil⟩
    | cons item seg' =>
      have hst' : s.stack = item :: (seg' ++ rest) := by simpa using hst
      have hs0 : Sound ({ s with stack := seg' ++ rest } : State K) :=
        ⟨hs.1, hs.2.1, fun it hit => hs.2.2 it (by rw [hst']; simp [hit])⟩
      have hio : item.object < s.heap.length := hs.2.2 item (by rw [hst']; simp)
      rw [rounds_cons cos sin nodes m s item _ hst'] at hr
      rcases processItem_round cos sin nodes item { s with stack := seg' ++ rest } hs0 hio with
        ⟨he, -⟩ | ⟨he, -⟩ | ⟨s', added, hs', hsound', hext, hlt, -, hkind, hname, hparent, -, -, -⟩
      · rw [he] at hr
        cases hr
      · rw [he] at hr
        cases hr
      · rw [hs'] at hr
        simp only [bind, Except.bind] at hr
        obtain ⟨nm, -, hstack, -⟩ := processItem_stack hs'
        simp only at hstack hext hlt hkind hname hparent
        obtain ⟨pushed, hpushed, hpo⟩ : ∃ pushed : List WorkItem,
            s'.stack = pushed ++ (seg' ++ rest) ∧ ∀ it ∈ pushed, it.object = s.heap.length := by
          refine ⟨_, hstack, ?_⟩
          intro it hit
          simp only [List.mem_reverse, List.mem_map] at hit
          obtain ⟨x, -, rfl⟩ := hit
          rfl
        obtain ⟨m1, s1, roots, hm1, hr1, hr2, hst1, hsound1, hg1, hch1, hf1⟩ :=
          ih (pushed ++ seg') rest s' send hsound' (by rw [hpushed, List.append_assoc]) hr hend
        obtain ⟨rp, rs, rfl, hfp, hfs⟩ := forall₂_append_left pushed seg' roots hf1
        have hg : Grown s.heap s1.heap := hext.extends_grown.grown_trans hg1
        refine ⟨m1 + 1, s1, s.heap.length :: rs, by omega, ?_, ?_, hst1, hsound1, hg, ?_, ?_⟩
        · rw [rounds_cons cos sin nodes m1 s item _ hst', hs']
          exact hr1
        · rw [Nat.add_sub_add_right]
          exact hr2
        · intro j hj
          rw [hch1 j (by omega), attached_append j pushed rp seg' rs hfp,
            attached_none j pushed rp (fun it hit => by rw [hpo it hit]; omega)]
          simp only [List.nil_append, attached]
          by_cases hjo : item.object = j
          · subst hjo
            rw [hext.extends_children]
            simp
          · rw [hext.2.1 j hj (Ne.symm hjo)]
            simp [hjo]
        · refine List.Forall₂.cons ⟨le_refl _, by have := hg1.1; omega, ?_⟩ ?_
          · refine NodeFor.node_grown hg1 item.object item.node _ hlt (by omega) ⟨hkind, ?_, hparent⟩
            rw [hname, hext.extends_name _ hio]
          · refine hfs.imp ?_
            intro it r ⟨h1, h2, h3⟩
            exact ⟨by omega, h2, h3⟩

end Segments
end ObjectLoader
namespace ObjectLoader
section BuiltNode
variable {K : Type} [CommRing K]

theorem rounds_sound (cos sin : K → K) (nodes : String → Descriptor K) (k : Nat)
    (s s' : State K) (hs : Sound s) (hr : rounds cos sin nodes k s = .ok s') : Sound s' := by
  refine rounds_induction cos sin nodes Sound ?_ k s s' hs hr
  intro item rest s0 s1 hs0 hst hp
  have h0 : Sound ({ s0 with stack := rest } : State K) :=
    ⟨hs0.1, hs0.2.1, fun it hit => hs0.2.2 it (by simp [hst, hit])⟩
  rcases processItem_round cos sin nodes item { s0 with stack := rest } h0
      (hs0.2.2 item (by simp [hst])) with ⟨he, -⟩ | ⟨he, -⟩ | ⟨s2, added, hs2, hsound, -⟩
  · rw [he] at hp
    cases hp
  · rw [he] at hp
    cases hp
  · rw [hs2] at hp
    cases hp
    exact hsound

/-- A run that returns a scene passes through the states of its first rounds: from a
state with a work item on the stack, the rest of the run leads to the final state. -/
theorem rounds_rest (cos sin : K → K) (nodes : String → Descriptor K) (fuel k : Nat)
    (s0 s send : State K) (item : WorkItem) (rest : List WorkItem)
    (hrun : rounds cos sin nodes fuel s0 = .ok send) (hend : send.stack = [])
    (hk : rounds cos sin nodes k s0 = .ok s) (hst : s.stack = item :: rest) :
    rounds cos sin nodes (fuel - k) s = .ok send := by
  by_cases hle : k ≤ fuel
  · obtain ⟨d, rfl⟩ := Nat.exists_eq_add_of_le hle
    rw [Nat.add_sub_cancel_left, ← rounds_add cos sin nodes k d s0 s hk]
    exact hrun
  · exfalso
    obtain ⟨d, rfl⟩ := Nat.exists_eq_add_of_le (Nat.le_of_lt (Nat.lt_of_not_le hle))
    rw [rounds_add cos sin nodes fuel d s0 send hrun, rounds_stack_nil cos sin nodes d send hend]
      at hk
    cases hk
    rw [hend] at hst
    cases hst

theorem parseNode_ok (cos sin : K → K) (nodes : String → Descriptor K) (rootId : String)
    (fuel : Nat) (h : Heap K) (hrun : parseNode cos sin nodes rootId fuel = .ok h) :
    ∃ send, rounds cos sin nodes fuel (initialState nodes rootId) = .ok send ∧
      send.stack = [] ∧ send.heap = h := by
  unfold parseNode loop at hrun
  cases hr : rounds cos sin nodes fuel (initialState nodes rootId) with
  | error e => simp [hr, bind, Except.bind, Except.map] at hrun
  | ok send =>
    simp only [hr, bind, Except.bind] at hrun
    cases hst : send.stack with
    | nil =>
      simp only [hst, List.isEmpty_nil, if_true, pure, Except.pure, Except.map,
        Except.ok.injEq] at hrun
      exact ⟨send, rfl, hst, hrun⟩
    | cons a l => simp [hst, Except.map] at hrun

/-- The children of the object built for a plain node, in the state in which a run ends:
first what the child loop of its round has created for the local children, in
declaration order, then the objects built for the references that the cache could not
serve, in the reverse of their declaration order. -/
theorem built_node (cos sin : K → K) (nodes : String → Descriptor K) (m : Nat)
    (s send : State K) (item : WorkItem) (rest : List WorkItem)
    (mats : Option (List String)) (cs rs : Option Bool) (ts : List (Transformation K))
    (children : List Child) (hs : Sound s) (hst : s.stack = item :: rest)
    (hrun : rounds cos sin nodes m s = .ok send) (hend : send.stack = [])
    (hnode : nodes item.node = .node mats cs rs ts children) :
    Grown s.heap send.heap ∧ s.heap.length < send.heap.length ∧
      NodeFor nodes send.heap item.object item.node s.heap.length ∧
      ∃ locals subs, (send.heap.obj s.heap.length).children = locals ++ subs ∧
        locals.Pairwise (fun a b => a < b) ∧
        List.Forall₂ (LocalFor send.heap s.allObjects
            (stripTags (s.heap.obj item.object).name ++ stripTags item.node))
          (children.filter (Child.isLocal s.allObjects)) locals ∧
        List.Forall₂ (fun ref r => NodeFor nodes send.heap s.heap.length ref.1 r)
          (uncachedRefs s.allObjects (nodes item.node)).reverse subs := by
  cases m with
  | zero =>
    simp only [rounds, Except.ok.injEq] at hrun
    subst hrun
    rw [hend] at hst
    cases hst
  | succ m =>
    have hs0 : Sound ({ s with stack := rest } : State K) :=
      ⟨hs.1, hs.2.1, fun it hit => hs.2.2 it (by simp [hst, hit])⟩
    have hio : item.object < s.heap.length := hs.2.2 item (by simp [hst])
    rw [rounds_cons cos sin nodes m s item rest hst] at hrun
    rcases processItem_round cos sin nodes item { s with stack := rest } hs0 hio with
      ⟨he, -⟩ | ⟨he, -⟩ | ⟨s', added, hs', hsound', hext, hlt, hchildren, hkind, hname, hparent,
        hadded, hpair, hlocal⟩
    · rw [he] at hrun
      cases hrun
    · rw [he] at hrun
      cases hrun
    · rw [hs'] at hrun
      simp only [bind, Except.bind] at hrun
      obtain ⟨nm, -, hstack, -⟩ := processItem_stack hs'
      simp only at hstack hext hlt hkind hname hparent hchildren hadded hlocal
      obtain ⟨m1, s1, roots, hm1, -, hr2, hst1, hsound1, hg1, hch1, hf1⟩ :=
        segment_run cos sin nodes m _ rest s' send hsound' hstack hrun hend
      obtain ⟨m2, s2, roots2, -, -, hr3, hst2, -, hg2, hch2, -⟩ :=
        segment_run cos sin nodes (m - m1) rest [] s1 send hsound1 (by simp [hst1]) hr2 hend
      have hsend : s2 = send := by
        rw [rounds_stack_nil cos sin nodes _ s2 hst2] at hr3
        cases hr3
        rfl
      subst hsend
      have hlt1 : s.heap.length < s1.heap.length := by have := hg1.1; omega
      have hg : Grown s'.heap s2.heap := hg1.grown_trans hg2
      have hobjs : ∀ it ∈ (List.map (childItem s.heap.length nm
          (if (nodes item.node).castShadows then true else item.castShadow)
          (if (nodes item.node).receiveShadows then true else item.receiveShadow))
          (uncachedRefs s.allObjects (nodes item.node))).reverse, it.object = s.heap.length := by
        intro it hit
        simp only [List.mem_reverse, List.mem_map] at hit
        obtain ⟨x, -, rfl⟩ := hit
        rfl
      refine ⟨hext.extends_grown.grown_trans hg, by have := hg.1; omega, ?_, added, roots, ?_, hpair, ?_, ?_⟩
      · refine NodeFor.node_grown hg _ _ _ hlt (by omega) ⟨hkind, ?_, hparent⟩
        rw [hname, hext.extends_name _ hio]
      · rw [hch2 _ hlt1, attached_none _ rest roots2 (fun it hit => by
            have := hs.2.2 it (by simp [hst, hit])
            omega), hch1 _ hlt, attached_all _ _ roots hf1 hobjs, hchildren]
        simp
      · refine forall₂_imp_mem (hlocal mats cs rs ts children hnode) ?_
        intro ch i hi hl
        exact LocalFor.local_grown hg hsound'.1 _ _ ch i (hadded i hi).2
          (fun p hp => by have := hs.2.1 p hp; omega) hl
      · rw [← List.map_reverse, List.forall₂_map_left_iff] at hf1
        refine hf1.imp ?_
        rintro x r ⟨-, h2, h3⟩
        exact NodeFor.node_grown hg2 _ _ r h2 hlt1 h3

/-- C29: in a run that returns the scene `h`, let `s` be the state before a round that
pops a work item of a plain node; the object built in that round is the next object,
`s.heap.length`, of the store. Its children in `h` are first the objects that the child
loop created for the local children (primitives, lights and references served from the
cache), in declaration order and increasing in their indices, then the objects built
for the references that the cache could not serve, in the reverse of their declaration
order. -/
theorem children_order (cos sin : K → K) (nodes : String → Descriptor K) (rootId : String)
    (fuel k : Nat) (h : Heap K) (s : State K) (item : WorkItem) (rest : List WorkItem)
    (mats : Option (List String)) (cs rs : Option Bool) (ts : List (Transformation K))
    (children : List Child)
    (hrun : parseNode cos sin nodes rootId fuel = .ok h)
    (hk : rounds cos sin nodes k (initialState nodes rootId) = .ok s)
    (hst : s.stack = item :: rest)
    (hnode : nodes item.node = .node mats cs rs ts children) :
    NodeFor nodes h item.object item.node s.heap.length ∧
      ∃ locals subs, (h.obj s.heap.length).children = locals ++ subs ∧
        locals.Pairwise (fun a b => a < b) ∧
        List.Forall₂ (LocalFor h s.allObjects
            (stripTags (s.heap.obj item.object).name ++ stripTags item.node))
          (children.filter (Child.isLocal s.allObjects)) locals ∧
        List.Forall₂ (fun ref r => NodeFor nodes h s.heap.length ref.1 r)
          (uncachedRefs s.allObjects (nodes item.node)).reverse subs := by
  obtain ⟨send, hr, hend, rfl⟩ := parseNode_ok cos sin nodes rootId fuel h hrun
  have hs : Sound s := rounds_sound cos sin nodes k _ s (initialState_sound nodes rootId) hk
  have hrest := rounds_rest cos sin nodes fuel k _ s send item rest hr hend hk hst
  exact (built_node cos sin nodes _ s send item rest mats cs rs ts children hs hst hrest hend
    hnode).2.2

/-- C21 (amended): for the root id `scene`, when the root is a plain node and `parseNode`
returns the scene `h`, the built root node, object `1`, is named `scene_obj`; every
primitive of subtype `t` directly under the root has a mesh among the children of that
object named `scene_t_obj`, and every mesh among these children is named so. -/
theorem root_names (cos sin : K → K) (nodes : String → Descriptor K) (fuel : Nat) (h : Heap K)
    (mats : Option (List String)) (cs rs : Option Bool) (ts : List (Transformation K))
    (children : List Child)
    (hrun : parseNode cos sin nodes "scene" fuel = .ok h)
    (hnode : nodes "scene" = .node mats cs rs ts children) :
    (h.obj 1).name = "scene_obj" ∧ (h.obj 1).kind = .group ∧ (h.obj 1).parent = some 0 ∧
      (∀ t, .primitive t ∈ children → ∃ c ∈ (h.obj 1).children,
        (∃ m cast recv, (h.obj c).kind = .mesh t m cast recv) ∧
          (h.obj c).name = "scene_" ++ t ++ "_obj") ∧
      ∀ c ∈ (h.obj 1).children, ∀ t m cast recv, (h.obj c).kind = .mesh t m cast recv →
        (h.obj c).name = "scene_" ++ t ++ "_obj" := by
  obtain ⟨send, hr, hend, rfl⟩ := parseNode_ok cos sin nodes "scene" fuel h hrun
  obtain ⟨hg, -, hroot, locals, subs, hch, -, hloc, hsub⟩ := built_node cos sin nodes fuel
    (initialState nodes "scene") send _ [] mats cs rs ts children
    (initialState_sound nodes "scene") rfl hr hend hnode
  have hisLod : (nodes "scene").isLod = false := by rw [hnode]; rfl
  have hname0 : (send.heap.obj 0).name = "scene" := by
    rw [hg.grown_name 0 (by simp [initialState])]
    rfl
  have hss : stripTags "scene" ++ stripTags "scene" = "scenescene" := by decide
  have hprim : ∀ t, collapseScene ("scenescene" ++ "_" ++ (t ++ "_obj"))
      = "scene_" ++ t ++ "_obj" := by
    intro t
    have h1 : "scene" ++ "_" = "scene_" := by decide
    rw [String.append_assoc, collapseScene_root, ← String.append_assoc, ← String.append_assoc,
      h1]
  have hroot' : NodeFor nodes send.heap 0 "scene" 1 := hroot
  have hch' : (send.heap.obj 1).children = locals ++ subs := hch
  have hsub' : List.Forall₂ (fun ref r => NodeFor nodes send.heap 1 ref.1 r)
      (uncachedRefs [] (nodes "scene")).reverse subs := hsub
  have hloc' : List.Forall₂ (LocalFor send.heap [] (stripTags "scene" ++ stripTags "scene"))
      (children.filter (Child.isLocal [])) locals := hloc
  rw [hss] at hloc'
  clear hroot hch hsub hloc
  unfold NodeFor at hroot'
  obtain ⟨hk1, hn1, hp1⟩ := hroot'
  simp only [hisLod, Bool.false_eq_true, if_false, hname0] at hk1 hn1
  refine ⟨?_, hk1, hp1, ?_, ?_⟩
  · rw [hn1]
    decide
  · intro t ht
    obtain ⟨c, hc, hl⟩ := forall₂_mem_left hloc' (.primitive t)
      (by simp [List.mem_filter, ht, Child.isLocal])
    simp only [LocalFor] at hl
    exact ⟨c, by rw [hch']; simp [hc], hl.1, by rw [hl.2, hprim]⟩
  · intro c hc t m cast recv hkind
    rw [hch', List.mem_append] at hc
    rcases hc with hc | hc
    · obtain ⟨ch, -, hl⟩ := forall₂_mem_right hloc' c hc
      cases ch with
      | primitive t' =>
        simp only [LocalFor] at hl
        obtain ⟨⟨m', c', r', hk'⟩, hn'⟩ := hl
        rw [hkind] at hk'
        cases hk'
        rw [hn', hprim]
      | light ty id =>
        simp only [LocalFor] at hl
        rw [hkind] at hl
        cases hl.1
      | noderef id =>
        simp only [LocalFor, List.lookup] at hl
        obtain ⟨oc, hoc, -⟩ := hl
        cases hoc
    · obtain ⟨ref, -, hn⟩ := forall₂_mem_right hsub' c hc
      have := hn.1
      rw [hkind] at this
      split at this <;> cases this

end BuiltNode

open Examples

/-- C21 (counterexample): for the root id `root` the built root node is named
`rootroot_obj` and the box directly under it `rootroot_box_obj`; no object is named
`root_obj` or `root_box_obj`. -/
theorem root_names_counterexample :
    builtNames (parseNode cosZ sinZ rootNamed "root" 1)
        = some ["root", "rootroot_obj", "rootroot_box_obj"] ∧
      "root_obj" ∉ ["root", "rootroot_obj", "rootroot_box_obj"] ∧
      "root_box_obj" ∉ ["root", "rootroot_obj", "rootroot_box_obj"] := by
  decide

/-- Witness of `root_names`: the scene `twoRectangles`, whose root has two rectangles. -/
theorem root_names_witness :
    (∃ h, parseNode cosZ sinZ twoRectangles "scene" 1 = .ok h ∧
        (h.obj 1).name = "scene_obj" ∧ (h.obj 1).kind = .group ∧ (h.obj 1).parent = some 0 ∧
        (∀ t, .primitive t ∈ [Child.primitive "rectangle", Child.primitive "rectangle"] →
          ∃ c ∈ (h.obj 1).children, (∃ m cast recv, (h.obj c).kind = .mesh t m cast recv) ∧
            (h.obj c).name = "scene_" ++ t ++ "_obj") ∧
        ∀ c ∈ (h.obj 1).children, ∀ t m cast recv, (h.obj c).kind = .mesh t m cast recv →
          (h.obj c).name = "scene_" ++ t ++ "_obj") ∧
      builtNames (parseNode cosZ sinZ twoRectangles "scene" 1)
        = some ["scene", "scene_obj", "scene_rectangle_obj", "scene_rectangle_obj"] := by
  constructor
  · have he : errorOf (parseNode cosZ sinZ twoRectangles "scene" 1) = none := by decide
    cases hp : parseNode cosZ sinZ twoRectangles "scene" 1 with
    | error e => simp [hp, errorOf] at he
    | ok h =>
      exact ⟨h, rfl, root_names cosZ sinZ twoRectangles 1 h (some []) none none []
        [.primitive "rectangle", .primitive "rectangle"] hp rfl⟩
  · decide

/-- Witness of `children_order`: in the scene `ordered` the node `C` is popped in the
third round; its group, object `4`, has as children its box, the wrapper of its light,
the copy of `B` and its sphere, and then the groups of `E` and `D`. -/
theorem children_order_witness :
    (∃ h s item, parseNode cosZ sinZ ordered "scene" 5 = .ok h ∧
        rounds cosZ sinZ ordered 2 (initialState ordered "scene") = .ok s ∧
        s.stack = [item] ∧ item.node = "C" ∧
        NodeFor ordered h item.object item.node s.heap.length ∧
        ∃ locals subs, (h.obj s.heap.length).children = locals ++ subs ∧
          locals.Pairwise (fun a b => a < b) ∧
          List.Forall₂ (LocalFor h s.allObjects
              (stripTags (s.heap.obj item.object).name ++ stripTags item.node))
            ([Child.primitive "box", .noderef "D", .light .pointlight "L", .noderef "B",
              .noderef "E", .primitive "sphere"].filter (Child.isLocal s.allObjects)) locals ∧
          List.Forall₂ (fun ref r => NodeFor ordered h s.heap.length ref.1 r)
            (uncachedRefs s.allObjects (ordered item.node)).reverse subs) ∧
      builtView (parseNode cosZ sinZ ordered "scene" 5) = some
        [("scene", .group, [1]), ("scene_obj", .group, [2, 4]), ("scene_B_obj", .group, [3]),
         ("scene_B_box_obj", .mesh "box" "defaultMaterial" false false, []),
         ("scene_C_obj", .group, [5, 6, 8, 10, 11, 13]),
         ("scene_C_box_obj", .mesh "box" "defaultMaterial" false false, []),
         ("scene_C_lightwrapper_", .group, [7]),
         ("scene_C_lightwrapper_L_light", .light .pointlight, []),
         ("scene_C_B_obj", .group, [9]),
         ("scene_C_B__box_obj", .mesh "box" "defaultMaterial" false false, []),
         ("scene_C_sphere_obj", .mesh "sphere" "defaultMaterial" false false, []),
         ("scene_C_E_obj", .group, [12]),
         ("scene_C_E_box_obj", .mesh "box" "defaultMaterial" false false, []),
         ("scene_C_D_obj", .group, [14]),
         ("scene_C_D_box_obj", .mesh "box" "defaultMaterial" false false, [])] := by
  constructor
  · have he : errorOf (parseNode cosZ sinZ ordered "scene" 5) = none := by decide
    have hstk : stackOf (rounds cosZ sinZ ordered 2 (initialState ordered "scene"))
        = some [{ node := "C", object := 1, currentMaterials := some [], castShadow := false,
                  receiveShadow := false, dist := 0 }] := by decide
    cases hp : parseNode cosZ sinZ ordered "scene" 5 with
    | error e => simp [hp, errorOf] at he
    | ok h =>
      cases hr : rounds cosZ sinZ ordered 2 (initialState ordered "scene") with
      | error e => simp [hr, stackOf] at hstk
      | ok s =>
        simp only [hr, stackOf, Option.some.injEq] at hstk
        exact ⟨h, s, _, rfl, rfl, hstk, rfl,
          children_order cosZ sinZ ordered "scene" 5 2 h s _ [] none none none [] _ hp hr hstk
            (by simp [ordered, plain])⟩
  · decide

end ObjectLoader
